import Mathlib

/-!
# MTuner capture loader: the parser, the lifetime linker, the filter, the statistics and the trees

A shallow embedding of parts of `src/loader/capture.cpp` (namespace `rtm`):
the timed-snapshot table built by `Capture::calculateGlobalStats`, the two
binary-search lookups `Capture::getIndexBefore` / `Capture::getIndexAfter`,
the linker `Capture::setLinksAndRemoveInvalid`, the end of
`Capture::loadBin` (sort, link, result), the filter (`Capture::isInFilter`,
the select and deselect methods, `Capture::calculateFilteredData`), the
aggregation loop of `Capture::buildAnalyzeData`, the statistics
(`Capture::calculateGlobalStats`, `Capture::GetRangedStats`,
`Capture::calculateSnapshotStats`), the tag stacks of the parse loop, the
header check and the outcome of a failed parse, the `Module` record and
`Capture::addModule`, `Capture::clearData`, the interning of stack traces,
the symbol pass of `Capture::buildAnalyzeData`, the function `addToTree`,
`Capture::addToStackTraceTree` with the trees of the two scopes,
`Capture::addToMemoryGroups`, the running counters of
`Capture::calculateFilteredData`, `Capture::verifyGlobalStats` and
`Capture::loadModuleInfo`.

Conventions of the embedding.
* The operation objects live in a pool (`m_operationPool`), in the order
  the parser allocated them, which is the order of the stream.  A
  `MemoryOperation*` is the index of the object in the pool; `NULL` is
  `none`.  The vector `m_operations` is a list of such pointers.
* `uint32_t` arithmetic is `Nat` arithmetic followed by `u32`, `uint64_t`
  arithmetic is `Nat` arithmetic followed by `u64`.
* Functions that `capture.cpp` calls and that are declared elsewhere are
  parameters of the model, or are modelled from the specification where a
  statement is evaluated.
* A function returns `none` when the C++ run would read a vector out of
  range (undefined behaviour); loops carry a fuel argument, and a loop
  is shown to end by showing that the fuel given to it does not run out.
* A `StackTrace*` is the index of the object in `m_stackTraces`, a node of a
  stack-trace tree is the index of the node in the list of the nodes of the
  tree, and a string is the list of its characters before the terminator.
-/

namespace MTuner

/-! ## Data model -/

/-- The memory-operation members of `rmem::LogMarkers`. -/
inductive OpType where
  | OpAlloc
  | OpCalloc
  | OpAllocAligned
  | OpRealloc
  | OpReallocAligned
  | OpFree
  deriving DecidableEq, Repr

/-- The record `rtm::MemoryOperation`; the two chain links are positions. -/
structure MemoryOperation where
  m_operationType : OpType
  m_allocatorHandle : Nat
  m_threadID : Nat
  m_operationTime : Nat
  m_pointer : Nat
  m_previousPointer : Nat
  m_allocSize : Nat
  m_overhead : Nat
  m_alignment : Nat
  m_stackTrace : Nat
  m_tag : Nat
  m_chainPrev : Option Nat
  m_chainNext : Option Nat
  m_isValid : Bool
  deriving DecidableEq, Repr

/-- The two members of `MemoryStatsTimed` that the time index reads. -/
structure MemoryStatsTimed where
  m_time : Nat
  m_operationIndex : Nat
  deriving DecidableEq, Repr

/-- Truncation to `uint32_t`. -/
def u32 (x : Nat) : Nat := x % 4294967296

/-! ## Timed snapshots (`calculateGlobalStats`) -/

/-- The function `getGranularityMask`. -/
def getGranularityMask (_ops : Nat) : Nat :=
  let granularity := 2048
  let granularity := if _ops > 1024 * 1024 then 4096 else granularity
  let granularity := if _ops > 10 * 1024 * 1024 then 8192 else granularity
  granularity - 1

/-- The `for` loop of `calculateGlobalStats`, restricted to what it appends
to `m_timedStats`: a snapshot `(time, index)` at every index `i` with
`(i & timedGranularityMask) == 0`. -/
def timedLoop (timedGranularityMask : Nat) : Nat → List MemoryOperation → List MemoryStatsTimed
  | _, [] => []
  | i, op :: rest =>
    (if i &&& timedGranularityMask = 0 then [⟨op.m_operationTime, u32 i⟩] else [])
      ++ timedLoop timedGranularityMask (i + 1) rest

/-- The table `m_timedStats` (times and operation indices) that
`calculateGlobalStats` leaves: the snapshots of the loop, then one more for
the last operation.  `none`: `m_operations` is empty and the C++ reads
`m_operations[size-1]` out of range. -/
def calculateGlobalStatsTimed (m_operations : List MemoryOperation) : Option (List MemoryStatsTimed) :=
  let numOps := m_operations.length
  let timedGranularityMask := getGranularityMask numOps
  match m_operations[numOps - 1]? with
  | none => none
  | some last =>
    some (timedLoop timedGranularityMask 0 m_operations
      ++ [⟨last.m_operationTime, u32 (numOps - 1)⟩])

/-! ## Time index lookups -/

/-- The first `while` loop of `getIndexBefore` and of `getIndexAfter`: the
bisection over `m_timedStats`.  The result is the final `tsIdx` (`0` when
the loop ends without reaching the `break`). -/
def timedBisect (m_timedStats : List MemoryStatsTimed) (_time : Nat) : Nat → Nat → Nat → Option Nat
  | 0, _, _ => none
  | fuel + 1, tsIdxMin, tsIdxMax =>
    if tsIdxMax > tsIdxMin then
      let tsIdxMid := (tsIdxMin + tsIdxMax) / 2
      match m_timedStats[tsIdxMid]? with
      | none => none
      | some st =>
        let tsIdxMin1 := if st.m_time < _time then tsIdxMid else tsIdxMin
        let tsIdxMax1 := if st.m_time < _time then tsIdxMax else tsIdxMid
        if tsIdxMax1 - tsIdxMin1 = 1 then some tsIdxMax1
        else timedBisect m_timedStats _time fuel tsIdxMin1 tsIdxMax1
    else some 0

/-- The second `while` loop of `getIndexBefore`: the bisection over
`m_operations[startIdx, endIdx)`.  Leaving the loop reaches
`RTM_ASSERT(false)` and `return 0`. -/
def getIndexBeforeLoop (m_operations : List MemoryOperation) (_time : Nat) : Nat → Nat → Nat → Option Nat
  | 0, _, _ => none
  | fuel + 1, startIdx, endIdx =>
    if endIdx > startIdx then
      let idxMid := u32 (startIdx + endIdx) / 2
      match m_operations[idxMid]? with
      | none => none
      | some opMid =>
        let startIdx1 := if opMid.m_operationTime < _time then idxMid else startIdx
        let endIdx1 := if opMid.m_operationTime < _time then endIdx else idxMid
        if endIdx1 - startIdx1 = 1 then
          match m_operations[startIdx1]? with
          | none => none
          | some opStart =>
            if opStart.m_operationTime ≥ _time then
              some (if startIdx1 = 0 then startIdx1 else startIdx1 - 1)
            else
              some endIdx1
        else getIndexBeforeLoop m_operations _time fuel startIdx1 endIdx1
    else some 0

/-- The second `while` loop of `getIndexAfter`. -/
def getIndexAfterLoop (m_operations : List MemoryOperation) (_time : Nat) : Nat → Nat → Nat → Option Nat
  | 0, _, _ => none
  | fuel + 1, startIdx, endIdx =>
    if endIdx > startIdx then
      let idxMid := u32 (startIdx + endIdx) / 2
      match m_operations[idxMid]? with
      | none => none
      | some opMid =>
        let startIdx1 := if opMid.m_operationTime < _time then idxMid else startIdx
        let endIdx1 := if opMid.m_operationTime < _time then endIdx else idxMid
        if endIdx1 - startIdx1 = 1 then
          match m_operations[startIdx1]? with
          | none => none
          | some opStart =>
            if opStart.m_operationTime > _time then some startIdx1 else some endIdx1
        else getIndexAfterLoop m_operations _time fuel startIdx1 endIdx1
    else some 0

/-- The bracket `[startIdx, endIdx)` and `_outTimedIndex` both lookups
derive from `tsIdx`; `tsIdx - 1` is a `uint32_t` subtraction. -/
def timedBracket (m_timedStats : List MemoryStatsTimed) (tsIdx : Nat) : Option (Nat × Nat × Nat) :=
  let tsIdxPrev := u32 (tsIdx + 4294967295)
  match m_timedStats[tsIdxPrev]?, m_timedStats[tsIdx]? with
  | some lo, some hi => some (lo.m_operationIndex, u32 (hi.m_operationIndex + 1), tsIdxPrev)
  | _, _ => none

/-- The method `Capture::getIndexBefore`: the returned index paired with
`_outTimedIndex`.  `tsIdxMax` is `size - 1` (for an empty table the C++
value `-1` and the value `0` used here both skip the loop). -/
def getIndexBefore (m_operations : List MemoryOperation) (m_timedStats : List MemoryStatsTimed)
    (_time : Nat) : Option (Nat × Nat) :=
  let tsIdxMax := m_timedStats.length - 1
  let tsIdx :=
    if tsIdxMax = 1 then some 1
    else timedBisect m_timedStats _time (tsIdxMax + 1) 0 tsIdxMax
  match tsIdx with
  | none => none
  | some tsIdx =>
    match timedBracket m_timedStats tsIdx with
    | none => none
    | some (startIdx, endIdx, outTimedIndex) =>
      match getIndexBeforeLoop m_operations _time (endIdx - startIdx + 1) startIdx endIdx with
      | none => none
      | some idx => some (idx, outTimedIndex)

/-- The method `Capture::getIndexAfter`: the returned index paired with
`_outTimedIndex`. -/
def getIndexAfter (m_operations : List MemoryOperation) (m_timedStats : List MemoryStatsTimed)
    (_time : Nat) : Option (Nat × Nat) :=
  let tsIdxMax := m_timedStats.length - 1
  match timedBisect m_timedStats _time (tsIdxMax + 1) 0 tsIdxMax with
  | none => none
  | some tsIdx =>
    match timedBracket m_timedStats tsIdx with
    | none => none
    | some (startIdx, endIdx, outTimedIndex) =>
      match getIndexAfterLoop m_operations _time (endIdx - startIdx + 1) startIdx endIdx with
      | none => none
      | some idx => some (idx, outTimedIndex)

/-! ## The linker (`setLinksAndRemoveInvalid`) -/

/-- The members of `Capture` that `setLinksAndRemoveInvalid` reads or writes;
`pool` holds the operation objects the pointers refer to. -/
structure Capture where
  pool : List MemoryOperation
  m_operations : List Nat
  m_operationsInvalid : List Nat
  m_minTime : Nat
  m_maxTime : Nat
  m_minTimeSnapshot : Nat
  m_maxTimeSnapshot : Nat
  deriving DecidableEq, Repr

/-- The state of the sweep: the objects, the local map `opMap` from a
pointer value to the operation that made it live, and `m_operationsInvalid`. -/
structure LinkState where
  pool : List MemoryOperation
  opMap : Nat → Option Nat
  m_operationsInvalid : List Nat

/-- One write through a pointer: `p->member = value` is `writeOp pool p f`
with `f` setting the member. -/
def writeOp (pool : List MemoryOperation) (p : Nat) (f : MemoryOperation → MemoryOperation) :
    List MemoryOperation :=
  match pool[p]? with
  | some o => pool.set p (f o)
  | none => pool

/-- The body of the `for` loop of `setLinksAndRemoveInvalid` for the
operation `op = m_operations[i]` (the progress callback left out). -/
def linkStep (s : LinkState) (op : Nat) : LinkState :=
  match s.pool[op]? with
  | none => s
  | some o =>
    let pool := writeOp s.pool op (fun x => { x with m_isValid := true })
    match o.m_operationType with
    | OpType.OpAlloc | OpType.OpCalloc | OpType.OpAllocAligned =>
      match s.opMap o.m_pointer with
      | none =>
        { pool := pool,
          opMap := Function.update s.opMap o.m_pointer (some op),
          m_operationsInvalid := s.m_operationsInvalid }
      | some _ =>
        { pool := writeOp pool op (fun x => { x with m_isValid := false }),
          opMap := s.opMap,
          m_operationsInvalid := s.m_operationsInvalid }
    | OpType.OpRealloc | OpType.OpReallocAligned =>
      let s1 : LinkState × Option Nat :=
        if o.m_previousPointer ≠ 0 then
          match s.opMap o.m_previousPointer with
          | none =>
            ({ pool := writeOp pool op (fun x => { x with m_isValid := false }),
               opMap := s.opMap,
               m_operationsInvalid := s.m_operationsInvalid ++ [op] }, none)
          | some oldOp =>
            ({ pool := pool,
               opMap := Function.update s.opMap o.m_previousPointer none,
               m_operationsInvalid := s.m_operationsInvalid }, some oldOp)
        else
          match s.opMap o.m_pointer with
          | some _ =>
            ({ pool := writeOp pool op (fun x => { x with m_isValid := false }),
               opMap := s.opMap,
               m_operationsInvalid := s.m_operationsInvalid ++ [op] }, none)
          | none =>
            ({ pool := pool, opMap := s.opMap,
               m_operationsInvalid := s.m_operationsInvalid }, none)
      let pool2 :=
        match s1.2 with
        | some oldOp =>
          writeOp (writeOp s1.1.pool op (fun x => { x with m_chainPrev := some oldOp }))
            oldOp (fun x => { x with m_chainNext := some op })
        | none => s1.1.pool
      { pool := pool2,
        opMap := Function.update s1.1.opMap o.m_pointer (some op),
        m_operationsInvalid := s1.1.m_operationsInvalid }
    | OpType.OpFree =>
      match s.opMap o.m_pointer with
      | none =>
        { pool := writeOp pool op (fun x => { x with m_isValid := false }),
          opMap := s.opMap,
          m_operationsInvalid := s.m_operationsInvalid ++ [op] }
      | some oldOp =>
        match pool[oldOp]? with
        | none => s
        | some old =>
          let pool1 := writeOp pool oldOp (fun x => { x with m_chainNext := some op })
          let pool2 := writeOp pool1 op (fun x =>
            { x with m_chainPrev := some oldOp,
                     m_allocSize := old.m_allocSize,
                     m_overhead := old.m_overhead })
          { pool := pool2,
            opMap := Function.update s.opMap o.m_pointer none,
            m_operationsInvalid := s.m_operationsInvalid }

/-- The sweep of `setLinksAndRemoveInvalid` over the given pointers, from an
empty `opMap`. -/
def linkSweep (pool : List MemoryOperation) (invalid : List Nat) (ptrs : List Nat) : LinkState :=
  ptrs.foldl linkStep ⟨pool, fun _ => none, invalid⟩

/-- Modelled from the spec: the predicate `isInvalid` given to
`std::remove_if` is declared outside `capture.cpp`; section 4.6 says
"Drop invalid ops in-place", so it is `m_isValid == 0`. -/
def isInvalid (op : MemoryOperation) : Bool := !op.m_isValid

/-- The operation behind a pointer is kept by `std::remove_if(..., isInvalid)`. -/
def isRetained (pool : List MemoryOperation) (p : Nat) : Bool :=
  match pool[p]? with
  | some o => !isInvalid o
  | none => false

/-- The value `m_operations[i]->m_operationTime` (`0` for a dangling index). -/
def operationTimeAt (pool : List MemoryOperation) (ops : List Nat) (i : Nat) : Nat :=
  match ops[i]? with
  | some p =>
    match pool[p]? with
    | some o => o.m_operationTime
    | none => 0
  | none => 0

/-- The method `Capture::setLinksAndRemoveInvalid`: the returned flag and the
capture it leaves. -/
def setLinksAndRemoveInvalid (c : Capture) (inMinMarkerTime : Nat) : Bool × Capture :=
  let numOps := u32 c.m_operations.length
  let s := linkSweep c.pool c.m_operationsInvalid (c.m_operations.take numOps)
  let ops := c.m_operations.filter (isRetained s.pool)
  let c1 : Capture :=
    { c with pool := s.pool, m_operations := ops, m_operationsInvalid := s.m_operationsInvalid }
  let numOps := u32 ops.length
  if numOps = 0 then (false, c1)
  else
    let minTime := operationTimeAt s.pool ops 0
    let minTime := if minTime > inMinMarkerTime then inMinMarkerTime else minTime
    let maxTime := operationTimeAt s.pool ops (numOps - 1)
    (true, { c1 with m_minTime := minTime, m_maxTime := maxTime,
                     m_minTimeSnapshot := minTime, m_maxTimeSnapshot := maxTime })

/-! ## The end of `loadBin` -/

/-- The values of `Capture::LoadResult`. -/
inductive LoadResult where
  | LoadSuccess
  | LoadPartial
  | LoadFail
  deriving DecidableEq, Repr

/-- The key `m_operationTime` of the operation behind a pointer. -/
def timeOf (pool : List MemoryOperation) (p : Nat) : Nat :=
  match pool[p]? with
  | some o => o.m_operationTime
  | none => 0

/-- The call `std::stable_sort(m_operations.begin(), m_operations.end(), psTime)`,
as a stable insertion sort: a pointer is put before the first one whose
time is not smaller. -/
def stableSortByTime (pool : List MemoryOperation) (ptrs : List Nat) : List Nat :=
  ptrs.insertionSort (fun a b => timeOf pool a ≤ timeOf pool b)

/-- The capture as the parser leaves it for a stream of operations: the
objects in stream order, `m_operations` pointing at them in the same order,
everything else as `clearData` set it. -/
def parsedCapture (stream : List MemoryOperation) : Capture :=
  { pool := stream, m_operations := List.range stream.length, m_operationsInvalid := [],
    m_minTime := 0, m_maxTime := 0, m_minTimeSnapshot := 0, m_maxTimeSnapshot := 0 }

/-- The sort and the link step of `loadBin`. -/
def sortAndLink (stream : List MemoryOperation) (minMarkerTime : Nat) : Bool × Capture :=
  let c := parsedCapture stream
  setLinksAndRemoveInvalid { c with m_operations := stableSortByTime c.pool c.m_operations }
    minMarkerTime

/-- The end of `loadBin`, from the sort on.  `loadResult` is the outcome of
parsing (`LoadSuccess` or `LoadPartial`); `statsOk` stands for
`calculateGlobalStats` followed by `verifyGlobalStats`. -/
def loadBinTail (stream : List MemoryOperation) (minMarkerTime : Nat) (loadResult : LoadResult)
    (statsOk : Capture → Bool) : LoadResult :=
  let r := sortAndLink stream minMarkerTime
  if !r.1 then LoadResult.LoadFail
  else if !statsOk r.2 then LoadResult.LoadFail
  else loadResult

/-! ## Marker times (`loadBin`) -/

/-- The variable `minMarkerTime` of `loadBin` after the `Marker` records with
the given times, in stream order: it starts as `(uint64_t)-1` and every
marker lowers it to its time when that is smaller. -/
def minMarkerTimeOf (markerTimes : List Nat) : Nat :=
  markerTimes.foldl (fun minMarkerTime time => if minMarkerTime > time then time else minMarkerTime)
    18446744073709551615

/-! ## The filter predicate (`isInFilter`) -/

/-- The members of `StackTrace` that the filter reads: the frame count and
the array `m_entries`, whose first `m_numEntries` slots are the frame
addresses. -/
structure StackTrace where
  m_numEntries : Nat
  m_entries : List Nat
  deriving DecidableEq, Repr

/-- The address range of a `rdebug::ModuleInfo`. -/
structure ModuleInfo where
  m_baseAddress : Nat
  m_size : Nat
  deriving DecidableEq, Repr

/-- Modelled from the spec: `ModuleInfo::checkAddress` is declared outside
`capture.cpp`; section 4.9 says a frame passes when it "lies in that module's
address range", taken as `base <= address < base + size`. -/
def checkAddress (m : ModuleInfo) (address : Nat) : Bool :=
  decide (m.m_baseAddress ≤ address) && decide (address < m.m_baseAddress + m.m_size)

/-- The filter state of a `Capture`: `m_filteringEnabled`, `m_currentHeap`
(`(uint64_t)-1` when no heap is selected), `m_currentModule` (`NULL` when no
module is selected) and the scalar members of `m_filter`. -/
structure FilterState where
  m_filteringEnabled : Bool
  m_currentHeap : Nat
  m_currentModule : Option ModuleInfo
  m_minTimeSnapshot : Nat
  m_maxTimeSnapshot : Nat
  m_histogramIndex : Nat
  m_tagHash : Nat
  m_threadID : Nat
  m_leakedOnly : Bool
  deriving DecidableEq, Repr

/-- The filter state that `clearData` sets. -/
def clearedFilter : FilterState :=
  { m_filteringEnabled := false, m_currentHeap := 18446744073709551615, m_currentModule := none,
    m_minTimeSnapshot := 0, m_maxTimeSnapshot := 0, m_histogramIndex := 4294967295,
    m_tagHash := 0, m_threadID := 0, m_leakedOnly := false }

/-- The function `isLeaked`. -/
def isLeaked (_op : MemoryOperation) : Bool :=
  let isFreed := decide (_op.m_operationType = OpType.OpFree)
  let isFreed := isFreed ||
    (decide (_op.m_operationType = OpType.OpRealloc) && decide (_op.m_allocSize = 0))
  let isFreed := isFreed ||
    (decide (_op.m_operationType = OpType.OpReallocAligned) && decide (_op.m_allocSize = 0))
  !isFreed

/-- The frame addresses `m_stackTrace->m_entries[i]`, `i < (uint32_t)m_numEntries`,
of an operation (none for a dangling stack-trace pointer). -/
def stackFrames (m_stackTraces : List StackTrace) (_op : MemoryOperation) : List Nat :=
  match m_stackTraces[_op.m_stackTrace]? with
  | some st => st.m_entries.take (u32 st.m_numEntries)
  | none => []

/-- The method `Capture::isInFilter`, for the object behind the pointer.
`getHistogramBinIndex` is declared outside `capture.cpp` and is a parameter. -/
def isInFilter (getHistogramBinIndex : Nat → Nat) (m_stackTraces : List StackTrace)
    (f : FilterState) (_op : MemoryOperation) : Bool :=
  if !_op.m_isValid then false
  else if !f.m_filteringEnabled then true
  else if f.m_currentHeap ≠ 18446744073709551615 ∧ _op.m_allocatorHandle ≠ f.m_currentHeap then
    false
  else if f.m_histogramIndex ≠ 4294967295 ∧
      f.m_histogramIndex ≠ getHistogramBinIndex _op.m_allocSize then
    false
  else if f.m_tagHash ≠ 0 ∧ f.m_tagHash ≠ _op.m_tag then false
  else if f.m_threadID ≠ 0 ∧ f.m_threadID ≠ _op.m_threadID then false
  else if _op.m_operationTime < f.m_minTimeSnapshot ∨ _op.m_operationTime > f.m_maxTimeSnapshot then
    false
  else
    let moduleOk :=
      match f.m_currentModule with
      | some m => (stackFrames m_stackTraces _op).any (checkAddress m)
      | none => true
    if !moduleOk then false
    else if f.m_leakedOnly && !isLeaked _op then false
    else true

/-- The method `Capture::deselectTag`, on the filter state (the call of
`calculateSnapshotStats` that follows the write does not touch it). -/
def deselectTag (f : FilterState) : FilterState :=
  if f.m_tagHash ≠ 4294967295 then { f with m_tagHash := 4294967295 } else f

/-- The method `Capture::deselectThread`, on the filter state. -/
def deselectThread (f : FilterState) : FilterState :=
  if f.m_threadID ≠ 0 then { f with m_threadID := 0 } else f

/-- The method `Capture::deselectHistogramBin`, on the filter state. -/
def deselectHistogramBin (f : FilterState) : FilterState :=
  if f.m_histogramIndex ≠ 4294967295 then { f with m_histogramIndex := 4294967295 } else f

/-- The method `Capture::selectTag`, on the filter state. -/
def selectTag (f : FilterState) (_tagHash : Nat) : FilterState :=
  if _tagHash ≠ f.m_tagHash then { f with m_tagHash := _tagHash } else f

/-! ## The filtered operation vector (`calculateFilteredData`) -/

/-- The `for` loop of `calculateFilteredData`, restricted to what it appends
to `m_filter.m_operations`: `count` iterations from index `i`, each reading
`m_operations[i]` and keeping it when `isInFilter` accepts it.  `none`: an
index is out of range. -/
def filteredLoop (isIn : MemoryOperation → Bool) (m_operations : List MemoryOperation) :
    Nat → Nat → List MemoryOperation → Option (List MemoryOperation)
  | 0, _, acc => some acc
  | count + 1, i, acc =>
    match m_operations[i]? with
    | none => none
    | some op =>
      filteredLoop isIn m_operations count (i + 1) (if isIn op then acc ++ [op] else acc)

/-- The method `Capture::calculateFilteredData`, restricted to the vector
`m_filter.m_operations` it rebuilds: the loop runs over the indices
`minTimeOpIndex .. maxTimeOpIndex`, both ends included, which is
`maxTimeOpIndex + 1 - minTimeOpIndex` iterations. -/
def calculateFilteredData (getHistogramBinIndex : Nat → Nat) (m_stackTraces : List StackTrace)
    (f : FilterState) (m_operations : List MemoryOperation)
    (m_timedStats : List MemoryStatsTimed) : Option (List MemoryOperation) :=
  match getIndexBefore m_operations m_timedStats f.m_minTimeSnapshot,
      getIndexBefore m_operations m_timedStats f.m_maxTimeSnapshot with
  | some (minTimeOpIndex, _), some (idx, _) =>
    let maxTimeOpIndex := u32 (idx + 1)
    let maxTimeOpIndex :=
      if maxTimeOpIndex ≥ m_operations.length then u32 (u32 m_operations.length + 4294967295)
      else maxTimeOpIndex
    filteredLoop (isInFilter getHistogramBinIndex m_stackTraces f) m_operations
      (maxTimeOpIndex + 1 - minTimeOpIndex) minTimeOpIndex []
  | _, _ => none

/-! ## The aggregation pass (`buildAnalyzeData`) -/

/-- Truncation to `uint64_t`. -/
def u64 (x : Nat) : Nat := x % 18446744073709551616

/-- The function `updateLiveBlocks`, on a `uint64_t` counter. -/
def updateLiveBlocks (_op : MemoryOperation) (_liveBlocks : Nat) : Nat :=
  match _op.m_operationType with
  | OpType.OpAlloc | OpType.OpCalloc | OpType.OpAllocAligned => u64 (_liveBlocks + 1)
  | OpType.OpRealloc | OpType.OpReallocAligned =>
    if _op.m_previousPointer = 0 then u64 (_liveBlocks + 1) else _liveBlocks
  | OpType.OpFree => u64 (_liveBlocks + 18446744073709551615)

/-- The value `_op->m_chainPrev->m_allocSize` (`none` for a null or dangling
`m_chainPrev`). -/
def chainPrevSize (pool : List MemoryOperation) (_op : MemoryOperation) : Option Nat :=
  match _op.m_chainPrev with
  | none => none
  | some j =>
    match pool[j]? with
    | none => none
    | some prev => some prev.m_allocSize

/-- The function `updateLiveSize`, on a `uint64_t` counter: `+=` and `-=`
wrap modulo `2^64`.  `none`: `m_chainPrev` is null where it is dereferenced. -/
def updateLiveSize (pool : List MemoryOperation) (_op : MemoryOperation) (_liveSize : Nat) :
    Option Nat :=
  match _op.m_operationType with
  | OpType.OpAlloc | OpType.OpCalloc | OpType.OpAllocAligned =>
    some (u64 (_liveSize + _op.m_allocSize))
  | OpType.OpRealloc | OpType.OpReallocAligned =>
    let liveSize := u64 (_liveSize + _op.m_allocSize)
    if _op.m_previousPointer ≠ 0 then
      match chainPrevSize pool _op with
      | none => none
      | some size => some (u64 (liveSize + (18446744073709551616 - u64 size)))
    else some liveSize
  | OpType.OpFree =>
    match chainPrevSize pool _op with
    | none => none
    | some size => some (u64 (_liveSize + (18446744073709551616 - u64 size)))

/-- The state of the aggregation loop of `buildAnalyzeData`: the objects, the
two running counters, the vector `m_memoryLeaks`, and the arguments
`(op, liveBlocks, liveSize)` of the calls of `addToMemoryGroups` so far. -/
structure AnalyzeState where
  pool : List MemoryOperation
  liveBlocks : Nat
  liveSize : Nat
  m_memoryLeaks : List Nat
  groupArgs : List (Nat × Nat × Nat)

/-- The body of the aggregation loop of `buildAnalyzeData` for
`op = m_operations[i]`, up to the call of `addToMemoryGroups` (the progress
callback left out).  `none`: a dangling pointer or a null `m_chainPrev` is
dereferenced.  The tag written to the successor is a member that the rest of
the body does not read. -/
def analyzeStep (s : AnalyzeState) (op : Nat) : Option AnalyzeState :=
  match s.pool[op]? with
  | none => none
  | some o =>
    let r : Option (List MemoryOperation × List Nat) :=
      match o.m_chainNext with
      | some next =>
        match s.pool[next]? with
        | none => none
        | some n =>
          some (if n.m_tag = 0 then writeOp s.pool next (fun x => { x with m_tag := o.m_tag })
            else s.pool, s.m_memoryLeaks)
      | none =>
        some (s.pool, if isLeaked o then s.m_memoryLeaks ++ [op] else s.m_memoryLeaks)
    match r with
    | none => none
    | some (pool, leaks) =>
      let liveBlocks := updateLiveBlocks o s.liveBlocks
      match updateLiveSize pool o s.liveSize with
      | none => none
      | some liveSize =>
        some { pool := pool, liveBlocks := liveBlocks, liveSize := liveSize,
               m_memoryLeaks := leaks,
               groupArgs := s.groupArgs ++ [(op, liveBlocks, liveSize)] }

/-- The aggregation loop over the given pointers. -/
def analyzeLoop : AnalyzeState → List Nat → Option AnalyzeState
  | s, [] => some s
  | s, op :: rest =>
    match analyzeStep s op with
    | none => none
    | some s1 => analyzeLoop s1 rest

/-- The state of the aggregation loop of `buildAnalyzeData` after its first
`n` iterations; `m_memoryLeaks` is the vector as the call finds it. -/
def analyzeAfter (c : Capture) (m_memoryLeaks : List Nat) (n : Nat) : Option AnalyzeState :=
  analyzeLoop
    { pool := c.pool, liveBlocks := 0, liveSize := 0, m_memoryLeaks := m_memoryLeaks,
      groupArgs := [] }
    ((c.m_operations.take (u32 c.m_operations.length)).take n)

/-- The aggregation loop of `buildAnalyzeData`, run to its end. -/
def buildAnalyzeData (c : Capture) (m_memoryLeaks : List Nat) : Option AnalyzeState :=
  analyzeAfter c m_memoryLeaks (u32 c.m_operations.length)

/-! ## Statistics (`calculateGlobalStats`, `GetRangedStats`, `calculateSnapshotStats`) -/

/-- The scalar members of `MemoryStats`; the array `m_histogram` is left out.
`m_memoryUsage` and `m_memoryUsagePeak` are `uint64_t`, the others `uint32_t`. -/
structure MemoryStats where
  m_memoryUsage : Nat
  m_memoryUsagePeak : Nat
  m_overhead : Nat
  m_overheadPeak : Nat
  m_numberOfOperations : Nat
  m_numberOfAllocations : Nat
  m_numberOfReAllocations : Nat
  m_numberOfFrees : Nat
  m_numberOfLiveBlocks : Nat
  deriving DecidableEq, Repr

/-- The members `m_memoryUsagePeak` and `m_overheadPeak` of
`MemoryStatsLocalPeak`; `m_numberOfLiveBlocksPeak` and the array
`m_HistogramPeak` are left out. -/
structure MemoryStatsLocalPeak where
  m_memoryUsagePeak : Nat
  m_overheadPeak : Nat
  deriving DecidableEq, Repr

/-- The members `m_localPeak` and `m_stats` of a `MemoryStatsTimed`, kept next
to the record of its time and operation index. -/
structure TimedData where
  m_localPeak : MemoryStatsLocalPeak
  m_stats : MemoryStats
  deriving DecidableEq, Repr

/-- The functions on `MemoryStats` that the statistics code calls and that are
declared outside `capture.cpp`. -/
structure StatsHelpers where
  fillStats_Alloc : MemoryOperation → MemoryStats → MemoryStats
  fillStats_ReAlloc : MemoryOperation → MemoryStats → MemoryStats
  fillStats_Free : MemoryOperation → MemoryStats → MemoryStats
  setPeaksToCurrent : MemoryStats → MemoryStats
  setPeaksFrom : MemoryStats → MemoryStatsLocalPeak → MemoryStats

/-- The value `memset(&stats, 0, sizeof(MemoryStats))` leaves. -/
def zeroStats : MemoryStats :=
  { m_memoryUsage := 0, m_memoryUsagePeak := 0, m_overhead := 0, m_overheadPeak := 0,
    m_numberOfOperations := 0, m_numberOfAllocations := 0, m_numberOfReAllocations := 0,
    m_numberOfFrees := 0, m_numberOfLiveBlocks := 0 }

/-- The value `memset(&localPeak, 0, sizeof(MemoryStatsLocalPeak))` leaves. -/
def zeroPeak : MemoryStatsLocalPeak :=
  { m_memoryUsagePeak := 0, m_overheadPeak := 0 }

/-- The statement `++_stats.m_numberOfOperations` followed by the `switch` on
the operation type, as in `GetRangedStats` and in `calculateGlobalStats`. -/
def countAndFill (h : StatsHelpers) (op : MemoryOperation) (_stats : MemoryStats) : MemoryStats :=
  let stats := { _stats with m_numberOfOperations := u32 (_stats.m_numberOfOperations + 1) }
  match op.m_operationType with
  | OpType.OpAlloc | OpType.OpCalloc | OpType.OpAllocAligned => h.fillStats_Alloc op stats
  | OpType.OpRealloc | OpType.OpReallocAligned => h.fillStats_ReAlloc op stats
  | OpType.OpFree => h.fillStats_Free op stats

/-- The update of `localPeak` in `calculateGlobalStats` after an allocation or
a realloc (none after a `OpFree`). -/
def updateLocalPeak (op : MemoryOperation) (stats : MemoryStats)
    (localPeak : MemoryStatsLocalPeak) : MemoryStatsLocalPeak :=
  match op.m_operationType with
  | OpType.OpFree => localPeak
  | _ =>
    { m_memoryUsagePeak := max localPeak.m_memoryUsagePeak stats.m_memoryUsage,
      m_overheadPeak := max localPeak.m_overheadPeak stats.m_overhead }

/-- What `calculateGlobalStats` leaves: the table `m_timedStats`, the stats
`m_statsGlobal` and the graph `m_usageGraph` of `(m_usage, m_numLiveBlocks)`;
with them the local variable `localPeak` of its loop. -/
structure GlobalStats where
  m_timedStats : List (MemoryStatsTimed × TimedData)
  m_statsGlobal : MemoryStats
  m_usageGraph : List (Nat × Nat)
  localPeak : MemoryStatsLocalPeak

/-- The `for` loop of `calculateGlobalStats` from index `i` on. -/
def globalStatsLoop (h : StatsHelpers) (timedGranularityMask : Nat) :
    Nat → List MemoryOperation → GlobalStats → GlobalStats
  | _, [], g => g
  | i, op :: rest, g =>
    let taken := decide (i &&& timedGranularityMask = 0)
    let timed :=
      if taken then
        g.m_timedStats ++ [(⟨op.m_operationTime, u32 i⟩, ⟨g.localPeak, g.m_statsGlobal⟩)]
      else g.m_timedStats
    let localPeak := if taken then zeroPeak else g.localPeak
    let stats := countAndFill h op g.m_statsGlobal
    globalStatsLoop h timedGranularityMask (i + 1) rest
      { m_timedStats := timed, m_statsGlobal := stats,
        m_usageGraph := g.m_usageGraph ++ [(stats.m_memoryUsage, stats.m_numberOfLiveBlocks)],
        localPeak := updateLocalPeak op stats localPeak }

/-- The method `Capture::calculateGlobalStats`, on an empty `m_timedStats`
and `m_usageGraph`.  `none`: `m_operations` is empty and the C++ reads
`m_operations[size-1]` out of range. -/
def calculateGlobalStats (h : StatsHelpers) (m_operations : List MemoryOperation) :
    Option GlobalStats :=
  let numOps := m_operations.length
  let timedGranularityMask := getGranularityMask numOps
  let g := globalStatsLoop h timedGranularityMask 0 m_operations
    { m_timedStats := [], m_statsGlobal := zeroStats, m_usageGraph := [], localPeak := zeroPeak }
  match m_operations[numOps - 1]? with
  | none => none
  | some last =>
    some { g with
      m_timedStats := g.m_timedStats
        ++ [(⟨last.m_operationTime, u32 (numOps - 1)⟩, ⟨g.localPeak, g.m_statsGlobal⟩)] }

/-- The method `Capture::GetRangedStats`: `count` iterations from index `i`.
`none`: an index is out of range. -/
def rangedLoop (h : StatsHelpers) (m_operations : List MemoryOperation) :
    Nat → Nat → MemoryStats → Option MemoryStats
  | 0, _, stats => some stats
  | count + 1, i, stats =>
    match m_operations[i]? with
    | none => none
    | some op => rangedLoop h m_operations count (i + 1) (countAndFill h op stats)

/-- The method `Capture::GetRangedStats` over the indices `_minIdx ≤ i < _maxIdx`. -/
def GetRangedStats (h : StatsHelpers) (m_operations : List MemoryOperation)
    (_stats : MemoryStats) (_minIdx _maxIdx : Nat) : Option MemoryStats :=
  rangedLoop h m_operations (_maxIdx - _minIdx) _minIdx _stats

/-- The `uint32_t` subtraction `a - b`. -/
def sub32 (a b : Nat) : Nat := u32 (a + (4294967296 - u32 b))

/-- The loop of `calculateSnapshotStats` over the snapshots
`minTimedIdx + 2 ≤ t ≤ maxTimedIdx`: `count` iterations from `t`, each taking
the maximum with `m_timedStats[t].m_localPeak`. -/
def peakLoop (m_timedStats : List (MemoryStatsTimed × TimedData)) :
    Nat → Nat → MemoryStatsLocalPeak → Option MemoryStatsLocalPeak
  | 0, _, localPeak => some localPeak
  | count + 1, t, localPeak =>
    match m_timedStats[t]? with
    | none => none
    | some e =>
      peakLoop m_timedStats count (t + 1)
        { m_memoryUsagePeak := max localPeak.m_memoryUsagePeak e.2.m_localPeak.m_memoryUsagePeak,
          m_overheadPeak := max localPeak.m_overheadPeak e.2.m_localPeak.m_overheadPeak }

/-- The branch of `calculateSnapshotStats` taken when
`maxTimedIdx - minTimedIdx < 2`: the counters of the snapshot `startStats`,
as read from the table, are subtracted at the end. -/
def snapshotStatsManual (h : StatsHelpers) (m_operations : List MemoryOperation)
    (startStats : MemoryStats) (startIndex minTimeOpIndex maxTimeOpIndex : Nat) :
    Option MemoryStats :=
  match GetRangedStats h m_operations startStats startIndex minTimeOpIndex with
  | none => none
  | some s1 =>
    match GetRangedStats h m_operations (h.setPeaksToCurrent s1) minTimeOpIndex maxTimeOpIndex with
    | none => none
    | some s2 =>
      some { s2 with
        m_numberOfOperations := sub32 s2.m_numberOfOperations startStats.m_numberOfOperations,
        m_numberOfAllocations := sub32 s2.m_numberOfAllocations startStats.m_numberOfAllocations,
        m_numberOfFrees := sub32 s2.m_numberOfFrees startStats.m_numberOfFrees,
        m_numberOfReAllocations :=
          sub32 s2.m_numberOfReAllocations startStats.m_numberOfReAllocations }

/-- The other branch of `calculateSnapshotStats`: `startStats` is advanced to
`minTimeOpIndex` by `GetRangedStats` before its counters are subtracted. -/
def snapshotStatsSpanning (h : StatsHelpers) (m_operations : List MemoryOperation)
    (m_timedStats : List (MemoryStatsTimed × TimedData)) (startStats0 : MemoryStats)
    (startIndex1 minTimeOpIndex maxTimeOpIndex minTimedIdx maxTimedIdx : Nat) :
    Option MemoryStats :=
  match GetRangedStats h m_operations startStats0 startIndex1 minTimeOpIndex with
  | none => none
  | some startStats =>
    match m_timedStats[u32 (minTimedIdx + 1)]? with
    | none => none
    | some next =>
      match GetRangedStats h m_operations (h.setPeaksToCurrent startStats) minTimeOpIndex
          next.1.m_operationIndex with
      | none => none
      | some s1 =>
        match peakLoop m_timedStats (maxTimedIdx + 1 - u32 (minTimedIdx + 2))
            (u32 (minTimedIdx + 2))
            { m_memoryUsagePeak := s1.m_memoryUsage, m_overheadPeak := s1.m_overhead } with
        | none => none
        | some localPeak =>
          match m_timedStats[maxTimedIdx]? with
          | none => none
          | some ts =>
            let s2 := h.setPeaksFrom s1 localPeak
            let s3 : MemoryStats :=
              { s2 with
                m_memoryUsage := ts.2.m_stats.m_memoryUsage,
                m_overhead := ts.2.m_stats.m_overhead,
                m_numberOfOperations :=
                  sub32 ts.2.m_stats.m_numberOfOperations startStats.m_numberOfOperations,
                m_numberOfAllocations :=
                  sub32 ts.2.m_stats.m_numberOfAllocations startStats.m_numberOfAllocations,
                m_numberOfFrees :=
                  sub32 ts.2.m_stats.m_numberOfFrees startStats.m_numberOfFrees,
                m_numberOfReAllocations :=
                  sub32 ts.2.m_stats.m_numberOfReAllocations startStats.m_numberOfReAllocations,
                m_numberOfLiveBlocks := ts.2.m_stats.m_numberOfLiveBlocks }
            GetRangedStats h m_operations s3 ts.1.m_operationIndex (u32 (maxTimeOpIndex + 1))

/-- The method `Capture::calculateSnapshotStats`: the value it leaves in
`m_statsSnapshot` for the window of the filter.  `none`: an index is out of
range. -/
def calculateSnapshotStats (h : StatsHelpers) (f : FilterState)
    (m_operations : List MemoryOperation) (m_timedStats : List (MemoryStatsTimed × TimedData)) :
    Option MemoryStats :=
  match getIndexBefore m_operations (m_timedStats.map Prod.fst) f.m_minTimeSnapshot,
      getIndexAfter m_operations (m_timedStats.map Prod.fst) f.m_maxTimeSnapshot with
  | some (idx, minTimedIdx), some (maxTimeOpIndex, maxTimedIdx) =>
    let minTimeOpIndex := if idx ≠ 0 then u32 (idx + 1) else idx
    match m_timedStats[minTimedIdx]? with
    | none => none
    | some e =>
      if sub32 maxTimedIdx minTimedIdx < 2 then
        snapshotStatsManual h m_operations e.2.m_stats e.1.m_operationIndex minTimeOpIndex
          maxTimeOpIndex
      else
        snapshotStatsSpanning h m_operations m_timedStats e.2.m_stats e.1.m_operationIndex
          minTimeOpIndex maxTimeOpIndex minTimedIdx maxTimedIdx
  | _, _ => none

/-- Modelled from the spec: `fillStats_Alloc`, `fillStats_ReAlloc`,
`fillStats_Free`, `setPeaksToCurrent` and `setPeaksFrom` are declared outside
`capture.cpp`.  Section 4.8 has them update the "kind counter, live-blocks
(+1 on alloc, -1 on free, +1 on realloc with previous_pointer=0), live bytes
(respecting realloc-from-prev), ... peaks"; section 4.10 has
`setPeaksToCurrent` freeze the peaks at the current values.  A realloc takes
the size and overhead of its `m_chainPrev` in `pool` off. -/
def statsHelpersOf (pool : List MemoryOperation) : StatsHelpers :=
  { fillStats_Alloc := fun op s =>
      { s with
        m_numberOfAllocations := u32 (s.m_numberOfAllocations + 1),
        m_numberOfLiveBlocks := u32 (s.m_numberOfLiveBlocks + 1),
        m_memoryUsage := u64 (s.m_memoryUsage + op.m_allocSize),
        m_overhead := u32 (s.m_overhead + op.m_overhead),
        m_memoryUsagePeak := max s.m_memoryUsagePeak (u64 (s.m_memoryUsage + op.m_allocSize)),
        m_overheadPeak := max s.m_overheadPeak (u32 (s.m_overhead + op.m_overhead)) },
    fillStats_ReAlloc := fun op s =>
      let prev : Option MemoryOperation := op.m_chainPrev.bind (fun j => pool[j]?)
      let usage := u64 (s.m_memoryUsage + op.m_allocSize
        + (18446744073709551616 - u64 (prev.elim 0 (fun o => o.m_allocSize))))
      let overhead := sub32 (s.m_overhead + op.m_overhead) (prev.elim 0 (fun o => o.m_overhead))
      { s with
        m_numberOfReAllocations := u32 (s.m_numberOfReAllocations + 1),
        m_numberOfLiveBlocks :=
          if op.m_previousPointer = 0 then u32 (s.m_numberOfLiveBlocks + 1)
          else s.m_numberOfLiveBlocks,
        m_memoryUsage := usage,
        m_overhead := overhead,
        m_memoryUsagePeak := max s.m_memoryUsagePeak usage,
        m_overheadPeak := max s.m_overheadPeak overhead },
    fillStats_Free := fun op s =>
      { s with
        m_numberOfFrees := u32 (s.m_numberOfFrees + 1),
        m_numberOfLiveBlocks := sub32 s.m_numberOfLiveBlocks 1,
        m_memoryUsage := u64 (s.m_memoryUsage + (18446744073709551616 - u64 op.m_allocSize)),
        m_overhead := sub32 s.m_overhead op.m_overhead },
    setPeaksToCurrent := fun s =>
      { s with m_memoryUsagePeak := s.m_memoryUsage, m_overheadPeak := s.m_overhead },
    setPeaksFrom := fun s localPeak =>
      { s with m_memoryUsagePeak := localPeak.m_memoryUsagePeak,
               m_overheadPeak := localPeak.m_overheadPeak } }

/-! ## Tags during parsing (`loadBin`) -/

/-- The records of the event stream, as decoded: a memory operation with the
members read from the stream, and the records whose effect is on the tag
stacks or on `minMarkerTime`.  `RegisterTag`, `RegisterMarker`, `Module` and
`Allocator` records touch neither and are `other`. -/
inductive LogEvent where
  | memOp (op : MemoryOperation)
  | enterTag (tagHash threadID : Nat)
  | leaveTag (tagHash threadID : Nat)
  | marker (markerNameHash threadID time : Nat)
  | other
  deriving DecidableEq, Repr

/-- The part of the state of the parse loop of `loadBin` that the operations
and the tags depend on. -/
structure ParseState where
  m_operations : List MemoryOperation
  perThreadTagStack : Nat → List Nat
  minMarkerTime : Nat

/-- The state before the first record. -/
def parseStart : ParseState :=
  { m_operations := [], perThreadTagStack := fun _ => [], minMarkerTime := 18446744073709551615 }

/-- Modelled from the spec: `isAlloc` is declared outside `capture.cpp`;
section 4.4 assigns the tag "when the op is an allocation (unknown/free/realloc
inherit or leave zero)". -/
def isAlloc (ty : OpType) : Bool :=
  decide (ty = OpType.OpAlloc) || decide (ty = OpType.OpCalloc) ||
    decide (ty = OpType.OpAllocAligned)

/-- One iteration of the parse loop of `loadBin` on a decoded record.  `none`:
`LeaveTag` calls `pop_back` on an empty vector. -/
def parseStep (isAlloc : OpType → Bool) (s : ParseState) : LogEvent → Option ParseState
  | LogEvent.memOp op =>
    let tag :=
      if isAlloc op.m_operationType then
        match (s.perThreadTagStack op.m_threadID).getLast? with
        | some top => top
        | none => 0
      else 0
    some { s with m_operations := s.m_operations ++
      [{ op with m_chainPrev := none, m_chainNext := none, m_tag := tag, m_isValid := true }] }
  | LogEvent.enterTag tagHash threadID =>
    some { s with perThreadTagStack :=
      Function.update s.perThreadTagStack threadID (s.perThreadTagStack threadID ++ [tagHash]) }
  | LogEvent.leaveTag _ threadID =>
    let tagStack := s.perThreadTagStack threadID
    if tagStack = [] then none
    else some { s with
      perThreadTagStack := Function.update s.perThreadTagStack threadID tagStack.dropLast }
  | LogEvent.marker _ _ time =>
    some { s with minMarkerTime := if s.minMarkerTime > time then time else s.minMarkerTime }
  | LogEvent.other => some s

/-- The parse loop of `loadBin` over decoded records. -/
def parseLoop (isAlloc : OpType → Bool) : ParseState → List LogEvent → Option ParseState
  | s, [] => some s
  | s, e :: rest =>
    match parseStep isAlloc s e with
    | none => none
    | some s1 => parseLoop isAlloc s1 rest

/-! ## The header check and the outcome of parsing (`loadBin`) -/

/-- The three checks of `loadBin` on the header, after the six `readVar`
calls: `false` stands for `return Capture::LoadFail`.  `verHigh` and `verLow`
are `uint8_t`. -/
def headerAccepted (headerItems verHigh verLow : Nat) : Bool :=
  if headerItems ≠ 6 then false
  else if verHigh > 1 then false
  else if verLow > 2 then false
  else true

/-- The block `// tolerate invalid data at the end of file` of `loadBin`: the
values of `loadResult` and `loadSuccess` after it.  `fileSize - pos` is a
`uint64_t` subtraction. -/
def tolerateEndOfFile (loadSuccess : Bool) (fileSize pos numOps : Nat) : LoadResult × Bool :=
  if loadSuccess = false then
    if u64 (fileSize + (18446744073709551616 - u64 pos)) < 1000 ∨ numOps > 0 then
      (LoadResult.LoadPartial, true)
    else (LoadResult.LoadSuccess, false)
  else (LoadResult.LoadSuccess, loadSuccess)

/-- The end of `loadBin`, from the end of the parse loop on: `loadSuccess` is
the flag the loop leaves, `pos` the value of `loader.fileTell()`, `stream` the
operations read. -/
def loadBinAfterParse (loadSuccess : Bool) (fileSize pos : Nat) (stream : List MemoryOperation)
    (minMarkerTime : Nat) (statsOk : Capture → Bool) : LoadResult :=
  let r := tolerateEndOfFile loadSuccess fileSize pos stream.length
  if r.2 = false then LoadResult.LoadFail
  else loadBinTail stream minMarkerTime r.1 statsOk

/-! ## The byte reader and the `Module` record (`ReadString`, `loadBin`) -/

/-- Modelled from the spec: `BinLoader` is declared outside `capture.cpp`;
section 4.2 has a byte source with `read(buf, n) → n` and a position
`tell()`.  The bytes of the stream and the read position. -/
structure BinLoader where
  data : List Nat
  pos : Nat
  deriving DecidableEq, Repr

/-- Modelled from the spec: `BinLoader::read(buf, n)` gives the next `n`
bytes, fewer at the end of the stream, and moves the position past them. -/
def BinLoader.read (l : BinLoader) (n : Nat) : List Nat × BinLoader :=
  let bytes := (l.data.drop l.pos).take n
  (bytes, { l with pos := l.pos + bytes.length })

/-- Modelled from the spec: `BinLoader::readVar` of a variable of `size`
bytes, "`read_var<T>() → count` (1 on success, 0 on short read)", with the
bytes read. -/
def BinLoader.readVar (l : BinLoader) (size : Nat) : Nat × List Nat × BinLoader :=
  let r := l.read size
  (if r.1.length = size then 1 else 0, r.1, r.2)

/-- The value of a little-endian variable with the given bytes. -/
def decodeLE : List Nat → Nat
  | [] => 0
  | b :: rest => b + 256 * decodeLE rest

/-- The value of a variable read on a little-endian host, after
`Endian::swap` when `_swapEndian` is set. -/
def decodeVar (_swapEndian : Bool) (bytes : List Nat) : Nat :=
  if _swapEndian then decodeLE bytes.reverse else decodeLE bytes

/-- The characters of a buffer of `charSize`-byte units, up to the terminator. -/
def unitsOf (charSize : Nat) : List Nat → List Nat
  | [] => []
  | b :: rest =>
    if charSize = 2 then
      match rest with
      | [] => [b]
      | b1 :: rest1 => (b + 256 * b1) :: unitsOf charSize rest1
    else b :: unitsOf charSize rest

/-- The function template `ReadString<Len>` for characters of `charSize`
bytes (1 for `char`, 2 for `char16_t`): the returned count, the string left in
`_string` (`none` when the function returns before writing to it, or when the
stream ends inside the string and part of the buffer keeps what it held), and
the loader.  The return value of `_loader.read` is not looked at. -/
def ReadString (Len charSize : Nat) (_loader : BinLoader) (_swapEndian : Bool) (_xor : Nat) :
    Nat × Option (List Nat) × BinLoader :=
  let r := _loader.readVar 4
  if r.1 ≠ 1 then (0, none, r.2.2)
  else
    let len := decodeVar _swapEndian r.2.1
    if len < Len then
      let b := r.2.2.read (charSize * len)
      let xBuff := b.1.map (fun x => Nat.xor x _xor)
      (u32 (len * charSize + 4),
        if b.1.length = charSize * len then some ((unitsOf charSize xBuff).take len) else none, b.2)
    else (4, some [], r.2.2)

/-- The `case rmem::LogMarkers::Module` of the parse loop of `loadBin`, after
the record tag: the arguments of the call of `addModule` and the loader, or
`none` when a `VERIFY_READ_SIZE` fails.  The name is the string read, before
its conversion to UTF-8. -/
def readModuleRecord (m_swapEndian : Bool) (loader : BinLoader) :
    Option (Option (List Nat) × Nat × Nat × BinLoader) :=
  let r1 := loader.readVar 1
  if r1.1 ≠ 1 then none
  else
    let sz := decodeLE r1.2.1
    let rs :=
      if sz = 1 then ReadString 1024 1 r1.2.2 m_swapEndian 0
      else ReadString 1024 2 r1.2.2 m_swapEndian 0
    let r2 := rs.2.2.readVar 8
    if r2.1 ≠ 1 then none
    else
      let r3 := r2.2.2.readVar 4
      if r3.1 ≠ 1 then none
      else
        some (rs.2.1, decodeVar m_swapEndian r2.2.1, decodeVar m_swapEndian r3.2.1, r3.2.2)

/-! ## The module table (`addModule`) -/

/-- The library function `rtm::strlCpy(dst, size, src)`, as `strlcpy`: the
string left in a destination of `size` characters. -/
def strlCpy (size : Nat) (src : List Nat) : List Nat :=
  src.take (size - 1)

/-- The library function `rtm::strStr(str, find)`, as `strstr`: the offset of
the first occurrence of `find` in `str`, `none` for the null pointer. -/
def strStr : List Nat → List Nat → Option Nat
  | [], find => if find = [] then some 0 else none
  | c :: rest, find =>
    if find.isPrefixOf (c :: rest) then some 0
    else (strStr rest find).map (fun k => k + 1)

/-- The library function `rtm::strCmp`, as `strcmp`. -/
def strCmp : List Nat → List Nat → Int
  | [], [] => 0
  | [], _ :: _ => -1
  | _ :: _, [] => 1
  | a :: s, b :: t => if a = b then strCmp s t else if a < b then -1 else 1

/-- A `rdebug::ModuleInfo` with the fields `m_toolchain.m_type` and
`m_modulePath`, which `addModule` writes as well. -/
structure ModuleInfoEntry extends ModuleInfo where
  m_toolchain : Nat
  m_modulePath : List Nat
  deriving DecidableEq, Repr

/-- The members of `Capture` used by `addModule`. -/
structure ModuleTable where
  m_moduleInfos : List ModuleInfoEntry
  m_modulePathBufferPtr : Nat
  deriving DecidableEq, Repr

/-- The first part of the body of the `do ... while (nextSlash)` loop of
`addModule`, with `moduleName` and `nextSlash` as offsets into `exePath`: the
new value of `nextSlash`. -/
def findNextSlash (exePath : List Nat) (moduleName nextSlash : Option Nat) : Option Nat :=
  match moduleName with
  | some m =>
    (match strStr (exePath.drop m) [47] with
     | some k => some (m + k)
     | none => (strStr (exePath.drop m) [92]).map (fun k => m + k))
  | none => nextSlash

/-- The `do ... while (nextSlash)` loop of `addModule`: the final
`moduleName`, or `none` when the fuel runs out. -/
def moduleNameLoop (exePath : List Nat) : Nat → Option Nat → Option Nat → Option (Option Nat)
  | 0, _, _ => none
  | fuel + 1, moduleName, nextSlash =>
    match findNextSlash exePath moduleName nextSlash with
    | some n => moduleNameLoop exePath fuel (some (n + 1)) (some n)
    | none => some moduleName

/-- The method `Capture::addModule`.  `pathGetFileName` is the library function
`rtm::pathGetFileName`, `pathLen` the number of characters of
`ModuleInfo::m_modulePath` and `toolchain` the value of
`convertToolchain(m_toolchain)`.  `none` is a write past the end of the path
buffer of 128 * 1024 characters. -/
def addModule (pathGetFileName : List Nat → List Nat) (pathLen toolchain : Nat)
    (t : ModuleTable) (_path : List Nat) (inModBase inModSize : Nat) : Option ModuleTable :=
  let exePath := strlCpy 1024 _path
  let moduleName0 : Option Nat :=
    match strStr exePath [47] with
    | some k => some k
    | none => strStr exePath [92]
  match moduleNameLoop exePath (exePath.length + 1) moduleName0 none with
  | none => none
  | some none => some t
  | some (some _) =>
    if 131072 ≤ t.m_modulePathBufferPtr then none
    else
      let buffered := strlCpy (131072 - t.m_modulePathBufferPtr) _path
      if t.m_moduleInfos.any (fun info =>
          decide (strCmp (pathGetFileName info.m_modulePath) (pathGetFileName _path) = 0) &&
            decide (inModBase = info.m_baseAddress)) then some t
      else
        some
          { m_moduleInfos := t.m_moduleInfos ++
              [{ m_baseAddress := inModBase, m_size := inModSize, m_toolchain := toolchain,
                 m_modulePath := strlCpy pathLen buffered }],
            m_modulePathBufferPtr := u32 (t.m_modulePathBufferPtr + _path.length + 1) }

/-! ## Loading again (`clearData`, `loadBin`, `buildAnalyzeData`) -/

/-- The members of `Capture` of the linker together with the vector
`m_memoryLeaks`. -/
structure LoadedCapture where
  c : Capture
  m_memoryLeaks : List Nat
  deriving DecidableEq, Repr

/-- The object after the constructor `Capture::Capture`: the vectors are empty
and `clearData` has set the rest. -/
def newCapture : LoadedCapture :=
  { c := { pool := [], m_operations := [], m_operationsInvalid := [], m_minTime := 0,
           m_maxTime := 0, m_minTimeSnapshot := 0, m_maxTimeSnapshot := 0 },
    m_memoryLeaks := [] }

/-- The method `Capture::clearData` on these members: the pool is reset,
`m_operations` and `m_operationsInvalid` are cleared and the four times are
set to 0.  The method has no statement for `m_memoryLeaks`. -/
def clearData (s : LoadedCapture) : LoadedCapture :=
  { s with c := { pool := [], m_operations := [], m_operationsInvalid := [], m_minTime := 0,
                  m_maxTime := 0, m_minTimeSnapshot := 0, m_maxTimeSnapshot := 0 } }

/-- The method `Capture::loadBin` for a file whose operations are `stream`,
up to the link step: `clearData`, the parse, the sort and the link step. -/
def loadCapture (stream : List MemoryOperation) (minMarkerTime : Nat) (s : LoadedCapture) :
    LoadedCapture :=
  { clearData s with c := (sortAndLink stream minMarkerTime).2 }

/-- The aggregation loop of `buildAnalyzeData` on the object: it appends to
the `m_memoryLeaks` it finds. -/
def analyzeCapture (s : LoadedCapture) : Option LoadedCapture :=
  match buildAnalyzeData s.c s.m_memoryLeaks with
  | none => none
  | some a => some { c := { s.c with pool := a.pool }, m_memoryLeaks := a.m_memoryLeaks }

/-! ## Stack-trace interning (`loadBin`) -/

/-- The function `stackTraceGetHash`: the sum of the first `_numEntries`
frames in 64-bit arithmetic. -/
def stackTraceGetHash (_backTrace : List Nat) (_numEntries : Nat) : Nat :=
  (_backTrace.take _numEntries).foldl (fun hash x => u64 (hash + x)) 0

/-- The function `stackTraceCompare`; `cnt` is `(int)_c1`, and a slot outside
an array reads as `none`. -/
def stackTraceCompare (_e1 : List Nat) (_c1 : Nat) (_e2 : List Nat) (_c2 : Nat) : Bool :=
  if _c1 ≠ _c2 then false
  else
    let cnt := if u32 _c1 < 2147483648 then u32 _c1 else 0
    (List.range cnt).all (fun i => decide (_e1[i]? = _e2[i]?))

/-- The stack trace of an operation record: the tag `rmem::EntryTags::Add`
with the frames read into `backTrace64` (`numFrames16` is their number), or
the tag `rmem::EntryTags::Exists` with the hash read. -/
inductive StackTraceEntry where
  | Add (backTrace64 : List Nat)
  | Exists (stackTraceHash : Nat)
  deriving DecidableEq, Repr

/-- The members `m_stackTraces` and `m_stackTracesHash` of `Capture`; a
`StackTrace*` is the index of the object in `m_stackTraces`, and the map gives
`none` for a hash that it does not hold. -/
structure TraceTable where
  m_stackTraces : List StackTrace
  m_stackTracesHash : Nat → Option Nat

/-- The tables after `clearData`. -/
def emptyTraceTable : TraceTable :=
  { m_stackTraces := [], m_stackTracesHash := fun _ => none }

/-- The part of the parse loop of `loadBin` that gives an operation its
`StackTrace* st`: the tables and `st`, or `none` when the loop stops with
`loadSuccess = false`.  For the tag `Add` the variable `stackTraceHash` is 0
when it is tested, so the hash is always computed from the frames.  The new
object holds the frames in the first `numFrames32` slots of `m_entries`. -/
def internStackTrace (t : TraceTable) : StackTraceEntry → Option (TraceTable × Nat)
  | StackTraceEntry.Add backTrace64 =>
    let numFrames32 := backTrace64.length
    if numFrames32 > 512 then none
    else
      let stackTraceHash := u32 (stackTraceGetHash backTrace64 numFrames32)
      let found : Option Nat :=
        match t.m_stackTracesHash stackTraceHash with
        | some s =>
          (match t.m_stackTraces[s]? with
           | some st =>
             if stackTraceCompare st.m_entries st.m_numEntries backTrace64 numFrames32 then some s
             else none
           | none => none)
        | none => none
      match found with
      | some s => some (t, s)
      | none =>
        some ({ m_stackTraces := t.m_stackTraces ++ [⟨numFrames32, backTrace64⟩],
                m_stackTracesHash :=
                  Function.update t.m_stackTracesHash stackTraceHash
                    (some t.m_stackTraces.length) },
              t.m_stackTraces.length)
  | StackTraceEntry.Exists stackTraceHash =>
    match t.m_stackTracesHash stackTraceHash with
    | some s => some (t, s)
    | none => none

/-- The stack traces of the operation records of a stream, in stream order:
the tables at the end and the `m_stackTrace` of every operation. -/
def internLoop : TraceTable → List StackTraceEntry → Option (TraceTable × List Nat)
  | t, [] => some (t, [])
  | t, e :: rest =>
    match internStackTrace t e with
    | none => none
    | some (t1, st) =>
      match internLoop t1 rest with
      | none => none
      | some (t2, sts) => some (t2, st :: sts)

/-! ## The symbol pass (`buildAnalyzeData`) -/

/-- The loop `for (int i=0; i<numFrames; ++i)` of the second pass of
`buildAnalyzeData`, from iteration `i` on for `count` iterations: the array
`m_entries`, `countSkippable` and `skip`.  `resolve` gives the `id` and the
`isMTunerDLL` of `rdebug::symbolResolverGetAddressID`, which the first pass
has stored in `addressIDInfoCacheMap` for every frame address of every stack
trace.  `none`: a slot outside the array. -/
def idLoop (resolve : Nat → Nat × Bool) (numFrames : Nat) :
    Nat → Nat → List Nat → Bool → Nat → Option (List Nat × Bool × Nat)
  | 0, _, entries, countSkippable, skip => some (entries, countSkippable, skip)
  | count + 1, i, entries, countSkippable, skip =>
    match entries[i]? with
    | none => none
    | some address =>
      if i + numFrames < entries.length then
        let currentSymbolInMTunerDLL := (resolve address).2
        let entries1 := entries.set (i + numFrames) (resolve address).1
        let countSkippable1 := if !currentSymbolInMTunerDLL then false else countSkippable
        let skip1 := if countSkippable1 then skip + 1 else skip
        idLoop resolve numFrames count (i + 1) entries1 countSkippable1 skip1
      else none

/-- A loop `for (uint32_t i=0; i<newCount; ++i) m_entries[i + dst] = m_entries[i + src]`,
from iteration `i` on for `count` iterations: the array, and the list of the
pairs (slot read, slot written) of the assignments so far.  `none`: a slot
outside the array. -/
def copyLoop (dst src : Nat) :
    Nat → Nat → List Nat → List (Nat × Nat) → Option (List Nat × List (Nat × Nat))
  | 0, _, entries, accesses => some (entries, accesses)
  | count + 1, i, entries, accesses =>
    match entries[i + src]? with
    | none => none
    | some v =>
      if i + dst < entries.length then
        copyLoop dst src count (i + 1) (entries.set (i + dst) v) (accesses ++ [(i + src, i + dst)])
      else none

/-- The statement `if (skip) { ... }` of the second pass of
`buildAnalyzeData`: the array, the value of `m_numEntries` after it and the
(slot read, slot written) pairs of the two shifts. -/
def stripTop (numFrames skip : Nat) (entries : List Nat) :
    Option (List Nat × Nat × List (Nat × Nat)) :=
  if skip ≠ 0 then
    let newCount := if numFrames > skip then numFrames - skip else 1
    match copyLoop 0 skip newCount 0 entries [] with
    | none => none
    | some (entries1, accesses1) =>
      match copyLoop newCount (numFrames + skip) newCount 0 entries1 accesses1 with
      | none => none
      | some (entries2, accesses2) => some (entries2, newCount, accesses2)
  else some (entries, numFrames, [])

/-- The call `memset(&st->m_entries[st->m_numEntries*2], 0xff, st->m_numEntries*2*sizeof(uint64_t))`. -/
def resetScratch (m_numEntries : Nat) (entries : List Nat) : Option (List Nat) :=
  if m_numEntries * 4 ≤ entries.length then
    some (entries.take (m_numEntries * 2) ++
      List.replicate (m_numEntries * 2) 18446744073709551615 ++
      entries.drop (m_numEntries * 4))
  else none

/-- The body of the second pass of `buildAnalyzeData` for one stack trace, up
to the `memset`: the stack trace it leaves and the (slot read, slot written)
pairs of the two shifts.  `m_numEntries` is at most 512 after `loadBin`, so the
casts to `int` keep its value. -/
def symbolPass (resolve : Nat → Nat × Bool) (st : StackTrace) :
    Option (StackTrace × List (Nat × Nat)) :=
  let numFrames := st.m_numEntries
  match idLoop resolve numFrames numFrames 0 st.m_entries true 0 with
  | none => none
  | some (entries, _, skip) =>
    match stripTop numFrames skip entries with
    | none => none
    | some (entries1, m_numEntries, accesses) =>
      match resetScratch m_numEntries entries1 with
      | none => none
      | some entries2 => some ({ m_numEntries := m_numEntries, m_entries := entries2 }, accesses)

/-! ## The stack-trace tree (`addToTree`) -/

/-- The enumerators of `StackTraceTree::Enum` that `addToStackTraceTree`
passes to `addToTree`; `Count` is the number of counters. -/
inductive TreeOpType where
  | Alloc
  | Free
  | Realloc
  | Count
  deriving DecidableEq, Repr

/-- The array `StackTraceTree::m_opCount`: one counter for each enumerator
below `Count`. -/
structure OpCount where
  alloc : Nat
  free : Nat
  realloc : Nat
  deriving DecidableEq, Repr

/-- The statement `++m_opCount[_opType]`. -/
def OpCount.inc (c : OpCount) : TreeOpType → OpCount
  | TreeOpType.Alloc => { c with alloc := c.alloc + 1 }
  | TreeOpType.Free => { c with free := c.free + 1 }
  | TreeOpType.Realloc => { c with realloc := c.realloc + 1 }
  | TreeOpType.Count => c

/-- A node of the stack-trace tree, with the members of `StackTraceTree` that
`addToTree` uses.  A node is referred to by its index in the list of all
nodes of a tree; `m_children` holds the indices of the children in the order
of the vector, `m_stackTraceList` the index of a stack trace in
`m_stackTraces`.  The sizes are unbounded integers. -/
structure StackTraceTree where
  m_parent : Option Nat
  m_addressID : Nat
  m_depth : Nat
  m_memUsage : Int
  m_memUsagePeak : Int
  m_overhead : Int
  m_overheadPeak : Int
  m_opCount : OpCount
  m_stackTraceList : Option Nat
  m_children : List Nat
  deriving DecidableEq, Repr

/-- A `StackTrace` with the members `m_next` and `m_addedToTree`, which
`addToTree` reads and writes as well. -/
structure LinkedStackTrace extends StackTrace where
  m_next : List (Option Nat)
  m_addedToTree : List Nat
  deriving DecidableEq, Repr

/-- The five statements of `addToTree` that update the aggregates of
`currNode`. -/
def addUsage (_size _overhead : Int) (_opType : TreeOpType) (currNode : StackTraceTree) :
    StackTraceTree :=
  let memUsage := currNode.m_memUsage + _size
  let overhead := currNode.m_overhead + _overhead
  let opCount :=
    if _opType ≠ TreeOpType.Count then currNode.m_opCount.inc _opType else currNode.m_opCount
  { currNode with
    m_memUsage := memUsage, m_memUsagePeak := max memUsage currNode.m_memUsagePeak,
    m_overhead := overhead, m_overheadPeak := max overhead currNode.m_overheadPeak,
    m_opCount := opCount }

/-- The search loop of `addToTree` over the children from position `i` on:
the position and the node of the first child with `m_addressID == currUniqueID`. -/
def findChild (nodes : List StackTraceTree) (currUniqueID : Nat) :
    List Nat → Nat → Option (Nat × Nat)
  | [], _ => none
  | c :: rest, i =>
    match nodes[c]? with
    | some child =>
      if child.m_addressID = currUniqueID then some (i, c)
      else findChild nodes currUniqueID rest (i + 1)
    | none => findChild nodes currUniqueID rest (i + 1)

/-- The statement `if (currUniqueIDIdx == (uint64_t)-1) ... else ...` of
`addToTree`: the nodes, `nextNode` and the value of `currUniqueIDIdx` after
it.  `ctor` is the node that the constructor of `StackTraceTree`, declared
outside `capture.cpp`, makes.  `none`: a child index outside the vector. -/
def selectChild (ctor : StackTraceTree) (nodes : List StackTraceTree) (currNode : Nat)
    (cur : StackTraceTree) (depth currUniqueID currUniqueIDIdx : Nat) :
    Option (List StackTraceTree × Nat × Nat) :=
  if currUniqueIDIdx = 18446744073709551615 then
    match findChild nodes currUniqueID cur.m_children 0 with
    | some (i, c) => some (nodes, c, i)
    | none =>
      let newNode : StackTraceTree :=
        { ctor with m_parent := some currNode, m_addressID := currUniqueID, m_depth := depth }
      let cur1 : StackTraceTree := { cur with m_children := cur.m_children ++ [nodes.length] }
      some (nodes.set currNode cur1 ++ [newNode], nodes.length, cur.m_children.length)
  else
    match cur.m_children[u32 currUniqueIDIdx]? with
    | some c => some (nodes, c, currUniqueIDIdx)
    | none => none

/-- The statement `if (_trace->m_addedToTree[_offset] < depth) ...` of
`addToTree`.  `none`: a slot outside an array. -/
def threadTrace (nodes : List StackTraceTree) (traces : List LinkedStackTrace)
    (_trace currNode depth _offset : Nat) :
    Option (List StackTraceTree × List LinkedStackTrace) :=
  match traces[_trace]? with
  | none => none
  | some tr =>
    match nodes[currNode]? with
    | none => none
    | some nd =>
      match tr.m_addedToTree[_offset]? with
      | none => none
      | some added =>
        if added < depth then
          if depth < tr.m_next.length then
            let nd1 : StackTraceTree := { nd with m_stackTraceList := some _trace }
            let tr1 : LinkedStackTrace :=
              { tr with m_next := tr.m_next.set depth nd.m_stackTraceList,
                        m_addedToTree := tr.m_addedToTree.set _offset depth }
            some (nodes.set currNode nd1, traces.set _trace tr1)
          else none
        else some (nodes, traces)

/-- The loop `while (--currFrame >= 0)` of `addToTree` with `currFrame + 1`
iterations left, at the node `currNode`.  `none`: a slot outside an array. -/
def treeLoop (ctor : StackTraceTree) (_trace numFrames : Nat) (_size _overhead : Int)
    (_offset : Nat) (_opType : TreeOpType) :
    Nat → Nat → List StackTraceTree → List LinkedStackTrace →
      Option (List StackTraceTree × List LinkedStackTrace)
  | 0, _, nodes, traces => some (nodes, traces)
  | currFrame + 1, currNode, nodes, traces =>
    let depth := numFrames - currFrame
    match traces[_trace]? with
    | none => none
    | some tr =>
      match tr.m_entries[currFrame + numFrames]? with
      | none => none
      | some currUniqueID =>
        match tr.m_entries[currFrame + numFrames * (_offset + 2)]? with
        | none => none
        | some currUniqueIDIdx =>
          match nodes[currNode]? with
          | none => none
          | some cur =>
            match selectChild ctor nodes currNode cur depth currUniqueID currUniqueIDIdx with
            | none => none
            | some (nodes1, nextNode, idx) =>
              let tr1 : LinkedStackTrace :=
                { tr with m_entries := tr.m_entries.set (currFrame + numFrames * (_offset + 2)) idx }
              match threadTrace nodes1 (traces.set _trace tr1) _trace nextNode depth _offset with
              | none => none
              | some (nodes2, traces2) =>
                match nodes2[nextNode]? with
                | none => none
                | some nd =>
                  treeLoop ctor _trace numFrames _size _overhead _offset _opType currFrame nextNode
                    (nodes2.set nextNode (addUsage _size _overhead _opType nd)) traces2

/-- The function `addToTree`: the nodes of the tree and the stack traces after
the call.  `none`: a slot outside an array. -/
def addToTree (ctor : StackTraceTree) (nodes : List StackTraceTree)
    (traces : List LinkedStackTrace) (_root _trace : Nat) (_size _overhead : Int)
    (_offset : Nat) (_opType : TreeOpType) :
    Option (List StackTraceTree × List LinkedStackTrace) :=
  match traces[_trace]? with
  | none => none
  | some tr =>
    match nodes[_root]? with
    | none => none
    | some root =>
      let root1 := addUsage _size _overhead _opType root
      if 0 < tr.m_next.length then
        let tr1 : LinkedStackTrace := { tr with m_next := tr.m_next.set 0 root1.m_stackTraceList }
        let root2 : StackTraceTree := { root1 with m_stackTraceList := some _trace }
        treeLoop ctor _trace tr.m_numEntries _size _overhead _offset _opType tr.m_numEntries _root
          (nodes.set _root root2) (traces.set _trace tr1)
      else none

/-! ## How the loops of `getIndexBefore` are left -/

/-- The two ways out of the second `while` loop of `getIndexBefore`: a
`return` inside the loop, or the loop condition `endIdx > startIdx` failing,
after which `RTM_ASSERT(false, "Should not reach here!")` is executed. -/
inductive LoopExit where
  | returnInside
  | assertAfter
  deriving DecidableEq, Repr

/-- The second `while` loop of `getIndexBefore` with the way it is left: the
statements are those of `getIndexBeforeLoop`, the result is paired with the
exit taken. -/
def getIndexBeforeLoopExit (m_operations : List MemoryOperation) (_time : Nat) : Nat → Nat → Nat → Option (LoopExit × Nat)
  | 0, _, _ => none
  | fuel + 1, startIdx, endIdx =>
    if endIdx > startIdx then
      let idxMid := u32 (startIdx + endIdx) / 2
      match m_operations[idxMid]? with
      | none => none
      | some opMid =>
        let startIdx1 := if opMid.m_operationTime < _time then idxMid else startIdx
        let endIdx1 := if opMid.m_operationTime < _time then endIdx else idxMid
        if endIdx1 - startIdx1 = 1 then
          match m_operations[startIdx1]? with
          | none => none
          | some opStart =>
            if opStart.m_operationTime ≥ _time then
              some (LoopExit.returnInside, if startIdx1 = 0 then startIdx1 else startIdx1 - 1)
            else
              some (LoopExit.returnInside, endIdx1)
        else getIndexBeforeLoopExit m_operations _time fuel startIdx1 endIdx1
    else some (LoopExit.assertAfter, 0)

/-- The method `Capture::getIndexBefore` with the exit of its second loop:
the exit, the returned index and `_outTimedIndex`. -/
def getIndexBeforeExit (m_operations : List MemoryOperation) (m_timedStats : List MemoryStatsTimed)
    (_time : Nat) : Option (LoopExit × Nat × Nat) :=
  let tsIdxMax := m_timedStats.length - 1
  let tsIdx :=
    if tsIdxMax = 1 then some 1
    else timedBisect m_timedStats _time (tsIdxMax + 1) 0 tsIdxMax
  match tsIdx with
  | none => none
  | some tsIdx =>
    match timedBracket m_timedStats tsIdx with
    | none => none
    | some (startIdx, endIdx, outTimedIndex) =>
      match getIndexBeforeLoopExit m_operations _time (endIdx - startIdx + 1) startIdx endIdx with
      | none => none
      | some (exit, idx) => some (exit, idx, outTimedIndex)

/-! ## The running counters of `calculateFilteredData` -/

/-- The objects behind the pointers of `m_operations` (`none` for a dangling
pointer). -/
def derefOperations (pool : List MemoryOperation) : List Nat → Option (List MemoryOperation)
  | [] => some []
  | p :: rest =>
    match pool[p]?, derefOperations pool rest with
    | some op, some ops => some (op :: ops)
    | _, _ => none

/-- The `for` loop of `calculateFilteredData`, restricted to its two
`uint64_t` counters `liveBlocks` and `liveSize`: `count` iterations from index
`i`, each reading `op = m_operations[i]`, skipping it when `isInFilter`
rejects it and otherwise calling `updateLiveBlocks` and `updateLiveSize`.
`none`: an index or a pointer is out of range. -/
def filteredCountersLoop (isIn : MemoryOperation → Bool) (pool : List MemoryOperation)
    (m_operations : List Nat) : Nat → Nat → Nat → Nat → Option (Nat × Nat)
  | 0, _, liveBlocks, liveSize => some (liveBlocks, liveSize)
  | count + 1, i, liveBlocks, liveSize =>
    match m_operations[i]? with
    | none => none
    | some p =>
      match pool[p]? with
      | none => none
      | some op =>
        if !isIn op then
          filteredCountersLoop isIn pool m_operations count (i + 1) liveBlocks liveSize
        else
          match updateLiveSize pool op liveSize with
          | none => none
          | some liveSize1 =>
            filteredCountersLoop isIn pool m_operations count (i + 1)
              (updateLiveBlocks op liveBlocks) liveSize1

/-- The method `Capture::calculateFilteredData`, restricted to the counters
`liveBlocks` and `liveSize`, which start at 0: their values when the loop over
`minTimeOpIndex .. maxTimeOpIndex` ends. -/
def calculateFilteredCounters (getHistogramBinIndex : Nat → Nat) (m_stackTraces : List StackTrace)
    (f : FilterState) (c : Capture) (m_timedStats : List MemoryStatsTimed) : Option (Nat × Nat) :=
  match derefOperations c.pool c.m_operations with
  | none => none
  | some ops =>
    match getIndexBefore ops m_timedStats f.m_minTimeSnapshot,
        getIndexBefore ops m_timedStats f.m_maxTimeSnapshot with
    | some (minTimeOpIndex, _), some (idx, _) =>
      let maxTimeOpIndex := u32 (idx + 1)
      let maxTimeOpIndex :=
        if maxTimeOpIndex ≥ ops.length then u32 (u32 ops.length + 4294967295)
        else maxTimeOpIndex
      filteredCountersLoop (isInFilter getHistogramBinIndex m_stackTraces f) c.pool c.m_operations
        (maxTimeOpIndex + 1 - minTimeOpIndex) minTimeOpIndex 0 0
    | _, _ => none

/-! ## The check of the statistics (`verifyGlobalStats`) -/

/-- How a run of `loadModuleInfo` ends: it returns a value, having called
`addModule` with the listed arguments; or it reads a variable that a short
read left uninitialised; or the record loop is still running when the
iterations granted are used up. -/
inductive ModuleInfoResult where
  | returned (value : Bool) (calls : List (Option (List Nat) × Nat × Nat)) (loader : BinLoader)
  | uninitialised
  | running
  deriving DecidableEq, Repr

/-- The value of an 8-byte variable that starts as 0 and receives the bytes
read, after `Endian::swap` when `_swapEndian` is set. -/
def decodeVar64 (_swapEndian : Bool) (bytes : List Nat) : Nat :=
  decodeVar _swapEndian (bytes ++ List.replicate (8 - bytes.length) 0)

/-- The `while (symSize > 0)` loop of `loadModuleInfo`, for at most the given
number of iterations.  `symSize` is an `int64_t`, `bytesRead` a `size_t`; the
calls of `addModule` are recorded with the string as `ReadString` leaves it
(before the conversion to UTF-8 and `rtm::pathCanonicalize`), the progress
callback is left out. -/
def moduleInfoLoop (m_swapEndian : Bool) (charSize : Nat) :
    Nat → Int → BinLoader → List (Option (List Nat) × Nat × Nat) → ModuleInfoResult
  | 0, symSize, _loader, calls =>
    if symSize > 0 then ModuleInfoResult.running
    else ModuleInfoResult.returned (decide (symSize = 0)) calls _loader
  | fuel + 1, symSize, _loader, calls =>
    if symSize > 0 then
      let rs :=
        if charSize = 2 then ReadString 1024 2 _loader m_swapEndian 35
        else ReadString 1024 1 _loader m_swapEndian 35
      let bytesRead := rs.1
      if bytesRead = 4 then ModuleInfoResult.returned (decide (symSize = 0)) calls rs.2.2
      else
        let r1 := rs.2.2.readVar 8
        let bytesRead := bytesRead + 8 * r1.1
        let r2 := r1.2.2.readVar 8
        let bytesRead := bytesRead + 8 * r2.1
        let modBase := decodeVar64 m_swapEndian r1.2.1
        let modSize := decodeVar64 m_swapEndian r2.2.1
        moduleInfoLoop m_swapEndian charSize fuel (symSize - bytesRead) r2.2.2
          (calls ++ [(rs.2.1, modBase, modSize)])
    else ModuleInfoResult.returned (decide (symSize = 0)) calls _loader

/-- The method `Capture::loadModuleInfo`, with at most the given number of
iterations of its record loop.  The return values of the reads of
`symbolInfoSize` and of `charSize` are not looked at; after a short read the
variable is uninitialised when it is used. -/
def loadModuleInfo (m_swapEndian : Bool) (fuel : Nat) (_loader : BinLoader) : ModuleInfoResult :=
  let r := _loader.readVar 4
  if r.1 ≠ 1 then ModuleInfoResult.uninitialised
  else
    let symSize : Int := decodeVar m_swapEndian r.2.1
    if symSize = 0 then ModuleInfoResult.returned true [] r.2.2
    else
      let rc := r.2.2.readVar 1
      if rc.1 ≠ 1 then ModuleInfoResult.uninitialised
      else moduleInfoLoop m_swapEndian (decodeLE rc.2.1) fuel (symSize - 1) rc.2.2 []

/-! ## Memory-operation groups (`addToMemoryGroups`) -/

/-- The conversion of a `uint64_t` to `int64_t`. -/
def toInt64 (x : Nat) : Int :=
  if u64 x < 9223372036854775808 then (u64 x : Int) else (u64 x : Int) - 18446744073709551616

/-- The conversion of a `uint32_t` to `int32_t`. -/
def toInt32 (x : Nat) : Int :=
  if u32 x < 2147483648 then (u32 x : Int) else (u32 x : Int) - 4294967296

/-- The value an `int64_t` holds after `+=` or `-=` when the exact result
is `x`: `x` modulo `2^64`, in two's complement. -/
def wrapInt64 (x : Int) : Int :=
  toInt64 (x % 18446744073709551616).toNat

/-- The members of `MemoryOperationGroup` that `addToMemoryGroups` uses.  The
structure is declared outside `capture.cpp`; the counters are taken as
`uint32_t` (as `newPeakCount` is), `m_liveSize` and `m_peakSize` as `int64_t`
(as `newPeakSize` is). -/
structure MemoryOperationGroup where
  m_operations : List Nat
  m_minSize : Nat
  m_maxSize : Nat
  m_liveSize : Int
  m_peakSize : Int
  m_peakSizeGlobal : Nat
  m_count : Nat
  m_liveCount : Nat
  m_liveCountPeak : Nat
  m_liveCountPeakGlobal : Nat
  deriving DecidableEq, Repr

/-- The expression `_groups[groupHash]`: the group stored under the key, or
the group `ctor` that the constructor leaves when there is none. -/
def groupAt (ctor : MemoryOperationGroup) (_groups : List (Nat × MemoryOperationGroup))
    (groupHash : Nat) : MemoryOperationGroup :=
  match _groups.lookup groupHash with
  | some g => g
  | none => ctor

/-- A write through the reference `_groups[groupHash]`. -/
def setGroup (_groups : List (Nat × MemoryOperationGroup)) (groupHash : Nat)
    (g : MemoryOperationGroup) : List (Nat × MemoryOperationGroup) :=
  match _groups.lookup groupHash with
  | some _ => _groups.map (fun e => if e.1 = groupHash then (groupHash, g) else e)
  | none => _groups ++ [(groupHash, g)]

/-- The statements `prevGroup.m_liveCount--; prevGroup.m_liveSize -=
prevOp->m_allocSize;` on the group of `prevOp`. -/
def releaseFromGroup (ctor : MemoryOperationGroup) (_groups : List (Nat × MemoryOperationGroup))
    (prevOp : MemoryOperation) : List (Nat × MemoryOperationGroup) :=
  let prevGroup := groupAt ctor _groups prevOp.m_stackTrace
  setGroup _groups prevOp.m_stackTrace
    { prevGroup with m_liveCount := u32 (prevGroup.m_liveCount + 4294967295), m_liveSize := wrapInt64 (prevGroup.m_liveSize - prevOp.m_allocSize) }

/-- The statements of the allocation case and of the realloc case of
`addToMemoryGroups` on the group of `_op`. -/
def allocIntoGroup (ctor : MemoryOperationGroup) (_groups : List (Nat × MemoryOperationGroup))
    (p : Nat) (_op : MemoryOperation) (_liveBlocks _liveSize : Nat) :
    List (Nat × MemoryOperationGroup) :=
  let group := groupAt ctor _groups _op.m_stackTrace
  let liveCount := u32 (group.m_liveCount + 1)
  let liveSize := wrapInt64 (group.m_liveSize + _op.m_allocSize)
  let newPeakSize := max group.m_peakSize liveSize
  let newPeakCount := max group.m_liveCountPeak liveCount
  setGroup _groups _op.m_stackTrace
    { m_operations := group.m_operations ++ [p],
      m_minSize := min group.m_minSize _op.m_allocSize,
      m_maxSize := max group.m_maxSize _op.m_allocSize,
      m_liveSize := liveSize,
      m_peakSize := if newPeakSize > group.m_peakSize then newPeakSize else group.m_peakSize,
      m_peakSizeGlobal :=
        if newPeakSize > group.m_peakSize then _liveSize else group.m_peakSizeGlobal,
      m_count := u32 (group.m_count + 1),
      m_liveCount := liveCount,
      m_liveCountPeak :=
        if newPeakCount > group.m_liveCountPeak then newPeakCount else group.m_liveCountPeak,
      m_liveCountPeakGlobal :=
        if newPeakCount > group.m_liveCountPeak then _liveBlocks
        else group.m_liveCountPeakGlobal }

/-- The statements of the `OpFree` case of `addToMemoryGroups` on the group of
`_op`. -/
def freeIntoGroup (ctor : MemoryOperationGroup) (_groups : List (Nat × MemoryOperationGroup))
    (p : Nat) (_op : MemoryOperation) : List (Nat × MemoryOperationGroup) :=
  let group := groupAt ctor _groups _op.m_stackTrace
  setGroup _groups _op.m_stackTrace
    { group with
      m_operations := group.m_operations ++ [p],
      m_count := u32 (group.m_count + 1),
      m_minSize := min group.m_minSize _op.m_allocSize,
      m_maxSize := max group.m_maxSize _op.m_allocSize,
      m_peakSize := max group.m_peakSize group.m_liveSize }

/-- The method `Capture::addToMemoryGroups` for the operation behind the
pointer `p`; the key `calcGroupHash(_op)` is the stack-trace pointer.
`isIn` is `isInFilter`.  `none`: `p` or `m_chainPrev` dangles, or the
`m_chainPrev` of a free is null where `isInFilter` dereferences it. -/
def addToMemoryGroups (ctor : MemoryOperationGroup) (isIn : MemoryOperation → Bool)
    (pool : List MemoryOperation) (_groups : List (Nat × MemoryOperationGroup)) (p : Nat)
    (_liveBlocks _liveSize : Nat) : Option (List (Nat × MemoryOperationGroup)) :=
  match pool[p]? with
  | none => none
  | some _op =>
    match _op.m_operationType with
    | OpType.OpAlloc | OpType.OpCalloc | OpType.OpAllocAligned =>
      some (allocIntoGroup ctor _groups p _op _liveBlocks _liveSize)
    | OpType.OpFree =>
      match _op.m_chainPrev with
      | none => none
      | some j =>
        match pool[j]? with
        | none => none
        | some prevOp =>
          let groups1 := if isIn prevOp then releaseFromGroup ctor _groups prevOp else _groups
          some (freeIntoGroup ctor groups1 p _op)
    | OpType.OpRealloc | OpType.OpReallocAligned =>
      match _op.m_chainPrev with
      | none => some (allocIntoGroup ctor _groups p _op _liveBlocks _liveSize)
      | some j =>
        match pool[j]? with
        | none => none
        | some prevOp =>
          let groups1 := if isIn prevOp then releaseFromGroup ctor _groups prevOp else _groups
          some (allocIntoGroup ctor groups1 p _op _liveBlocks _liveSize)

/-- The calls of `addToMemoryGroups` with the given arguments, in order. -/
def addAllToMemoryGroups (ctor : MemoryOperationGroup) (isIn : MemoryOperation → Bool)
    (pool : List MemoryOperation) :
    List (Nat × MemoryOperationGroup) → List (Nat × Nat × Nat) →
      Option (List (Nat × MemoryOperationGroup))
  | _groups, [] => some _groups
  | _groups, (p, liveBlocks, liveSize) :: rest =>
    match addToMemoryGroups ctor isIn pool _groups p liveBlocks liveSize with
    | none => none
    | some groups1 => addAllToMemoryGroups ctor isIn pool groups1 rest

/-- The map `m_operationGroups` after the aggregation loop of
`buildAnalyzeData`, and the vector `m_memoryLeaks`.  The calls of
`addToMemoryGroups` read the type, the size, the stack trace, the validity and
`m_chainPrev` of operations, none of which the loop writes, so they are
evaluated on the objects as the loop leaves them. -/
def operationGroups (ctor : MemoryOperationGroup) (isIn : MemoryOperation → Bool) (c : Capture)
    (m_memoryLeaks : List Nat) : Option (List (Nat × MemoryOperationGroup) × List Nat) :=
  match buildAnalyzeData c m_memoryLeaks with
  | none => none
  | some s =>
    match addAllToMemoryGroups ctor isIn s.pool [] s.groupArgs with
    | none => none
    | some groups => some (groups, s.m_memoryLeaks)

/-! ## The trees of the two scopes (`addToStackTraceTree`, `calculateFilteredData`) -/

/-- The method `Capture::addToStackTraceTree` for the operation behind the
pointer `p`, on the tree whose root `_tree` is the node 0 of `nodes`; `isIn`
is `isInFilter`.  `none`: a pointer dangles, the `m_chainPrev` of a free is
null, or `addToTree` reads outside an array. -/
def addToStackTraceTree (ctor : StackTraceTree) (isIn : MemoryOperation → Bool)
    (pool : List MemoryOperation) (nodes : List StackTraceTree) (traces : List LinkedStackTrace)
    (p : Nat) (_offset : Nat) : Option (List StackTraceTree × List LinkedStackTrace) :=
  match pool[p]? with
  | none => none
  | some _op =>
    match _op.m_operationType with
    | OpType.OpAlloc | OpType.OpCalloc | OpType.OpAllocAligned =>
      addToTree ctor nodes traces 0 _op.m_stackTrace (toInt64 _op.m_allocSize)
        (toInt32 _op.m_overhead) _offset TreeOpType.Alloc
    | OpType.OpFree =>
      match _op.m_chainPrev with
      | none => none
      | some j =>
        match pool[j]? with
        | none => none
        | some prevOp =>
          if isIn prevOp then
            addToTree ctor nodes traces 0 prevOp.m_stackTrace (-(toInt64 prevOp.m_allocSize))
              (-(toInt32 prevOp.m_overhead)) _offset TreeOpType.Free
          else addToTree ctor nodes traces 0 prevOp.m_stackTrace 0 0 _offset TreeOpType.Free
    | OpType.OpRealloc | OpType.OpReallocAligned =>
      let r : Option (List StackTraceTree × List LinkedStackTrace) :=
        match _op.m_chainPrev with
        | none => some (nodes, traces)
        | some j =>
          match pool[j]? with
          | none => none
          | some prevOp =>
            if isIn prevOp then
              addToTree ctor nodes traces 0 prevOp.m_stackTrace (-(toInt64 prevOp.m_allocSize))
                (-(toInt32 prevOp.m_overhead)) _offset TreeOpType.Count
            else some (nodes, traces)
      match r with
      | none => none
      | some (nodes1, traces1) =>
        addToTree ctor nodes1 traces1 0 _op.m_stackTrace (toInt64 _op.m_allocSize)
          (toInt32 _op.m_overhead) _offset TreeOpType.Realloc

/-- The aggregation loop of `buildAnalyzeData`, restricted to the Global
stack-trace tree: `addToStackTraceTree(m_stackTraceTree, op, StackTrace::Global)`
for the given pointers in order. -/
def globalTreeLoop (ctor : StackTraceTree) (isIn : MemoryOperation → Bool)
    (pool : List MemoryOperation) :
    List Nat → List StackTraceTree → List LinkedStackTrace →
      Option (List StackTraceTree × List LinkedStackTrace)
  | [], nodes, traces => some (nodes, traces)
  | p :: rest, nodes, traces =>
    match addToStackTraceTree ctor isIn pool nodes traces p 0 with
    | none => none
    | some (nodes1, traces1) => globalTreeLoop ctor isIn pool rest nodes1 traces1

/-- The body of the first loop of `calculateFilteredData` for one stack trace:
`st->m_addedToTree[StackTrace::Filtered] = 0` and the `memset` of the
`m_numEntries` Filtered scratch slots from `m_numEntries*3` on. -/
def resetFilteredScratch (st : LinkedStackTrace) : Option LinkedStackTrace :=
  if st.m_numEntries * 4 ≤ st.m_entries.length ∧ 1 < st.m_addedToTree.length then
    some { st with
      m_addedToTree := st.m_addedToTree.set 1 0,
      m_entries := st.m_entries.take (st.m_numEntries * 3) ++
        List.replicate st.m_numEntries 18446744073709551615 ++
        st.m_entries.drop (st.m_numEntries * 4) }
  else none

/-- The first loop of `calculateFilteredData` over `m_stackTraces`. -/
def resetAllFilteredScratch : List LinkedStackTrace → Option (List LinkedStackTrace)
  | [] => some []
  | st :: rest =>
    match resetFilteredScratch st, resetAllFilteredScratch rest with
    | some st1, some rest1 => some (st1 :: rest1)
    | _, _ => none

/-- The `for` loop of `calculateFilteredData`, restricted to the Filtered
stack-trace tree and the stack traces: `count` iterations from index `i`, each
calling `addToStackTraceTree(m_filter.m_stackTraceTree, op, StackTrace::Filtered)`
when `isInFilter` accepts `op = m_operations[i]`. -/
def filteredTreeLoop (ctor : StackTraceTree) (isIn : MemoryOperation → Bool)
    (pool : List MemoryOperation) (m_operations : List Nat) :
    Nat → Nat → List StackTraceTree → List LinkedStackTrace →
      Option (List StackTraceTree × List LinkedStackTrace)
  | 0, _, nodes, traces => some (nodes, traces)
  | count + 1, i, nodes, traces =>
    match m_operations[i]? with
    | none => none
    | some p =>
      match pool[p]? with
      | none => none
      | some op =>
        if !isIn op then filteredTreeLoop ctor isIn pool m_operations count (i + 1) nodes traces
        else
          match addToStackTraceTree ctor isIn pool nodes traces p 1 with
          | none => none
          | some (nodes1, traces1) =>
            filteredTreeLoop ctor isIn pool m_operations count (i + 1) nodes1 traces1

/-- The method `Capture::calculateFilteredData`, restricted to the Filtered
stack-trace tree and the stack traces.  `destroyStackTree` is declared outside
`capture.cpp`: the tree it leaves, whose root is the node 0, is the parameter
`emptyTree`. -/
def calculateFilteredTree (ctor : StackTraceTree) (getHistogramBinIndex : Nat → Nat)
    (f : FilterState) (c : Capture) (m_timedStats : List MemoryStatsTimed)
    (emptyTree : List StackTraceTree) (m_stackTraces : List LinkedStackTrace) :
    Option (List StackTraceTree × List LinkedStackTrace) :=
  match resetAllFilteredScratch m_stackTraces with
  | none => none
  | some traces =>
    match derefOperations c.pool c.m_operations with
    | none => none
    | some ops =>
      match getIndexBefore ops m_timedStats f.m_minTimeSnapshot,
          getIndexBefore ops m_timedStats f.m_maxTimeSnapshot with
      | some (minTimeOpIndex, _), some (idx, _) =>
        let maxTimeOpIndex := u32 (idx + 1)
        let maxTimeOpIndex :=
          if maxTimeOpIndex ≥ ops.length then u32 (u32 ops.length + 4294967295)
          else maxTimeOpIndex
        filteredTreeLoop ctor
          (isInFilter getHistogramBinIndex (m_stackTraces.map (fun st => st.toStackTrace)) f)
          c.pool c.m_operations (maxTimeOpIndex + 1 - minTimeOpIndex) minTimeOpIndex emptyTree traces
      | _, _ => none

/-! ## Test data -/

/-- A memory operation as the parser leaves it: no links, valid. -/
def mkOp (ty : OpType) (pointer previousPointer time size overhead : Nat) : MemoryOperation :=
  { m_operationType := ty, m_allocatorHandle := 1, m_threadID := 7, m_operationTime := time,
    m_pointer := pointer, m_previousPointer := previousPointer, m_allocSize := size,
    m_overhead := overhead, m_alignment := 255, m_stackTrace := 0, m_tag := 0,
    m_chainPrev := none, m_chainNext := none, m_isValid := true }

/-- An allocation of pointer `t` at time `t`, of 8 bytes. -/
def allocAt (t : Nat) : MemoryOperation :=
  mkOp OpType.OpAlloc t 0 t 8 0

/-- Four valid allocations of distinct blocks at times 10, 20, 20, 20. -/
def tiedAtMaxTime : List MemoryOperation :=
  [mkOp OpType.OpAlloc 4096 0 10 8 0, mkOp OpType.OpAlloc 4104 0 20 8 0,
    mkOp OpType.OpAlloc 4112 0 20 8 0, mkOp OpType.OpAlloc 4120 0 20 8 0]

/-- The cleared filter with filtering enabled and the window `[10, 20]`. -/
def windowFilter : FilterState :=
  { clearedFilter with m_filteringEnabled := true, m_minTimeSnapshot := 10,
                       m_maxTimeSnapshot := 20 }

/-- The stream `Alloc(ptr=0xA, t=10, size=32)`, `Realloc(prev=0xA, ptr=0xB, t=20, size=64)`,
`Realloc(prev=0xB, ptr=0xC, t=30, size=0)`. -/
def reallocToZero : List MemoryOperation :=
  [mkOp OpType.OpAlloc 10 0 10 32 0, mkOp OpType.OpRealloc 11 10 20 64 0,
    mkOp OpType.OpRealloc 12 11 30 0 0]

/-- Ten allocations of distinct blocks at the times 1, 2, ..., 10. -/
def tenAllocs : List MemoryOperation :=
  [1, 2, 3, 4, 5, 6, 7, 8, 9, 10].map allocAt

/-- The cleared filter with the window `[5, 8]`. -/
def midWindow : FilterState :=
  { clearedFilter with m_minTimeSnapshot := 5, m_maxTimeSnapshot := 8 }

/-- The records `RegisterTag(0xAA)`, `EnterTag(0xAA, thread 1)`, `Alloc(thread 1)`,
`LeaveTag(0xAA, thread 1)`, `Alloc(thread 1)`. -/
def taggedStream : List LogEvent :=
  [LogEvent.other, LogEvent.enterTag 170 1,
    LogEvent.memOp { mkOp OpType.OpAlloc 4096 0 10 16 0 with m_threadID := 1 },
    LogEvent.leaveTag 170 1,
    LogEvent.memOp { mkOp OpType.OpAlloc 8192 0 20 16 0 with m_threadID := 1 }]

/-- The bytes of a `Module` record after its tag, for the module `a` at base
`0x1000` with size `0x2000`, followed by the bytes 9 and 7. -/
def moduleRecordBytes : List Nat :=
  [1, 1, 0, 0, 0, 97, 0, 16, 0, 0, 0, 0, 0, 0, 0, 32, 0, 0, 9, 7]

/-- The part of a path after its last `/` or `\`. -/
def fileNameOf (path : List Nat) : List Nat :=
  (path.reverse.takeWhile (fun c => c ≠ 47 ∧ c ≠ 92)).reverse

/-- The path `a.dll`. -/
def pathNoSeparator : List Nat := [97, 46, 100, 108, 108]

/-- The path `/a.dll`. -/
def pathWithSeparator : List Nat := [47, 97, 46, 100, 108, 108]

/-- Three `Add` records: the frames 1, 2, then 2, 1, then 1, 2 again; the sum
of the frames is 3 each time. -/
def collidingTraces : List StackTraceEntry :=
  [StackTraceEntry.Add [1, 2], StackTraceEntry.Add [2, 1], StackTraceEntry.Add [1, 2]]

/-- A resolver for the examples: the symbol of an address is the address plus
1000, and the addresses below 100 are instrumentation frames. -/
def exampleResolve (address : Nat) : Nat × Bool :=
  (address + 1000, decide (address < 100))
/-- A stack trace of three frames, the first two of them instrumentation
frames, with the value 7 in the slots not yet written. -/
def twoInstrumentationFrames : StackTrace :=
  ⟨3, [1, 2, 300, 7, 7, 7, 7, 7, 7, 7, 7, 7]⟩

/-- A chain `Alloc(ptr=10)` with tag 7, `Realloc(ptr=20, prev=10)` and
`Free(ptr=20)` without tag, and an `Alloc(ptr=30)` with tag 9. -/
def taggedChain : List MemoryOperation :=
  [{ mkOp OpType.OpAlloc 10 0 10 32 0 with m_tag := 7 }, mkOp OpType.OpRealloc 20 10 20 64 0,
   mkOp OpType.OpFree 20 0 30 0 0, { mkOp OpType.OpAlloc 30 0 40 16 0 with m_tag := 9 }]

/-- A node with no parent, no children, no stack trace and zero aggregates. -/
def emptyNode : StackTraceTree :=
  { m_parent := none, m_addressID := 0, m_depth := 0, m_memUsage := 0, m_memUsagePeak := 0,
    m_overhead := 0, m_overheadPeak := 0, m_opCount := ⟨0, 0, 0⟩, m_stackTraceList := none,
    m_children := [] }

/-- A stack trace of two frames with the symbol IDs 11 (top) and 12 (bottom)
after the symbol pass. -/
def exampleTrace : LinkedStackTrace :=
  { m_numEntries := 2,
    m_entries := [1, 2, 11, 12, 18446744073709551615, 18446744073709551615,
      18446744073709551615, 18446744073709551615],
    m_next := [none, none, none], m_addedToTree := [0, 0] }

/-- The stack trace `exampleTrace` and one of two frames with the symbol IDs
13 (top) and 12 (bottom). -/
def exampleTraces : List LinkedStackTrace :=
  [exampleTrace,
   { m_numEntries := 2,
     m_entries := [3, 2, 13, 12, 18446744073709551615, 18446744073709551615,
       18446744073709551615, 18446744073709551615],
     m_next := [none, none, none], m_addedToTree := [0, 0] }]

/-- An allocation of 32 bytes at time 10 and its free at time 20. -/
def allocThenFree : List MemoryOperation :=
  [mkOp OpType.OpAlloc 4096 0 10 32 0, mkOp OpType.OpFree 4096 0 20 0 0]

/-- The cleared filter with filtering enabled and the window `[15, 20]`. -/
def lateWindow : FilterState :=
  { clearedFilter with m_filteringEnabled := true, m_minTimeSnapshot := 15,
                       m_maxTimeSnapshot := 20 }

/-- A group with no operations and zero counters; `m_minSize` starts at the
largest `uint32_t`. -/
def emptyGroup : MemoryOperationGroup :=
  { m_operations := [], m_minSize := 4294967295, m_maxSize := 0, m_liveSize := 0, m_peakSize := 0,
    m_peakSizeGlobal := 0, m_count := 0, m_liveCount := 0, m_liveCountPeak := 0,
    m_liveCountPeakGlobal := 0 }

/-- Two allocations of distinct blocks at times 10 and 20, from the stack
traces 0 and 1. -/
def twoCallSites : List MemoryOperation :=
  [mkOp OpType.OpAlloc 4096 0 10 32 0,
   { mkOp OpType.OpAlloc 4104 0 20 16 0 with m_stackTrace := 1 }]

/-- Two stack traces of one frame, with the symbol IDs 11 and 12, after the
symbol pass. -/
def oneFrameTraces : List LinkedStackTrace :=
  [{ m_numEntries := 1, m_entries := [1, 11, 18446744073709551615, 18446744073709551615],
     m_next := [none, none], m_addedToTree := [0, 0] },
   { m_numEntries := 1, m_entries := [2, 12, 18446744073709551615, 18446744073709551615],
     m_next := [none, none], m_addedToTree := [0, 0] }]

/-- The cleared filter with filtering enabled and the window `[20, 20]`. -/
def lastInstant : FilterState :=
  { clearedFilter with m_filteringEnabled := true, m_minTimeSnapshot := 20,
                       m_maxTimeSnapshot := 20 }

/-! ## Predicates of the statements -/

/-- The operations are in non-decreasing `m_operationTime` order. -/
def TimeSorted (ops : List MemoryOperation) : Prop :=
  ops.Pairwise (fun a b => a.m_operationTime ≤ b.m_operationTime)

instance (ops : List MemoryOperation) : Decidable (TimeSorted ops) := by
  unfold TimeSorted; infer_instance

/-- The index `i` is the largest one whose operation is strictly before `t`. -/
def IsLastBefore (ops : List MemoryOperation) (t i : Nat) : Prop :=
  (∃ h : i < ops.length, ops[i].m_operationTime < t) ∧
    ∀ (j : Nat) (h : j < ops.length), ops[j].m_operationTime < t → j ≤ i

instance (ops : List MemoryOperation) (t i : Nat) : Decidable (IsLastBefore ops t i) := by
  unfold IsLastBefore; infer_instance

/-- The index `i` is the smallest one whose operation is at or after `t`. -/
def IsFirstAtOrAfter (ops : List MemoryOperation) (t i : Nat) : Prop :=
  (∃ h : i < ops.length, t ≤ ops[i].m_operationTime) ∧
    ∀ (j : Nat) (h : j < ops.length), t ≤ ops[j].m_operationTime → i ≤ j

instance (ops : List MemoryOperation) (t i : Nat) : Decidable (IsFirstAtOrAfter ops t i) := by
  unfold IsFirstAtOrAfter; infer_instance

/-- The index `i` is the smallest one whose operation is strictly after `t`. -/
def IsFirstAfter (ops : List MemoryOperation) (t i : Nat) : Prop :=
  (∃ h : i < ops.length, t < ops[i].m_operationTime) ∧
    ∀ (j : Nat) (h : j < ops.length), t < ops[j].m_operationTime → i ≤ j

instance (ops : List MemoryOperation) (t i : Nat) : Decidable (IsFirstAfter ops t i) := by
  unfold IsFirstAfter; infer_instance

/-- The first operation is strictly before `t`. -/
def FirstIsBefore (ops : List MemoryOperation) (t : Nat) : Prop :=
  ∃ h : 0 < ops.length, ops[0].m_operationTime < t

instance (ops : List MemoryOperation) (t : Nat) : Decidable (FirstIsBefore ops t) := by
  unfold FirstIsBefore; infer_instance

/-- The operation is an `OpAlloc`, `OpCalloc` or `OpAllocAligned`. -/
def isAllocKind (o : MemoryOperation) : Bool :=
  o.m_operationType = OpType.OpAlloc || o.m_operationType = OpType.OpCalloc
    || o.m_operationType = OpType.OpAllocAligned

/-- The operation is an `OpRealloc` or `OpReallocAligned`. -/
def isReallocKind (o : MemoryOperation) : Bool :=
  o.m_operationType = OpType.OpRealloc || o.m_operationType = OpType.OpReallocAligned

/-- The operation behind `p` has no `chain_next` and is neither a `OpFree`
nor a zero-size realloc. -/
def IsLeak (pool : List MemoryOperation) (p : Nat) : Bool :=
  match pool[p]? with
  | some o =>
    decide (o.m_chainNext = none) && decide (o.m_operationType ≠ OpType.OpFree) &&
      !(isReallocKind o && decide (o.m_allocSize = 0))
  | none => false

/-- The value `p->m_chainPrev` (`none` for a dangling pointer). -/
def chainPrevOf (pool : List MemoryOperation) (k : Nat) : Option Nat :=
  match pool[k]? with
  | some o => o.m_chainPrev
  | none => none

/-- The value `p->m_chainNext` (`none` for a dangling pointer). -/
def chainNextOf (pool : List MemoryOperation) (k : Nat) : Option Nat :=
  match pool[k]? with
  | some o => o.m_chainNext
  | none => none

/-- No object has a chain link: what the parser leaves, and what the two
`RTM_ASSERT`s at the head of the sweep expect. -/
def Unlinked (pool : List MemoryOperation) : Prop :=
  ∀ o ∈ pool, o.m_chainPrev = none ∧ o.m_chainNext = none

instance (pool : List MemoryOperation) : Decidable (Unlinked pool) := by
  unfold Unlinked; infer_instance

/-- The entry condition of `setLinksAndRemoveInvalid`: `m_operations` holds
distinct valid pointers, fewer than `2^32` of them, and no object is linked. -/
def LinkReady (c : Capture) : Prop :=
  c.m_operations.Nodup ∧ (∀ p ∈ c.m_operations, p < c.pool.length) ∧ Unlinked c.pool ∧
    c.m_operations.length < 4294967296

instance (c : Capture) : Decidable (LinkReady c) := by
  unfold LinkReady; infer_instance

/-- The two objects agree on every member the parser read from the stream and
the linker never writes. -/
def SameStream (a b : MemoryOperation) : Prop :=
  a.m_operationType = b.m_operationType ∧ a.m_allocatorHandle = b.m_allocatorHandle ∧
  a.m_threadID = b.m_threadID ∧ a.m_operationTime = b.m_operationTime ∧
  a.m_pointer = b.m_pointer ∧ a.m_previousPointer = b.m_previousPointer ∧
  a.m_alignment = b.m_alignment ∧ a.m_stackTrace = b.m_stackTrace ∧ a.m_tag = b.m_tag

/-- The pool `pool1` has the objects of `pool`, each with its stream members. -/
def PoolStatic (pool pool1 : List MemoryOperation) : Prop :=
  pool1.length = pool.length ∧
  ∀ (k : Nat) (o1 : MemoryOperation), pool1[k]? = some o1 →
    ∃ o, pool[k]? = some o ∧ SameStream o o1

/-! ## Auxiliary notions of the proofs -/

/-- What the lookups need of `m_timedStats`: at least two snapshots, the
first for operation `0`, the last for the last operation, and every snapshot
holding the time of the operation it indexes. -/
def TimedWellFormed (ops : List MemoryOperation) (timed : List MemoryStatsTimed) : Prop :=
  2 ≤ timed.length ∧ timed.length ≤ ops.length + 1 ∧
  (∃ st, timed[0]? = some st ∧ st.m_operationIndex = 0) ∧
  (∃ st, timed[timed.length - 1]? = some st ∧ st.m_operationIndex + 1 = ops.length) ∧
  (∀ (k : Nat) (st : MemoryStatsTimed), timed[k]? = some st →
    ∃ op : MemoryOperation, ops[st.m_operationIndex]? = some op ∧ op.m_operationTime = st.m_time)

/-- The snapshot pair `(x - 1, x)` brackets the time `t`. -/
def Bracket (timed : List MemoryStatsTimed) (t x : Nat) : Prop :=
  1 ≤ x ∧ x < timed.length ∧
  (x = 1 ∨ ∃ st, timed[x - 1]? = some st ∧ st.m_time < t) ∧
  (x + 1 = timed.length ∨ ∃ st, timed[x]? = some st ∧ t ≤ st.m_time)

/-- Every operation strictly below position `L` is before `t`, every other one is not. -/
def SplitsAt (ops : List MemoryOperation) (t L : Nat) : Prop :=
  L ≤ ops.length ∧ ∀ i a, ops[i]? = some a → (a.m_operationTime < t ↔ i < L)

/-- The shape of a step that links nothing: the validity flag of `p` is
written, the map becomes `m`, and `p` is recorded as invalid or not. -/
def plainStep (s : LinkState) (p : Nat) (valid recorded : Bool) (m : Nat → Option Nat) :
    LinkState :=
  { pool := writeOp s.pool p (fun x => { x with m_isValid := valid }),
    opMap := m,
    m_operationsInvalid :=
      if recorded then s.m_operationsInvalid ++ [p] else s.m_operationsInvalid }

/-- The writes to an operation that is linked to its predecessor `j`. -/
def linkedRecord (j size overhead : Nat) (x : MemoryOperation) : MemoryOperation :=
  { x with m_isValid := true, m_chainPrev := some j, m_allocSize := size, m_overhead := overhead }

/-- The write `x->m_chainNext = p`. -/
def withNext (p : Nat) (x : MemoryOperation) : MemoryOperation :=
  { x with m_chainNext := some p }

/-- The shape of a step that links `p` to the live operation `j`. -/
def linkedStep (s : LinkState) (p j size overhead : Nat) (m : Nat → Option Nat) : LinkState :=
  { pool := writeOp (writeOp s.pool j (withNext p)) p (linkedRecord j size overhead),
    opMap := m,
    m_operationsInvalid := s.m_operationsInvalid }

/-- Pointer `a` goes before pointer `b`: by time, then by position in the stream. -/
def TimeThenStream (pool : List MemoryOperation) (a b : Nat) : Prop :=
  timeOf pool a < timeOf pool b ∨ (timeOf pool a = timeOf pool b ∧ a < b)

/-- The invariant of the sweep after the pointers `done`, from the pool
`pool0`: the map holds processed, unlinked objects under their own pointer;
unprocessed objects are untouched; no object but a `OpFree` changes size;
processed valid frees and reallocs are linked; the two links are inverse. -/
structure LinkInv (pool0 : List MemoryOperation) (done : List Nat) (s : LinkState) : Prop where
  len : s.pool.length = pool0.length
  map : ∀ (q j : Nat), s.opMap q = some j →
    j ∈ done ∧ ∃ oj, s.pool[j]? = some oj ∧ oj.m_pointer = q ∧ oj.m_chainNext = none
  fresh : ∀ (k : Nat), k ∉ done → s.pool[k]? = pool0[k]?
  sizes : ∀ (k : Nat) (o : MemoryOperation), s.pool[k]? = some o →
    o.m_operationType ≠ OpType.OpFree →
    ∃ o0, pool0[k]? = some o0 ∧ o.m_allocSize = o0.m_allocSize ∧ o.m_overhead = o0.m_overhead
  free : ∀ (k : Nat) (o : MemoryOperation), k ∈ done → s.pool[k]? = some o →
    o.m_operationType = OpType.OpFree → o.m_isValid = true →
    ∃ j oj, j ∈ done ∧ o.m_chainPrev = some j ∧ s.pool[j]? = some oj ∧
      o.m_allocSize = oj.m_allocSize ∧ o.m_overhead = oj.m_overhead
  realloc : ∀ (k : Nat) (o : MemoryOperation), k ∈ done → s.pool[k]? = some o →
    isReallocKind o = true → o.m_previousPointer ≠ 0 → o.m_isValid = true →
    ∃ j oj, j ∈ done ∧ o.m_chainPrev = some j ∧ s.pool[j]? = some oj ∧
      oj.m_pointer = o.m_previousPointer ∧ oj.m_chainNext = some k
  links : ∀ (k j : Nat), chainPrevOf s.pool k = some j ↔ chainNextOf s.pool j = some k

/-- The operation takes a block away when the aggregation reaches it: a
`OpFree`, or a realloc with a non-zero `m_previousPointer`. -/
def releases (o : MemoryOperation) : Bool :=
  decide (o.m_operationType = OpType.OpFree) ||
    (isReallocKind o && decide (o.m_previousPointer ≠ 0))

/-- The pool `pool` has the objects of `P`, up to their member `m_tag`. -/
def TagFrame (P pool : List MemoryOperation) : Prop :=
  pool.length = P.length ∧
  ∀ (k : Nat) (o : MemoryOperation), P[k]? = some o →
    ∃ t, pool[k]? = some { o with m_tag := t }

/-- What one iteration of the aggregation loop dereferences exists: the
object, its successor if it has one, and its predecessor if it releases. -/
def AnalyzeReady (P : List MemoryOperation) (p : Nat) : Prop :=
  ∃ o, P[p]? = some o ∧ (∀ n, o.m_chainNext = some n → n < P.length) ∧
    (releases o = true → ∃ size, chainPrevSize P o = some size)

/-- The running live size over the given pointers, on a pool that does not change. -/
def liveSizeOver (P : List MemoryOperation) : Nat → List Nat → Option Nat
  | liveSize, [] => some liveSize
  | liveSize, p :: rest =>
    match P[p]? with
    | none => none
    | some o =>
      match updateLiveSize P o liveSize with
      | none => none
      | some liveSize1 => liveSizeOver P liveSize1 rest

/-- The operation has no successor and `isLeaked` holds for it. -/
def isLeakEnd (P : List MemoryOperation) (p : Nat) : Bool :=
  match P[p]? with
  | some o => decide (o.m_chainNext = none) && isLeaked o
  | none => false

/-- The order invariant of the sweep after the pointers `done`: the map holds
no `OpFree`; an object with a predecessor releases a block, and its
predecessor is not a `OpFree` and was processed before it. -/
structure LinkOrder (done : List Nat) (s : LinkState) : Prop where
  mapKind : ∀ (q j : Nat), s.opMap q = some j →
    ∃ oj, s.pool[j]? = some oj ∧ oj.m_operationType ≠ OpType.OpFree
  prev : ∀ (k j : Nat) (ok : MemoryOperation), s.pool[k]? = some ok → ok.m_chainPrev = some j →
    releases ok = true ∧ (∃ oj, s.pool[j]? = some oj ∧ oj.m_operationType ≠ OpType.OpFree) ∧
      ∃ pre post, done = pre ++ k :: post ∧ j ∈ pre

/-- The statistics after the operations `ops`, from `stats`: each operation
is counted and given to its `fillStats_` function. -/
def statsOver (h : StatsHelpers) (stats : MemoryStats) (ops : List MemoryOperation) :
    MemoryStats :=
  ops.foldl (fun s op => countAndFill h op s) stats

/-- The helper functions leave `m_numberOfOperations` as it is. -/
def KeepsCount (h : StatsHelpers) : Prop :=
  (∀ op s, (h.fillStats_Alloc op s).m_numberOfOperations = s.m_numberOfOperations) ∧
  (∀ op s, (h.fillStats_ReAlloc op s).m_numberOfOperations = s.m_numberOfOperations) ∧
  (∀ op s, (h.fillStats_Free op s).m_numberOfOperations = s.m_numberOfOperations) ∧
  (∀ s, (h.setPeaksToCurrent s).m_numberOfOperations = s.m_numberOfOperations) ∧
  (∀ s p, (h.setPeaksFrom s p).m_numberOfOperations = s.m_numberOfOperations)

/-- The effect of one record on the tags entered and not yet left on thread
`T`: only `EnterTag` and `LeaveTag` records of `T` change them. -/
def tagStep (T : Nat) (stack : List Nat) : LogEvent → List Nat
  | LogEvent.enterTag tagHash threadID => if threadID = T then stack ++ [tagHash] else stack
  | LogEvent.leaveTag _ threadID => if threadID = T then stack.dropLast else stack
  | _ => stack

/-- The tags entered and not yet left on thread `T` after the records
`events`, oldest first. -/
def threadTags (events : List LogEvent) (T : Nat) : List Nat :=
  events.foldl (tagStep T) []

/-- The number of memory operation records among `events`. -/
def memOpCount (events : List LogEvent) : Nat :=
  (events.filter (fun e => match e with
    | LogEvent.memOp _ => true
    | _ => false)).length

/-- The record at position `n` is no `LeaveTag`, or a tag is entered and not
yet left on its thread. -/
def leaveFindsTag (events : List LogEvent) (n : Nat) : Bool :=
  match events[n]? with
  | some (LogEvent.leaveTag _ T) => !(threadTags (events.take n) T).isEmpty
  | _ => true

/-- Every `LeaveTag` record leaves a tag that was entered on its thread. -/
def WellNested (events : List LogEvent) : Prop :=
  ∀ n < events.length, leaveFindsTag events n = true

instance (events : List LogEvent) : Decidable (WellNested events) := by
  unfold WellNested; infer_instance

/-- The record is an `EnterTag` or a `LeaveTag` of thread `T`. -/
def onThread (T : Nat) : LogEvent → Bool
  | LogEvent.enterTag _ threadID => decide (threadID = T)
  | LogEvent.leaveTag _ threadID => decide (threadID = T)
  | _ => false

/-- The object the parser stores for a memory operation record: the members
read from the stream, no links, the given tag, valid. -/
def parsedOp (op : MemoryOperation) (tag : Nat) : MemoryOperation :=
  { op with m_chainPrev := none, m_chainNext := none, m_tag := tag, m_isValid := true }

/-- The most recently entered tag of a stack, 0 for an empty stack. -/
def topTag (stack : List Nat) : Nat :=
  stack.getLast?.getD 0

/-- The hash under which the parse loop files a trace with the given frames. -/
def hashOfFrames (frames : List Nat) : Nat :=
  u32 (stackTraceGetHash frames frames.length)

/-- Two `Add` records with the same hash have the same frames. -/
def sameHashSameFrames : StackTraceEntry → StackTraceEntry → Bool
  | StackTraceEntry.Add f, StackTraceEntry.Add g =>
    decide (hashOfFrames f ≠ hashOfFrames g) || decide (f = g)
  | _, _ => true

/-- No two different frame sequences of the `Add` records of the stream have
the same hash. -/
def NoHashCollision (entries : List StackTraceEntry) : Prop :=
  ∀ e ∈ entries, ∀ e1 ∈ entries, sameHashSameFrames e e1 = true

/-- The entry is an `Add` record of at most 512 frames. -/
def isShortAdd : StackTraceEntry → Bool
  | StackTraceEntry.Add f => decide (f.length ≤ 512)
  | StackTraceEntry.Exists _ => false

/-- The invariant of interning without collisions: every object holds the
frames of an `Add` record of the stream and is filed under its hash, and
every entry of the map points at an object. -/
structure InternInv (entries : List StackTraceEntry) (t : TraceTable) : Prop where
  wf : ∀ (i : Nat) (st : StackTrace), t.m_stackTraces[i]? = some st →
    st.m_numEntries = st.m_entries.length ∧ st.m_entries.length ≤ 512 ∧
      StackTraceEntry.Add st.m_entries ∈ entries ∧
      t.m_stackTracesHash (hashOfFrames st.m_entries) = some i
  map : ∀ (h i : Nat), t.m_stackTracesHash h = some i →
    ∃ st, t.m_stackTraces[i]? = some st ∧ hashOfFrames st.m_entries = h

/-- The length of the longest leading run of instrumentation frames of a
stack trace. -/
def leadingSkip (resolve : Nat → Nat × Bool) (st : StackTrace) : Nat :=
  ((st.m_entries.take st.m_numEntries).takeWhile (fun a => (resolve a).2)).length

/-- The value `p->m_tag` (0 for a dangling pointer). -/
def tagAt (pool : List MemoryOperation) (k : Nat) : Nat :=
  match pool[k]? with
  | some o => o.m_tag
  | none => 0

/-- What tag propagation needs of the linked pool `P` and the operation list
`ops`: the pointers are distinct, the successor of an operation is not the
operation itself and comes after it, no two operations have the same
successor, and the aggregation can dereference what it meets. -/
structure TagOrder (P : List MemoryOperation) (ops : List Nat) : Prop where
  nodup : ops.Nodup
  later : ∀ (pre post : List Nat) (p s : Nat), ops = pre ++ p :: post →
    chainNextOf P p = some s → s ∉ pre ∧ s ≠ p
  unique : ∀ (j j1 k : Nat), chainNextOf P j = some k → chainNextOf P j1 = some k → j = j1
  ready : ∀ p ∈ ops, AnalyzeReady P p

/-- The invariant of tag propagation after the operations `done`, on the pool
`Q` that started as `P`: an object that is the successor of none of them has
its tag of `P`; the successor of one of them has that operation's tag if its
own tag in `P` is 0, and its tag of `P` otherwise. -/
structure TagInv (P : List MemoryOperation) (done : List Nat) (Q : List MemoryOperation) :
    Prop where
  untouched : ∀ (k : Nat), (∀ j ∈ done, chainNextOf P j ≠ some k) → tagAt Q k = tagAt P k
  passed : ∀ j ∈ done, ∀ (k : Nat), chainNextOf P j = some k →
    tagAt Q k = if tagAt P k = 0 then tagAt Q j else tagAt P k

/-- The children of the node `k` (none for an index outside the tree). -/
def childrenAt (nodes : List StackTraceTree) (k : Nat) : List Nat :=
  match nodes[k]? with
  | some nd => nd.m_children
  | none => []

/-- The member `m_depth` of the node `k`. -/
def depthAt (nodes : List StackTraceTree) (k : Nat) : Option Nat :=
  (nodes[k]?).map (fun nd => nd.m_depth)

/-- The nodes form a tree as `addToTree` builds it: a child is a node made
after its parent, one level deeper. -/
def TreeWF (nodes : List StackTraceTree) : Prop :=
  ∀ k < nodes.length, ∀ c ∈ childrenAt nodes k,
    k < c ∧ depthAt nodes c = (depthAt nodes k).map (fun d => d + 1)

/-- The scratch slots of a stack trace are consistent with the tree on the
walk of `addToTree` with `currFrame + 1` iterations left at `currNode`: every
slot met is the sentinel or the position of a child with the symbol ID of the
frame, and once a child is missing the slots of the frames above are the
sentinel. -/
def cacheOK (nodes : List StackTraceTree) (entries : List Nat) (numFrames _offset : Nat) :
    Nat → Nat → Bool
  | 0, _ => true
  | currFrame + 1, currNode =>
    match entries[currFrame + numFrames]? with
    | none => false
    | some currUniqueID =>
      match entries[currFrame + numFrames * (_offset + 2)]? with
      | none => false
      | some currUniqueIDIdx =>
        if currUniqueIDIdx = 18446744073709551615 then
          match findChild nodes currUniqueID (childrenAt nodes currNode) 0 with
          | some (_, c) => cacheOK nodes entries numFrames _offset currFrame c
          | none =>
            (List.range currFrame).all (fun f =>
              decide (entries[f + numFrames * (_offset + 2)]? = some 18446744073709551615))
        else
          match (childrenAt nodes currNode)[u32 currUniqueIDIdx]? with
          | some c =>
            decide ((nodes[c]?).map (fun nd => nd.m_addressID) = some currUniqueID) &&
              cacheOK nodes entries numFrames _offset currFrame c
          | none => false

/-- What a call of `addToTree` needs of the tree, the node of the constructor
and the stack trace: a well-formed tree whose root has depth 0, a new node
without children, the arrays of the stack trace long enough for its
`m_numEntries` frames, and consistent scratch slots. -/
def AddReady (ctor : StackTraceTree) (nodes : List StackTraceTree) (tr : LinkedStackTrace)
    (_root _offset : Nat) : Prop :=
  TreeWF nodes ∧ ctor.m_children = [] ∧ depthAt nodes _root = some 0 ∧
    (_offset + 3) * tr.m_numEntries ≤ tr.m_entries.length ∧
    tr.m_numEntries < tr.m_next.length ∧ _offset < tr.m_addedToTree.length ∧
    cacheOK nodes tr.m_entries tr.m_numEntries _offset tr.m_numEntries _root = true

instance (nodes : List StackTraceTree) : Decidable (TreeWF nodes) := by
  unfold TreeWF; infer_instance

instance (ctor : StackTraceTree) (nodes : List StackTraceTree) (tr : LinkedStackTrace)
    (_root _offset : Nat) : Decidable (AddReady ctor nodes tr _root _offset) := by
  unfold AddReady; infer_instance

/-- The aggregates of a node: `m_memUsage`, `m_memUsagePeak`, `m_overhead`,
`m_overheadPeak` and `m_opCount`. -/
def usageOf (nd : StackTraceTree) : Int × Int × Int × Int × OpCount :=
  (nd.m_memUsage, nd.m_memUsagePeak, nd.m_overhead, nd.m_overheadPeak, nd.m_opCount)

/-- The aggregates of the node `k` before a call: those of the node, or those
of a node of the constructor when the call makes the node. -/
def usageBefore (ctor : StackTraceTree) (nodes : List StackTraceTree) (k : Nat) :
    Int × Int × Int × Int × OpCount :=
  usageOf ((nodes[k]?).getD ctor)

/-- The aggregates after `dSize` and `dOverhead` are added: the new usage,
the larger of the previous peak and the new usage, the same for the
overhead, and the counter of `kind` incremented unless `kind` is `Count`. -/
def usageAdded (dSize dOverhead : Int) (kind : TreeOpType)
    (u : Int × Int × Int × Int × OpCount) : Int × Int × Int × Int × OpCount :=
  (u.1 + dSize, max u.2.1 (u.1 + dSize), u.2.2.1 + dOverhead,
    max u.2.2.2.1 (u.2.2.1 + dOverhead),
    if kind = TreeOpType.Count then u.2.2.2.2 else u.2.2.2.2.inc kind)

/-- The peaks of the aggregates are not below the current values. -/
def PeakOK (u : Int × Int × Int × Int × OpCount) : Prop :=
  u.1 ≤ u.2.1 ∧ u.2.2.1 ≤ u.2.2.2.1

/-- The tree `nodes1` has the nodes of `nodes` with their symbol ID and
depth, and every node has the children it had, in order, and maybe more. -/
def TreeExtends (nodes nodes1 : List StackTraceTree) : Prop :=
  nodes.length ≤ nodes1.length ∧
  ∀ (k : Nat) (nd : StackTraceTree), nodes[k]? = some nd →
    ∃ nd1, nodes1[k]? = some nd1 ∧ nd1.m_addressID = nd.m_addressID ∧
      nd1.m_depth = nd.m_depth ∧ nd.m_children <+: nd1.m_children

/-- The trees have the same nodes up to the aggregates, the parent and the
list of stack traces. -/
def SameShape (nodes nodes1 : List StackTraceTree) : Prop :=
  nodes1.length = nodes.length ∧
  ∀ (k : Nat) (nd : StackTraceTree), nodes[k]? = some nd →
    ∃ nd1, nodes1[k]? = some nd1 ∧ nd1.m_addressID = nd.m_addressID ∧
      nd1.m_depth = nd.m_depth ∧ nd1.m_children = nd.m_children

/-- What the walk of `addToTree` from the node `cur` over `f` frames leaves:
the nodes `path` it visits, one for each frame, each a child of the one
before and made after it, with the symbol ID of its frame and the depth of
its level; the aggregates of the visited nodes with the deltas added and
those of the other nodes as before; every node made by the walk on the
path. -/
structure PathResult (ctor : StackTraceTree) (dSize dOverhead : Int) (kind : TreeOpType)
    (entries : List Nat) (n f : Nat) (nodes nodes1 : List StackTraceTree) (cur : Nat)
    (path : List Nat) : Prop where
  len : path.length = f
  wf : TreeWF nodes1
  ext : TreeExtends nodes nodes1
  above : ∀ p ∈ path, cur < p
  sorted : path.Pairwise (fun a b => a < b)
  chain : List.Chain (fun a b => b ∈ childrenAt nodes1 a) cur path
  ids : ∀ (i p : Nat), path[i]? = some p →
    ∃ nd, nodes1[p]? = some nd ∧ entries[(f - 1 - i) + n]? = some nd.m_addressID ∧
      nd.m_depth = n - f + i + 1
  usage : ∀ (k : Nat) (nd1 : StackTraceTree), nodes1[k]? = some nd1 →
    usageOf nd1 = if k ∈ path then usageAdded dSize dOverhead kind (usageBefore ctor nodes k)
      else usageBefore ctor nodes k
  fresh : ∀ (k : Nat), nodes.length ≤ k → k < nodes1.length → k ∈ path

/-- The walk along a list of "traces through this node" of a node of depth
`depth`, from the pointer `head`: each stack trace met and then its
`m_next[depth]`, for at most `fuel` stack traces. -/
def traceListWalk (traces : List LinkedStackTrace) (depth : Nat) :
    Nat → Option Nat → List Nat
  | 0, _ => []
  | _ + 1, none => []
  | fuel + 1, some t =>
    t :: (match traces[t]? with
      | some tr =>
        (match tr.m_next[depth]? with
         | some next => traceListWalk traces depth fuel next
         | none => [])
      | none => [])

/-- The first `fuel` stack traces of the list of the node `node`: the walk
from its `m_stackTraceList` along the links `m_next[m_depth]`. -/
def tracesThrough (nodes : List StackTraceTree) (traces : List LinkedStackTrace)
    (node fuel : Nat) : List Nat :=
  match nodes[node]? with
  | some nd => traceListWalk traces nd.m_depth fuel nd.m_stackTraceList
  | none => []

/-- The part of the group invariant that every call of `addToMemoryGroups`
keeps: `m_count` is the number of stored operations (as a `uint32_t`). -/
def GroupCounted (g : MemoryOperationGroup) : Prop :=
  g.m_count = u32 g.m_operations.length

instance (g : MemoryOperationGroup) : Decidable (GroupCounted g) := by
  unfold GroupCounted; infer_instance

/-- No node has two children with the same address ID. -/
def UniqueChildIDs (nodes : List StackTraceTree) : Prop :=
  ∀ k < nodes.length,
    ((childrenAt nodes k).map (fun c => (nodes[c]?).map (fun nd => nd.m_addressID))).Nodup

instance (nodes : List StackTraceTree) : Decidable (UniqueChildIDs nodes) := by
  unfold UniqueChildIDs; infer_instance

/-- The arrays of the stack trace are long enough for its `m_numEntries`
frames and its scratch slots of the scope `_offset` hold the sentinel. -/
def FreshScratch (tr : LinkedStackTrace) (_offset : Nat) : Prop :=
  (_offset + 3) * tr.m_numEntries ≤ tr.m_entries.length ∧
  tr.m_numEntries < tr.m_next.length ∧ _offset < tr.m_addedToTree.length ∧
  ∀ g < tr.m_numEntries,
    tr.m_entries[g + tr.m_numEntries * (_offset + 2)]? = some 18446744073709551615

instance (tr : LinkedStackTrace) (_offset : Nat) : Decidable (FreshScratch tr _offset) := by
  unfold FreshScratch; infer_instance

/-- The calls `addToTree(&tree, trace, size, overhead, _offset, opType)` for
the listed arguments, in order, on the tree whose root is the node 0. -/
def addAllToTree (ctor : StackTraceTree) (_offset : Nat) :
    List (Nat × Int × Int × TreeOpType) → List StackTraceTree → List LinkedStackTrace →
      Option (List StackTraceTree × List LinkedStackTrace)
  | [], nodes, traces => some (nodes, traces)
  | (t, s, o, k) :: rest, nodes, traces =>
    match addToTree ctor nodes traces 0 t s o _offset k with
    | none => none
    | some (nodes1, traces1) => addAllToTree ctor _offset rest nodes1 traces1

/-- The state that calls of `addToTree` on one tree keep: a well-formed tree
whose root, the node 0, has depth 0, no node with two children of the same
symbol ID, and every stack trace with arrays long enough for its frames and
scratch slots consistent with the tree. -/
structure TreeInv (_offset : Nat) (nodes : List StackTraceTree)
    (traces : List LinkedStackTrace) : Prop where
  wf : TreeWF nodes
  root : depthAt nodes 0 = some 0
  unique : UniqueChildIDs nodes
  ready : ∀ (t : Nat) (tr : LinkedStackTrace), traces[t]? = some tr →
    (_offset + 3) * tr.m_numEntries ≤ tr.m_entries.length ∧
    tr.m_numEntries < tr.m_next.length ∧ _offset < tr.m_addedToTree.length ∧
    cacheOK nodes tr.m_entries tr.m_numEntries _offset tr.m_numEntries 0 = true

/-! # Theorems -/

/-! ## Lemmas -/

theorem timeSorted_le {ops : List MemoryOperation} (hs : TimeSorted ops) {i j : Nat}
    {a b : MemoryOperation} (hi : ops[i]? = some a) (hj : ops[j]? = some b) (hij : i ≤ j) :
    a.m_operationTime ≤ b.m_operationTime := by
  rcases Nat.eq_or_lt_of_le hij with h | h
  · subst h
    rw [hi] at hj
    cases hj
    exact le_refl _
  · obtain ⟨h1, rfl⟩ := List.getElem?_eq_some.mp hi
    obtain ⟨h2, rfl⟩ := List.getElem?_eq_some.mp hj
    exact (List.pairwise_iff_getElem.mp hs) i j h1 h2 h

theorem splitsAt_of_isLastBefore {ops : List MemoryOperation} (hs : TimeSorted ops) {t i : Nat}
    (h : IsLastBefore ops t i) : SplitsAt ops t (i + 1) := by
  obtain ⟨⟨hlt, hat⟩, hmax⟩ := h
  have ha := List.getElem?_eq_getElem hlt
  refine ⟨hlt, fun j b hb => ⟨fun hbt => ?_, fun hj => ?_⟩⟩
  · obtain ⟨hjlt, rfl⟩ := List.getElem?_eq_some.mp hb
    exact Nat.lt_succ_of_le (hmax j hjlt hbt)
  · exact lt_of_le_of_lt (timeSorted_le hs hb ha (Nat.le_of_lt_succ hj)) hat

theorem splitsAt_of_isFirstAtOrAfter {ops : List MemoryOperation} (hs : TimeSorted ops) {t i : Nat}
    (h : IsFirstAtOrAfter ops t i) : SplitsAt ops t i := by
  obtain ⟨⟨hlt, hat⟩, hmin⟩ := h
  have ha := List.getElem?_eq_getElem hlt
  refine ⟨le_of_lt hlt, fun j b hb => ⟨fun hbt => ?_, fun hj => ?_⟩⟩
  · by_contra hcon
    have := timeSorted_le hs ha hb (not_lt.mp hcon)
    omega
  · by_contra hcon
    obtain ⟨hjlt, rfl⟩ := List.getElem?_eq_some.mp hb
    have := hmin j hjlt (not_lt.mp hcon)
    omega

theorem u32_of_lt {x : Nat} (h : x < 4294967296) : u32 x = x := Nat.mod_eq_of_lt h

/-- The operation bisection of `getIndexBefore` returns the split position. -/
theorem getIndexBeforeLoop_eq {ops : List MemoryOperation} {t L : Nat} (hL : SplitsAt ops t L)
    (hn : ops.length < 2147483648) :
    ∀ (fuel startIdx endIdx : Nat), endIdx - startIdx < fuel → startIdx < endIdx →
      endIdx ≤ ops.length → (startIdx < L ∨ (startIdx = 0 ∧ L = 0)) → L ≤ endIdx →
      getIndexBeforeLoop ops t fuel startIdx endIdx = some L := by
  intro fuel
  induction fuel with
  | zero => intro s e h; omega
  | succ fuel ih =>
    intro s e hfuel hse hen hlo hhi
    have hmid : u32 (s + e) / 2 = (s + e) / 2 := by rw [u32_of_lt (by omega)]
    have hmlt : (s + e) / 2 < ops.length := by omega
    obtain ⟨hLn, hsplit⟩ := hL
    have hs? : ops[s]? = some ops[s] := List.getElem?_eq_getElem (by omega)
    rw [getIndexBeforeLoop, if_pos hse]
    simp only [hmid, List.getElem?_eq_getElem hmlt]
    have hm := hsplit _ _ (List.getElem?_eq_getElem hmlt)
    by_cases hc : ops[(s + e) / 2].m_operationTime < t
    · have hmL : (s + e) / 2 < L := hm.mp hc
      simp only [hc, if_true]
      by_cases hg : e - (s + e) / 2 = 1
      · rw [if_pos hg, List.getElem?_eq_getElem hmlt]
        simp only []
        rw [if_neg (by omega)]
        congr 1
        omega
      · rw [if_neg hg]
        exact ih _ _ (by omega) (by omega) hen (Or.inl hmL) hhi
    · have hmL : L ≤ (s + e) / 2 := by
        by_contra hcon
        exact hc (hm.mpr (not_le.mp hcon))
      simp only [hc, if_false]
      by_cases hg : (s + e) / 2 - s = 1
      · rw [if_pos hg, hs?]
        simp only []
        have hs := hsplit _ _ hs?
        by_cases hst : ops[s].m_operationTime < t
        · rw [if_neg (by omega)]
          have := hs.mp hst
          congr 1
          omega
        · rw [if_pos (by omega)]
          have : ¬ s < L := fun h => hst (hs.mpr h)
          rcases hlo with h | ⟨h0, hL0⟩
          · exact absurd h this
          · simp [h0, hL0]
      · rw [if_neg hg]
        by_cases heq : (s + e) / 2 = s
        · have hL0 : L = 0 := by omega
          cases fuel with
          | zero => omega
          | succ fuel => rw [heq, getIndexBeforeLoop, if_neg (by omega), hL0]
        · exact ih _ _ (by omega) (by omega) (by omega) hlo hmL

/-- The operation bisection of `getIndexAfter` returns the split position
when the bracket starts strictly before `t`. -/
theorem getIndexAfterLoop_eq {ops : List MemoryOperation} {t L : Nat} (hL : SplitsAt ops t L)
    (hn : ops.length < 2147483648) :
    ∀ (fuel startIdx endIdx : Nat), endIdx - startIdx < fuel → startIdx < endIdx →
      endIdx ≤ ops.length → startIdx < L → L ≤ endIdx →
      getIndexAfterLoop ops t fuel startIdx endIdx = some L := by
  intro fuel
  induction fuel with
  | zero => intro s e h; omega
  | succ fuel ih =>
    intro s e hfuel hse hen hlo hhi
    have hmid : u32 (s + e) / 2 = (s + e) / 2 := by rw [u32_of_lt (by omega)]
    have hmlt : (s + e) / 2 < ops.length := by omega
    obtain ⟨hLn, hsplit⟩ := hL
    have hs? : ops[s]? = some ops[s] := List.getElem?_eq_getElem (by omega)
    rw [getIndexAfterLoop, if_pos hse]
    simp only [hmid, List.getElem?_eq_getElem hmlt]
    have hm := hsplit _ _ (List.getElem?_eq_getElem hmlt)
    by_cases hc : ops[(s + e) / 2].m_operationTime < t
    · have hmL : (s + e) / 2 < L := hm.mp hc
      simp only [hc, if_true]
      by_cases hg : e - (s + e) / 2 = 1
      · rw [if_pos hg, List.getElem?_eq_getElem hmlt]
        simp only []
        rw [if_neg (by omega)]
        congr 1
        omega
      · rw [if_neg hg]
        exact ih _ _ (by omega) (by omega) hen hmL hhi
    · have hmL : L ≤ (s + e) / 2 := by
        by_contra hcon
        exact hc (hm.mpr (not_le.mp hcon))
      simp only [hc, if_false]
      by_cases hg : (s + e) / 2 - s = 1
      · rw [if_pos hg, hs?]
        simp only []
        have hst : ops[s].m_operationTime < t := (hsplit _ _ hs?).mpr hlo
        rw [if_neg (by omega)]
        congr 1
        omega
      · rw [if_neg hg]
        exact ih _ _ (by omega) (by omega) (by omega) hlo hmL

theorem timedLoop_length_le (mask : Nat) :
    ∀ (l : List MemoryOperation) (i : Nat), (timedLoop mask i l).length ≤ l.length := by
  intro l
  induction l with
  | nil => intro i; simp [timedLoop]
  | cons op rest ih =>
    intro i
    have := ih (i + 1)
    rw [timedLoop]
    split <;> simp <;> omega

theorem timedLoop_mem (mask : Nat) :
    ∀ (l : List MemoryOperation) (i : Nat) (st : MemoryStatsTimed), st ∈ timedLoop mask i l →
      ∃ k op, l[k]? = some op ∧ st = ⟨op.m_operationTime, u32 (i + k)⟩ := by
  intro l
  induction l with
  | nil => intro i st h; simp [timedLoop] at h
  | cons op rest ih =>
    intro i st h
    rw [timedLoop, List.mem_append] at h
    rcases h with h | h
    · split at h
      · rw [List.mem_singleton] at h
        exact ⟨0, op, by simp, by simpa using h⟩
      · simp at h
    · obtain ⟨k, op1, hk, hst⟩ := ih (i + 1) st h
      refine ⟨k + 1, op1, by simpa using hk, ?_⟩
      rw [hst]
      congr 2
      omega

/-- The table left by `calculateGlobalStats` is well formed. -/
theorem calculateGlobalStatsTimed_wellFormed {ops : List MemoryOperation} (h0 : 0 < ops.length)
    (hn : ops.length < 2147483648) :
    ∃ timed, calculateGlobalStatsTimed ops = some timed ∧ TimedWellFormed ops timed := by
  have hlast : ops[ops.length - 1]? = some ops[ops.length - 1] :=
    List.getElem?_eq_getElem (by omega)
  have hcalc : calculateGlobalStatsTimed ops = some (timedLoop (getGranularityMask ops.length) 0 ops
      ++ [⟨ops[ops.length - 1].m_operationTime, u32 (ops.length - 1)⟩]) := by
    rw [calculateGlobalStatsTimed]
    simp only [hlast]
  refine ⟨_, hcalc, ?_⟩
  generalize getGranularityMask ops.length = mask
  have hlen := timedLoop_length_le mask ops 0
  have hpos : 1 ≤ (timedLoop mask 0 ops).length := by
    cases ops with
    | nil => simp at h0
    | cons op rest => simp [timedLoop]
  refine ⟨by simp; omega, by simp; omega, ?_, ?_, ?_⟩
  · cases ops with
    | nil => simp at h0
    | cons op rest => exact ⟨⟨op.m_operationTime, u32 0⟩, by simp [timedLoop], by simp [u32]⟩
  · refine ⟨⟨ops[ops.length - 1].m_operationTime, u32 (ops.length - 1)⟩, ?_, ?_⟩
    · simp only [List.length_append, List.length_singleton, Nat.add_sub_cancel]
      exact List.getElem?_concat_length _ _
    · simp only []
      rw [u32_of_lt (by omega)]
      omega
  · intro k st hk
    have hmem : st ∈ timedLoop mask 0 ops ++ [⟨ops[ops.length - 1].m_operationTime,
        u32 (ops.length - 1)⟩] := List.mem_iff_getElem?.mpr ⟨k, hk⟩
    rw [List.mem_append, List.mem_singleton] at hmem
    rcases hmem with hmem | hmem
    · obtain ⟨j, op, hj, hst⟩ := timedLoop_mem mask ops 0 st hmem
      obtain ⟨hjlt, -⟩ := List.getElem?_eq_some.mp hj
      refine ⟨op, ?_, by rw [hst]⟩
      rw [hst]
      simp only []
      rw [u32_of_lt (by omega), Nat.zero_add]
      exact hj
    · refine ⟨_, ?_, by rw [hmem]⟩
      rw [hmem]
      simp only []
      rw [u32_of_lt (by omega)]
      exact hlast

/-- The snapshot bisection ends on a bracketing pair. -/
theorem timedBisect_bracket {timed : List MemoryStatsTimed} {t : Nat} :
    ∀ (fuel tsIdxMin tsIdxMax : Nat), tsIdxMax - tsIdxMin < fuel → tsIdxMin + 2 ≤ tsIdxMax →
      tsIdxMax < timed.length →
      (tsIdxMin = 0 ∨ ∃ st, timed[tsIdxMin]? = some st ∧ st.m_time < t) →
      (tsIdxMax + 1 = timed.length ∨ ∃ st, timed[tsIdxMax]? = some st ∧ t ≤ st.m_time) →
      ∃ x, timedBisect timed t fuel tsIdxMin tsIdxMax = some x ∧ Bracket timed t x := by
  intro fuel
  induction fuel with
  | zero => intro a b h; omega
  | succ fuel ih =>
    intro a b hfuel hab hb
    have hmlt : (a + b) / 2 < timed.length := by omega
    have hab1 : b > a := by omega
    have hf1 : b - (a + b) / 2 < fuel := by omega
    have hf2 : (a + b) / 2 - a < fuel := by omega
    have hg1 : b - (a + b) / 2 ≠ 1 → (a + b) / 2 + 2 ≤ b := by omega
    have hg2 : (a + b) / 2 - a ≠ 1 → a + 2 ≤ (a + b) / 2 := by omega
    have hg3 : b - (a + b) / 2 = 1 → b - 1 = (a + b) / 2 := by omega
    have hg4 : (a + b) / 2 - a = 1 → (a + b) / 2 - 1 = a := by omega
    have hg5 : a = 0 → (a + b) / 2 - a = 1 → (a + b) / 2 = 1 := by omega
    have hb1 : 1 ≤ b := by omega
    have hm1 : 1 ≤ (a + b) / 2 := by omega
    have hmb : (a + b) / 2 < timed.length := by omega
    intro hlo hhi
    have hm? := List.getElem?_eq_getElem hmlt
    rw [timedBisect, if_pos hab1]
    simp only [hm?]
    by_cases hc : timed[(a + b) / 2].m_time < t
    · simp only [hc, if_true]
      by_cases hg : b - (a + b) / 2 = 1
      · rw [if_pos hg]
        refine ⟨b, rfl, hb1, hb, Or.inr ⟨_, ?_, hc⟩, hhi⟩
        rw [← hm?, hg3 hg]
      · rw [if_neg hg]
        exact ih _ _ hf1 (hg1 hg) hb (Or.inr ⟨_, hm?, hc⟩) hhi
    · simp only [hc, if_false]
      by_cases hg : (a + b) / 2 - a = 1
      · rw [if_pos hg]
        refine ⟨_, rfl, hm1, hmlt, ?_, Or.inr ⟨_, hm?, not_lt.mp hc⟩⟩
        rcases hlo with h | ⟨st, hst, hlt⟩
        · left; exact hg5 h hg
        · right
          refine ⟨st, ?_, hlt⟩
          rw [← hst, hg4 hg]
      · rw [if_neg hg]
        exact ih _ _ hf2 (hg2 hg) hmb hlo (Or.inr ⟨_, hm?, not_lt.mp hc⟩)

/-- A bracketing snapshot pair yields an operation range that contains the
split position. -/
theorem timedBracket_of_bracket {ops : List MemoryOperation} {timed : List MemoryStatsTimed}
    {t L x : Nat} (hwf : TimedWellFormed ops timed) (hL : SplitsAt ops t L)
    (hn : ops.length < 2147483648) (hx : Bracket timed t x) :
    ∃ s e, timedBracket timed x = some (s, e, x - 1) ∧ s < e ∧ e ≤ ops.length ∧
      (s < L ∨ (s = 0 ∧ L = 0)) ∧ L ≤ e := by
  obtain ⟨hlen2, hlenle, ⟨st0, hst0, hidx0⟩, ⟨stl, hstl, hidxl⟩, hall⟩ := hwf
  obtain ⟨hx1, hxlt, hlo, hhi⟩ := hx
  obtain ⟨hLn, hsplit⟩ := hL
  obtain ⟨stLo, hp?⟩ : ∃ st, timed[x - 1]? = some st :=
    ⟨_, List.getElem?_eq_getElem (show x - 1 < timed.length by omega)⟩
  obtain ⟨stHi, hx?⟩ : ∃ st, timed[x]? = some st := ⟨_, List.getElem?_eq_getElem hxlt⟩
  obtain ⟨opLo, hopLo, htLo⟩ := hall _ _ hp?
  obtain ⟨opHi, hopHi, htHi⟩ := hall _ _ hx?
  obtain ⟨hLoLt, -⟩ := List.getElem?_eq_some.mp hopLo
  obtain ⟨hHiLt, -⟩ := List.getElem?_eq_some.mp hopHi
  have hloL : stLo.m_operationIndex < L ∨ (stLo.m_operationIndex = 0 ∧ L = 0) := by
    rcases hlo with h | ⟨st, hst, hlt⟩
    · have h0 : stLo = st0 := by
        have hx0 : x - 1 = 0 := by omega
        rw [hx0, hst0] at hp?
        exact (Option.some.inj hp?).symm
      rw [h0, hidx0]
      omega
    · rw [hp?] at hst
      cases hst
      left
      exact (hsplit _ _ hopLo).mp (by omega)
  have hhiL : L ≤ stHi.m_operationIndex + 1 := by
    rcases hhi with h | ⟨st, hst, hle⟩
    · have h1 : stHi = stl := by
        have hxl : timed.length - 1 = x := by omega
        rw [hxl, hx?] at hstl
        exact Option.some.inj hstl
      rw [h1, hidxl]
      exact hLn
    · rw [hx?] at hst
      cases hst
      by_contra hcon
      have := (hsplit _ _ hopHi).mpr (by omega)
      omega
  have he : u32 (stHi.m_operationIndex + 1) = stHi.m_operationIndex + 1 :=
    u32_of_lt (by omega)
  have hxb : x < 4294967296 := by omega
  have hprev : u32 (x + 4294967295) = x - 1 := by
    unfold u32
    omega
  refine ⟨stLo.m_operationIndex, stHi.m_operationIndex + 1, ?_, by omega, by omega,
    hloL, hhiL⟩
  rw [timedBracket]
  simp only [hprev, hp?, hx?, he]

/-- With a well-formed snapshot table and time-sorted operations,
`getIndexBefore` returns the number of operations strictly before `t`. -/
theorem getIndexBefore_eq_split {ops : List MemoryOperation} {timed : List MemoryStatsTimed}
    {t L : Nat} (hwf : TimedWellFormed ops timed) (hL : SplitsAt ops t L)
    (hn : ops.length < 2147483648) :
    ∃ ti, getIndexBefore ops timed t = some (L, ti) := by
  have hbr : ∃ x, (if timed.length - 1 = 1 then some 1
      else timedBisect timed t (timed.length - 1 + 1) 0 (timed.length - 1)) = some x ∧
      Bracket timed t x := by
    by_cases h2 : timed.length - 1 = 1
    · rw [if_pos h2]
      exact ⟨1, rfl, le_refl _, by omega, Or.inl rfl, Or.inl (by omega)⟩
    · rw [if_neg h2]
      have := hwf.1
      exact timedBisect_bracket _ _ _ (by omega) (by omega) (by omega) (Or.inl rfl)
        (Or.inl (by omega))
  obtain ⟨x, hx, hbx⟩ := hbr
  obtain ⟨s, e, hse, hlt, hen, hlo, hhi⟩ := timedBracket_of_bracket hwf hL hn hbx
  refine ⟨x - 1, ?_⟩
  have hloop := getIndexBeforeLoop_eq hL hn (e - s + 1) s e (by omega) hlt hen hlo hhi
  rw [getIndexBefore]
  simp only [hx, hse, hloop]

/-- With a well-formed snapshot table, time-sorted operations and the first
operation strictly before `t`, `getIndexAfter` returns the number of
operations strictly before `t`. -/
theorem getIndexAfter_eq_split {ops : List MemoryOperation} {timed : List MemoryStatsTimed}
    {t L : Nat} (hwf : TimedWellFormed ops timed) (hL : SplitsAt ops t L)
    (hn : ops.length < 2147483648) (hpos : 0 < L) :
    ∃ ti, getIndexAfter ops timed t = some (L, ti) := by
  have hbr : ∃ x, timedBisect timed t (timed.length - 1 + 1) 0 (timed.length - 1) = some x ∧
      Bracket timed t x := by
    by_cases h2 : timed.length - 1 = 1
    · obtain ⟨-, -, ⟨st0, hst0, hidx0⟩, -, hall⟩ := hwf
      obtain ⟨op0, hop0, ht0⟩ := hall _ _ hst0
      have hlt0 : st0.m_time < t := by
        rw [← ht0]
        exact (hL.2 _ _ hop0).mpr (by omega)
      refine ⟨1, ?_, le_refl _, by omega, Or.inl rfl, Or.inl (by omega)⟩
      rw [h2, timedBisect]
      simp [hst0, hlt0]
    · have := hwf.1
      exact timedBisect_bracket _ _ _ (by omega) (by omega) (by omega) (Or.inl rfl)
        (Or.inl (by omega))
  obtain ⟨x, hx, hbx⟩ := hbr
  obtain ⟨s, e, hse, hlt, hen, hlo, hhi⟩ := timedBracket_of_bracket hwf hL hn hbx
  refine ⟨x - 1, ?_⟩
  have hloop := getIndexAfterLoop_eq hL hn (e - s + 1) s e (by omega) hlt hen (by omega) hhi
  rw [getIndexAfter]
  simp only [hx, hse, hloop]

theorem getElem?_writeOp (pool : List MemoryOperation) (p k : Nat)
    (f : MemoryOperation → MemoryOperation) :
    (writeOp pool p f)[k]? = if k = p then pool[k]?.map f else pool[k]? := by
  unfold writeOp
  by_cases hk : k = p
  · subst hk
    rw [if_pos rfl]
    cases h : pool[k]? with
    | none => simp [h]
    | some o =>
      obtain ⟨hlt, -⟩ := List.getElem?_eq_some.mp h
      simp [List.getElem?_set, hlt]
  · rw [if_neg hk]
    cases h : pool[p]? with
    | none => rfl
    | some o => simp only []; rw [List.getElem?_set_ne (Ne.symm hk)]

theorem length_writeOp (pool : List MemoryOperation) (p : Nat)
    (f : MemoryOperation → MemoryOperation) : (writeOp pool p f).length = pool.length := by
  unfold writeOp
  split <;> simp

theorem writeOp_writeOp_same (pool : List MemoryOperation) (p : Nat)
    (f g : MemoryOperation → MemoryOperation) :
    writeOp (writeOp pool p f) p g = writeOp pool p (fun x => g (f x)) := by
  apply List.ext_getElem?
  intro k
  simp only [getElem?_writeOp]
  split
  · cases pool[k]? <;> rfl
  · rfl

theorem writeOp_comm (pool : List MemoryOperation) (p j : Nat) (hne : j ≠ p)
    (f g : MemoryOperation → MemoryOperation) :
    writeOp (writeOp pool p f) j g = writeOp (writeOp pool j g) p f := by
  apply List.ext_getElem?
  intro k
  simp only [getElem?_writeOp]
  by_cases h1 : k = j
  · have h2 : k ≠ p := fun h => hne (h1.symm.trans h)
    simp [h1, hne]
  · simp [h1]

theorem linkStep_alloc_fresh (s : LinkState) (p : Nat) (o : MemoryOperation)
    (ho : s.pool[p]? = some o) (hk : isAllocKind o = true) (hm : s.opMap o.m_pointer = none) :
    linkStep s p = plainStep s p true false (Function.update s.opMap o.m_pointer (some p)) := by
  unfold linkStep plainStep
  rw [ho]
  cases hty : o.m_operationType <;> simp [isAllocKind, hty] at hk <;> simp [hty, hm]

theorem linkStep_alloc_dup (s : LinkState) (p j : Nat) (o : MemoryOperation)
    (ho : s.pool[p]? = some o) (hk : isAllocKind o = true) (hm : s.opMap o.m_pointer = some j) :
    linkStep s p = plainStep s p false false s.opMap := by
  unfold linkStep plainStep
  rw [ho]
  cases hty : o.m_operationType <;> simp [isAllocKind, hty] at hk <;>
    simp [hty, hm, writeOp_writeOp_same]

theorem linkStep_realloc_orphan (s : LinkState) (p : Nat) (o : MemoryOperation)
    (ho : s.pool[p]? = some o) (hk : isReallocKind o = true) (hp : o.m_previousPointer ≠ 0)
    (hm : s.opMap o.m_previousPointer = none) :
    linkStep s p = plainStep s p false true (Function.update s.opMap o.m_pointer (some p)) := by
  unfold linkStep plainStep
  rw [ho]
  cases hty : o.m_operationType <;> simp [isReallocKind, hty] at hk <;>
    simp [hty, hm, hp, writeOp_writeOp_same]

theorem linkStep_realloc_dup (s : LinkState) (p j : Nat) (o : MemoryOperation)
    (ho : s.pool[p]? = some o) (hk : isReallocKind o = true) (hp : o.m_previousPointer = 0)
    (hm : s.opMap o.m_pointer = some j) :
    linkStep s p = plainStep s p false true (Function.update s.opMap o.m_pointer (some p)) := by
  unfold linkStep plainStep
  rw [ho]
  cases hty : o.m_operationType <;> simp [isReallocKind, hty] at hk <;>
    simp [hty, hm, hp, writeOp_writeOp_same]

theorem linkStep_realloc_fresh (s : LinkState) (p : Nat) (o : MemoryOperation)
    (ho : s.pool[p]? = some o) (hk : isReallocKind o = true) (hp : o.m_previousPointer = 0)
    (hm : s.opMap o.m_pointer = none) :
    linkStep s p = plainStep s p true false (Function.update s.opMap o.m_pointer (some p)) := by
  unfold linkStep plainStep
  rw [ho]
  cases hty : o.m_operationType <;> simp [isReallocKind, hty] at hk <;>
    simp [hty, hm, hp]

theorem linkStep_realloc_linked (s : LinkState) (p j : Nat) (o : MemoryOperation)
    (ho : s.pool[p]? = some o) (hk : isReallocKind o = true) (hp : o.m_previousPointer ≠ 0)
    (hm : s.opMap o.m_previousPointer = some j) (hne : j ≠ p) :
    linkStep s p = linkedStep s p j o.m_allocSize o.m_overhead
      (Function.update (Function.update s.opMap o.m_previousPointer none)
        o.m_pointer (some p)) := by
  have hpool : writeOp (writeOp (writeOp s.pool p (fun x => { x with m_isValid := true })) p
        (fun x => { x with m_chainPrev := some j })) j (fun x => { x with m_chainNext := some p })
      = writeOp (writeOp s.pool j (withNext p)) p
        (linkedRecord j o.m_allocSize o.m_overhead) := by
    apply List.ext_getElem?
    intro k
    simp only [getElem?_writeOp]
    by_cases h1 : k = p
    · subst h1
      have : k ≠ j := fun h => hne h.symm
      simp [this, ho, linkedRecord]
    · simp only [h1, if_false]
      rfl
  unfold linkStep linkedStep
  rw [ho]
  cases hty : o.m_operationType <;> simp [isReallocKind, hty] at hk <;>
    simp [hty, hm, hp, hpool]

theorem linkStep_free_orphan (s : LinkState) (p : Nat) (o : MemoryOperation)
    (ho : s.pool[p]? = some o) (hk : o.m_operationType = OpType.OpFree)
    (hm : s.opMap o.m_pointer = none) :
    linkStep s p = plainStep s p false true s.opMap := by
  unfold linkStep plainStep
  rw [ho]
  simp [hk, hm, writeOp_writeOp_same]

theorem linkStep_free_linked (s : LinkState) (p j : Nat) (o old : MemoryOperation)
    (ho : s.pool[p]? = some o) (hk : o.m_operationType = OpType.OpFree)
    (hm : s.opMap o.m_pointer = some j) (hne : j ≠ p) (hold : s.pool[j]? = some old) :
    linkStep s p = linkedStep s p j old.m_allocSize old.m_overhead
      (Function.update s.opMap o.m_pointer none) := by
  have hold1 : (writeOp s.pool p (fun x => { x with m_isValid := true }))[j]? = some old := by
    rw [getElem?_writeOp, if_neg hne, hold]
  have hpool : writeOp (writeOp (writeOp s.pool p (fun x => { x with m_isValid := true })) j
        (fun x => { x with m_chainNext := some p })) p
        (fun x => { x with m_chainPrev := some j, m_allocSize := old.m_allocSize,
                           m_overhead := old.m_overhead })
      = writeOp (writeOp s.pool j (withNext p)) p
        (linkedRecord j old.m_allocSize old.m_overhead) := by
    apply List.ext_getElem?
    intro k
    simp only [getElem?_writeOp]
    by_cases h1 : k = p
    · subst h1
      have : k ≠ j := fun h => hne h.symm
      simp [this, ho, linkedRecord]
    · simp only [h1, if_false]
      rfl
  unfold linkStep linkedStep
  rw [ho]
  simp [hk, hm, hold1, hpool]

theorem sameStream_refl (a : MemoryOperation) : SameStream a a :=
  ⟨rfl, rfl, rfl, rfl, rfl, rfl, rfl, rfl, rfl⟩

theorem sameStream_trans {a b c : MemoryOperation} (h1 : SameStream a b) (h2 : SameStream b c) :
    SameStream a c := by
  obtain ⟨a1, a2, a3, a4, a5, a6, a7, a8, a9⟩ := h1
  obtain ⟨b1, b2, b3, b4, b5, b6, b7, b8, b9⟩ := h2
  exact ⟨a1.trans b1, a2.trans b2, a3.trans b3, a4.trans b4, a5.trans b5, a6.trans b6,
    a7.trans b7, a8.trans b8, a9.trans b9⟩

theorem poolStatic_refl (pool : List MemoryOperation) : PoolStatic pool pool :=
  ⟨rfl, fun _ o1 h => ⟨o1, h, sameStream_refl o1⟩⟩

theorem poolStatic_trans {a b c : List MemoryOperation} (h1 : PoolStatic a b)
    (h2 : PoolStatic b c) : PoolStatic a c := by
  refine ⟨h2.1.trans h1.1, fun k o1 h => ?_⟩
  obtain ⟨o, ho, hs⟩ := h2.2 k o1 h
  obtain ⟨o0, ho0, hs0⟩ := h1.2 k o ho
  exact ⟨o0, ho0, sameStream_trans hs0 hs⟩

theorem poolStatic_writeOp {pool pool1 : List MemoryOperation} (h : PoolStatic pool pool1)
    (q : Nat) (f : MemoryOperation → MemoryOperation) (hf : ∀ x, SameStream x (f x)) :
    PoolStatic pool (writeOp pool1 q f) := by
  refine ⟨(length_writeOp _ _ _).trans h.1, fun k o1 hk => ?_⟩
  rw [getElem?_writeOp] at hk
  split at hk
  · cases hx : pool1[k]? with
    | none => rw [hx] at hk; simp at hk
    | some x =>
      rw [hx] at hk
      simp only [Option.map_some', Option.some.injEq] at hk
      obtain ⟨o, ho, hs⟩ := h.2 k x hx
      exact ⟨o, ho, hk ▸ sameStream_trans hs (hf x)⟩
  · exact h.2 k o1 hk

/-- A step of the sweep leaves the stream members of every object as they are. -/
theorem linkStep_poolStatic (s : LinkState) (p : Nat) : PoolStatic s.pool (linkStep s p).pool := by
  unfold linkStep
  repeat' split
  all_goals try dsimp only
  all_goals try split
  all_goals
    first
    | exact poolStatic_refl _
    | (repeat' apply poolStatic_writeOp) <;>
        first
        | exact poolStatic_refl _
        | (intro x; exact ⟨rfl, rfl, rfl, rfl, rfl, rfl, rfl, rfl, rfl⟩)

theorem orderedInsert_timeThenStream (pool : List MemoryOperation) (a : Nat) :
    ∀ (l : List Nat), l.Pairwise (TimeThenStream pool) → (∀ b ∈ l, a < b) →
      (l.orderedInsert (fun x y => timeOf pool x ≤ timeOf pool y) a).Pairwise
        (TimeThenStream pool) := by
  intro l
  induction l with
  | nil => intro _ _; simp
  | cons b l ih =>
    intro hp ha
    rw [List.pairwise_cons] at hp
    rw [List.orderedInsert]
    split
    · rename_i hab
      rw [List.pairwise_cons]
      refine ⟨fun x hx => ?_, List.pairwise_cons.mpr hp⟩
      have hax : a < x := ha x hx
      have hbx : timeOf pool b ≤ timeOf pool x := by
        rcases List.mem_cons.mp hx with h | h
        · rw [h]
        · rcases hp.1 x h with h1 | ⟨h1, -⟩
          · exact le_of_lt h1
          · exact le_of_eq h1
      rcases Nat.lt_or_eq_of_le (le_trans hab hbx) with h | h
      · exact Or.inl h
      · exact Or.inr ⟨h, hax⟩
    · rename_i hab
      rw [List.pairwise_cons]
      refine ⟨fun x hx => ?_, ih hp.2 (fun x hx => ha x (List.mem_cons_of_mem _ hx))⟩
      rcases (List.mem_orderedInsert _).mp hx with h | h
      · rw [h]
        exact Or.inl (not_le.mp hab)
      · exact hp.1 x h

/-- The sort puts the pointers in time order, equal times in stream order. -/
theorem stableSortByTime_pairwise (pool : List MemoryOperation) :
    ∀ (l : List Nat), l.Pairwise (fun a b => a < b) →
      (stableSortByTime pool l).Pairwise (TimeThenStream pool) := by
  intro l
  induction l with
  | nil => intro _; simp [stableSortByTime]
  | cons a l ih =>
    intro hp
    rw [List.pairwise_cons] at hp
    have hsort : stableSortByTime pool (a :: l)
        = (stableSortByTime pool l).orderedInsert (fun x y => timeOf pool x ≤ timeOf pool y) a :=
      rfl
    rw [hsort]
    refine orderedInsert_timeThenStream pool a _ (ih hp.2) (fun b hb => ?_)
    exact hp.1 b ((List.mem_insertionSort _).mp hb)

theorem stableSortByTime_perm (pool : List MemoryOperation) (l : List Nat) :
    (stableSortByTime pool l).Perm l :=
  List.perm_insertionSort _ l

theorem linkSweep_poolStatic (ptrs : List Nat) :
    ∀ (s : LinkState), PoolStatic s.pool (ptrs.foldl linkStep s).pool := by
  induction ptrs with
  | nil => intro s; exact poolStatic_refl _
  | cons p ptrs ih =>
    intro s
    rw [List.foldl_cons]
    exact poolStatic_trans (linkStep_poolStatic s p) (ih _)

theorem timeOf_poolStatic {pool pool1 : List MemoryOperation} (h : PoolStatic pool pool1)
    (p : Nat) : timeOf pool1 p = timeOf pool p := by
  unfold timeOf
  cases h1 : pool1[p]? with
  | none =>
    have : pool[p]? = none := by
      rw [List.getElem?_eq_none_iff] at h1 ⊢
      rw [← h.1]
      exact h1
    rw [this]
  | some o1 =>
    obtain ⟨o, ho, hs⟩ := h.2 p o1 h1
    rw [ho]
    exact hs.2.2.2.1.symm

/-- The pool and the pointer vector that `setLinksAndRemoveInvalid` leaves. -/
theorem setLinksAndRemoveInvalid_result (c : Capture) (mm : Nat) :
    (setLinksAndRemoveInvalid c mm).2.pool
      = (linkSweep c.pool c.m_operationsInvalid
          (c.m_operations.take (u32 c.m_operations.length))).pool ∧
    (setLinksAndRemoveInvalid c mm).2.m_operations
      = c.m_operations.filter (isRetained (setLinksAndRemoveInvalid c mm).2.pool) ∧
    (setLinksAndRemoveInvalid c mm).2.m_operationsInvalid
      = (linkSweep c.pool c.m_operationsInvalid
          (c.m_operations.take (u32 c.m_operations.length))).m_operationsInvalid := by
  unfold setLinksAndRemoveInvalid
  simp only []
  split <;> exact ⟨rfl, rfl, rfl⟩

theorem plainStep_pool (s : LinkState) (p : Nat) (v r : Bool) (m : Nat → Option Nat)
    (o : MemoryOperation) (ho : s.pool[p]? = some o) (k : Nat) :
    (plainStep s p v r m).pool[k]?
      = if k = p then some { o with m_isValid := v } else s.pool[k]? := by
  unfold plainStep
  simp only [getElem?_writeOp]
  split
  · rename_i h
    subst h
    rw [ho]
    rfl
  · rfl

theorem linkedStep_pool (s : LinkState) (p j sz ov : Nat) (m : Nat → Option Nat)
    (o oj : MemoryOperation) (ho : s.pool[p]? = some o) (hoj : s.pool[j]? = some oj)
    (hne : j ≠ p) (k : Nat) :
    (linkedStep s p j sz ov m).pool[k]?
      = if k = p then some (linkedRecord j sz ov o)
        else if k = j then some (withNext p oj)
        else s.pool[k]? := by
  unfold linkedStep
  simp only [getElem?_writeOp]
  by_cases h1 : k = p
  · subst h1
    have : k ≠ j := fun h => hne h.symm
    simp [this, ho]
  · by_cases h2 : k = j
    · subst h2
      simp [h1, hoj]
    · simp [h1, h2]

theorem linkInv_init (pool0 : List MemoryOperation) (inv : List Nat) (hun : Unlinked pool0) :
    LinkInv pool0 [] ⟨pool0, fun _ => none, inv⟩ := by
  have hnone : ∀ k, chainPrevOf pool0 k = none ∧ chainNextOf pool0 k = none := by
    intro k
    unfold chainPrevOf chainNextOf
    cases h : pool0[k]? with
    | none => exact ⟨rfl, rfl⟩
    | some o => exact hun o (List.mem_iff_getElem?.mpr ⟨k, h⟩)
  refine ⟨rfl, ?_, fun _ _ => rfl, fun k o ho _ => ⟨o, ho, rfl, rfl⟩, ?_, ?_, ?_⟩
  · intro q j h
    simp at h
  · intro k o hk
    simp at hk
  · intro k o hk
    simp at hk
  · intro k j
    rw [(hnone k).1, (hnone j).2]
    simp

theorem linkInv_plainStep {pool0 : List MemoryOperation} {done : List Nat} {s : LinkState}
    {p : Nat} {o : MemoryOperation} (v r : Bool) (m : Nat → Option Nat)
    (hinv : LinkInv pool0 done s) (hun : Unlinked pool0) (hp : p ∉ done)
    (ho : s.pool[p]? = some o)
    (hv : v = true → o.m_operationType ≠ OpType.OpFree ∧
      (isReallocKind o = true → o.m_previousPointer = 0))
    (hm : ∀ q j, m q = some j → (j = p ∧ q = o.m_pointer) ∨ s.opMap q = some j) :
    LinkInv pool0 (done ++ [p]) (plainStep s p v r m) := by
  have ho0 : pool0[p]? = some o := by rw [← hinv.fresh p hp]; exact ho
  obtain ⟨hprev0, hnext0⟩ := hun o (List.mem_iff_getElem?.mpr ⟨p, ho0⟩)
  have hlook := plainStep_pool s p v r m o ho
  have hne : ∀ k, k ∈ done → k ≠ p := fun k hk h => hp (h ▸ hk)
  have hold : ∀ k, k ∈ done → (plainStep s p v r m).pool[k]? = s.pool[k]? := by
    intro k hk
    rw [hlook, if_neg (hne k hk)]
  have hprevOf : ∀ k, chainPrevOf (plainStep s p v r m).pool k = chainPrevOf s.pool k := by
    intro k
    unfold chainPrevOf
    rw [hlook]
    by_cases h : k = p
    · subst h
      rw [if_pos rfl, ho]
    · rw [if_neg h]
  have hnextOf : ∀ k, chainNextOf (plainStep s p v r m).pool k = chainNextOf s.pool k := by
    intro k
    unfold chainNextOf
    rw [hlook]
    by_cases h : k = p
    · subst h
      rw [if_pos rfl, ho]
    · rw [if_neg h]
  refine ⟨?_, ?_, ?_, ?_, ?_, ?_, ?_⟩
  · exact (length_writeOp _ _ _).trans hinv.len
  · intro q j hq
    rcases hm q j hq with ⟨hj, hqo⟩ | hq'
    · subst hj
      refine ⟨List.mem_append_right _ (List.mem_singleton_self _),
        { o with m_isValid := v }, ?_, hqo.symm, hnext0⟩
      rw [hlook, if_pos rfl]
    · obtain ⟨hjd, oj, hoj, hptr, hnx⟩ := hinv.map q j hq'
      exact ⟨List.mem_append_left _ hjd, oj, (hold j hjd).trans hoj, hptr, hnx⟩
  · intro k hk
    rw [List.mem_append, List.mem_singleton] at hk
    push_neg at hk
    rw [hlook, if_neg hk.2]
    exact hinv.fresh k hk.1
  · intro k o1 hk hty
    rw [hlook] at hk
    split at hk
    · rename_i h
      subst h
      cases hk
      exact ⟨o, ho0, rfl, rfl⟩
    · exact hinv.sizes k o1 hk hty
  · intro k o1 hkd hk hty hval
    rw [List.mem_append, List.mem_singleton] at hkd
    rcases hkd with hkd | hkp
    · rw [hold k hkd] at hk
      obtain ⟨j, oj, hjd, h1, h2, h3, h4⟩ := hinv.free k o1 hkd hk hty hval
      exact ⟨j, oj, List.mem_append_left _ hjd, h1, (hold j hjd).trans h2, h3, h4⟩
    · subst hkp
      rw [hlook, if_pos rfl] at hk
      cases hk
      exact absurd hty (hv hval).1
  · intro k o1 hkd hk hre hpp hval
    rw [List.mem_append, List.mem_singleton] at hkd
    rcases hkd with hkd | hkp
    · rw [hold k hkd] at hk
      obtain ⟨j, oj, hjd, h1, h2, h3, h4⟩ := hinv.realloc k o1 hkd hk hre hpp hval
      exact ⟨j, oj, List.mem_append_left _ hjd, h1, (hold j hjd).trans h2, h3, h4⟩
    · subst hkp
      rw [hlook, if_pos rfl] at hk
      cases hk
      exact absurd ((hv hval).2 hre) hpp
  · intro k j
    rw [hprevOf, hnextOf]
    exact hinv.links k j

theorem linkInv_linkedStep {pool0 : List MemoryOperation} {done : List Nat} {s : LinkState}
    {p : Nat} {o : MemoryOperation} (j sz ov : Nat) (m : Nat → Option Nat) (q0 : Nat)
    (hinv : LinkInv pool0 done s) (hun : Unlinked pool0) (hp : p ∉ done)
    (ho : s.pool[p]? = some o) (hq0 : s.opMap q0 = some j)
    (hm : ∀ q j1, m q = some j1 → (j1 = p ∧ q = o.m_pointer) ∨ (s.opMap q = some j1 ∧ q ≠ q0))
    (hfree : o.m_operationType = OpType.OpFree →
      ∃ old, s.pool[j]? = some old ∧ sz = old.m_allocSize ∧ ov = old.m_overhead)
    (hnf : o.m_operationType ≠ OpType.OpFree → sz = o.m_allocSize ∧ ov = o.m_overhead)
    (hre : isReallocKind o = true → q0 = o.m_previousPointer) :
    LinkInv pool0 (done ++ [p]) (linkedStep s p j sz ov m) := by
  have ho0 : pool0[p]? = some o := by rw [← hinv.fresh p hp]; exact ho
  obtain ⟨hprev0, hnext0⟩ := hun o (List.mem_iff_getElem?.mpr ⟨p, ho0⟩)
  obtain ⟨hjd, oj, hoj, hojp, hojn⟩ := hinv.map q0 j hq0
  have hne : ∀ k, k ∈ done → k ≠ p := fun k hk h => hp (h ▸ hk)
  have hjp : j ≠ p := hne j hjd
  have hlook := linkedStep_pool s p j sz ov m o oj ho hoj hjp
  have hlp : (linkedStep s p j sz ov m).pool[p]? = some (linkedRecord j sz ov o) := by
    rw [hlook, if_pos rfl]
  have hlj : (linkedStep s p j sz ov m).pool[j]? = some (withNext p oj) := by
    rw [hlook, if_neg hjp, if_pos rfl]
  have hlo : ∀ k, k ≠ p → k ≠ j → (linkedStep s p j sz ov m).pool[k]? = s.pool[k]? := by
    intro k h1 h2
    rw [hlook, if_neg h1, if_neg h2]
  -- every processed object keeps everything but its successor link
  have hkeep : ∀ k ok, k ∈ done → s.pool[k]? = some ok →
      ∃ nx, (linkedStep s p j sz ov m).pool[k]? = some { ok with m_chainNext := nx } ∧
        (k ≠ j → nx = ok.m_chainNext) := by
    intro k ok hk hok
    by_cases h2 : k = j
    · subst h2
      rw [hoj] at hok
      cases hok
      exact ⟨some p, hlj, fun h => absurd rfl h⟩
    · exact ⟨ok.m_chainNext, by rw [hlo k (hne k hk) h2, hok], fun _ => rfl⟩
  have hback : ∀ k o1, k ∈ done → (linkedStep s p j sz ov m).pool[k]? = some o1 →
      ∃ ok, s.pool[k]? = some ok ∧ o1 = { ok with m_chainNext := o1.m_chainNext } := by
    intro k o1 hk h1
    by_cases h2 : k = j
    · subst h2
      rw [hlj] at h1
      cases h1
      exact ⟨oj, hoj, rfl⟩
    · rw [hlo k (hne k hk) h2] at h1
      exact ⟨o1, h1, rfl⟩
  have hprevOf : ∀ k, chainPrevOf (linkedStep s p j sz ov m).pool k
      = if k = p then some j else chainPrevOf s.pool k := by
    intro k
    unfold chainPrevOf
    by_cases h1 : k = p
    · subst h1
      rw [hlp, if_pos rfl]
      rfl
    · rw [if_neg h1]
      by_cases h2 : k = j
      · subst h2
        rw [hlj, hoj]
        rfl
      · rw [hlo k h1 h2]
  have hnextOf : ∀ k, chainNextOf (linkedStep s p j sz ov m).pool k
      = if k = p then none else if k = j then some p else chainNextOf s.pool k := by
    intro k
    unfold chainNextOf
    by_cases h1 : k = p
    · subst h1
      rw [hlp, if_pos rfl]
      exact hnext0
    · rw [if_neg h1]
      by_cases h2 : k = j
      · subst h2
        rw [hlj, if_pos rfl]
        rfl
      · rw [hlo k h1 h2, if_neg h2]
  have hpprev : chainPrevOf s.pool p = none := by
    unfold chainPrevOf
    rw [ho]
    exact hprev0
  have hpnext : chainNextOf s.pool p = none := by
    unfold chainNextOf
    rw [ho]
    exact hnext0
  have hjnext : chainNextOf s.pool j = none := by
    unfold chainNextOf
    rw [hoj]
    exact hojn
  refine ⟨?_, ?_, ?_, ?_, ?_, ?_, ?_⟩
  · exact ((length_writeOp _ _ _).trans (length_writeOp _ _ _)).trans hinv.len
  · intro q j1 hq
    rcases hm q j1 hq with ⟨hj1, hqo⟩ | ⟨hq', hqne⟩
    · subst hj1
      exact ⟨List.mem_append_right _ (List.mem_singleton_self _), _, hlp, hqo.symm, hnext0⟩
    · obtain ⟨hj1d, oj1, hoj1, hptr, hnx⟩ := hinv.map q j1 hq'
      have hj1j : j1 ≠ j := by
        intro h
        subst h
        rw [hoj] at hoj1
        cases hoj1
        exact hqne (hptr.symm.trans hojp)
      exact ⟨List.mem_append_left _ hj1d, oj1, (hlo j1 (hne j1 hj1d) hj1j).trans hoj1, hptr, hnx⟩
  · intro k hk
    rw [List.mem_append, List.mem_singleton] at hk
    push_neg at hk
    have hkj : k ≠ j := fun h => hk.1 (h ▸ hjd)
    rw [hlo k hk.2 hkj]
    exact hinv.fresh k hk.1
  · intro k o1 hk hty
    by_cases h1 : k = p
    · subst h1
      rw [hlp] at hk
      cases hk
      obtain ⟨h3, h4⟩ := hnf hty
      exact ⟨o, ho0, h3, h4⟩
    · by_cases h2 : k = j
      · subst h2
        rw [hlj] at hk
        cases hk
        exact hinv.sizes k oj hoj hty
      · rw [hlo k h1 h2] at hk
        exact hinv.sizes k o1 hk hty
  · intro k o1 hkd hk hty hval
    rw [List.mem_append, List.mem_singleton] at hkd
    rcases hkd with hkd | hkp
    · obtain ⟨ok, hok, heq⟩ := hback k o1 hkd hk
      rw [heq] at hty hval
      obtain ⟨j1, oj1, hj1d, h1, h2, h3, h4⟩ := hinv.free k ok hkd hok hty hval
      obtain ⟨nx, hnx, -⟩ := hkeep j1 oj1 hj1d h2
      refine ⟨j1, _, List.mem_append_left _ hj1d, ?_, hnx, ?_, ?_⟩
      · rw [heq]; exact h1
      · rw [heq]; exact h3
      · rw [heq]; exact h4
    · subst hkp
      rw [hlp] at hk
      cases hk
      obtain ⟨old, hold1, hsz, hov⟩ := hfree hty
      rw [hoj] at hold1
      cases hold1
      exact ⟨j, _, List.mem_append_left _ hjd, rfl, hlj, hsz, hov⟩
  · intro k o1 hkd hk hre1 hpp hval
    rw [List.mem_append, List.mem_singleton] at hkd
    rcases hkd with hkd | hkp
    · obtain ⟨ok, hok, heq⟩ := hback k o1 hkd hk
      rw [heq] at hre1 hpp hval
      obtain ⟨j1, oj1, hj1d, h1, h2, h3, h4⟩ := hinv.realloc k ok hkd hok hre1 hpp hval
      have hj1j : j1 ≠ j := by
        intro h
        subst h
        rw [hoj] at h2
        cases h2
        rw [hojn] at h4
        cases h4
      refine ⟨j1, oj1, List.mem_append_left _ hj1d, ?_, (hlo j1 (hne j1 hj1d) hj1j).trans h2, ?_,
        h4⟩
      · rw [heq]; exact h1
      · rw [heq]; exact h3
    · subst hkp
      rw [hlp] at hk
      cases hk
      exact ⟨j, _, List.mem_append_left _ hjd, rfl, hlj, hojp.trans (hre hre1), rfl⟩
  · intro k j2
    rw [hprevOf, hnextOf]
    have hold := hinv.links
    by_cases h1 : k = p
    · subst h1
      rw [if_pos rfl]
      by_cases h2 : j2 = k
      · subst h2
        rw [if_pos rfl]
        constructor
        · intro h; cases h; exact absurd rfl hjp
        · intro h; cases h
      · rw [if_neg h2]
        by_cases h3 : j2 = j
        · subst h3
          rw [if_pos rfl]
          exact ⟨fun _ => rfl, fun _ => rfl⟩
        · rw [if_neg h3]
          constructor
          · intro h; cases h; exact absurd rfl h3
          · intro h
            have := (hold k j2).mpr h
            rw [hpprev] at this
            cases this
    · rw [if_neg h1]
      by_cases h2 : j2 = p
      · subst h2
        rw [if_pos rfl]
        constructor
        · intro h
          have := (hold k j2).mp h
          rw [hpnext] at this
          cases this
        · intro h; cases h
      · rw [if_neg h2]
        by_cases h3 : j2 = j
        · subst h3
          rw [if_pos rfl]
          constructor
          · intro h
            have := (hold k j2).mp h
            rw [hjnext] at this
            cases this
          · intro h; cases h; exact absurd rfl h1
        · rw [if_neg h3]
          exact hold k j2

theorem opType_kind (o : MemoryOperation) :
    (isAllocKind o = true ∧ isReallocKind o = false ∧ o.m_operationType ≠ OpType.OpFree) ∨
    (isAllocKind o = false ∧ isReallocKind o = true ∧ o.m_operationType ≠ OpType.OpFree) ∨
    (isAllocKind o = false ∧ isReallocKind o = false ∧ o.m_operationType = OpType.OpFree) := by
  cases hty : o.m_operationType <;> simp [isAllocKind, isReallocKind, hty]

/-- Under the invariant every step has one of two shapes. -/
theorem linkStep_cases {pool0 : List MemoryOperation} {done : List Nat} {s : LinkState}
    {p : Nat} {o : MemoryOperation} (hinv : LinkInv pool0 done s) (hp : p ∉ done)
    (ho : s.pool[p]? = some o) :
    (∃ v r m, linkStep s p = plainStep s p v r m ∧
      (v = true → o.m_operationType ≠ OpType.OpFree ∧
        (isReallocKind o = true → o.m_previousPointer = 0)) ∧
      (∀ q j, m q = some j → (j = p ∧ q = o.m_pointer) ∨ s.opMap q = some j)) ∨
    (∃ j sz ov m q0, linkStep s p = linkedStep s p j sz ov m ∧ s.opMap q0 = some j ∧
      (∀ q j1, m q = some j1 → (j1 = p ∧ q = o.m_pointer) ∨ (s.opMap q = some j1 ∧ q ≠ q0)) ∧
      (o.m_operationType = OpType.OpFree →
        ∃ old, s.pool[j]? = some old ∧ sz = old.m_allocSize ∧ ov = old.m_overhead) ∧
      (o.m_operationType ≠ OpType.OpFree → sz = o.m_allocSize ∧ ov = o.m_overhead) ∧
      (isReallocKind o = true → q0 = o.m_previousPointer)) := by
  have hne : ∀ q j, s.opMap q = some j → j ≠ p := fun q j h e => hp (e ▸ (hinv.map q j h).1)
  have hins : ∀ q j, Function.update s.opMap o.m_pointer (some p) q = some j →
      (j = p ∧ q = o.m_pointer) ∨ s.opMap q = some j := by
    intro q j h
    by_cases hq : q = o.m_pointer
    · subst hq
      rw [Function.update_same] at h
      exact Or.inl ⟨(Option.some.inj h).symm, rfl⟩
    · rw [Function.update_noteq hq] at h
      exact Or.inr h
  rcases opType_kind o with ⟨ha, hr, hf⟩ | ⟨ha, hr, hf⟩ | ⟨ha, hr, hf⟩
  · cases hm : s.opMap o.m_pointer with
    | none =>
      exact Or.inl ⟨true, false, _, linkStep_alloc_fresh s p o ho ha hm,
        fun _ => ⟨hf, fun h => (by rw [hr] at h; cases h)⟩, hins⟩
    | some j =>
      exact Or.inl ⟨false, false, _, linkStep_alloc_dup s p j o ho ha hm,
        fun h => (by cases h), fun q j h => Or.inr h⟩
  · by_cases hpp : o.m_previousPointer = 0
    · cases hm : s.opMap o.m_pointer with
      | none =>
        exact Or.inl ⟨true, false, _, linkStep_realloc_fresh s p o ho hr hpp hm,
          fun _ => ⟨hf, fun _ => hpp⟩, hins⟩
      | some j =>
        exact Or.inl ⟨false, true, _, linkStep_realloc_dup s p j o ho hr hpp hm,
          fun h => (by cases h), hins⟩
    · cases hm : s.opMap o.m_previousPointer with
      | none =>
        exact Or.inl ⟨false, true, _, linkStep_realloc_orphan s p o ho hr hpp hm,
          fun h => (by cases h), hins⟩
      | some j =>
        refine Or.inr ⟨j, o.m_allocSize, o.m_overhead, _, o.m_previousPointer,
          linkStep_realloc_linked s p j o ho hr hpp hm (hne _ _ hm), hm, ?_,
          fun h => absurd h hf, fun _ => ⟨rfl, rfl⟩, fun _ => rfl⟩
        intro q j1 h
        by_cases hq : q = o.m_pointer
        · subst hq
          rw [Function.update_same] at h
          exact Or.inl ⟨(Option.some.inj h).symm, rfl⟩
        · rw [Function.update_noteq hq] at h
          by_cases hq2 : q = o.m_previousPointer
          · subst hq2
            rw [Function.update_same] at h
            cases h
          · rw [Function.update_noteq hq2] at h
            exact Or.inr ⟨h, hq2⟩
  · cases hm : s.opMap o.m_pointer with
    | none =>
      exact Or.inl ⟨false, true, _, linkStep_free_orphan s p o ho hf hm,
        fun h => (by cases h), fun q j h => Or.inr h⟩
    | some j =>
      obtain ⟨-, old, hold, -, -⟩ := hinv.map _ _ hm
      refine Or.inr ⟨j, old.m_allocSize, old.m_overhead, _, o.m_pointer,
        linkStep_free_linked s p j o old ho hf hm (hne _ _ hm) hold, hm, ?_,
        fun _ => ⟨old, hold, rfl, rfl⟩, fun h => absurd hf h,
        fun h => (by rw [hr] at h; cases h)⟩
      intro q j1 h
      by_cases hq : q = o.m_pointer
      · subst hq
        rw [Function.update_same] at h
        cases h
      · rw [Function.update_noteq hq] at h
        exact Or.inr ⟨h, hq⟩

theorem linkInv_step {pool0 : List MemoryOperation} {done : List Nat} {s : LinkState}
    {p : Nat} (hinv : LinkInv pool0 done s) (hun : Unlinked pool0) (hp : p ∉ done)
    (hlt : p < pool0.length) : LinkInv pool0 (done ++ [p]) (linkStep s p) := by
  have ho : s.pool[p]? = some pool0[p] := by
    rw [hinv.fresh p hp]
    exact List.getElem?_eq_getElem hlt
  rcases linkStep_cases hinv hp ho with ⟨v, r, m, heq, hv, hm⟩ |
    ⟨j, sz, ov, m, q0, heq, hq0, hm, hfree, hnf, hre⟩
  · rw [heq]
    exact linkInv_plainStep v r m hinv hun hp ho hv hm
  · rw [heq]
    exact linkInv_linkedStep j sz ov m q0 hinv hun hp ho hq0 hm hfree hnf hre

theorem linkInv_foldl {pool0 : List MemoryOperation} (hun : Unlinked pool0) :
    ∀ (ptrs done : List Nat) (s : LinkState), LinkInv pool0 done s → (done ++ ptrs).Nodup →
      (∀ p ∈ ptrs, p < pool0.length) → LinkInv pool0 (done ++ ptrs) (ptrs.foldl linkStep s) := by
  intro ptrs
  induction ptrs with
  | nil => intro done s h _ _; simpa using h
  | cons p ptrs ih =>
    intro done s hinv hnd hlt
    have hp : p ∉ done := by
      intro hmem
      have := List.nodup_append.mp hnd
      exact this.2.2 hmem (List.mem_cons_self _ _) 
    have hstep := linkInv_step hinv hun hp (hlt p (List.mem_cons_self _ _))
    have hnd1 : ((done ++ [p]) ++ ptrs).Nodup := by simpa using hnd
    have := ih (done ++ [p]) (linkStep s p) hstep hnd1
      (fun q hq => hlt q (List.mem_cons_of_mem _ hq))
    simpa using this

/-- With fewer than `2^32` operations the sweep covers all of them. -/
theorem setLinksAndRemoveInvalid_pool (c : Capture) (mm : Nat)
    (hlen : c.m_operations.length < 4294967296) :
    (setLinksAndRemoveInvalid c mm).2.pool
      = (linkSweep c.pool c.m_operationsInvalid c.m_operations).pool := by
  rw [(setLinksAndRemoveInvalid_result c mm).1, u32_of_lt hlen, List.take_length]

theorem linkInv_final (c : Capture) (h : LinkReady c) :
    LinkInv c.pool c.m_operations (linkSweep c.pool c.m_operationsInvalid c.m_operations) := by
  obtain ⟨hnd, hlt, hun, -⟩ := h
  have := linkInv_foldl hun c.m_operations [] _ (linkInv_init c.pool c.m_operationsInvalid hun)
    (by simpa using hnd) hlt
  simpa [linkSweep] using this

theorem mem_retained (c : Capture) (mm p : Nat) :
    p ∈ (setLinksAndRemoveInvalid c mm).2.m_operations ↔
      p ∈ c.m_operations ∧ isRetained (setLinksAndRemoveInvalid c mm).2.pool p = true := by
  rw [(setLinksAndRemoveInvalid_result c mm).2.1, List.mem_filter]

theorem isValid_of_isRetained {pool : List MemoryOperation} {p : Nat} {o : MemoryOperation}
    (h : isRetained pool p = true) (ho : pool[p]? = some o) : o.m_isValid = true := by
  unfold isRetained at h
  rw [ho] at h
  simpa [isInvalid] using h

/-- A step for another operation leaves the validity flag of a processed one. -/
theorem linkStep_isValid_frame {pool0 : List MemoryOperation} {done : List Nat} {s : LinkState}
    {p : Nat} (hinv : LinkInv pool0 done s) (hp : p ∉ done) (hlt : p < pool0.length)
    (k : Nat) (ok : MemoryOperation) (hk : k ∈ done) (hok : s.pool[k]? = some ok) :
    ∃ o1, (linkStep s p).pool[k]? = some o1 ∧ o1.m_isValid = ok.m_isValid := by
  have ho : s.pool[p]? = some pool0[p] := by
    rw [hinv.fresh p hp]
    exact List.getElem?_eq_getElem hlt
  have hkp : k ≠ p := fun h => hp (h ▸ hk)
  rcases linkStep_cases hinv hp ho with ⟨v, r, m, heq, -, -⟩ |
    ⟨j, sz, ov, m, q0, heq, hq0, -, -, -, -⟩
  · refine ⟨ok, ?_, rfl⟩
    rw [heq, plainStep_pool s p v r m _ ho, if_neg hkp]
    exact hok
  · obtain ⟨hjd, oj, hoj, -, -⟩ := hinv.map q0 j hq0
    have hjp : j ≠ p := fun h => hp (h ▸ hjd)
    rw [heq, linkedStep_pool s p j sz ov m _ oj ho hoj hjp, if_neg hkp]
    by_cases hkj : k = j
    · subst hkj
      rw [hoj] at hok
      cases hok
      exact ⟨withNext p ok, by rw [if_pos rfl], rfl⟩
    · exact ⟨ok, by rw [if_neg hkj]; exact hok, rfl⟩

theorem foldl_isValid_frame {pool0 : List MemoryOperation} (hun : Unlinked pool0) :
    ∀ (ptrs done : List Nat) (s : LinkState), LinkInv pool0 done s → (done ++ ptrs).Nodup →
      (∀ p ∈ ptrs, p < pool0.length) → ∀ (k : Nat) (ok : MemoryOperation), k ∈ done →
      s.pool[k]? = some ok →
      ∃ o1, (ptrs.foldl linkStep s).pool[k]? = some o1 ∧ o1.m_isValid = ok.m_isValid := by
  intro ptrs
  induction ptrs with
  | nil => intro done s _ _ _ k ok _ hok; exact ⟨ok, hok, rfl⟩
  | cons p ptrs ih =>
    intro done s hinv hnd hlt k ok hk hok
    have hp : p ∉ done := by
      intro hmem
      exact (List.nodup_append.mp hnd).2.2 hmem (List.mem_cons_self _ _)
    have hpl := hlt p (List.mem_cons_self _ _)
    obtain ⟨o1, ho1, hv1⟩ := linkStep_isValid_frame hinv hp hpl k ok hk hok
    have hnd1 : ((done ++ [p]) ++ ptrs).Nodup := by simpa using hnd
    obtain ⟨o2, ho2, hv2⟩ := ih (done ++ [p]) (linkStep s p) (linkInv_step hinv hun hp hpl) hnd1
      (fun q hq => hlt q (List.mem_cons_of_mem _ hq)) k o1 (List.mem_append_left _ hk) ho1
    exact ⟨o2, ho2, hv2.trans hv1⟩

/-- With one operation at time 10 and `t = 5` the first loop of `getIndexAfter`
ends with `tsIdx = 0`, and `m_timedStats[tsIdx - 1]` is read out of range;
`getIndexBefore` has the case `tsIdxMax == 1` for this and returns 0. -/
theorem getIndexAfter_before_first_out_of_range :
    calculateGlobalStatsTimed [allocAt 10] = some [⟨10, 0⟩, ⟨10, 0⟩] ∧
    getIndexAfter [allocAt 10] [⟨10, 0⟩, ⟨10, 0⟩] 5 = none ∧
    getIndexBefore [allocAt 10] [⟨10, 0⟩, ⟨10, 0⟩] 5 = some (0, 0) := by
  decide

/-! ## The claims -/

/-- C1, what the code does instead: for time-sorted operations and the
snapshot table that `calculateGlobalStats` builds, whenever `i` is the largest
index whose operation is strictly before `t`, `getIndexBefore(t)` returns
`i + 1` (the first operation at or after `t`, or the size of the vector when
there is none), never `i`. -/
theorem getIndexBefore_returns_successor (ops : List MemoryOperation) (t i : Nat)
    (hs : TimeSorted ops) (hn : ops.length < 2147483648) (hi : IsLastBefore ops t i) :
    ∃ timed ti, calculateGlobalStatsTimed ops = some timed ∧
      getIndexBefore ops timed t = some (i + 1, ti) := by
  have h0 : 0 < ops.length := by
    obtain ⟨⟨hlt, -⟩, -⟩ := hi
    omega
  obtain ⟨timed, hcalc, hwf⟩ := calculateGlobalStatsTimed_wellFormed h0 hn
  obtain ⟨ti, hti⟩ := getIndexBefore_eq_split hwf (splitsAt_of_isLastBefore hs hi) hn
  exact ⟨timed, ti, hcalc, hti⟩

/-- C1 at the operations with times 10, 20, 30 and `t = 25`: the last
operation before `t` has index 1 and `getIndexBefore` returns 2. -/
theorem getIndexBefore_returns_successor_witness :
    TimeSorted [allocAt 10, allocAt 20, allocAt 30] ∧
    IsLastBefore [allocAt 10, allocAt 20, allocAt 30] 25 1 ∧
    ∃ timed ti, calculateGlobalStatsTimed [allocAt 10, allocAt 20, allocAt 30] = some timed ∧
      getIndexBefore [allocAt 10, allocAt 20, allocAt 30] timed 25 = some (1 + 1, ti) :=
  ⟨by decide, by decide,
    getIndexBefore_returns_successor [allocAt 10, allocAt 20, allocAt 30] 25 1
      (by decide) (by decide) (by decide)⟩

/-- C2 fails as stated: with operations at times 10, 20, 30 the smallest index
whose time is strictly greater than 20 is 2, and `getIndexAfter(20)` returns 1,
the operation whose time equals 20. -/
theorem getIndexAfter_tie_counterexample :
    TimeSorted [allocAt 10, allocAt 20, allocAt 30] ∧
    calculateGlobalStatsTimed [allocAt 10, allocAt 20, allocAt 30] = some [⟨10, 0⟩, ⟨30, 2⟩] ∧
    IsFirstAfter [allocAt 10, allocAt 20, allocAt 30] 20 2 ∧
    getIndexAfter [allocAt 10, allocAt 20, allocAt 30] [⟨10, 0⟩, ⟨30, 2⟩] 20 = some (1, 0) := by
  decide

/-- C2 as amended: for time-sorted operations and the snapshot table that
`calculateGlobalStats` builds, when the first operation is strictly before `t`
and `i` is the smallest index whose operation is at or after `t`,
`getIndexAfter(t)` returns `i`. -/
theorem getIndexAfter_returns_first_at_or_after (ops : List MemoryOperation) (t i : Nat)
    (hs : TimeSorted ops) (hn : ops.length < 2147483648) (hfirst : FirstIsBefore ops t)
    (hi : IsFirstAtOrAfter ops t i) :
    ∃ timed ti, calculateGlobalStatsTimed ops = some timed ∧
      getIndexAfter ops timed t = some (i, ti) := by
  obtain ⟨h0, hlt0⟩ := hfirst
  obtain ⟨timed, hcalc, hwf⟩ := calculateGlobalStatsTimed_wellFormed h0 hn
  have hL := splitsAt_of_isFirstAtOrAfter hs hi
  have hpos : 0 < i := (hL.2 0 _ (List.getElem?_eq_getElem h0)).mp hlt0
  obtain ⟨ti, hti⟩ := getIndexAfter_eq_split hwf hL hn hpos
  exact ⟨timed, ti, hcalc, hti⟩

/-- C2 as amended, at the operations with times 10, 20, 30 and `t = 20`. -/
theorem getIndexAfter_returns_first_at_or_after_witness :
    TimeSorted [allocAt 10, allocAt 20, allocAt 30] ∧
    FirstIsBefore [allocAt 10, allocAt 20, allocAt 30] 20 ∧
    IsFirstAtOrAfter [allocAt 10, allocAt 20, allocAt 30] 20 1 ∧
    ∃ timed ti, calculateGlobalStatsTimed [allocAt 10, allocAt 20, allocAt 30] = some timed ∧
      getIndexAfter [allocAt 10, allocAt 20, allocAt 30] timed 20 = some (1, ti) :=
  ⟨by decide, by decide, by decide,
    getIndexAfter_returns_first_at_or_after [allocAt 10, allocAt 20, allocAt 30] 20 1
      (by decide) (by decide) (by decide) (by decide)⟩

/-- C3 on the code: for `Alloc(ptr=10, t=1)`, `Realloc(ptr=10, prev=0, t=2)`,
`Free(ptr=10, t=3)` the realloc is invalid (its pointer is live) and is
dropped, yet it replaces the allocation in the live map: the retained free
gets the dropped realloc as `chain_prev`, and the retained allocation, the
most recent valid operation on that pointer, stays without successor. -/
theorem free_linked_to_dropped_realloc :
    (sortAndLink [mkOp OpType.OpAlloc 10 0 1 8 0, mkOp OpType.OpRealloc 10 0 2 16 0,
        mkOp OpType.OpFree 10 0 3 0 0] 100).1 = true ∧
    (sortAndLink [mkOp OpType.OpAlloc 10 0 1 8 0, mkOp OpType.OpRealloc 10 0 2 16 0,
        mkOp OpType.OpFree 10 0 3 0 0] 100).2.m_operations = [0, 2] ∧
    isRetained (sortAndLink [mkOp OpType.OpAlloc 10 0 1 8 0, mkOp OpType.OpRealloc 10 0 2 16 0,
        mkOp OpType.OpFree 10 0 3 0 0] 100).2.pool 1 = false ∧
    chainPrevOf (sortAndLink [mkOp OpType.OpAlloc 10 0 1 8 0, mkOp OpType.OpRealloc 10 0 2 16 0,
        mkOp OpType.OpFree 10 0 3 0 0] 100).2.pool 2 = some 1 ∧
    chainNextOf (sortAndLink [mkOp OpType.OpAlloc 10 0 1 8 0, mkOp OpType.OpRealloc 10 0 2 16 0,
        mkOp OpType.OpFree 10 0 3 0 0] 100).2.pool 0 = none := by
  decide

/-- C4 on the code: for `Realloc(ptr=10, prev=11, t=1)`, `Free(ptr=10, t=2)`
with pointer 11 never allocated, the realloc is invalid and dropped, and the
retained free is chained to it: following `chain_prev` from the free ends at
an operation that is not retained and is a realloc with a non-zero
`previous_pointer`. -/
theorem chain_head_dropped_realloc :
    (sortAndLink [mkOp OpType.OpRealloc 10 11 1 8 0, mkOp OpType.OpFree 10 0 2 0 0] 100).1
      = true ∧
    (sortAndLink [mkOp OpType.OpRealloc 10 11 1 8 0, mkOp OpType.OpFree 10 0 2 0 0] 100).2.pool
      = [{ mkOp OpType.OpRealloc 10 11 1 8 0 with m_isValid := false, m_chainNext := some 1 },
         { mkOp OpType.OpFree 10 0 2 8 0 with m_chainPrev := some 0 }] ∧
    (sortAndLink [mkOp OpType.OpRealloc 10 11 1 8 0, mkOp OpType.OpFree 10 0 2 0 0]
      100).2.m_operations = [1] ∧
    chainPrevOf (sortAndLink [mkOp OpType.OpRealloc 10 11 1 8 0, mkOp OpType.OpFree 10 0 2 0 0]
      100).2.pool 1 = some 0 ∧
    chainPrevOf (sortAndLink [mkOp OpType.OpRealloc 10 11 1 8 0, mkOp OpType.OpFree 10 0 2 0 0]
      100).2.pool 0 = none := by
  decide

/-- C5 fails as stated: for `Alloc(ptr=10, t=10, size=32, overhead=8)`,
`Realloc(ptr=12, prev=10, t=20, size=0, overhead=0)` the zero-size realloc is
retained and linked to the allocation, and it keeps size 0 and overhead 0
while its predecessor has size 32 and overhead 8. -/
theorem zero_size_realloc_keeps_size_counterexample :
    LinkReady (parsedCapture [mkOp OpType.OpAlloc 10 0 10 32 8,
      mkOp OpType.OpRealloc 12 10 20 0 0]) ∧
    (setLinksAndRemoveInvalid (parsedCapture [mkOp OpType.OpAlloc 10 0 10 32 8,
      mkOp OpType.OpRealloc 12 10 20 0 0]) 100).2.m_operations = [0, 1] ∧
    (setLinksAndRemoveInvalid (parsedCapture [mkOp OpType.OpAlloc 10 0 10 32 8,
      mkOp OpType.OpRealloc 12 10 20 0 0]) 100).2.pool
      = [{ mkOp OpType.OpAlloc 10 0 10 32 8 with m_chainNext := some 1 },
         { mkOp OpType.OpRealloc 12 10 20 0 0 with m_chainPrev := some 0 }] := by
  decide

/-- C5 as amended: after linking, every retained `Free` has `alloc_size` and
`overhead` equal to those of its `chain_prev` predecessor, and every retained
realloc (zero-size ones included) keeps the `alloc_size` and `overhead` it had
in the stream. -/
theorem free_inherits_size_realloc_keeps (c : Capture) (mm p : Nat) (o : MemoryOperation)
    (hready : LinkReady c) (hp : p ∈ (setLinksAndRemoveInvalid c mm).2.m_operations)
    (ho : (setLinksAndRemoveInvalid c mm).2.pool[p]? = some o) :
    (o.m_operationType = OpType.OpFree →
      ∃ j oj, o.m_chainPrev = some j ∧ (setLinksAndRemoveInvalid c mm).2.pool[j]? = some oj ∧
        o.m_allocSize = oj.m_allocSize ∧ o.m_overhead = oj.m_overhead) ∧
    (isReallocKind o = true →
      ∃ o0, c.pool[p]? = some o0 ∧ o.m_allocSize = o0.m_allocSize ∧
        o.m_overhead = o0.m_overhead) := by
  have hinv := linkInv_final c hready
  have hpool := setLinksAndRemoveInvalid_pool c mm hready.2.2.2
  obtain ⟨hpc, hret⟩ := (mem_retained c mm p).mp hp
  have hval := isValid_of_isRetained hret ho
  rw [hpool] at ho ⊢
  constructor
  · intro hty
    obtain ⟨j, oj, -, h1, h2, h3, h4⟩ := hinv.free p o hpc ho hty hval
    exact ⟨j, oj, h1, h2, h3, h4⟩
  · intro hre
    have hnf : o.m_operationType ≠ OpType.OpFree := by
      rcases opType_kind o with ⟨-, -, h⟩ | ⟨-, -, h⟩ | ⟨-, h, -⟩
      · exact h
      · exact h
      · rw [hre] at h; cases h
    exact hinv.sizes p o ho hnf

/-- C5 as amended, at `Alloc(ptr=10, t=10, size=32, overhead=8)`,
`Free(ptr=10, t=20)` and the free. -/
theorem free_inherits_size_realloc_keeps_witness :
    LinkReady (parsedCapture [mkOp OpType.OpAlloc 10 0 10 32 8, mkOp OpType.OpFree 10 0 20 0 0]) ∧
    1 ∈ (setLinksAndRemoveInvalid (parsedCapture [mkOp OpType.OpAlloc 10 0 10 32 8,
      mkOp OpType.OpFree 10 0 20 0 0]) 100).2.m_operations ∧
    (setLinksAndRemoveInvalid (parsedCapture [mkOp OpType.OpAlloc 10 0 10 32 8,
      mkOp OpType.OpFree 10 0 20 0 0]) 100).2.pool[1]?
      = some { mkOp OpType.OpFree 10 0 20 32 8 with m_chainPrev := some 0 } ∧
    ((mkOp OpType.OpFree 10 0 20 32 8).m_operationType = OpType.OpFree →
      ∃ j oj, ({ mkOp OpType.OpFree 10 0 20 32 8 with m_chainPrev := some 0 } :
          MemoryOperation).m_chainPrev = some j ∧
        (setLinksAndRemoveInvalid (parsedCapture [mkOp OpType.OpAlloc 10 0 10 32 8,
          mkOp OpType.OpFree 10 0 20 0 0]) 100).2.pool[j]? = some oj ∧
        32 = oj.m_allocSize ∧ 8 = oj.m_overhead) :=
  ⟨by decide, by decide, by decide,
    (free_inherits_size_realloc_keeps
      (parsedCapture [mkOp OpType.OpAlloc 10 0 10 32 8, mkOp OpType.OpFree 10 0 20 0 0]) 100 1
      { mkOp OpType.OpFree 10 0 20 32 8 with m_chainPrev := some 0 }
      (by decide) (by decide) (by decide)).1⟩

/-- C6: after linking, every retained realloc with a non-zero
`previous_pointer` has a `chain_prev`, whose pointer is that
`previous_pointer` and whose `chain_next` is the realloc; `chain_prev` and
`chain_next` are inverse to each other, so no operation is the predecessor of
two operations or the successor of two. -/
theorem realloc_linked_links_unique (c : Capture) (mm : Nat) (hready : LinkReady c) :
    (∀ p o, p ∈ (setLinksAndRemoveInvalid c mm).2.m_operations →
      (setLinksAndRemoveInvalid c mm).2.pool[p]? = some o → isReallocKind o = true →
      o.m_previousPointer ≠ 0 →
      ∃ j oj, o.m_chainPrev = some j ∧ (setLinksAndRemoveInvalid c mm).2.pool[j]? = some oj ∧
        oj.m_pointer = o.m_previousPointer ∧ oj.m_chainNext = some p) ∧
    (∀ k j, chainPrevOf (setLinksAndRemoveInvalid c mm).2.pool k = some j ↔
      chainNextOf (setLinksAndRemoveInvalid c mm).2.pool j = some k) ∧
    (∀ k1 k2 j, chainPrevOf (setLinksAndRemoveInvalid c mm).2.pool k1 = some j →
      chainPrevOf (setLinksAndRemoveInvalid c mm).2.pool k2 = some j → k1 = k2) ∧
    (∀ k1 k2 j, chainNextOf (setLinksAndRemoveInvalid c mm).2.pool k1 = some j →
      chainNextOf (setLinksAndRemoveInvalid c mm).2.pool k2 = some j → k1 = k2) := by
  have hinv := linkInv_final c hready
  have hpool := setLinksAndRemoveInvalid_pool c mm hready.2.2.2
  refine ⟨?_, ?_, ?_, ?_⟩
  · intro p o hp ho hre hpp
    obtain ⟨hpc, hret⟩ := (mem_retained c mm p).mp hp
    have hval := isValid_of_isRetained hret ho
    rw [hpool] at ho ⊢
    obtain ⟨j, oj, -, h1, h2, h3, h4⟩ := hinv.realloc p o hpc ho hre hpp hval
    exact ⟨j, oj, h1, h2, h3, h4⟩
  · rw [hpool]
    exact hinv.links
  · rw [hpool]
    intro k1 k2 j h1 h2
    have e1 := (hinv.links k1 j).mp h1
    have e2 := (hinv.links k2 j).mp h2
    rw [e1] at e2
    exact Option.some.inj e2
  · rw [hpool]
    intro k1 k2 j h1 h2
    have e1 := (hinv.links j k1).mpr h1
    have e2 := (hinv.links j k2).mpr h2
    rw [e1] at e2
    exact Option.some.inj e2

/-- C6 at `Alloc(ptr=10, t=10)`, `Realloc(ptr=12, prev=10, t=20)`,
`Free(ptr=12, t=30)`: the links found are 0 - 1 - 2. -/
theorem realloc_linked_links_unique_witness :
    LinkReady (parsedCapture [mkOp OpType.OpAlloc 10 0 10 32 0,
      mkOp OpType.OpRealloc 12 10 20 64 0, mkOp OpType.OpFree 12 0 30 0 0]) ∧
    chainPrevOf (setLinksAndRemoveInvalid (parsedCapture [mkOp OpType.OpAlloc 10 0 10 32 0,
      mkOp OpType.OpRealloc 12 10 20 64 0, mkOp OpType.OpFree 12 0 30 0 0]) 100).2.pool 1
      = some 0 ∧
    (chainPrevOf (setLinksAndRemoveInvalid (parsedCapture [mkOp OpType.OpAlloc 10 0 10 32 0,
      mkOp OpType.OpRealloc 12 10 20 64 0, mkOp OpType.OpFree 12 0 30 0 0]) 100).2.pool 2
      = some 1 ↔
     chainNextOf (setLinksAndRemoveInvalid (parsedCapture [mkOp OpType.OpAlloc 10 0 10 32 0,
      mkOp OpType.OpRealloc 12 10 20 64 0, mkOp OpType.OpFree 12 0 30 0 0]) 100).2.pool 1
      = some 2) :=
  ⟨by decide, by decide,
    (realloc_linked_links_unique
      (parsedCapture [mkOp OpType.OpAlloc 10 0 10 32 0, mkOp OpType.OpRealloc 12 10 20 64 0,
        mkOp OpType.OpFree 12 0 30 0 0]) 100 (by decide)).2.1 2 1⟩

/-- C7: when the sweep reaches an `Alloc`, `Calloc` or `AllocAligned` whose
pointer is in the live map under an earlier operation `j`, the step marks the
operation invalid, the operation is not in the final operation list, and the
step leaves `j` in the map under that pointer, without successor.  For
`Alloc(ptr=10, size=8)`, `Alloc(ptr=10, size=16)` the operation list ends as
the first operation alone, and that operation has no successor. -/
theorem duplicate_alloc_dropped :
    (∀ (c : Capture) (mm : Nat) (pre post : List Nat) (p j : Nat) (o : MemoryOperation),
      LinkReady c → c.m_operations = pre ++ p :: post → c.pool[p]? = some o →
      isAllocKind o = true →
      (linkSweep c.pool c.m_operationsInvalid pre).opMap o.m_pointer = some j →
      (∃ o1, (linkStep (linkSweep c.pool c.m_operationsInvalid pre) p).pool[p]? = some o1 ∧
        o1.m_isValid = false) ∧
      p ∉ (setLinksAndRemoveInvalid c mm).2.m_operations ∧
      j ∈ pre ∧
      (linkStep (linkSweep c.pool c.m_operationsInvalid pre) p).opMap o.m_pointer = some j ∧
      (∃ oj, (linkStep (linkSweep c.pool c.m_operationsInvalid pre) p).pool[j]? = some oj ∧
        oj.m_pointer = o.m_pointer ∧ oj.m_chainNext = none)) ∧
    ((sortAndLink [mkOp OpType.OpAlloc 10 0 10 8 0, mkOp OpType.OpAlloc 10 0 20 16 0] 100).2.m_operations
        = [0] ∧
      chainNextOf
        (sortAndLink [mkOp OpType.OpAlloc 10 0 10 8 0, mkOp OpType.OpAlloc 10 0 20 16 0] 100).2.pool 0
        = none) := by
  refine ⟨?_, by decide⟩
  intro c mm pre post p j o hready hops ho ha hm
  obtain ⟨hnd, hlt, hun, hlen⟩ := hready
  rw [hops] at hnd hlt
  have hndpre : ([] ++ pre).Nodup := by
    simpa using (List.nodup_append.mp hnd).1
  have hinv : LinkInv c.pool pre (linkSweep c.pool c.m_operationsInvalid pre) := by
    have := linkInv_foldl hun pre [] _ (linkInv_init c.pool c.m_operationsInvalid hun) hndpre
      (fun q hq => hlt q (List.mem_append_left _ hq))
    simpa [linkSweep] using this
  have hp : p ∉ pre := by
    intro hmem
    exact (List.nodup_append.mp hnd).2.2 hmem (List.mem_cons_self _ _)
  have hpl : p < c.pool.length := hlt p (List.mem_append_right _ (List.mem_cons_self _ _))
  have hos : (linkSweep c.pool c.m_operationsInvalid pre).pool[p]? = some o := by
    rw [hinv.fresh p hp]
    exact ho
  have heq := linkStep_alloc_dup _ p j o hos ha hm
  obtain ⟨hjd, oj, hoj, hojp, hojn⟩ := hinv.map _ j hm
  have hjp : j ≠ p := fun h => hp (h ▸ hjd)
  have hpp : (linkStep (linkSweep c.pool c.m_operationsInvalid pre) p).pool[p]?
      = some { o with m_isValid := false } := by
    rw [heq, plainStep_pool _ p false false _ o hos, if_pos rfl]
  refine ⟨⟨_, hpp, rfl⟩, ?_, hjd, ?_, ⟨oj, ?_, hojp, hojn⟩⟩
  · intro hmem
    obtain ⟨-, hret⟩ := (mem_retained c mm p).mp hmem
    have hnd1 : ((pre ++ [p]) ++ post).Nodup := by simpa using hnd
    obtain ⟨o2, ho2, hv2⟩ := foldl_isValid_frame hun post (pre ++ [p]) _
      (linkInv_step hinv hun hp hpl) hnd1
      (fun q hq => hlt q (List.mem_append_right _ (List.mem_cons_of_mem _ hq))) p _
      (List.mem_append_right _ (List.mem_singleton_self _)) hpp
    have hfin : (setLinksAndRemoveInvalid c mm).2.pool[p]? = some o2 := by
      rw [setLinksAndRemoveInvalid_pool c mm hlen, hops]
      unfold linkSweep
      rw [List.foldl_append, List.foldl_cons]
      exact ho2
    have := isValid_of_isRetained hret hfin
    rw [hv2] at this
    cases this
  · rw [heq]
    exact hm
  · rw [heq, plainStep_pool _ p false false _ o hos, if_neg hjp]
    exact hoj

/-- C7 at `Alloc(ptr=10, t=10, size=8)`, `Alloc(ptr=10, t=20, size=16)` and
the second operation. -/
theorem duplicate_alloc_dropped_witness :
    LinkReady (parsedCapture [mkOp OpType.OpAlloc 10 0 10 8 0, mkOp OpType.OpAlloc 10 0 20 16 0]) ∧
    (linkSweep [mkOp OpType.OpAlloc 10 0 10 8 0, mkOp OpType.OpAlloc 10 0 20 16 0] [] [0]).opMap 10
      = some 0 ∧
    1 ∉ (setLinksAndRemoveInvalid (parsedCapture [mkOp OpType.OpAlloc 10 0 10 8 0,
      mkOp OpType.OpAlloc 10 0 20 16 0]) 100).2.m_operations :=
  ⟨by decide, by decide,
    (duplicate_alloc_dropped.1
      (parsedCapture [mkOp OpType.OpAlloc 10 0 10 8 0, mkOp OpType.OpAlloc 10 0 20 16 0]) 100
      [0] [] 1 0 (mkOp OpType.OpAlloc 10 0 20 16 0) (by decide) (by decide) (by decide)
      (by decide) (by decide)).2.1⟩

/-- C8: after the sort and the linker, the operation list is in non-decreasing
`operation_time` order; it holds, each once, exactly the operations of the
stream that are not marked invalid; the objects have the members the stream
gave them; and operations of equal time are in stream order. -/
theorem sortAndLink_sorted_stable (stream : List MemoryOperation) (mm : Nat) :
    (sortAndLink stream mm).2.m_operations.Pairwise
      (fun a b => timeOf (sortAndLink stream mm).2.pool a
        ≤ timeOf (sortAndLink stream mm).2.pool b) ∧
    (sortAndLink stream mm).2.m_operations.Nodup ∧
    (∀ p, p ∈ (sortAndLink stream mm).2.m_operations ↔
      (p < stream.length ∧ isRetained (sortAndLink stream mm).2.pool p = true)) ∧
    PoolStatic stream (sortAndLink stream mm).2.pool ∧
    (sortAndLink stream mm).2.m_operations.Pairwise
      (fun a b => timeOf stream a = timeOf stream b → a < b) := by
  have hres := setLinksAndRemoveInvalid_result
    { parsedCapture stream with
      m_operations := stableSortByTime (parsedCapture stream).pool
        (parsedCapture stream).m_operations } mm
  have hpw := stableSortByTime_pairwise stream (List.range stream.length)
    (List.pairwise_lt_range _)
  have hperm := stableSortByTime_perm stream (List.range stream.length)
  obtain ⟨hpool, hops, -⟩ := hres
  have hstat : PoolStatic stream (sortAndLink stream mm).2.pool := by
    unfold sortAndLink
    simp only []
    rw [hpool]
    exact linkSweep_poolStatic _ _
  have hops1 : (sortAndLink stream mm).2.m_operations
      = (stableSortByTime stream (List.range stream.length)).filter
          (isRetained (sortAndLink stream mm).2.pool) := hops
  refine ⟨?_, ?_, ?_, hstat, ?_⟩
  · rw [hops1]
    refine (hpw.filter _).imp ?_
    intro a b hab
    rw [timeOf_poolStatic hstat, timeOf_poolStatic hstat]
    rcases hab with h | ⟨h, -⟩
    · exact le_of_lt h
    · exact le_of_eq h
  · rw [hops1]
    exact (hperm.nodup_iff.mpr (List.nodup_range _)).filter _
  · intro p
    rw [hops1, List.mem_filter, hperm.mem_iff, List.mem_range]
  · rw [hops1]
    refine (hpw.filter _).imp ?_
    intro a b hab heq
    rcases hab with h | ⟨-, h⟩
    · omega
    · exact h

/-- C9: with fewer than `2^32` operations, `setLinksAndRemoveInvalid` returns
false exactly when the operation list it leaves is empty, which is when every
operation is marked invalid; a false return makes the load end in `LoadFail`;
and a stream that is one `Free` alone ends in `LoadFail`. -/
theorem linking_fails_iff_nothing_valid (c : Capture) (mm : Nat)
    (hlen : c.m_operations.length < 4294967296) :
    ((setLinksAndRemoveInvalid c mm).1 = false ↔
      (setLinksAndRemoveInvalid c mm).2.m_operations = []) ∧
    ((setLinksAndRemoveInvalid c mm).2.m_operations = [] ↔
      ∀ p ∈ c.m_operations, isRetained (setLinksAndRemoveInvalid c mm).2.pool p = false) ∧
    (∀ (stream : List MemoryOperation) (lr : LoadResult) (statsOk : Capture → Bool),
      (sortAndLink stream mm).1 = false → loadBinTail stream mm lr statsOk = LoadResult.LoadFail) ∧
    (∀ (o : MemoryOperation) (lr : LoadResult) (statsOk : Capture → Bool),
      o.m_operationType = OpType.OpFree →
      loadBinTail [o] mm lr statsOk = LoadResult.LoadFail) := by
  refine ⟨?_, ?_, ?_, ?_⟩
  · have hle : (c.m_operations.filter (isRetained (linkSweep c.pool c.m_operationsInvalid
        (c.m_operations.take (u32 c.m_operations.length))).pool)).length < 4294967296 :=
      lt_of_le_of_lt (List.length_filter_le _ _) hlen
    unfold setLinksAndRemoveInvalid
    simp only []
    rw [u32_of_lt hle]
    split
    · rename_i h
      simp only [true_iff]
      exact List.length_eq_zero.mp h
    · rename_i h
      simp only [Bool.true_eq_false, false_iff]
      exact fun he => h (List.length_eq_zero.mpr he)
  · rw [(setLinksAndRemoveInvalid_result c mm).2.1, List.filter_eq_nil_iff]
    constructor
    · intro h p hp
      simpa using h p hp
    · intro h p hp
      simp [h p hp]
  · intro stream lr statsOk h
    unfold loadBinTail
    simp [h]
  · intro o lr statsOk hty
    unfold loadBinTail
    have : (sortAndLink [o] mm).1 = false := by
      simp [sortAndLink, parsedCapture, stableSortByTime, setLinksAndRemoveInvalid, linkSweep,
        linkStep, hty, u32, isRetained, isInvalid, writeOp]
    simp [this]

/-- C9 at the stream `Free(ptr=0xDEAD, t=5)`: the linker returns false and
leaves no operation. -/
theorem linking_fails_iff_nothing_valid_witness :
    (parsedCapture [mkOp OpType.OpFree 57005 0 5 0 0]).m_operations.length < 4294967296 ∧
    (setLinksAndRemoveInvalid (parsedCapture [mkOp OpType.OpFree 57005 0 5 0 0]) 100).1 = false ∧
    ((setLinksAndRemoveInvalid (parsedCapture [mkOp OpType.OpFree 57005 0 5 0 0]) 100).1 = false ↔
      (setLinksAndRemoveInvalid (parsedCapture [mkOp OpType.OpFree 57005 0 5 0 0])
        100).2.m_operations = []) :=
  ⟨by decide, by decide,
    (linking_fails_iff_nothing_valid (parsedCapture [mkOp OpType.OpFree 57005 0 5 0 0]) 100
      (by decide)).1⟩

/-- C10 on the code: for `Alloc(ptr=10, size=8)`, `Alloc(ptr=10, size=16)` the
second operation is dropped from the operation list and the list of invalid
operations stays empty; the same duplicate pointer met by a
`Realloc(ptr=10, prev=0)` is recorded. -/
theorem duplicate_alloc_not_recorded :
    (sortAndLink [mkOp OpType.OpAlloc 10 0 10 8 0, mkOp OpType.OpAlloc 10 0 20 16 0]
      100).2.m_operations = [0] ∧
    (sortAndLink [mkOp OpType.OpAlloc 10 0 10 8 0, mkOp OpType.OpAlloc 10 0 20 16 0]
      100).2.m_operationsInvalid = [] ∧
    (sortAndLink [mkOp OpType.OpAlloc 10 0 10 8 0, mkOp OpType.OpRealloc 10 0 20 16 0]
      100).2.m_operations = [0] ∧
    (sortAndLink [mkOp OpType.OpAlloc 10 0 10 8 0, mkOp OpType.OpRealloc 10 0 20 16 0]
      100).2.m_operationsInvalid = [1] := by
  decide

/-! ## Lemmas for the filter and the aggregation -/

theorem minMarkerTime_foldl (l : List Nat) :
    ∀ (init : Nat),
      l.foldl (fun m t => if m > t then t else m) init ≤ init ∧
      (∀ t ∈ l, l.foldl (fun m t => if m > t then t else m) init ≤ t) ∧
      (l.foldl (fun m t => if m > t then t else m) init ∈ l ∨
        l.foldl (fun m t => if m > t then t else m) init = init) := by
  induction l with
  | nil => intro init; simp
  | cons a l ih =>
    intro init
    rw [List.foldl_cons]
    obtain ⟨h1, h2, h3⟩ := ih (if init > a then a else init)
    have hle : (if init > a then a else init) ≤ init := by split <;> omega
    have hla : (if init > a then a else init) ≤ a := by split <;> omega
    refine ⟨le_trans h1 hle, ?_, ?_⟩
    · intro t ht
      rcases List.mem_cons.mp ht with h | h
      · rw [h]; exact le_trans h1 hla
      · exact h2 t h
    · rcases h3 with h | h
      · exact Or.inl (List.mem_cons_of_mem _ h)
      · rw [h]
        split
        · exact Or.inl (List.mem_cons_self _ _)
        · exact Or.inr rfl

theorem isLeaked_iff (o : MemoryOperation) :
    isLeaked o = true ↔
      o.m_operationType ≠ OpType.OpFree ∧ ¬ (isReallocKind o = true ∧ o.m_allocSize = 0) := by
  cases hty : o.m_operationType <;> simp [isLeaked, isReallocKind, hty]

/-! ## The claims C11 to C20 -/

/-- C11: when `setLinksAndRemoveInvalid` succeeds (fewer than `2^32`
operations), `m_minTime` is the smaller of the first retained operation's time
and `minMarkerTime`, `m_maxTime` is the last retained operation's time, and
the filter window is `[m_minTime, m_maxTime]`; `minMarkerTime` is the smallest
marker time seen, `(uint64_t)-1` without markers, which then leaves the first
operation's time; for `Alloc` at 100 and its `Free` at 200 the range is
100 to 200. -/
theorem link_sets_time_range (c : Capture) (markerTimes : List Nat)
    (hlen : c.m_operations.length < 4294967296)
    (hok : (setLinksAndRemoveInvalid c (minMarkerTimeOf markerTimes)).1 = true) :
    (setLinksAndRemoveInvalid c (minMarkerTimeOf markerTimes)).2.m_minTime
      = min (operationTimeAt (setLinksAndRemoveInvalid c (minMarkerTimeOf markerTimes)).2.pool
          (setLinksAndRemoveInvalid c (minMarkerTimeOf markerTimes)).2.m_operations 0)
        (minMarkerTimeOf markerTimes) ∧
    (setLinksAndRemoveInvalid c (minMarkerTimeOf markerTimes)).2.m_maxTime
      = operationTimeAt (setLinksAndRemoveInvalid c (minMarkerTimeOf markerTimes)).2.pool
          (setLinksAndRemoveInvalid c (minMarkerTimeOf markerTimes)).2.m_operations
          ((setLinksAndRemoveInvalid c (minMarkerTimeOf markerTimes)).2.m_operations.length
            - 1) ∧
    (setLinksAndRemoveInvalid c (minMarkerTimeOf markerTimes)).2.m_minTimeSnapshot
      = (setLinksAndRemoveInvalid c (minMarkerTimeOf markerTimes)).2.m_minTime ∧
    (setLinksAndRemoveInvalid c (minMarkerTimeOf markerTimes)).2.m_maxTimeSnapshot
      = (setLinksAndRemoveInvalid c (minMarkerTimeOf markerTimes)).2.m_maxTime ∧
    (∀ t ∈ markerTimes, minMarkerTimeOf markerTimes ≤ t) ∧
    (minMarkerTimeOf markerTimes ∈ markerTimes ∨
      minMarkerTimeOf markerTimes = 18446744073709551615) ∧
    (markerTimes = [] → minMarkerTimeOf markerTimes = 18446744073709551615) ∧
    (sortAndLink [mkOp OpType.OpAlloc 4096 0 100 64 8, mkOp OpType.OpFree 4096 0 200 0 0]
        (minMarkerTimeOf [])).2.m_minTime = 100 ∧
    (sortAndLink [mkOp OpType.OpAlloc 4096 0 100 64 8, mkOp OpType.OpFree 4096 0 200 0 0]
        (minMarkerTimeOf [])).2.m_maxTime = 200 := by
  have hm := minMarkerTime_foldl markerTimes 18446744073709551615
  refine ⟨?_, ?_, ?_, ?_, hm.2.1, hm.2.2, ?_, by decide, by decide⟩
  · unfold setLinksAndRemoveInvalid at hok ⊢
    simp only [] at hok ⊢
    split
    · rename_i h
      rw [if_pos h] at hok
      cases hok
    · simp only []
      split
      · rename_i h
        rw [min_eq_right (le_of_lt h)]
      · rename_i h
        rw [min_eq_left (not_lt.mp h)]
  · have hle : (c.m_operations.filter (isRetained (linkSweep c.pool c.m_operationsInvalid
        (c.m_operations.take (u32 c.m_operations.length))).pool)).length < 4294967296 :=
      lt_of_le_of_lt (List.length_filter_le _ _) hlen
    unfold setLinksAndRemoveInvalid at hok ⊢
    simp only [] at hok ⊢
    split
    · rename_i h
      rw [if_pos h] at hok
      cases hok
    · simp only [u32_of_lt hle]
  · unfold setLinksAndRemoveInvalid at hok ⊢
    simp only [] at hok ⊢
    split
    · rename_i h
      rw [if_pos h] at hok
      cases hok
    · rfl
  · unfold setLinksAndRemoveInvalid at hok ⊢
    simp only [] at hok ⊢
    split
    · rename_i h
      rw [if_pos h] at hok
      cases hok
    · rfl
  · intro h
    rw [h]
    rfl

/-- C11 at `Alloc(ptr=4096, t=100)`, `Free(ptr=4096, t=200)` with one marker
at time 50: the range starts at the marker. -/
theorem link_sets_time_range_witness :
    (parsedCapture [mkOp OpType.OpAlloc 4096 0 100 64 8,
      mkOp OpType.OpFree 4096 0 200 0 0]).m_operations.length < 4294967296 ∧
    (setLinksAndRemoveInvalid (parsedCapture [mkOp OpType.OpAlloc 4096 0 100 64 8,
      mkOp OpType.OpFree 4096 0 200 0 0]) (minMarkerTimeOf [50])).1 = true ∧
    (setLinksAndRemoveInvalid (parsedCapture [mkOp OpType.OpAlloc 4096 0 100 64 8,
      mkOp OpType.OpFree 4096 0 200 0 0]) (minMarkerTimeOf [50])).2.m_minTime = 50 ∧
    (setLinksAndRemoveInvalid (parsedCapture [mkOp OpType.OpAlloc 4096 0 100 64 8,
      mkOp OpType.OpFree 4096 0 200 0 0]) (minMarkerTimeOf [50])).2.m_minTimeSnapshot
      = (setLinksAndRemoveInvalid (parsedCapture [mkOp OpType.OpAlloc 4096 0 100 64 8,
      mkOp OpType.OpFree 4096 0 200 0 0]) (minMarkerTimeOf [50])).2.m_minTime :=
  ⟨by decide, by decide, by decide,
    (link_sets_time_range (parsedCapture [mkOp OpType.OpAlloc 4096 0 100 64 8,
      mkOp OpType.OpFree 4096 0 200 0 0]) [50] (by decide) (by decide)).2.2.1⟩


/-- The last two tests of `isInFilter`, as a condition on the three flags. -/
theorem filterTail_iff (moduleOk leakedOnly leaked : Bool) :
    (if (!moduleOk) = true then false
      else if (leakedOnly && !leaked) = true then false else true) = true ↔
      moduleOk = true ∧ (leakedOnly = true → leaked = true) := by
  cases moduleOk <;> cases leakedOnly <;> cases leaked <;> simp

/-- The module test of `isInFilter` passes exactly when no module is selected
or some frame of the stack trace lies in the selected module. -/
theorem moduleInStack_iff (cur : Option ModuleInfo) (frames : List Nat) :
    (match cur with
      | some m => frames.any (checkAddress m)
      | none => true) = true ↔
      ∀ m, cur = some m → ∃ a ∈ frames, checkAddress m a = true := by
  cases cur with
  | none =>
    constructor
    · intro _ m hm
      cases hm
    · intro _
      rfl
  | some m0 =>
    constructor
    · intro h m hm
      cases hm
      exact List.any_eq_true.mp h
    · intro h
      exact List.any_eq_true.mpr (h m0 rfl)

/-- C12: with filtering enabled, `isInFilter` accepts an operation exactly when
it is valid, its allocator handle is the selected heap (or no heap is
selected), the bin of its size is the selected histogram bin (or none is
selected), its tag is the selected tag hash (or the tag hash is 0), its thread
is the selected thread (or the thread is 0), its time lies in the closed
filter window, some frame of its stack trace lies in the selected module (or
no module is selected), and, when only leaks are wanted, it is neither a Free
nor a zero-size realloc. With filtering disabled it accepts exactly the valid
operations. -/
theorem isInFilter_iff (getHistogramBinIndex : Nat → Nat) (m_stackTraces : List StackTrace)
    (f : FilterState) (o : MemoryOperation) :
    (f.m_filteringEnabled = true →
      (isInFilter getHistogramBinIndex m_stackTraces f o = true ↔
        o.m_isValid = true ∧
        (f.m_currentHeap = 18446744073709551615 ∨ o.m_allocatorHandle = f.m_currentHeap) ∧
        (f.m_histogramIndex = 4294967295 ∨
          getHistogramBinIndex o.m_allocSize = f.m_histogramIndex) ∧
        (f.m_tagHash = 0 ∨ o.m_tag = f.m_tagHash) ∧
        (f.m_threadID = 0 ∨ o.m_threadID = f.m_threadID) ∧
        f.m_minTimeSnapshot ≤ o.m_operationTime ∧
        o.m_operationTime ≤ f.m_maxTimeSnapshot ∧
        (∀ m, f.m_currentModule = some m →
          ∃ a ∈ stackFrames m_stackTraces o, checkAddress m a = true) ∧
        (f.m_leakedOnly = true →
          o.m_operationType ≠ OpType.OpFree ∧
            ¬ (isReallocKind o = true ∧ o.m_allocSize = 0)))) ∧
    (f.m_filteringEnabled = false →
      (isInFilter getHistogramBinIndex m_stackTraces f o = true ↔ o.m_isValid = true)) := by
  constructor
  · intro hen
    unfold isInFilter
    by_cases hv : o.m_isValid = true
    swap
    · simp [hv]
    by_cases hheap : f.m_currentHeap ≠ 18446744073709551615 ∧
        o.m_allocatorHandle ≠ f.m_currentHeap
    · have : ¬ (f.m_currentHeap = 18446744073709551615 ∨
          o.m_allocatorHandle = f.m_currentHeap) := by
        rintro (h | h)
        · exact hheap.1 h
        · exact hheap.2 h
      rw [if_neg (by simp [hv]), if_neg (by simp [hen]), if_pos hheap]
      exact ⟨fun h => (by cases h), fun h => absurd h.2.1 this⟩
    have hheap2 : f.m_currentHeap = 18446744073709551615 ∨
        o.m_allocatorHandle = f.m_currentHeap := by
      by_contra h
      exact hheap ⟨fun a => h (Or.inl a), fun a => h (Or.inr a)⟩
    by_cases hhist : f.m_histogramIndex ≠ 4294967295 ∧
        f.m_histogramIndex ≠ getHistogramBinIndex o.m_allocSize
    · have : ¬ (f.m_histogramIndex = 4294967295 ∨
          getHistogramBinIndex o.m_allocSize = f.m_histogramIndex) := by
        rintro (h | h)
        · exact hhist.1 h
        · exact hhist.2 h.symm
      rw [if_neg (by simp [hv]), if_neg (by simp [hen]), if_neg hheap, if_pos hhist]
      exact ⟨fun h => (by cases h), fun h => absurd h.2.2.1 this⟩
    have hhist2 : f.m_histogramIndex = 4294967295 ∨
        getHistogramBinIndex o.m_allocSize = f.m_histogramIndex := by
      by_contra h
      exact hhist ⟨fun a => h (Or.inl a), fun a => h (Or.inr a.symm)⟩
    by_cases htag : f.m_tagHash ≠ 0 ∧ f.m_tagHash ≠ o.m_tag
    · have : ¬ (f.m_tagHash = 0 ∨ o.m_tag = f.m_tagHash) := by
        rintro (h | h)
        · exact htag.1 h
        · exact htag.2 h.symm
      rw [if_neg (by simp [hv]), if_neg (by simp [hen]), if_neg hheap, if_neg hhist,
        if_pos htag]
      exact ⟨fun h => (by cases h), fun h => absurd h.2.2.2.1 this⟩
    have htag2 : f.m_tagHash = 0 ∨ o.m_tag = f.m_tagHash := by
      by_contra h
      exact htag ⟨fun a => h (Or.inl a), fun a => h (Or.inr a.symm)⟩
    by_cases hthr : f.m_threadID ≠ 0 ∧ f.m_threadID ≠ o.m_threadID
    · have : ¬ (f.m_threadID = 0 ∨ o.m_threadID = f.m_threadID) := by
        rintro (h | h)
        · exact hthr.1 h
        · exact hthr.2 h.symm
      rw [if_neg (by simp [hv]), if_neg (by simp [hen]), if_neg hheap, if_neg hhist,
        if_neg htag, if_pos hthr]
      exact ⟨fun h => (by cases h), fun h => absurd h.2.2.2.2.1 this⟩
    have hthr2 : f.m_threadID = 0 ∨ o.m_threadID = f.m_threadID := by
      by_contra h
      exact hthr ⟨fun a => h (Or.inl a), fun a => h (Or.inr a.symm)⟩
    by_cases htime : o.m_operationTime < f.m_minTimeSnapshot ∨
        o.m_operationTime > f.m_maxTimeSnapshot
    · have : ¬ (f.m_minTimeSnapshot ≤ o.m_operationTime ∧
          o.m_operationTime ≤ f.m_maxTimeSnapshot) := by
        rintro ⟨h1, h2⟩
        rcases htime with h | h <;> omega
      rw [if_neg (by simp [hv]), if_neg (by simp [hen]), if_neg hheap, if_neg hhist,
        if_neg htag, if_neg hthr, if_pos htime]
      constructor
      · intro h
        cases h
      · intro h
        exact absurd ⟨h.2.2.2.2.2.1, h.2.2.2.2.2.2.1⟩ this
    have htime2 : f.m_minTimeSnapshot ≤ o.m_operationTime ∧
        o.m_operationTime ≤ f.m_maxTimeSnapshot := by
      constructor
      · by_contra h
        exact htime (Or.inl (by omega))
      · by_contra h
        exact htime (Or.inr (by omega))
    rw [if_neg (by simp [hv]), if_neg (by simp [hen]), if_neg hheap, if_neg hhist,
      if_neg htag, if_neg hthr, if_neg htime]
    dsimp only
    rw [filterTail_iff, moduleInStack_iff, isLeaked_iff]
    constructor
    · rintro ⟨h1, h2⟩
      exact ⟨hv, hheap2, hhist2, htag2, hthr2, htime2.1, htime2.2, h1, h2⟩
    · intro h
      exact ⟨h.2.2.2.2.2.2.2.1, h.2.2.2.2.2.2.2.2⟩
  · intro hen
    unfold isInFilter
    by_cases hv : o.m_isValid = true
    · simp [hv, hen]
    · simp [hv]


/-- C13: `deselectTag` leaves the tag hash at `0xffffffff`, which `isInFilter`
reads as a selected tag: with filtering enabled, every operation whose tag is
not `0xffffffff` is rejected after `deselectTag`, whatever the filter state
was before the call. -/
theorem deselectTag_rejects_other_tags (getHistogramBinIndex : Nat → Nat)
    (m_stackTraces : List StackTrace) (f : FilterState) (o : MemoryOperation)
    (hen : f.m_filteringEnabled = true) (htag : o.m_tag ≠ 4294967295) :
    (deselectTag f).m_tagHash = 4294967295 ∧
      isInFilter getHistogramBinIndex m_stackTraces (deselectTag f) o = false := by
  have hhash : (deselectTag f).m_tagHash = 4294967295 := by
    unfold deselectTag
    split
    · rfl
    · rename_i h
      exact not_not.mp h
  have hen2 : (deselectTag f).m_filteringEnabled = true := by
    unfold deselectTag
    split
    · exact hen
    · exact hen
  refine ⟨hhash, ?_⟩
  have hrej : (deselectTag f).m_tagHash ≠ 0 ∧ (deselectTag f).m_tagHash ≠ o.m_tag := by
    rw [hhash]
    exact ⟨by decide, fun h => htag h.symm⟩
  unfold isInFilter
  split
  · rfl
  split
  · rename_i h
    simp [hen2] at h
  split
  · rfl
  split
  · rfl
  rfl

/-- C13 on a freshly cleared filter with filtering enabled and the window
`[0, 100]`: an untagged valid allocation at time 10 passes with the tag hash 0
and is rejected after `deselectTag`. -/
theorem deselectTag_rejects_other_tags_witness :
    isInFilter (fun _ => 0) []
      { clearedFilter with m_filteringEnabled := true, m_maxTimeSnapshot := 100 }
      (mkOp OpType.OpAlloc 4096 0 10 64 0) = true ∧
    ({ clearedFilter with m_filteringEnabled := true, m_maxTimeSnapshot := 100 } :
      FilterState).m_tagHash = 0 ∧
    (deselectTag
      { clearedFilter with m_filteringEnabled := true, m_maxTimeSnapshot := 100 }).m_tagHash
      = 4294967295 ∧
    isInFilter (fun _ => 0) []
      (deselectTag { clearedFilter with m_filteringEnabled := true, m_maxTimeSnapshot := 100 })
      (mkOp OpType.OpAlloc 4096 0 10 64 0) = false :=
  ⟨by decide, by decide,
    deselectTag_rejects_other_tags (fun _ => 0) []
      { clearedFilter with m_filteringEnabled := true, m_maxTimeSnapshot := 100 }
      (mkOp OpType.OpAlloc 4096 0 10 64 0) (by decide) (by decide)⟩


/-- The loop of `calculateFilteredData` over a range that stays inside
`m_operations` returns, and appends the accepted operations of the range in
their order. -/
theorem filteredLoop_eq (isIn : MemoryOperation → Bool) (ops : List MemoryOperation) :
    ∀ (count i : Nat) (acc : List MemoryOperation), i + count ≤ ops.length →
      filteredLoop isIn ops count i acc
        = some (acc ++ ((ops.drop i).take count).filter isIn) := by
  intro count
  induction count with
  | zero =>
    intro i acc _
    simp [filteredLoop]
  | succ c ih =>
    intro i acc h
    have hi : i < ops.length := by omega
    unfold filteredLoop
    rw [List.getElem?_eq_getElem hi]
    simp only []
    rw [ih (i + 1) _ (by omega), List.drop_eq_getElem_cons hi, List.take_succ_cons]
    by_cases hin : isIn ops[i] = true
    · rw [if_pos hin, List.filter_cons_of_pos hin, List.append_assoc]
      rfl
    · rw [if_neg hin, List.filter_cons_of_neg hin]

/-- C14, what the code does instead: for time-sorted operations and the
snapshot table of `calculateGlobalStats`, when `a` is the first operation at
or after the window's `min_time` and `b` the first one at or after its
`max_time`, `calculateFilteredData` returns and the filtered vector holds the
operations accepted by `isInFilter` among positions `a .. b + 1` only. An
accepted operation at a position from `b + 2` on, such as the third operation
whose time equals `max_time`, is left out. -/
theorem calculateFilteredData_range (getHistogramBinIndex : Nat → Nat)
    (m_stackTraces : List StackTrace) (f : FilterState) (ops : List MemoryOperation)
    (a b : Nat) (hs : TimeSorted ops) (hn : ops.length < 2147483648)
    (ha : IsFirstAtOrAfter ops f.m_minTimeSnapshot a)
    (hb : IsFirstAtOrAfter ops f.m_maxTimeSnapshot b) :
    ∃ timed, calculateGlobalStatsTimed ops = some timed ∧
      calculateFilteredData getHistogramBinIndex m_stackTraces f ops timed
        = some (((ops.take (b + 2)).drop a).filter
            (isInFilter getHistogramBinIndex m_stackTraces f)) := by
  have han : a < ops.length := ha.1.1
  have hbn : b < ops.length := hb.1.1
  obtain ⟨timed, hcalc, hwf⟩ := calculateGlobalStatsTimed_wellFormed (by omega) hn
  obtain ⟨ta, hta⟩ := getIndexBefore_eq_split hwf (splitsAt_of_isFirstAtOrAfter hs ha) hn
  obtain ⟨tb, htb⟩ := getIndexBefore_eq_split hwf (splitsAt_of_isFirstAtOrAfter hs hb) hn
  refine ⟨timed, hcalc, ?_⟩
  unfold calculateFilteredData
  rw [hta, htb]
  simp only []
  rw [u32_of_lt (by omega : b + 1 < 4294967296)]
  by_cases hc : b + 1 ≥ ops.length
  · rw [if_pos hc, u32_of_lt (by omega : ops.length < 4294967296)]
    have hu : u32 (ops.length + 4294967295) = ops.length - 1 := by
      unfold u32
      omega
    rw [hu, filteredLoop_eq _ _ _ _ _ (by omega), List.nil_append, List.take_drop,
      List.take_of_length_le (by omega : ops.length ≤ a + (ops.length - 1 + 1 - a)),
      List.take_of_length_le (by omega : ops.length ≤ b + 2)]
  · rw [if_neg hc]
    by_cases hab : a ≤ b + 2
    · rw [filteredLoop_eq _ _ _ _ _ (by omega), List.nil_append, List.take_drop,
        (by omega : a + (b + 1 + 1 - a) = b + 2)]
    · have h0 : b + 1 + 1 - a = 0 := by omega
      rw [h0]
      have hd : (ops.take (b + 2)).drop a = [] := by
        apply List.drop_of_length_le
        rw [List.length_take]
        omega
      rw [hd]
      rfl


/-- C14 at four valid allocations with times 10, 20, 20, 20 and the window
`[10, 20]` (the whole capture): all four pass `isInFilter`, and the filtered
vector holds the first three only. -/
theorem calculateFilteredData_range_witness :
    TimeSorted tiedAtMaxTime ∧
    IsFirstAtOrAfter tiedAtMaxTime windowFilter.m_minTimeSnapshot 0 ∧
    IsFirstAtOrAfter tiedAtMaxTime windowFilter.m_maxTimeSnapshot 1 ∧
    tiedAtMaxTime.filter (isInFilter (fun _ => 0) [] windowFilter) = tiedAtMaxTime ∧
    calculateGlobalStatsTimed tiedAtMaxTime = some [⟨10, 0⟩, ⟨20, 3⟩] ∧
    calculateFilteredData (fun _ => 0) [] windowFilter tiedAtMaxTime [⟨10, 0⟩, ⟨20, 3⟩]
      = some (tiedAtMaxTime.take 3) ∧
    ∃ timed, calculateGlobalStatsTimed tiedAtMaxTime = some timed ∧
      calculateFilteredData (fun _ => 0) [] windowFilter tiedAtMaxTime timed
        = some (((tiedAtMaxTime.take (1 + 2)).drop 0).filter
            (isInFilter (fun _ => 0) [] windowFilter)) :=
  ⟨by decide, by decide, by decide, by decide, by decide, by decide,
    calculateFilteredData_range (fun _ => 0) [] windowFilter tiedAtMaxTime 0 1
      (by decide) (by decide) (by decide) (by decide)⟩


/-- C18 fails in its last part: `updateLiveBlocks` leaves the counter as it
is for every realloc with a non-zero `previous_pointer`, a zero-size one
included, while `isLeaked` counts a zero-size realloc as a release. For
`Alloc(0xA, size 32)`, `Realloc(0xA to 0xB, size 64)`, `Realloc(0xB to 0xC,
size 0)` the three operations are retained and chained in that order,
`isLeaked` of the last one is false, the leak list is empty and the running
live size ends at 0, and the running live-block count ends at 1. -/
theorem zero_size_realloc_keeps_live_block :
    (∀ (o : MemoryOperation) (liveBlocks : Nat), isReallocKind o = true →
      o.m_previousPointer ≠ 0 → updateLiveBlocks o liveBlocks = liveBlocks) ∧
    (sortAndLink reallocToZero 18446744073709551615).2.m_operations = [0, 1, 2] ∧
    (sortAndLink reallocToZero 18446744073709551615).2.m_operationsInvalid = [] ∧
    (sortAndLink reallocToZero 18446744073709551615).2.pool.map
      (fun o => (o.m_isValid, o.m_chainPrev, o.m_chainNext, o.m_allocSize))
      = [(true, none, some 1, 32), (true, some 0, some 2, 64), (true, some 1, none, 0)] ∧
    (sortAndLink reallocToZero 18446744073709551615).2.pool.map isLeaked
      = [true, true, false] ∧
    (buildAnalyzeData (sortAndLink reallocToZero 18446744073709551615).2 []).map
      (fun s => (s.liveBlocks, s.liveSize)) = some (1, 0) ∧
    (buildAnalyzeData (sortAndLink reallocToZero 18446744073709551615).2 []).map
      (fun s => s.m_memoryLeaks) = some [] ∧
    (buildAnalyzeData (sortAndLink reallocToZero 18446744073709551615).2 []).map
      (fun s => s.groupArgs) = some [(0, 1, 32), (1, 1, 64), (2, 1, 0)] := by
  refine ⟨?_, by decide, by decide, by decide, by decide, by decide, by decide, by decide⟩
  intro o liveBlocks hre hpp
  unfold updateLiveBlocks
  unfold isReallocKind at hre
  cases hty : o.m_operationType <;> simp [hty] at hre ⊢ <;> exact fun h => absurd h hpp


theorem tagFrame_refl (P : List MemoryOperation) : TagFrame P P :=
  ⟨rfl, fun _ o h => ⟨o.m_tag, h⟩⟩

theorem tagFrame_writeOp {P pool : List MemoryOperation} (h : TagFrame P pool) (n t : Nat) :
    TagFrame P (writeOp pool n (fun x => { x with m_tag := t })) := by
  refine ⟨by rw [length_writeOp]; exact h.1, ?_⟩
  intro k o hk
  obtain ⟨t0, ht0⟩ := h.2 k o hk
  rw [getElem?_writeOp]
  by_cases hkn : k = n
  · rw [if_pos hkn, ht0]
    exact ⟨t, rfl⟩
  · rw [if_neg hkn]
    exact ⟨t0, ht0⟩

theorem chainPrevSize_tagFrame {P pool : List MemoryOperation} (h : TagFrame P pool)
    (o : MemoryOperation) (t : Nat) :
    chainPrevSize pool { o with m_tag := t } = chainPrevSize P o := by
  unfold chainPrevSize
  simp only []
  cases o.m_chainPrev with
  | none => rfl
  | some j =>
    simp only []
    cases hoj : P[j]? with
    | none =>
      have hlen : P.length ≤ j := by
        by_contra hc
        rw [List.getElem?_eq_getElem (by omega)] at hoj
        cases hoj
      rw [List.getElem?_eq_none (by rw [h.1]; exact hlen)]
    | some oj =>
      obtain ⟨tj, htj⟩ := h.2 j oj hoj
      rw [htj]

theorem updateLiveSize_tagFrame {P pool : List MemoryOperation} (h : TagFrame P pool)
    (o : MemoryOperation) (t liveSize : Nat) :
    updateLiveSize pool { o with m_tag := t } liveSize = updateLiveSize P o liveSize := by
  unfold updateLiveSize
  rw [chainPrevSize_tagFrame h o t]

theorem updateLiveSize_alloc (P : List MemoryOperation) (o : MemoryOperation) (l : Nat)
    (ha : isAllocKind o = true) :
    updateLiveSize P o l = some (u64 (l + o.m_allocSize)) := by
  unfold isAllocKind at ha
  unfold updateLiveSize
  cases hty : o.m_operationType <;> simp [hty] at ha ⊢

theorem updateLiveSize_realloc_fresh (P : List MemoryOperation) (o : MemoryOperation) (l : Nat)
    (hr : isReallocKind o = true) (hpp : o.m_previousPointer = 0) :
    updateLiveSize P o l = some (u64 (l + o.m_allocSize)) := by
  unfold isReallocKind at hr
  unfold updateLiveSize
  cases hty : o.m_operationType <;> simp [hty, hpp] at hr ⊢

theorem updateLiveSize_realloc (P : List MemoryOperation) (o : MemoryOperation) (l size : Nat)
    (hr : isReallocKind o = true) (hpp : o.m_previousPointer ≠ 0)
    (hs : chainPrevSize P o = some size) :
    updateLiveSize P o l
      = some (u64 (u64 (l + o.m_allocSize) + (18446744073709551616 - u64 size))) := by
  unfold isReallocKind at hr
  unfold updateLiveSize
  cases hty : o.m_operationType <;> simp [hty, hpp, hs] at hr ⊢

theorem updateLiveSize_free (P : List MemoryOperation) (o : MemoryOperation) (l size : Nat)
    (hf : o.m_operationType = OpType.OpFree) (hs : chainPrevSize P o = some size) :
    updateLiveSize P o l = some (u64 (l + (18446744073709551616 - u64 size))) := by
  unfold updateLiveSize
  simp [hf, hs]

theorem updateLiveSize_isSome (P : List MemoryOperation) (o : MemoryOperation) (l : Nat)
    (hprev : releases o = true → ∃ size, chainPrevSize P o = some size) :
    ∃ l1, updateLiveSize P o l = some l1 := by
  rcases opType_kind o with ⟨ha, -, -⟩ | ⟨-, hr, hf⟩ | ⟨-, -, hf⟩
  · exact ⟨_, updateLiveSize_alloc P o l ha⟩
  · by_cases hpp : o.m_previousPointer = 0
    · exact ⟨_, updateLiveSize_realloc_fresh P o l hr hpp⟩
    · obtain ⟨size, hs⟩ := hprev (by simp [releases, hr, hpp])
      exact ⟨_, updateLiveSize_realloc P o l size hr hpp hs⟩
  · obtain ⟨size, hs⟩ := hprev (by simp [releases, hf])
    exact ⟨_, updateLiveSize_free P o l size hf hs⟩


/-- One iteration of the aggregation loop on a pool that differs from the
linked pool `P` by tags only: it returns, and its effect is given by `P`. -/
theorem analyzeStep_spec {P : List MemoryOperation} (s : AnalyzeState) (p : Nat)
    (o : MemoryOperation) (hfr : TagFrame P s.pool) (ho : P[p]? = some o)
    (hnext : ∀ n, o.m_chainNext = some n → n < P.length)
    (hprev : releases o = true → ∃ size, chainPrevSize P o = some size) :
    ∃ s1, analyzeStep s p = some s1 ∧ TagFrame P s1.pool ∧
      updateLiveSize P o s.liveSize = some s1.liveSize ∧
      s1.liveBlocks = updateLiveBlocks o s.liveBlocks ∧
      s1.m_memoryLeaks = s.m_memoryLeaks ++ (if isLeakEnd P p = true then [p] else []) ∧
      s1.groupArgs = s.groupArgs ++ [(p, s1.liveBlocks, s1.liveSize)] := by
  obtain ⟨o1, ht, hcn1, hlk1, hlb1, hls1⟩ : ∃ o1, s.pool[p]? = some o1 ∧
      o1.m_chainNext = o.m_chainNext ∧ isLeaked o1 = isLeaked o ∧
      (∀ b, updateLiveBlocks o1 b = updateLiveBlocks o b) ∧
      (∀ pool1 l, TagFrame P pool1 → updateLiveSize pool1 o1 l = updateLiveSize P o l) := by
    obtain ⟨t, ht⟩ := hfr.2 p o ho
    exact ⟨_, ht, rfl, rfl, fun _ => rfl, fun pool1 l h => updateLiveSize_tagFrame h o t l⟩
  obtain ⟨l1, hl1⟩ := updateLiveSize_isSome P o s.liveSize hprev
  have hle : isLeakEnd P p = (decide (o.m_chainNext = none) && isLeaked o) := by
    unfold isLeakEnd
    rw [ho]
  unfold analyzeStep
  rw [ht]
  simp only []
  rw [hcn1, hlk1, hlb1]
  cases hcn : o.m_chainNext with
  | none =>
    simp only []
    rw [hls1 _ _ hfr, hl1]
    refine ⟨_, rfl, hfr, rfl, rfl, ?_, rfl⟩
    simp only []
    rw [hle, hcn]
    cases hlk : isLeaked o <;> simp
  | some n =>
    obtain ⟨tn, htn⟩ := hfr.2 n _ (List.getElem?_eq_getElem (hnext n hcn))
    simp only []
    rw [htn]
    simp only []
    have hle2 : isLeakEnd P p = false := by
      rw [hle, hcn]
      rfl
    by_cases htag : tn = 0
    · rw [if_pos htag, hls1 _ _ (tagFrame_writeOp hfr n o1.m_tag), hl1]
      refine ⟨_, rfl, tagFrame_writeOp hfr n o1.m_tag, rfl, rfl, ?_, rfl⟩
      rw [hle2]
      simp
    · rw [if_neg htag, hls1 _ _ hfr, hl1]
      refine ⟨_, rfl, hfr, rfl, rfl, ?_, rfl⟩
      rw [hle2]
      simp


/-- The aggregation loop over operations whose links exist returns; the leak
list grows by the operations without successor that `isLeaked` accepts, in
the order of the loop, and the live size is the one computed on `P`. -/
theorem analyzeLoop_spec {P : List MemoryOperation} :
    ∀ (ops : List Nat) (s : AnalyzeState), TagFrame P s.pool →
      (∀ p ∈ ops, AnalyzeReady P p) →
      ∃ s1, analyzeLoop s ops = some s1 ∧ TagFrame P s1.pool ∧
        s1.m_memoryLeaks = s.m_memoryLeaks ++ ops.filter (isLeakEnd P) ∧
        liveSizeOver P s.liveSize ops = some s1.liveSize := by
  intro ops
  induction ops with
  | nil =>
    intro s hfr _
    exact ⟨s, rfl, hfr, by simp, rfl⟩
  | cons p rest ih =>
    intro s hfr hall
    obtain ⟨o, ho, hnext, hprev⟩ := hall p (List.mem_cons_self _ _)
    obtain ⟨s1, hs1, hfr1, hsz1, -, hlk1, -⟩ := analyzeStep_spec s p o hfr ho hnext hprev
    obtain ⟨s2, hs2, hfr2, hlk2, hsz2⟩ := ih s1 hfr1
      (fun q hq => hall q (List.mem_cons_of_mem _ hq))
    refine ⟨s2, ?_, hfr2, ?_, ?_⟩
    · unfold analyzeLoop
      rw [hs1]
      exact hs2
    · rw [hlk2, hlk1, List.append_assoc]
      congr 1
      cases hle : isLeakEnd P p
      · rw [List.filter_cons_of_neg (by simp [hle])]
        simp
      · rw [List.filter_cons_of_pos hle]
        simp
    · unfold liveSizeOver
      rw [ho]
      simp only []
      rw [hsz1]
      exact hsz2

/-- After the linker, every retained operation has the links the aggregation
loop follows. -/
theorem analyzeReady_of_linked (c : Capture) (mm : Nat) (hready : LinkReady c) :
    ∀ p ∈ (setLinksAndRemoveInvalid c mm).2.m_operations,
      AnalyzeReady (setLinksAndRemoveInvalid c mm).2.pool p := by
  have hinv := linkInv_final c hready
  have hpool := setLinksAndRemoveInvalid_pool c mm hready.2.2.2
  intro p hp
  obtain ⟨hpc, hret⟩ := (mem_retained c mm p).mp hp
  obtain ⟨o, ho⟩ : ∃ o, (setLinksAndRemoveInvalid c mm).2.pool[p]? = some o := by
    unfold isRetained at hret
    cases h : (setLinksAndRemoveInvalid c mm).2.pool[p]? with
    | none => rw [h] at hret; cases hret
    | some o => exact ⟨o, rfl⟩
  have hval := isValid_of_isRetained hret ho
  refine ⟨o, ho, ?_, ?_⟩
  · intro n hn
    rw [hpool] at ho ⊢
    have h1 : chainNextOf (linkSweep c.pool c.m_operationsInvalid c.m_operations).pool p
        = some n := by
      unfold chainNextOf
      rw [ho]
      exact hn
    have h2 := (hinv.links n p).mpr h1
    unfold chainPrevOf at h2
    by_contra hlt
    rw [List.getElem?_eq_none (by omega)] at h2
    cases h2
  · intro hrel
    rw [hpool] at ho ⊢
    unfold chainPrevSize
    by_cases hf : o.m_operationType = OpType.OpFree
    · obtain ⟨j, oj, -, h1, h2, -, -⟩ := hinv.free p o hpc ho hf hval
      rw [h1]
      simp only []
      rw [h2]
      exact ⟨_, rfl⟩
    · have hre : isReallocKind o = true ∧ o.m_previousPointer ≠ 0 := by
        unfold releases at hrel
        simpa [hf] using hrel
      obtain ⟨j, oj, -, h1, h2, -, -⟩ := hinv.realloc p o hpc ho hre.1 hre.2 hval
      rw [h1]
      simp only []
      rw [h2]
      exact ⟨_, rfl⟩


theorem isLeakEnd_eq_isLeak (P : List MemoryOperation) : isLeakEnd P = IsLeak P := by
  funext p
  unfold isLeakEnd IsLeak
  cases P[p]? with
  | none => rfl
  | some o =>
    simp only []
    unfold isLeaked isReallocKind
    cases o.m_operationType <;> simp

/-- The capture that `sortAndLink` gives to the linker is ready for it when the
parser left the operations unlinked. -/
theorem linkReady_sorted (stream : List MemoryOperation) (hun : Unlinked stream)
    (hlen : stream.length < 4294967296) :
    LinkReady { parsedCapture stream with
      m_operations := stableSortByTime (parsedCapture stream).pool
        (parsedCapture stream).m_operations } := by
  have hperm := stableSortByTime_perm stream (List.range stream.length)
  refine ⟨hperm.nodup_iff.mpr (List.nodup_range _), ?_, hun, ?_⟩
  · intro p hp
    exact List.mem_range.mp (hperm.mem_iff.mp hp)
  · show (stableSortByTime stream (List.range stream.length)).length < 4294967296
    rw [hperm.length_eq, List.length_range]
    exact hlen

/-- After the sort and the linker the operation list is in time order. -/
theorem sortAndLink_timeOrder (stream : List MemoryOperation) (mm : Nat) :
    (sortAndLink stream mm).2.m_operations.Pairwise
      (fun a b => timeOf (sortAndLink stream mm).2.pool a
        ≤ timeOf (sortAndLink stream mm).2.pool b) ∧
    (sortAndLink stream mm).2.m_operations.Nodup := by
  have hres := setLinksAndRemoveInvalid_result
    { parsedCapture stream with
      m_operations := stableSortByTime (parsedCapture stream).pool
        (parsedCapture stream).m_operations } mm
  have hpw := stableSortByTime_pairwise stream (List.range stream.length)
    (List.pairwise_lt_range _)
  have hperm := stableSortByTime_perm stream (List.range stream.length)
  obtain ⟨hpool, hops, -⟩ := hres
  have hstat : PoolStatic stream (sortAndLink stream mm).2.pool := by
    unfold sortAndLink
    simp only []
    rw [hpool]
    exact linkSweep_poolStatic _ _
  have hops1 : (sortAndLink stream mm).2.m_operations
      = (stableSortByTime stream (List.range stream.length)).filter
          (isRetained (sortAndLink stream mm).2.pool) := hops
  constructor
  · rw [hops1]
    refine (hpw.filter _).imp ?_
    intro a b hab
    rw [timeOf_poolStatic hstat, timeOf_poolStatic hstat]
    rcases hab with h | ⟨h, -⟩
    · exact le_of_lt h
    · exact le_of_eq h
  · rw [hops1]
    exact (hperm.nodup_iff.mpr (List.nodup_range _)).filter _

/-- C19: on a freshly loaded capture the aggregation loop of
`buildAnalyzeData` returns, and the leak list it builds is the operation list
filtered by "no `chain_next`, not a Free, not a zero-size realloc": it holds
exactly those retained operations, each once, in time order. `Alloc` followed
by its `Free` gives no leak; `Alloc(size=8)`, `Alloc(size=16)` of one pointer
give one leak, the first operation, of size 8. -/
theorem leaks_are_live_chain_ends (stream : List MemoryOperation) (mm : Nat)
    (hun : Unlinked stream) (hlen : stream.length < 4294967296) :
    (∃ s, buildAnalyzeData (sortAndLink stream mm).2 [] = some s ∧
      s.m_memoryLeaks = (sortAndLink stream mm).2.m_operations.filter
        (IsLeak (sortAndLink stream mm).2.pool) ∧
      (∀ p, p ∈ s.m_memoryLeaks ↔
        (p ∈ (sortAndLink stream mm).2.m_operations ∧
          IsLeak (sortAndLink stream mm).2.pool p = true)) ∧
      s.m_memoryLeaks.Nodup ∧
      s.m_memoryLeaks.Pairwise (fun a b => timeOf (sortAndLink stream mm).2.pool a
        ≤ timeOf (sortAndLink stream mm).2.pool b)) ∧
    (buildAnalyzeData (sortAndLink [mkOp OpType.OpAlloc 4096 0 10 64 0,
      mkOp OpType.OpFree 4096 0 20 0 0] 18446744073709551615).2 []).map
        (fun s => s.m_memoryLeaks) = some [] ∧
    (buildAnalyzeData (sortAndLink [mkOp OpType.OpAlloc 4096 0 10 8 0,
      mkOp OpType.OpAlloc 4096 0 20 16 0] 18446744073709551615).2 []).map
        (fun s => s.m_memoryLeaks.map (fun p => (s.pool[p]?).map (fun o => o.m_allocSize)))
      = some [some 8] := by
  refine ⟨?_, ?_, ?_⟩
  · have hready := linkReady_sorted stream hun hlen
    have hall := analyzeReady_of_linked _ mm hready
    have hord := sortAndLink_timeOrder stream mm
    have hlen2 : (sortAndLink stream mm).2.m_operations.length < 4294967296 := by
      have hres := setLinksAndRemoveInvalid_result
        { parsedCapture stream with
          m_operations := stableSortByTime (parsedCapture stream).pool
            (parsedCapture stream).m_operations } mm
      have hops1 : (sortAndLink stream mm).2.m_operations
          = (stableSortByTime stream (List.range stream.length)).filter
              (isRetained (sortAndLink stream mm).2.pool) := hres.2.1
      rw [hops1]
      exact lt_of_le_of_lt (List.length_filter_le _ _) hready.2.2.2
    obtain ⟨s1, hs1, -, hlk, -⟩ := analyzeLoop_spec (sortAndLink stream mm).2.m_operations
      { pool := (sortAndLink stream mm).2.pool, liveBlocks := 0, liveSize := 0,
        m_memoryLeaks := [], groupArgs := [] } (tagFrame_refl _) hall
    have hlk2 : s1.m_memoryLeaks = (sortAndLink stream mm).2.m_operations.filter
        (IsLeak (sortAndLink stream mm).2.pool) := by
      rw [hlk, isLeakEnd_eq_isLeak]
      rfl
    refine ⟨s1, ?_, hlk2, ?_, ?_, ?_⟩
    · unfold buildAnalyzeData analyzeAfter
      rw [u32_of_lt hlen2, List.take_length, List.take_length]
      exact hs1
    · intro p
      rw [hlk2, List.mem_filter]
    · rw [hlk2]
      exact hord.2.filter _
    · rw [hlk2]
      exact hord.1.filter _
  · decide
  · decide

/-- C19 at the stream `Alloc(ptr=10, t=10)`, `Alloc(ptr=20, t=20)`,
`Free(ptr=10, t=30)`: the only leak is the second allocation. -/
theorem leaks_are_live_chain_ends_witness :
    Unlinked [mkOp OpType.OpAlloc 10 0 10 32 0, mkOp OpType.OpAlloc 20 0 20 64 0,
      mkOp OpType.OpFree 10 0 30 0 0] ∧
    (sortAndLink [mkOp OpType.OpAlloc 10 0 10 32 0, mkOp OpType.OpAlloc 20 0 20 64 0,
      mkOp OpType.OpFree 10 0 30 0 0] 100).2.m_operations.filter
        (IsLeak (sortAndLink [mkOp OpType.OpAlloc 10 0 10 32 0, mkOp OpType.OpAlloc 20 0 20 64 0,
          mkOp OpType.OpFree 10 0 30 0 0] 100).2.pool) = [1] ∧
    ∃ s, buildAnalyzeData (sortAndLink [mkOp OpType.OpAlloc 10 0 10 32 0,
        mkOp OpType.OpAlloc 20 0 20 64 0, mkOp OpType.OpFree 10 0 30 0 0] 100).2 [] = some s ∧
      s.m_memoryLeaks = (sortAndLink [mkOp OpType.OpAlloc 10 0 10 32 0,
        mkOp OpType.OpAlloc 20 0 20 64 0, mkOp OpType.OpFree 10 0 30 0 0] 100).2.m_operations.filter
        (IsLeak (sortAndLink [mkOp OpType.OpAlloc 10 0 10 32 0, mkOp OpType.OpAlloc 20 0 20 64 0,
          mkOp OpType.OpFree 10 0 30 0 0] 100).2.pool) :=
  ⟨by decide, by decide,
    (leaks_are_live_chain_ends [mkOp OpType.OpAlloc 10 0 10 32 0,
      mkOp OpType.OpAlloc 20 0 20 64 0, mkOp OpType.OpFree 10 0 30 0 0] 100
      (by decide) (by decide)).1.imp (fun _ h => ⟨h.1, h.2.1⟩)⟩


/-- The two shapes of a step, with the kind of the operation: a linked
operation releases a block, and an operation put in the map is no `OpFree`. -/
theorem linkStep_cases_kind {pool0 : List MemoryOperation} {done : List Nat} {s : LinkState}
    {p : Nat} {o : MemoryOperation} (hinv : LinkInv pool0 done s) (hp : p ∉ done)
    (ho : s.pool[p]? = some o) :
    (∃ v r m, linkStep s p = plainStep s p v r m ∧
      (∀ q j, m q = some j →
        (j = p ∧ o.m_operationType ≠ OpType.OpFree) ∨ s.opMap q = some j)) ∨
    (∃ j sz ov m q0, linkStep s p = linkedStep s p j sz ov m ∧ s.opMap q0 = some j ∧
      releases o = true ∧
      (∀ q j1, m q = some j1 →
        (j1 = p ∧ o.m_operationType ≠ OpType.OpFree) ∨ s.opMap q = some j1)) := by
  have hne : ∀ q j, s.opMap q = some j → j ≠ p := fun q j h e => hp (e ▸ (hinv.map q j h).1)
  have hins : o.m_operationType ≠ OpType.OpFree →
      ∀ q j, Function.update s.opMap o.m_pointer (some p) q = some j →
      (j = p ∧ o.m_operationType ≠ OpType.OpFree) ∨ s.opMap q = some j := by
    intro hf q j h
    by_cases hq : q = o.m_pointer
    · subst hq
      rw [Function.update_same] at h
      exact Or.inl ⟨(Option.some.inj h).symm, hf⟩
    · rw [Function.update_noteq hq] at h
      exact Or.inr h
  rcases opType_kind o with ⟨ha, hr, hf⟩ | ⟨ha, hr, hf⟩ | ⟨ha, hr, hf⟩
  · cases hm : s.opMap o.m_pointer with
    | none => exact Or.inl ⟨true, false, _, linkStep_alloc_fresh s p o ho ha hm, hins hf⟩
    | some j =>
      exact Or.inl ⟨false, false, _, linkStep_alloc_dup s p j o ho ha hm, fun q j h => Or.inr h⟩
  · by_cases hpp : o.m_previousPointer = 0
    · cases hm : s.opMap o.m_pointer with
      | none =>
        exact Or.inl ⟨true, false, _, linkStep_realloc_fresh s p o ho hr hpp hm, hins hf⟩
      | some j =>
        exact Or.inl ⟨false, true, _, linkStep_realloc_dup s p j o ho hr hpp hm, hins hf⟩
    · cases hm : s.opMap o.m_previousPointer with
      | none =>
        exact Or.inl ⟨false, true, _, linkStep_realloc_orphan s p o ho hr hpp hm, hins hf⟩
      | some j =>
        refine Or.inr ⟨j, o.m_allocSize, o.m_overhead, _, o.m_previousPointer,
          linkStep_realloc_linked s p j o ho hr hpp hm (hne _ _ hm), hm,
          by simp [releases, hr, hpp], ?_⟩
        intro q j1 h
        by_cases hq : q = o.m_pointer
        · subst hq
          rw [Function.update_same] at h
          exact Or.inl ⟨(Option.some.inj h).symm, hf⟩
        · rw [Function.update_noteq hq] at h
          by_cases hq2 : q = o.m_previousPointer
          · subst hq2
            rw [Function.update_same] at h
            cases h
          · rw [Function.update_noteq hq2] at h
            exact Or.inr h
  · cases hm : s.opMap o.m_pointer with
    | none =>
      exact Or.inl ⟨false, true, _, linkStep_free_orphan s p o ho hf hm, fun q j h => Or.inr h⟩
    | some j =>
      obtain ⟨-, old, hold, -, -⟩ := hinv.map _ _ hm
      refine Or.inr ⟨j, old.m_allocSize, old.m_overhead, _, o.m_pointer,
        linkStep_free_linked s p j o old ho hf hm (hne _ _ hm) hold, hm,
        by simp [releases, hf], ?_⟩
      intro q j1 h
      by_cases hq : q = o.m_pointer
      · subst hq
        rw [Function.update_same] at h
        cases h
      · rw [Function.update_noteq hq] at h
        exact Or.inr h


theorem linkOrder_init (pool0 : List MemoryOperation) (inv : List Nat) (hun : Unlinked pool0) :
    LinkOrder [] ⟨pool0, fun _ => none, inv⟩ := by
  constructor
  · intro q j h
    cases h
  · intro k j ok hk hcp
    have := (hun ok (List.mem_iff_getElem?.mpr ⟨k, hk⟩)).1
    rw [this] at hcp
    cases hcp

theorem linkOrder_step {pool0 : List MemoryOperation} {done : List Nat} {s : LinkState}
    {p : Nat} (hinv : LinkInv pool0 done s) (hord : LinkOrder done s) (hun : Unlinked pool0)
    (hp : p ∉ done) (hlt : p < pool0.length) : LinkOrder (done ++ [p]) (linkStep s p) := by
  have ho : s.pool[p]? = some pool0[p] := by
    rw [hinv.fresh p hp]
    exact List.getElem?_eq_getElem hlt
  have hunl : (pool0[p]).m_chainPrev = none := (hun _ (List.getElem_mem _)).1
  have hne : ∀ q j, s.opMap q = some j → j ≠ p := fun q j h e => hp (e ▸ (hinv.map q j h).1)
  have hgrow : ∀ (k j : Nat), (∃ pre post, done = pre ++ k :: post ∧ j ∈ pre) →
      j ≠ p ∧ ∃ pre post, done ++ [p] = pre ++ k :: post ∧ j ∈ pre := by
    rintro k j ⟨pre, post, hdone, hj⟩
    refine ⟨?_, pre, post ++ [p], by rw [hdone]; simp, hj⟩
    intro e
    apply hp
    rw [hdone, ← e]
    exact List.mem_append_left _ hj
  rcases linkStep_cases_kind hinv hp ho with ⟨v, r, m, heq, hmap⟩ |
    ⟨j, sz, ov, m, q0, heq, hq0, hrel, hmap⟩
  · rw [heq]
    have hpool := plainStep_pool s p v r m _ ho
    have hself : ∃ ox, (plainStep s p v r m).pool[p]? = some ox ∧
        ox.m_operationType = (pool0[p]).m_operationType := by
      rw [hpool, if_pos rfl]
      exact ⟨_, rfl, rfl⟩
    constructor
    · intro q j1 hm
      rcases hmap q j1 hm with ⟨h1, hf⟩ | hold
      · obtain ⟨ox, hox, hty⟩ := hself
        exact ⟨ox, by rw [h1]; exact hox, by rw [hty]; exact hf⟩
      · obtain ⟨oj, hoj, hfj⟩ := hord.mapKind q j1 hold
        exact ⟨oj, by rw [hpool, if_neg (hne q j1 hold)]; exact hoj, hfj⟩
    · intro k j1 ok hk hcp
      rw [hpool] at hk
      by_cases hkp : k = p
      · rw [if_pos hkp] at hk
        cases hk
        rw [show (pool0[p]).m_chainPrev = some j1 from hcp] at hunl
        cases hunl
      · rw [if_neg hkp] at hk
        obtain ⟨hrl, ⟨oj, hoj, hfj⟩, hpre⟩ := hord.prev k j1 ok hk hcp
        obtain ⟨hjp, hpre2⟩ := hgrow k j1 hpre
        exact ⟨hrl, ⟨oj, by rw [hpool, if_neg hjp]; exact hoj, hfj⟩, hpre2⟩
  · rw [heq]
    obtain ⟨hjd, oj0, hoj0, -, -⟩ := hinv.map q0 j hq0
    have hjp : j ≠ p := hne q0 j hq0
    have hpool := linkedStep_pool s p j sz ov m _ oj0 ho hoj0 hjp
    have hkeep : ∀ (x : Nat) (ox : MemoryOperation), x ≠ p → s.pool[x]? = some ox →
        ∃ ox1, (linkedStep s p j sz ov m).pool[x]? = some ox1 ∧
          ox1.m_operationType = ox.m_operationType := by
      intro x ox hxp hox
      rw [hpool, if_neg hxp]
      by_cases hxj : x = j
      · rw [if_pos hxj]
        rw [hxj, hoj0] at hox
        cases hox
        exact ⟨withNext p oj0, rfl, rfl⟩
      · rw [if_neg hxj]
        exact ⟨ox, hox, rfl⟩
    have hself : ∃ ox, (linkedStep s p j sz ov m).pool[p]? = some ox ∧
        ox.m_operationType = (pool0[p]).m_operationType := by
      rw [hpool, if_pos rfl]
      exact ⟨_, rfl, rfl⟩
    constructor
    · intro q j1 hm
      rcases hmap q j1 hm with ⟨h1, hf⟩ | hold
      · obtain ⟨ox, hox, hty⟩ := hself
        exact ⟨ox, by rw [h1]; exact hox, by rw [hty]; exact hf⟩
      · obtain ⟨oj, hoj, hfj⟩ := hord.mapKind q j1 hold
        obtain ⟨ox1, hox1, hty⟩ := hkeep j1 oj (hne q j1 hold) hoj
        exact ⟨ox1, hox1, by rw [hty]; exact hfj⟩
    · intro k j1 ok hk hcp
      rw [hpool] at hk
      by_cases hkp : k = p
      · rw [if_pos hkp] at hk
        cases hk
        have hj1 : j = j1 := Option.some.inj hcp
        subst hj1
        obtain ⟨oj, hoj, hfj⟩ := hord.mapKind q0 j hq0
        obtain ⟨ox1, hox1, hty⟩ := hkeep j oj hjp hoj
        refine ⟨hrel, ⟨ox1, hox1, by rw [hty]; exact hfj⟩, done, [], by rw [hkp], hjd⟩
      · rw [if_neg hkp] at hk
        have hold : ∃ ok0, s.pool[k]? = some ok0 ∧ ok0.m_chainPrev = some j1 ∧
            releases ok0 = releases ok := by
          by_cases hkj : k = j
          · rw [if_pos hkj] at hk
            cases hk
            exact ⟨oj0, by rw [hkj]; exact hoj0, hcp, rfl⟩
          · rw [if_neg hkj] at hk
            exact ⟨ok, hk, hcp, rfl⟩
        obtain ⟨ok0, hk0, hcp0, hrl0⟩ := hold
        obtain ⟨hrl, ⟨oj, hoj, hfj⟩, hpre⟩ := hord.prev k j1 ok0 hk0 hcp0
        obtain ⟨hj1p, hpre2⟩ := hgrow k j1 hpre
        obtain ⟨ox1, hox1, hty⟩ := hkeep j1 oj hj1p hoj
        exact ⟨by rw [← hrl0]; exact hrl, ⟨ox1, hox1, by rw [hty]; exact hfj⟩, hpre2⟩

theorem linkOrder_foldl {pool0 : List MemoryOperation} (hun : Unlinked pool0) :
    ∀ (ptrs done : List Nat) (s : LinkState), LinkInv pool0 done s → LinkOrder done s →
      (done ++ ptrs).Nodup → (∀ p ∈ ptrs, p < pool0.length) →
      LinkOrder (done ++ ptrs) (ptrs.foldl linkStep s) := by
  intro ptrs
  induction ptrs with
  | nil =>
    intro done s _ hord _ _
    simpa using hord
  | cons p ptrs ih =>
    intro done s hinv hord hnd hlt
    have hp : p ∉ done := by
      intro hmem
      exact (List.nodup_append.mp hnd).2.2 hmem (List.mem_cons_self _ _)
    have hpl := hlt p (List.mem_cons_self _ _)
    have hnd1 : ((done ++ [p]) ++ ptrs).Nodup := by simpa using hnd
    have := ih (done ++ [p]) (linkStep s p) (linkInv_step hinv hun hp hpl)
      (linkOrder_step hinv hord hun hp hpl) hnd1 (fun q hq => hlt q (List.mem_cons_of_mem _ hq))
    simpa using this

theorem linkOrder_final (c : Capture) (h : LinkReady c) :
    LinkOrder c.m_operations (linkSweep c.pool c.m_operationsInvalid c.m_operations) := by
  obtain ⟨hnd, hlt, hun, -⟩ := h
  have := linkOrder_foldl hun c.m_operations [] _ (linkInv_init c.pool c.m_operationsInvalid hun)
    (linkOrder_init c.pool c.m_operationsInvalid hun) (by simpa using hnd) hlt
  simpa [linkSweep] using this


theorem take_of_nodup_split (l pre post : List Nat) (k n : Nat) (hnd : l.Nodup)
    (hl : l = pre ++ k :: post) (hn : l[n]? = some k) : l.take n = pre := by
  subst hl
  have h1 : (pre ++ k :: post)[pre.length]? = some k := by
    rw [List.getElem?_append_right (le_refl _)]
    simp
  obtain ⟨hlt1, he1⟩ := List.getElem?_eq_some.mp hn
  obtain ⟨hlt2, he2⟩ := List.getElem?_eq_some.mp h1
  have : n = pre.length := (hnd.getElem_inj_iff).mp (he1.trans he2.symm)
  exact List.take_left' this.symm

theorem keepsCount_statsHelpersOf (pool : List MemoryOperation) :
    KeepsCount (statsHelpersOf pool) :=
  ⟨fun _ _ => rfl, fun _ _ => rfl, fun _ _ => rfl, fun _ => rfl, fun _ _ => rfl⟩

theorem countAndFill_count (h : StatsHelpers) (hk : KeepsCount h) (op : MemoryOperation)
    (s : MemoryStats) :
    (countAndFill h op s).m_numberOfOperations = u32 (s.m_numberOfOperations + 1) := by
  unfold countAndFill
  simp only []
  split
  · rw [hk.1]
  · rw [hk.1]
  · rw [hk.1]
  · rw [hk.2.1]
  · rw [hk.2.1]
  · rw [hk.2.2.1]

theorem statsOver_count (h : StatsHelpers) (hk : KeepsCount h) :
    ∀ (ops : List MemoryOperation) (s : MemoryStats),
      s.m_numberOfOperations + ops.length < 4294967296 →
      (statsOver h s ops).m_numberOfOperations = s.m_numberOfOperations + ops.length := by
  intro ops
  induction ops with
  | nil =>
    intro s _
    rfl
  | cons op rest ih =>
    intro s hlt
    rw [List.length_cons] at hlt
    have h1 := countAndFill_count h hk op s
    rw [u32_of_lt (by omega)] at h1
    show (statsOver h (countAndFill h op s) rest).m_numberOfOperations = _
    rw [ih _ (by rw [h1]; omega), h1, List.length_cons]
    omega

theorem statsOver_append (h : StatsHelpers) (s : MemoryStats) (a b : List MemoryOperation) :
    statsOver h s (a ++ b) = statsOver h (statsOver h s a) b := by
  unfold statsOver
  rw [List.foldl_append]

/-- The loop of `calculateGlobalStats`: the final stats, the times and indices
of the snapshots, and what each new snapshot holds: the stats of the
operations before its index. -/
theorem globalStatsLoop_spec (h : StatsHelpers) (mask : Nat) :
    ∀ (rest : List MemoryOperation) (i : Nat) (g : GlobalStats),
      (globalStatsLoop h mask i rest g).m_statsGlobal = statsOver h g.m_statsGlobal rest ∧
      (globalStatsLoop h mask i rest g).m_timedStats.map Prod.fst
        = g.m_timedStats.map Prod.fst ++ timedLoop mask i rest ∧
      ∀ e ∈ (globalStatsLoop h mask i rest g).m_timedStats, e ∈ g.m_timedStats ∨
        ∃ pre post, rest = pre ++ post ∧ post ≠ [] ∧
          e.1.m_operationIndex = u32 (i + pre.length) ∧
          e.2.m_stats = statsOver h g.m_statsGlobal pre := by
  intro rest
  induction rest with
  | nil =>
    intro i g
    refine ⟨rfl, ?_, fun e he => Or.inl he⟩
    show g.m_timedStats.map Prod.fst = g.m_timedStats.map Prod.fst ++ timedLoop mask i []
    unfold timedLoop
    rw [List.append_nil]
  | cons op rest ih =>
    intro i g
    unfold globalStatsLoop
    simp only []
    obtain ⟨h1, h2, h3⟩ := ih (i + 1)
      { m_timedStats :=
          if decide (i &&& mask = 0) = true then
            g.m_timedStats ++ [(⟨op.m_operationTime, u32 i⟩, ⟨g.localPeak, g.m_statsGlobal⟩)]
          else g.m_timedStats,
        m_statsGlobal := countAndFill h op g.m_statsGlobal,
        m_usageGraph := g.m_usageGraph ++
          [((countAndFill h op g.m_statsGlobal).m_memoryUsage,
            (countAndFill h op g.m_statsGlobal).m_numberOfLiveBlocks)],
        localPeak := updateLocalPeak op (countAndFill h op g.m_statsGlobal)
          (if decide (i &&& mask = 0) = true then zeroPeak else g.localPeak) }
    refine ⟨h1, ?_, ?_⟩
    · rw [h2]
      simp only []
      have ht : timedLoop mask i (op :: rest)
          = (if i &&& mask = 0 then [⟨op.m_operationTime, u32 i⟩] else [])
            ++ timedLoop mask (i + 1) rest := rfl
      rw [ht]
      by_cases hm : i &&& mask = 0
      · rw [if_pos hm, if_pos (decide_eq_true hm), List.map_append, List.append_assoc]
        rfl
      · rw [if_neg hm, if_neg (by simp [hm]), List.nil_append]
    · intro e he
      rcases h3 e he with hin | ⟨pre, post, hsplit, hpost, hidx, hst⟩
      · simp only [] at hin
        by_cases hm : i &&& mask = 0
        · rw [if_pos (by simp [hm])] at hin
          rcases List.mem_append.mp hin with hold | hnew
          · exact Or.inl hold
          · have he2 := List.mem_singleton.mp hnew
            refine Or.inr ⟨[], op :: rest, rfl, by simp, ?_, ?_⟩
            · rw [he2]
              rfl
            · rw [he2]
              rfl
        · rw [if_neg (by simp [hm])] at hin
          exact Or.inl hin
      · refine Or.inr ⟨op :: pre, post, by rw [hsplit]; rfl, hpost, ?_, ?_⟩
        · rw [hidx, List.length_cons]
          congr 1
          omega
        · rw [hst]
          rfl


/-- C16 fails as stated: for a capture of one allocation of 8 bytes, the
snapshot taken in the loop has operation index 0 and holds the stats before
that operation: `number_of_operations` 0, not 1, and `memory_usage` 0, not
the 8 bytes of operation 0. The snapshot appended after the loop has the same
index and holds the stats of that operation. -/
theorem timed_snapshot_before_index_counterexample :
    (calculateGlobalStats (statsHelpersOf [allocAt 10]) [allocAt 10]).map
      (fun g => g.m_timedStats.map
        (fun e => (e.1.m_operationIndex, e.2.m_stats.m_numberOfOperations,
          e.2.m_stats.m_memoryUsage)))
      = some [(0, 0, 0), (0, 1, 8)] := by
  decide

/-- C16 as amended: `calculateGlobalStats` returns on a non-empty operation
list; the times and indices of its snapshots are those of the lookup table;
every snapshot but the last holds the cumulative statistics of the operations
with index below its `operation_index`, so its `number_of_operations` equals
`operation_index`; the last snapshot has the index of the last operation and
holds the statistics of all operations, so its `number_of_operations` equals
`operation_index + 1`. -/
theorem timed_snapshot_stats_before_index (h : StatsHelpers) (ops : List MemoryOperation)
    (hkeep : KeepsCount h) (h0 : 0 < ops.length) (hn : ops.length < 4294967296) :
    ∃ g, calculateGlobalStats h ops = some g ∧
      calculateGlobalStatsTimed ops = some (g.m_timedStats.map Prod.fst) ∧
      (∀ k e, g.m_timedStats[k]? = some e → k + 1 < g.m_timedStats.length →
        e.1.m_operationIndex < ops.length ∧
        e.2.m_stats = statsOver h zeroStats (ops.take e.1.m_operationIndex) ∧
        e.2.m_stats.m_numberOfOperations = e.1.m_operationIndex) ∧
      (∃ e, g.m_timedStats[g.m_timedStats.length - 1]? = some e ∧
        e.1.m_operationIndex + 1 = ops.length ∧
        e.2.m_stats = statsOver h zeroStats ops ∧
        e.2.m_stats.m_numberOfOperations = e.1.m_operationIndex + 1) := by
  have hlast : ops[ops.length - 1]? = some ops[ops.length - 1] :=
    List.getElem?_eq_getElem (by omega)
  obtain ⟨h1, h2, h3⟩ := globalStatsLoop_spec h (getGranularityMask ops.length) ops 0
    { m_timedStats := [], m_statsGlobal := zeroStats, m_usageGraph := [], localPeak := zeroPeak }
  simp only [List.map_nil, List.nil_append, List.not_mem_nil, false_or, Nat.zero_add] at h1 h2 h3
  unfold calculateGlobalStats
  simp only []
  rw [hlast]
  simp only []
  generalize globalStatsLoop h (getGranularityMask ops.length) 0 ops
    { m_timedStats := [], m_statsGlobal := zeroStats, m_usageGraph := [],
      localPeak := zeroPeak } = r at h1 h2 h3 ⊢
  refine ⟨_, rfl, ?_, ?_, ?_⟩
  · unfold calculateGlobalStatsTimed
    simp only []
    rw [hlast]
    simp only []
    rw [List.map_append, h2]
    rfl
  · intro k e hk hlt
    simp only [List.length_append, List.length_singleton] at hlt
    simp only [] at hk
    rw [List.getElem?_append_left (by omega)] at hk
    obtain ⟨pre, post, hsplit, hpost, hidx, hst⟩ := h3 e (List.mem_iff_getElem?.mpr ⟨k, hk⟩)
    have hlen : pre.length < ops.length := by
      rw [hsplit, List.length_append]
      have : 0 < post.length := List.length_pos.mpr hpost
      omega
    rw [u32_of_lt (by omega)] at hidx
    have htake : ops.take e.1.m_operationIndex = pre := by
      rw [hidx, hsplit]
      exact List.take_left pre post
    refine ⟨by rw [hidx]; exact hlen, by rw [htake]; exact hst, ?_⟩
    rw [hst, statsOver_count h hkeep pre zeroStats (by show 0 + pre.length < _; omega), hidx]
    show 0 + pre.length = pre.length
    omega
  · refine ⟨(⟨(ops[ops.length - 1]).m_operationTime, u32 (ops.length - 1)⟩,
      ⟨r.localPeak, r.m_statsGlobal⟩), ?_, ?_, ?_, ?_⟩
    · simp only [List.length_append, List.length_singleton, Nat.add_sub_cancel]
      rw [List.getElem?_append_right (le_refl _), Nat.sub_self]
      rfl
    · show u32 (ops.length - 1) + 1 = ops.length
      rw [u32_of_lt (by omega)]
      omega
    · exact h1
    · show r.m_statsGlobal.m_numberOfOperations = u32 (ops.length - 1) + 1
      rw [h1, statsOver_count h hkeep ops zeroStats (by show 0 + ops.length < _; omega),
        u32_of_lt (by omega)]
      show 0 + ops.length = ops.length - 1 + 1
      omega

/-- C16 at three allocations with the spec's helper functions: the first
snapshot has index 0 and counts 0 operations, the last has index 2 and counts 3. -/
theorem timed_snapshot_stats_before_index_witness :
    (calculateGlobalStats (statsHelpersOf [allocAt 10, allocAt 20, allocAt 30])
      [allocAt 10, allocAt 20, allocAt 30]).map
      (fun g => g.m_timedStats.map
        (fun e => (e.1.m_operationIndex, e.2.m_stats.m_numberOfOperations)))
      = some [(0, 0), (2, 3)] ∧
    ∃ g, calculateGlobalStats (statsHelpersOf [allocAt 10, allocAt 20, allocAt 30])
        [allocAt 10, allocAt 20, allocAt 30] = some g ∧
      calculateGlobalStatsTimed [allocAt 10, allocAt 20, allocAt 30]
        = some (g.m_timedStats.map Prod.fst) :=
  ⟨by decide,
    (timed_snapshot_stats_before_index (statsHelpersOf [allocAt 10, allocAt 20, allocAt 30])
      [allocAt 10, allocAt 20, allocAt 30] (keepsCount_statsHelpersOf _) (by decide)
      (by decide)).imp (fun _ hg => ⟨hg.1, hg.2.1⟩)⟩


/-- A call of `GetRangedStats` over a range inside `m_operations` returns, and
adds the length of the range to `m_numberOfOperations`. -/
theorem rangedLoop_count (h : StatsHelpers) (hk : KeepsCount h) (ops : List MemoryOperation) :
    ∀ (count i : Nat) (s : MemoryStats), i + count ≤ ops.length →
      s.m_numberOfOperations + count < 4294967296 →
      ∃ s1, rangedLoop h ops count i s = some s1 ∧
        s1.m_numberOfOperations = s.m_numberOfOperations + count := by
  intro count
  induction count with
  | zero =>
    intro i s _ _
    exact ⟨s, rfl, rfl⟩
  | succ c ih =>
    intro i s hle hlt
    unfold rangedLoop
    rw [List.getElem?_eq_getElem (by omega : i < ops.length)]
    simp only []
    have h1 := countAndFill_count h hk ops[i] s
    rw [u32_of_lt (by omega)] at h1
    obtain ⟨s1, hs1, hc1⟩ := ih (i + 1) (countAndFill h ops[i] s) (by omega) (by rw [h1]; omega)
    exact ⟨s1, hs1, by rw [hc1, h1]; omega⟩

/-- C15, what the code does in the branch for a window inside one snapshot
bracket: when the two lookups return the operation indices `i0` and `i1` and
snapshot indices less than 2 apart, the call returns, and the
`number_of_operations` it reports is `i1` minus the operation index of the
timed snapshot before the window, whatever the window's start is: the
operations between that snapshot and the window are counted too. -/
theorem snapshotStats_counts_from_timed_snapshot (h : StatsHelpers) (f : FilterState)
    (ops : List MemoryOperation) (table : List (MemoryStatsTimed × TimedData))
    (i0 ti0 i1 ti1 : Nat) (e : MemoryStatsTimed × TimedData) (hkeep : KeepsCount h)
    (hb : getIndexBefore ops (table.map Prod.fst) f.m_minTimeSnapshot = some (i0, ti0))
    (ha : getIndexAfter ops (table.map Prod.fst) f.m_maxTimeSnapshot = some (i1, ti1))
    (he : table[ti0]? = some e) (hpath : sub32 ti1 ti0 < 2)
    (hcnt : e.2.m_stats.m_numberOfOperations = e.1.m_operationIndex)
    (hlo : e.1.m_operationIndex ≤ i0) (hhi : i0 + 1 ≤ i1) (hlen : i1 ≤ ops.length)
    (hn : ops.length < 4294967296) :
    ∃ s, calculateSnapshotStats h f ops table = some s ∧
      s.m_numberOfOperations = i1 - e.1.m_operationIndex := by
  unfold calculateSnapshotStats
  rw [hb, ha]
  simp only []
  rw [he]
  simp only []
  rw [if_pos hpath]
  obtain ⟨m, hm, hm1, hm2⟩ : ∃ m, (if i0 ≠ 0 then u32 (i0 + 1) else i0) = m ∧
      e.1.m_operationIndex ≤ m ∧ m ≤ i1 := by
    by_cases hz : i0 ≠ 0
    · rw [if_pos hz, u32_of_lt (by omega)]
      exact ⟨_, rfl, by omega, hhi⟩
    · rw [if_neg hz]
      exact ⟨_, rfl, hlo, by omega⟩
  rw [hm]
  unfold snapshotStatsManual GetRangedStats
  obtain ⟨s1, hs1, hc1⟩ := rangedLoop_count h hkeep ops (m - e.1.m_operationIndex)
    e.1.m_operationIndex e.2.m_stats (by omega) (by omega)
  rw [hs1]
  simp only []
  obtain ⟨s2, hs2, hc2⟩ := rangedLoop_count h hkeep ops (i1 - m) m (h.setPeaksToCurrent s1)
    (by omega) (by rw [hkeep.2.2.2.1, hc1]; omega)
  rw [hs2]
  refine ⟨_, rfl, ?_⟩
  show sub32 s2.m_numberOfOperations e.2.m_stats.m_numberOfOperations = _
  rw [hc2, hkeep.2.2.2.1, hc1, hcnt]
  unfold sub32 u32
  omega

/-- C15 at ten allocations with the times 1 to 10 and the window `[5, 8]`:
four operations lie in the window, the snapshot before it is the one of
operation 0, and `calculateSnapshotStats` reports 7 operations. -/
theorem snapshotStats_counts_from_timed_snapshot_witness :
    (tenAllocs.filter (fun o => decide (midWindow.m_minTimeSnapshot ≤ o.m_operationTime) &&
      decide (o.m_operationTime ≤ midWindow.m_maxTimeSnapshot))).length = 4 ∧
    (calculateGlobalStats (statsHelpersOf tenAllocs) tenAllocs).map (fun g => g.m_timedStats)
      = some [(⟨1, 0⟩, ⟨zeroPeak, zeroStats⟩),
          (⟨10, 9⟩, ⟨⟨80, 0⟩, ⟨80, 80, 0, 0, 10, 10, 0, 0, 10⟩⟩)] ∧
    (calculateSnapshotStats (statsHelpersOf tenAllocs) midWindow tenAllocs
      [(⟨1, 0⟩, ⟨zeroPeak, zeroStats⟩),
        (⟨10, 9⟩, ⟨⟨80, 0⟩, ⟨80, 80, 0, 0, 10, 10, 0, 0, 10⟩⟩)]).map
      (fun s => s.m_numberOfOperations) = some 7 ∧
    ∃ s, calculateSnapshotStats (statsHelpersOf tenAllocs) midWindow tenAllocs
        [(⟨1, 0⟩, ⟨zeroPeak, zeroStats⟩),
          (⟨10, 9⟩, ⟨⟨80, 0⟩, ⟨80, 80, 0, 0, 10, 10, 0, 0, 10⟩⟩)] = some s ∧
      s.m_numberOfOperations = 7 - 0 :=
  ⟨by decide, by decide, by decide,
    snapshotStats_counts_from_timed_snapshot (statsHelpersOf tenAllocs) midWindow tenAllocs
      [(⟨1, 0⟩, ⟨zeroPeak, zeroStats⟩),
        (⟨10, 9⟩, ⟨⟨80, 0⟩, ⟨80, 80, 0, 0, 10, 10, 0, 0, 10⟩⟩)]
      4 0 7 0 (⟨1, 0⟩, ⟨zeroPeak, zeroStats⟩) (keepsCount_statsHelpersOf _)
      (by decide) (by decide) (by decide) (by decide) (by decide) (by decide) (by decide)
      (by decide) (by decide)⟩


theorem threadTags_snoc (pre : List LogEvent) (e : LogEvent) (T : Nat) :
    threadTags (pre ++ [e]) T = tagStep T (threadTags pre T) e := by
  unfold threadTags
  rw [List.foldl_append]
  rfl

theorem memOpCount_snoc (pre : List LogEvent) (e : LogEvent) :
    memOpCount (pre ++ [e]) = memOpCount pre +
      (match e with
        | LogEvent.memOp _ => 1
        | _ => 0) := by
  unfold memOpCount
  rw [List.filter_append, List.length_append]
  cases e <;> rfl

/-- The tags of a thread depend on the `EnterTag` and `LeaveTag` records of
that thread only. -/
theorem threadTags_filter (T : Nat) (events : List LogEvent) :
    threadTags events T = threadTags (events.filter (onThread T)) T := by
  unfold threadTags
  generalize ([] : List Nat) = st
  induction events generalizing st with
  | nil => rfl
  | cons e rest ih =>
    by_cases hon : onThread T e = true
    · rw [List.filter_cons_of_pos hon, List.foldl_cons, List.foldl_cons]
      exact ih _
    · rw [List.filter_cons_of_neg hon, List.foldl_cons]
      have : tagStep T st e = st := by
        cases e with
        | memOp op => rfl
        | enterTag h t =>
          have : t ≠ T := by simpa [onThread] using hon
          simp [tagStep, this]
        | leaveTag h t =>
          have : t ≠ T := by simpa [onThread] using hon
          simp [tagStep, this]
        | marker a b c => rfl
        | other => rfl
      rw [this]
      exact ih _

theorem parseStep_stacks (isAlloc : OpType → Bool) (s s1 : ParseState) (e : LogEvent)
    (h : parseStep isAlloc s e = some s1) (T : Nat) :
    s1.perThreadTagStack T = tagStep T (s.perThreadTagStack T) e := by
  cases e with
  | memOp op =>
    simp only [parseStep, Option.some.injEq] at h
    rw [← h]
    rfl
  | enterTag tagHash t =>
    simp only [parseStep, Option.some.injEq] at h
    rw [← h]
    simp only [tagStep]
    by_cases ht : t = T
    · subst ht
      rw [Function.update_same, if_pos rfl]
    · rw [Function.update_noteq (Ne.symm ht), if_neg ht]
  | leaveTag tagHash t =>
    simp only [parseStep] at h
    split at h
    · cases h
    · simp only [Option.some.injEq] at h
      rw [← h]
      simp only [tagStep]
      by_cases ht : t = T
      · subst ht
        rw [Function.update_same, if_pos rfl]
      · rw [Function.update_noteq (Ne.symm ht), if_neg ht]
  | marker a b c =>
    simp only [parseStep, Option.some.injEq] at h
    rw [← h]
    rfl
  | other =>
    simp only [parseStep, Option.some.injEq] at h
    rw [← h]
    rfl


theorem parseStep_memOp (isAlloc : OpType → Bool) (s : ParseState) (op : MemoryOperation) :
    parseStep isAlloc s (LogEvent.memOp op)
      = some { s with m_operations := s.m_operations ++
          [parsedOp op (if isAlloc op.m_operationType = true then
            topTag (s.perThreadTagStack op.m_threadID) else 0)] } := by
  unfold parseStep parsedOp topTag
  simp only []
  cases (s.perThreadTagStack op.m_threadID).getLast? <;> rfl

theorem parseStep_ops_of_not_memOp (isAlloc : OpType → Bool) (s s1 : ParseState) (e : LogEvent)
    (h : parseStep isAlloc s e = some s1) (hne : ∀ op, e ≠ LogEvent.memOp op) :
    s1.m_operations = s.m_operations := by
  cases e with
  | memOp op => exact absurd rfl (hne op)
  | enterTag tagHash t =>
    simp only [parseStep, Option.some.injEq] at h
    rw [← h]
  | leaveTag tagHash t =>
    simp only [parseStep] at h
    split at h
    · cases h
    · simp only [Option.some.injEq] at h
      rw [← h]
  | marker a b c =>
    simp only [parseStep, Option.some.injEq] at h
    rw [← h]
  | other =>
    simp only [parseStep, Option.some.injEq] at h
    rw [← h]

theorem parseStep_defined (isAlloc : OpType → Bool) (s : ParseState) (e : LogEvent)
    (h : ∀ tagHash T, e = LogEvent.leaveTag tagHash T → s.perThreadTagStack T ≠ []) :
    ∃ s1, parseStep isAlloc s e = some s1 := by
  cases e with
  | memOp op => exact ⟨_, parseStep_memOp isAlloc s op⟩
  | enterTag tagHash t => exact ⟨_, rfl⟩
  | leaveTag tagHash t =>
    unfold parseStep
    simp only []
    rw [if_neg (h tagHash t rfl)]
    exact ⟨_, rfl⟩
  | marker a b c => exact ⟨_, rfl⟩
  | other => exact ⟨_, rfl⟩

/-- The parse loop after the records `pre`, over the records `post`: when
every `LeaveTag` finds a tag, the loop returns; the tag stacks are those of
the threads' own records; the operations stored before stay; and every memory
operation record of `post` is stored at its position among the operations,
with the top tag of its thread at that point when it is an allocation and
with tag 0 otherwise. -/
theorem parseLoop_spec (isAlloc : OpType → Bool) :
    ∀ (post pre : List LogEvent) (s : ParseState),
      (∀ T, s.perThreadTagStack T = threadTags pre T) →
      s.m_operations.length = memOpCount pre → WellNested (pre ++ post) →
      ∃ s1, parseLoop isAlloc s post = some s1 ∧
        (∀ T, s1.perThreadTagStack T = threadTags (pre ++ post) T) ∧
        (∀ (k : Nat) (o : MemoryOperation), s.m_operations[k]? = some o →
          s1.m_operations[k]? = some o) ∧
        ∀ a op b, post = a ++ LogEvent.memOp op :: b →
          s1.m_operations[memOpCount (pre ++ a)]?
            = some (parsedOp op (if isAlloc op.m_operationType = true then
                topTag (threadTags (pre ++ a) op.m_threadID) else 0)) := by
  intro post
  induction post with
  | nil =>
    intro pre s hst _ _
    refine ⟨s, rfl, by simpa using hst, fun _ _ h => h, ?_⟩
    intro a op b h
    cases a <;> cases h
  | cons e rest ih =>
    intro pre s hst hlen hwn
    have hleave : ∀ tagHash T, e = LogEvent.leaveTag tagHash T →
        s.perThreadTagStack T ≠ [] := by
      intro tagHash T he
      have h1 := hwn pre.length (by simp)
      unfold leaveFindsTag at h1
      rw [List.getElem?_append_right (le_refl _), Nat.sub_self, List.take_left] at h1
      simp only [List.getElem?_cons_zero, he] at h1
      rw [hst T]
      intro hemp
      rw [hemp] at h1
      simp at h1
    obtain ⟨s1, hs1⟩ := parseStep_defined isAlloc s e hleave
    have hst1 : ∀ T, s1.perThreadTagStack T = threadTags (pre ++ [e]) T := by
      intro T
      rw [parseStep_stacks isAlloc s s1 e hs1 T, threadTags_snoc, hst T]
    have happ : (pre ++ [e]) ++ rest = pre ++ e :: rest := by simp
    have hops : (∀ op, e = LogEvent.memOp op → s1.m_operations = s.m_operations ++
          [parsedOp op (if isAlloc op.m_operationType = true then
            topTag (threadTags pre op.m_threadID) else 0)]) ∧
        ((∀ op, e ≠ LogEvent.memOp op) → s1.m_operations = s.m_operations) := by
      constructor
      · intro op he
        rw [he, parseStep_memOp] at hs1
        rw [← Option.some.inj hs1, hst op.m_threadID]
      · exact parseStep_ops_of_not_memOp isAlloc s s1 e hs1
    have hlen1 : s1.m_operations.length = memOpCount (pre ++ [e]) := by
      rw [memOpCount_snoc]
      cases e with
      | memOp op =>
        rw [hops.1 op rfl, List.length_append, hlen]
        rfl
      | enterTag a b => rw [hops.2 (fun _ h => by cases h), hlen]; rfl
      | leaveTag a b => rw [hops.2 (fun _ h => by cases h), hlen]; rfl
      | marker a b c => rw [hops.2 (fun _ h => by cases h), hlen]; rfl
      | other => rw [hops.2 (fun _ h => by cases h), hlen]; rfl
    have hkeep1 : ∀ (k : Nat) (o : MemoryOperation), s.m_operations[k]? = some o →
        s1.m_operations[k]? = some o := by
      intro k o hk
      cases e with
      | memOp op =>
        rw [hops.1 op rfl, List.getElem?_append_left (List.getElem?_eq_some.mp hk).1]
        exact hk
      | enterTag a b => rw [hops.2 (fun _ h => by cases h)]; exact hk
      | leaveTag a b => rw [hops.2 (fun _ h => by cases h)]; exact hk
      | marker a b c => rw [hops.2 (fun _ h => by cases h)]; exact hk
      | other => rw [hops.2 (fun _ h => by cases h)]; exact hk
    obtain ⟨s2, hs2, hst2, hkeep2, hall2⟩ := ih (pre ++ [e]) s1 hst1 hlen1 (by rw [happ]; exact hwn)
    refine ⟨s2, ?_, ?_, fun k o hk => hkeep2 k o (hkeep1 k o hk), ?_⟩
    · unfold parseLoop
      rw [hs1]
      exact hs2
    · intro T
      rw [hst2 T, happ]
    · intro a op b hsplit
      cases a with
      | nil =>
        rw [List.nil_append] at hsplit
        have he : e = LogEvent.memOp op := (List.cons.inj hsplit).1
        rw [List.append_nil]
        apply hkeep2
        rw [hops.1 op he, ← hlen, List.getElem?_append_right (le_refl _), Nat.sub_self]
        rfl
      | cons e1 a1 =>
        rw [List.cons_append] at hsplit
        obtain ⟨he, hrest⟩ := List.cons.inj hsplit
        have := hall2 a1 op b hrest
        rw [List.append_assoc] at this
        rw [← he]
        exact this


/-- C20: when every `LeaveTag` of the stream finds a tag on its thread, the
parse loop returns, and a memory operation record for which `isAlloc` holds
is stored, at its position among the operations, with the tag that was
entered last and not yet left on its own thread at that point of the stream,
or 0 when there is none. That tag is the same for any other records before it
that have the same `EnterTag` and `LeaveTag` records of this thread. For
`RegisterTag(0xAA)`, `EnterTag(0xAA, 1)`, `Alloc(thread 1)`, `LeaveTag(0xAA, 1)`,
`Alloc(thread 1)` the stored tags are `0xAA` and 0. -/
theorem allocation_tag_is_thread_stack_top (allocTest : OpType → Bool)
    (pre post : List LogEvent) (op : MemoryOperation)
    (hwn : WellNested (pre ++ LogEvent.memOp op :: post))
    (halloc : allocTest op.m_operationType = true) :
    (∃ s, parseLoop allocTest parseStart (pre ++ LogEvent.memOp op :: post) = some s ∧
      s.m_operations[memOpCount pre]?
        = some (parsedOp op (topTag (threadTags pre op.m_threadID)))) ∧
    (∀ pre2 : List LogEvent,
      pre2.filter (onThread op.m_threadID) = pre.filter (onThread op.m_threadID) →
      threadTags pre2 op.m_threadID = threadTags pre op.m_threadID) ∧
    (parseLoop isAlloc parseStart taggedStream).map
      (fun s => s.m_operations.map (fun o => o.m_tag)) = some [170, 0] := by
  refine ⟨?_, ?_, by decide⟩
  · obtain ⟨s1, hs1, -, -, hall⟩ := parseLoop_spec allocTest (pre ++ LogEvent.memOp op :: post) []
      parseStart (fun _ => rfl) rfl (by simpa using hwn)
    refine ⟨s1, hs1, ?_⟩
    have := hall pre op post rfl
    rw [List.nil_append, if_pos halloc] at this
    exact this
  · intro pre2 hsame
    rw [threadTags_filter, hsame, ← threadTags_filter]

/-- C20 at `EnterTag(5, thread 1)`, `EnterTag(9, thread 2)`, `LeaveTag(9, thread 2)`,
`Alloc(thread 1)`: the allocation is stored first, with tag 5. -/
theorem allocation_tag_is_thread_stack_top_witness :
    WellNested ([LogEvent.enterTag 5 1, LogEvent.enterTag 9 2, LogEvent.leaveTag 9 2]
      ++ LogEvent.memOp { mkOp OpType.OpAlloc 4096 0 10 16 0 with m_threadID := 1 } :: []) ∧
    topTag (threadTags [LogEvent.enterTag 5 1, LogEvent.enterTag 9 2, LogEvent.leaveTag 9 2] 1)
      = 5 ∧
    ∃ s, parseLoop isAlloc parseStart
        ([LogEvent.enterTag 5 1, LogEvent.enterTag 9 2, LogEvent.leaveTag 9 2]
          ++ LogEvent.memOp { mkOp OpType.OpAlloc 4096 0 10 16 0 with m_threadID := 1 } :: [])
        = some s ∧
      s.m_operations[memOpCount
          [LogEvent.enterTag 5 1, LogEvent.enterTag 9 2, LogEvent.leaveTag 9 2]]?
        = some (parsedOp { mkOp OpType.OpAlloc 4096 0 10 16 0 with m_threadID := 1 }
            (topTag (threadTags
              [LogEvent.enterTag 5 1, LogEvent.enterTag 9 2, LogEvent.leaveTag 9 2]
              ({ mkOp OpType.OpAlloc 4096 0 10 16 0 with m_threadID := 1 } :
                MemoryOperation).m_threadID))) :=
  ⟨by decide, by decide,
    (allocation_tag_is_thread_stack_top isAlloc
      [LogEvent.enterTag 5 1, LogEvent.enterTag 9 2, LogEvent.leaveTag 9 2] []
      { mkOp OpType.OpAlloc 4096 0 10 16 0 with m_threadID := 1 } (by decide) (by decide)).1⟩


/-! ## The claims C21 to C30 -/

/-- C23 fails as stated: a header with version 0.0 passes the version check
of `loadBin`, and so do 0.1 and 0.2. -/
theorem header_below_one_accepted_counterexample :
    headerAccepted 6 0 0 = true ∧ headerAccepted 6 0 1 = true ∧ headerAccepted 6 0 2 = true := by
  decide

/-- C23 as amended: a header whose six items were read passes the version
check exactly when `ver_high <= 1` and `ver_low <= 2`, that is for the
versions 0.0, 0.1, 0.2, 1.0, 1.1 and 1.2; it is refused whenever
`ver_high > 1` or `ver_low > 2`, and whenever an item is missing. -/
theorem header_accepted_iff (headerItems verHigh verLow : Nat) :
    (headerAccepted 6 verHigh verLow = true ↔ verHigh ≤ 1 ∧ verLow ≤ 2) ∧
    (headerAccepted 6 verHigh verLow = true ↔
      (verHigh = 0 ∨ verHigh = 1) ∧ (verLow = 0 ∨ verLow = 1 ∨ verLow = 2)) ∧
    (verHigh > 1 ∨ verLow > 2 → headerAccepted headerItems verHigh verLow = false) ∧
    (headerItems ≠ 6 → headerAccepted headerItems verHigh verLow = false) := by
  unfold headerAccepted
  have key : (if (6 : Nat) ≠ 6 then false
      else if verHigh > 1 then false else if verLow > 2 then false else true) = true ↔
      verHigh ≤ 1 ∧ verLow ≤ 2 := by
    rw [if_neg (by decide)]
    by_cases h1 : verHigh > 1
    · rw [if_pos h1]
      exact ⟨fun h => (by cases h), fun h => (by omega)⟩
    · rw [if_neg h1]
      by_cases h2 : verLow > 2
      · rw [if_pos h2]
        exact ⟨fun h => (by cases h), fun h => (by omega)⟩
      · rw [if_neg h2]
        exact ⟨fun _ => ⟨by omega, by omega⟩, fun _ => rfl⟩
  refine ⟨key, ?_, ?_, ?_⟩
  · rw [key]
    omega
  · intro h
    by_cases h0 : headerItems ≠ 6
    · rw [if_pos h0]
    · rw [if_neg h0]
      by_cases h1 : verHigh > 1
      · rw [if_pos h1]
      · rw [if_neg h1, if_pos (by omega)]
  · intro h0
    rw [if_pos h0]

/-- The linker returns true exactly when it leaves an operation. -/
theorem setLinks_ok_iff (c : Capture) (mm : Nat) (hlen : c.m_operations.length < 4294967296) :
    (setLinksAndRemoveInvalid c mm).1 = true ↔
      (setLinksAndRemoveInvalid c mm).2.m_operations ≠ [] := by
  have hle : (c.m_operations.filter (isRetained (linkSweep c.pool c.m_operationsInvalid
      (c.m_operations.take (u32 c.m_operations.length))).pool)).length < 4294967296 :=
    lt_of_le_of_lt (List.length_filter_le _ _) hlen
  unfold setLinksAndRemoveInvalid
  simp only []
  rw [u32_of_lt hle]
  split
  · rename_i h
    simp only [Bool.false_eq_true, false_iff, ne_eq, not_not]
    exact List.length_eq_zero.mp h
  · rename_i h
    simp only [true_iff]
    exact fun he => h (List.length_eq_zero.mpr he)

theorem outcome_of_flags (a b : Bool) :
    (if (!a) = true then LoadResult.LoadFail
      else if (!b) = true then LoadResult.LoadFail else LoadResult.LoadPartial)
      = if a = true ∧ b = true then LoadResult.LoadPartial else LoadResult.LoadFail := by
  cases a <;> cases b <;> rfl

/-- C24 fails as stated: when the parse loop fails before any operation was
read and 10 bytes remain after the failure position, fewer than 1000, the
outcome is `LoadFail`, not `LoadPartial`. -/
theorem failed_parse_without_operations_counterexample :
    tolerateEndOfFile false 100 90 0 = (LoadResult.LoadPartial, true) ∧
    loadBinAfterParse false 100 90 [] 18446744073709551615 (fun _ => true)
      = LoadResult.LoadFail := by
  decide

/-- C24 as amended: after a failed parse the outcome of `loadBin` is
`LoadPartial` when fewer than 1000 bytes remain after the failure position or
an operation was read, and moreover the linker returns true, which for fewer
than `2^32` operations is when it retains an operation, and the global stats
verify; it is `LoadFail` otherwise. When no operation was read the outcome is
`LoadFail` whatever remains. -/
theorem failed_parse_outcome (fileSize pos : Nat) (stream : List MemoryOperation) (mm : Nat)
    (statsOk : Capture → Bool) :
    loadBinAfterParse false fileSize pos stream mm statsOk
      = (if (u64 (fileSize + (18446744073709551616 - u64 pos)) < 1000 ∨ 0 < stream.length) ∧
            (sortAndLink stream mm).1 = true ∧ statsOk (sortAndLink stream mm).2 = true
          then LoadResult.LoadPartial else LoadResult.LoadFail) ∧
    (stream.length < 4294967296 →
      ((sortAndLink stream mm).1 = true ↔ (sortAndLink stream mm).2.m_operations ≠ [])) ∧
    loadBinAfterParse false fileSize pos [] mm statsOk = LoadResult.LoadFail := by
  have htol : ∀ n, tolerateEndOfFile false fileSize pos n
      = if u64 (fileSize + (18446744073709551616 - u64 pos)) < 1000 ∨ n > 0 then
          (LoadResult.LoadPartial, true)
        else (LoadResult.LoadSuccess, false) := by
    intro n
    unfold tolerateEndOfFile
    rw [if_pos rfl]
  refine ⟨?_, ?_, ?_⟩
  · unfold loadBinAfterParse loadBinTail
    rw [htol]
    by_cases hrem : u64 (fileSize + (18446744073709551616 - u64 pos)) < 1000 ∨ stream.length > 0
    · rw [if_pos hrem]
      show (if (!(sortAndLink stream mm).1) = true then LoadResult.LoadFail
        else if (!statsOk (sortAndLink stream mm).2) = true then LoadResult.LoadFail
        else LoadResult.LoadPartial) = _
      rw [outcome_of_flags]
      by_cases hab : (sortAndLink stream mm).1 = true ∧ statsOk (sortAndLink stream mm).2 = true
      · rw [if_pos hab, if_pos ⟨hrem, hab⟩]
      · rw [if_neg hab, if_neg (fun h => hab h.2)]
    · have hR : ¬((u64 (fileSize + (18446744073709551616 - u64 pos)) < 1000 ∨
          0 < stream.length) ∧ (sortAndLink stream mm).1 = true ∧
          statsOk (sortAndLink stream mm).2 = true) := fun h => hrem h.1
      rw [if_neg hrem, if_neg hR]
      rfl
  · intro hlen
    have hperm := stableSortByTime_perm stream (List.range stream.length)
    exact setLinks_ok_iff _ mm (by
      show (stableSortByTime stream (List.range stream.length)).length < 4294967296
      rw [hperm.length_eq, List.length_range]
      exact hlen)
  · unfold loadBinAfterParse loadBinTail
    rw [htol]
    by_cases hrem : u64 (fileSize + (18446744073709551616 - u64 pos)) < 1000 ∨
        ([] : List MemoryOperation).length > 0
    · rw [if_pos hrem]
      rfl
    · rw [if_neg hrem]
      rfl

theorem read_split (D a b c : List Nat) (hD : D = a ++ (b ++ c)) (p n : Nat)
    (hp : p = a.length) (hn : n = b.length) :
    (BinLoader.mk D p).read n = (b, ⟨D, p + n⟩) := by
  subst hD hp hn
  simp [BinLoader.read]

theorem readVar_split (D a b c : List Nat) (hD : D = a ++ (b ++ c)) (p n : Nat)
    (hp : p = a.length) (hn : n = b.length) :
    (BinLoader.mk D p).readVar n = (1, b, ⟨D, p + n⟩) := by
  unfold BinLoader.readVar
  rw [read_split D a b c hD p n hp hn]
  simp [hn]

theorem map_xor_zero (xs : List Nat) : xs.map (fun x => Nat.xor x 0) = xs := by
  induction xs with
  | nil => rfl
  | cons x xs ih =>
    rw [List.map_cons, ih]
    congr 1
    exact Nat.xor_zero x

theorem readString_split (D a lenBytes body c : List Nat) (swap : Bool) (cs p : Nat)
    (hD : D = a ++ (lenBytes ++ (body ++ c))) (hp : p = a.length)
    (hlen : lenBytes.length = 4) (hlt : decodeVar swap lenBytes < 1024)
    (hbody : body.length = cs * decodeVar swap lenBytes) :
    ReadString 1024 cs ⟨D, p⟩ swap 0 =
      (u32 (decodeVar swap lenBytes * cs + 4),
        some ((unitsOf cs body).take (decodeVar swap lenBytes)), ⟨D, p + 4 + body.length⟩) := by
  unfold ReadString
  rw [readVar_split D a lenBytes (body ++ c) hD p 4 hp hlen.symm]
  simp only [ne_eq, not_true_eq_false, if_false, if_pos hlt]
  rw [read_split D (a ++ lenBytes) body c (by rw [hD]; simp) (p + 4)
    (cs * decodeVar swap lenBytes) (by rw [hp, List.length_append, hlen]) hbody.symm]
  simp only [map_xor_zero, hbody, if_true]

/-- Claim C26, counterexample: the `Module` record of the module `a` at base
`0x1000` with size `0x2000` takes 18 bytes after its tag, not
1 + (4 + 1) + 8 + 8 = 22: the size is the four bytes `0, 32, 0, 0`, and the
byte read next is the 9 at offset 18.  The record is also parsed when the
stream ends after these 18 bytes. -/
theorem module_record_size_field_counterexample :
    readModuleRecord false ⟨moduleRecordBytes, 0⟩ =
        some (some [97], 4096, 8192, ⟨moduleRecordBytes, 18⟩) ∧
      moduleRecordBytes[18]? = some 9 ∧
      18 ≠ 1 + (4 + 1) + 8 + 8 ∧
      readModuleRecord false ⟨moduleRecordBytes.take 18, 0⟩ =
        some (some [97], 4096, 8192, ⟨moduleRecordBytes.take 18, 18⟩) := by
  decide

/-- Claim C26, amended: a `Module` record after its tag is one byte `sz`, a
four-byte length `len`, the name of `len` bytes when `sz` is 1 and of
`2 * len` bytes otherwise (for `len < 1024`), an eight-byte base address and
a four-byte size.  Parsing it gives the name, the base and the size and
leaves the reader 1 + (4 + name bytes) + 8 + 4 bytes further, where the next
record tag is read. -/
theorem module_record_consumes (swap : Bool) (pre lenBytes body base size rest : List Nat)
    (sz : Nat)
    (hlen : lenBytes.length = 4) (hlt : decodeVar swap lenBytes < 1024)
    (hbody : body.length = (if sz = 1 then 1 else 2) * decodeVar swap lenBytes)
    (hbase : base.length = 8) (hsize : size.length = 4) :
    readModuleRecord swap
        ⟨pre ++ ([sz] ++ (lenBytes ++ (body ++ (base ++ (size ++ rest))))), pre.length⟩ =
      some (some ((unitsOf (if sz = 1 then 1 else 2) body).take (decodeVar swap lenBytes)),
        decodeVar swap base, decodeVar swap size,
        ⟨pre ++ ([sz] ++ (lenBytes ++ (body ++ (base ++ (size ++ rest))))),
          pre.length + 1 + (4 + body.length) + 8 + 4⟩) := by
  generalize hD : pre ++ ([sz] ++ (lenBytes ++ (body ++ (base ++ (size ++ rest))))) = D
  have hrs : (if sz = 1 then ReadString 1024 1 ⟨D, pre.length + 1⟩ swap 0
        else ReadString 1024 2 ⟨D, pre.length + 1⟩ swap 0) =
      (u32 (decodeVar swap lenBytes * (if sz = 1 then 1 else 2) + 4),
        some ((unitsOf (if sz = 1 then 1 else 2) body).take (decodeVar swap lenBytes)),
        ⟨D, pre.length + 1 + 4 + body.length⟩) := by
    by_cases h1 : sz = 1
    · rw [if_pos h1] at hbody
      simp only [if_pos h1]
      exact readString_split D (pre ++ [sz]) lenBytes body (base ++ (size ++ rest)) swap 1 _
        (by rw [← hD]; simp) (by simp) hlen hlt hbody
    · rw [if_neg h1] at hbody
      simp only [if_neg h1]
      exact readString_split D (pre ++ [sz]) lenBytes body (base ++ (size ++ rest)) swap 2 _
        (by rw [← hD]; simp) (by simp) hlen hlt hbody
  unfold readModuleRecord
  rw [readVar_split D pre [sz] (lenBytes ++ (body ++ (base ++ (size ++ rest)))) hD.symm
    pre.length 1 rfl rfl]
  have hsz : decodeLE [sz] = sz := by simp [decodeLE]
  simp only [ne_eq, not_true_eq_false, if_false, hsz, hrs]
  rw [readVar_split D (pre ++ ([sz] ++ (lenBytes ++ body))) base (size ++ rest)
    (by rw [← hD]; simp) _ 8 (by simp [hlen]; omega) hbase.symm]
  simp only [not_true_eq_false, if_false]
  rw [readVar_split D (pre ++ ([sz] ++ (lenBytes ++ (body ++ base)))) size rest
    (by rw [← hD]; simp) _ 4 (by simp [hlen, hbase]; omega) hsize.symm]
  simp only [not_true_eq_false, if_false]
  have hp : pre.length + 1 + 4 + body.length + 8 + 4 = pre.length + 1 + (4 + body.length) + 8 + 4 := by
    omega
  rw [hp]

/-- Witness of `module_record_consumes`: the record of the module `a`. -/
theorem module_record_consumes_witness :
    readModuleRecord false ⟨[] ++ ([1] ++ ([1, 0, 0, 0] ++ ([97] ++
        ([0, 16, 0, 0, 0, 0, 0, 0] ++ ([0, 32, 0, 0] ++ [9, 7]))))), 0⟩ =
      some (some [97], 4096, 8192,
        ⟨[] ++ ([1] ++ ([1, 0, 0, 0] ++ ([97] ++
          ([0, 16, 0, 0, 0, 0, 0, 0] ++ ([0, 32, 0, 0] ++ [9, 7]))))), 18⟩) :=
  module_record_consumes false [] [1, 0, 0, 0] [97] [0, 16, 0, 0, 0, 0, 0, 0] [0, 32, 0, 0]
    [9, 7] 1 (by decide) (by decide) (by decide) (by decide) (by decide)

theorem strStr_single_none (c : Nat) (s : List Nat) : strStr s [c] = none ↔ c ∉ s := by
  induction s with
  | nil => simp [strStr]
  | cons a rest ih =>
    unfold strStr
    by_cases h : a = c
    · subst h
      simp [List.isPrefixOf]
    · have h2 : ([c].isPrefixOf (a :: rest)) = false := by
        simp [List.isPrefixOf]
        exact fun hh => h hh.symm
      rw [h2]
      simp only [Bool.false_eq_true, if_false, Option.map_eq_none', ih, List.mem_cons, not_or]
      constructor
      · exact fun hh => ⟨fun e => h e.symm, hh⟩
      · exact fun hh => hh.2

theorem strStr_single_lt (c : Nat) (s : List Nat) (k : Nat) (h : strStr s [c] = some k) :
    k < s.length := by
  induction s generalizing k with
  | nil => simp [strStr] at h
  | cons a rest ih =>
    unfold strStr at h
    by_cases hp : ([c].isPrefixOf (a :: rest)) = true
    · rw [if_pos hp] at h
      cases h
      simp
    · rw [if_neg hp] at h
      cases hr : strStr rest [c] with
      | none => rw [hr] at h; simp at h
      | some j =>
        rw [hr] at h
        simp at h
        have := ih j hr
        simp
        omega

theorem strCmp_eq_zero (a b : List Nat) : strCmp a b = 0 ↔ a = b := by
  induction a generalizing b with
  | nil => cases b <;> simp [strCmp]
  | cons x s ih =>
    cases b with
    | nil => simp [strCmp]
    | cons y t =>
      unfold strCmp
      by_cases h : x = y
      · rw [if_pos h, ih]
        simp [h]
      · rw [if_neg h]
        by_cases h2 : x < y
        · rw [if_pos h2]; simp [h]
        · rw [if_neg h2]; simp [h]

theorem moduleNameLoop_some (exePath : List Nat) (fuel : Nat) :
    ∀ (m : Nat) (ns : Option Nat), m ≤ exePath.length → exePath.length - m < fuel →
      ∃ m1, moduleNameLoop exePath fuel (some m) ns = some (some m1) := by
  induction fuel with
  | zero => intro m ns _ h; omega
  | succ fuel ih =>
    intro m ns hm hf
    unfold moduleNameLoop
    cases h1 : strStr (exePath.drop m) [47] with
    | some k =>
      have hk := strStr_single_lt 47 _ k h1
      rw [List.length_drop] at hk
      simp only [findNextSlash, h1]
      exact ih (m + k + 1) _ (by omega) (by omega)
    | none =>
      cases h2 : strStr (exePath.drop m) [92] with
      | some k =>
        have hk := strStr_single_lt 92 _ k h2
        rw [List.length_drop] at hk
        simp only [findNextSlash, h1, h2, Option.map_some']
        exact ih (m + k + 1) _ (by omega) (by omega)
      | none =>
        simp only [findNextSlash, h1, h2, Option.map_none']
        exact ⟨m, rfl⟩

theorem moduleName_start (exePath : List Nat) :
    (match strStr exePath [47] with
      | some k => some k
      | none => strStr exePath [92]) = none ↔ (47 ∉ exePath ∧ 92 ∉ exePath) := by
  cases h1 : strStr exePath [47] with
  | some k =>
    have : ¬ (47 ∉ exePath) := fun h => by
      rw [(strStr_single_none 47 exePath).mpr h] at h1
      cases h1
    constructor
    · intro h
      cases h
    · intro h
      exact absurd h.1 this
  | none =>
    simp only [strStr_single_none] at h1 ⊢
    simp [h1]

/-- The outcome of `addModule`: nothing is done when the first 1023 characters
of the path hold no separator or when an entry has the file name and the base
address of the new module, and the module is appended otherwise. -/
theorem addModule_spec (fn : List Nat → List Nat) (pathLen toolchain : Nat) (t : ModuleTable)
    (path : List Nat) (base size : Nat) (hptr : t.m_modulePathBufferPtr < 131072) :
    addModule fn pathLen toolchain t path base size =
      some (if (47 ∈ strlCpy 1024 path ∨ 92 ∈ strlCpy 1024 path) ∧
            ¬ (∃ info ∈ t.m_moduleInfos, fn info.m_modulePath = fn path ∧
                info.m_baseAddress = base) then
          { m_moduleInfos := t.m_moduleInfos ++
              [{ m_baseAddress := base, m_size := size, m_toolchain := toolchain,
                 m_modulePath :=
                   strlCpy pathLen (strlCpy (131072 - t.m_modulePathBufferPtr) path) }],
            m_modulePathBufferPtr := u32 (t.m_modulePathBufferPtr + path.length + 1) }
        else t) := by
  unfold addModule
  have hany : (t.m_moduleInfos.any (fun info =>
        decide (strCmp (fn info.m_modulePath) (fn path) = 0) &&
          decide (base = info.m_baseAddress)) = true) ↔
      (∃ info ∈ t.m_moduleInfos, fn info.m_modulePath = fn path ∧ info.m_baseAddress = base) := by
    simp only [List.any_eq_true, Bool.and_eq_true, decide_eq_true_eq, strCmp_eq_zero]
    constructor
    · rintro ⟨i, hi, h1, h2⟩
      exact ⟨i, hi, h1, h2.symm⟩
    · rintro ⟨i, hi, h1, h2⟩
      exact ⟨i, hi, h1, h2.symm⟩
  cases h0 : (match strStr (strlCpy 1024 path) [47] with
      | some k => some k
      | none => strStr (strlCpy 1024 path) [92]) with
  | none =>
    have hsep := (moduleName_start _).mp h0
    simp only []
    rw [h0]
    have hl : moduleNameLoop (strlCpy 1024 path) ((strlCpy 1024 path).length + 1) none none =
        some none := rfl
    rw [hl]
    simp only []
    rw [if_neg (fun h => h.1.elim (fun a => hsep.1 a) (fun a => hsep.2 a))]
  | some m =>
    have hsep : 47 ∈ strlCpy 1024 path ∨ 92 ∈ strlCpy 1024 path := by
      by_contra hc
      rw [not_or] at hc
      rw [(moduleName_start _).mpr hc] at h0
      cases h0
    have hm : m ≤ (strlCpy 1024 path).length := by
      cases h1 : strStr (strlCpy 1024 path) [47] with
      | some k =>
        rw [h1] at h0
        cases h0
        exact Nat.le_of_lt (strStr_single_lt 47 _ _ h1)
      | none =>
        rw [h1] at h0
        exact Nat.le_of_lt (strStr_single_lt 92 _ _ h0)
    obtain ⟨m1, hl⟩ := moduleNameLoop_some (strlCpy 1024 path) ((strlCpy 1024 path).length + 1)
      m none hm (by omega)
    simp only []
    rw [h0, hl]
    simp only []
    rw [if_neg (by omega)]
    by_cases hd : ∃ info ∈ t.m_moduleInfos, fn info.m_modulePath = fn path ∧
        info.m_baseAddress = base
    · rw [if_pos (hany.mpr hd), if_neg (fun h => h.2 hd)]
    · rw [if_neg (fun h => hd (hany.mp h)), if_pos ⟨hsep, hd⟩]

/-- Claim C27, counterexample: the module `a.dll` at base `0x1000`, whose path
has no directory separator, is not appended to the empty module table, while
`/a.dll` is. -/
theorem addModule_without_separator_counterexample :
    addModule fileNameOf 1024 0 ⟨[], 0⟩ pathNoSeparator 4096 8192 = some ⟨[], 0⟩ ∧
      addModule fileNameOf 1024 0 ⟨[], 0⟩ pathWithSeparator 4096 8192 =
        some ⟨[⟨⟨4096, 8192⟩, 0, pathWithSeparator⟩], 7⟩ := by
  decide

/-- Claim C27, amended: while the path buffer has room, `addModule` appends the
module (path, base, size) to the end of the module table if and only if the
first 1023 characters of the path hold a `/` or a `\` and no existing entry
has both the same file name and the same base address; otherwise the table is
unchanged.  The stored path is the path itself when it fits the path field
and the rest of the path buffer. -/
theorem addModule_appends_iff (fn : List Nat → List Nat) (pathLen toolchain : Nat)
    (t : ModuleTable) (path : List Nat) (base size : Nat)
    (hptr : t.m_modulePathBufferPtr < 131072) :
    (((47 ∈ strlCpy 1024 path ∨ 92 ∈ strlCpy 1024 path) ∧
        ¬ (∃ info ∈ t.m_moduleInfos, fn info.m_modulePath = fn path ∧
            info.m_baseAddress = base)) →
      ∃ stored p, addModule fn pathLen toolchain t path base size =
          some ⟨t.m_moduleInfos ++ [⟨⟨base, size⟩, toolchain, stored⟩], p⟩ ∧
        (path.length < pathLen → t.m_modulePathBufferPtr + path.length < 131072 →
          stored = path)) ∧
    (¬ ((47 ∈ strlCpy 1024 path ∨ 92 ∈ strlCpy 1024 path) ∧
        ¬ (∃ info ∈ t.m_moduleInfos, fn info.m_modulePath = fn path ∧
            info.m_baseAddress = base)) →
      addModule fn pathLen toolchain t path base size = some t) ∧
    (∀ t1, addModule fn pathLen toolchain t path base size = some t1 →
      (t1.m_moduleInfos.length = t.m_moduleInfos.length + 1 ↔
        ((47 ∈ strlCpy 1024 path ∨ 92 ∈ strlCpy 1024 path) ∧
          ¬ (∃ info ∈ t.m_moduleInfos, fn info.m_modulePath = fn path ∧
              info.m_baseAddress = base)))) := by
  have h := addModule_spec fn pathLen toolchain t path base size hptr
  refine ⟨fun hc => ?_, fun hc => ?_, fun t1 ht1 => ?_⟩
  · rw [if_pos hc] at h
    refine ⟨_, _, h, fun h1 h2 => ?_⟩
    unfold strlCpy
    have e1 : List.take (131072 - t.m_modulePathBufferPtr - 1) path = path :=
      List.take_of_length_le (by omega)
    rw [e1]
    exact List.take_of_length_le (by omega)
  · rw [if_neg hc] at h
    exact h
  · rw [h] at ht1
    by_cases hc : (47 ∈ strlCpy 1024 path ∨ 92 ∈ strlCpy 1024 path) ∧
        ¬ (∃ info ∈ t.m_moduleInfos, fn info.m_modulePath = fn path ∧
            info.m_baseAddress = base)
    · rw [if_pos hc] at ht1
      cases ht1
      simp [hc]
    · rw [if_neg hc] at ht1
      cases ht1
      constructor
      · intro h
        omega
      · intro h
        exact absurd h hc

/-- Witness of `addModule_appends_iff`: the empty table and the path `/a.dll`. -/
theorem addModule_appends_iff_witness :
    (0 : Nat) < 131072 ∧
      ∃ stored p, addModule fileNameOf 1024 0 ⟨[], 0⟩ pathWithSeparator 4096 8192 =
          some ⟨[] ++ [⟨⟨4096, 8192⟩, 0, stored⟩], p⟩ ∧
        (pathWithSeparator.length < 1024 → 0 + pathWithSeparator.length < 131072 →
          stored = pathWithSeparator) :=
  ⟨by decide,
    (addModule_appends_iff fileNameOf 1024 0 ⟨[], 0⟩ pathWithSeparator 4096 8192
      (by decide)).1 (by decide)⟩

theorem analyzeStep_leaks (s : AnalyzeState) (l0 : List Nat) (op : Nat) :
    analyzeStep { s with m_memoryLeaks := l0 ++ s.m_memoryLeaks } op =
      (analyzeStep s op).map (fun a => { a with m_memoryLeaks := l0 ++ a.m_memoryLeaks }) := by
  unfold analyzeStep
  simp only []
  cases s.pool[op]? with
  | none => rfl
  | some o =>
    simp only []
    cases o.m_chainNext with
    | some next =>
      simp only []
      cases s.pool[next]? with
      | none => rfl
      | some n =>
        simp only []
        cases updateLiveSize (if n.m_tag = 0 then
            writeOp s.pool next (fun x => { x with m_tag := o.m_tag }) else s.pool) o s.liveSize with
        | none => rfl
        | some l => rfl
    | none =>
      simp only []
      cases updateLiveSize s.pool o s.liveSize with
      | none => rfl
      | some l =>
        simp only [Option.map_some']
        cases isLeaked o <;> simp

theorem analyzeLoop_leaks (l0 : List Nat) :
    ∀ (ops : List Nat) (s : AnalyzeState),
      analyzeLoop { s with m_memoryLeaks := l0 ++ s.m_memoryLeaks } ops =
        (analyzeLoop s ops).map (fun a => { a with m_memoryLeaks := l0 ++ a.m_memoryLeaks }) := by
  intro ops
  induction ops with
  | nil => intro s; rfl
  | cons p rest ih =>
    intro s
    unfold analyzeLoop
    rw [analyzeStep_leaks]
    cases analyzeStep s p with
    | none => rfl
    | some s1 => exact ih s1

theorem buildAnalyzeData_leaks (c : Capture) (l0 : List Nat) :
    buildAnalyzeData c l0 =
      (buildAnalyzeData c []).map (fun a => { a with m_memoryLeaks := l0 ++ a.m_memoryLeaks }) := by
  unfold buildAnalyzeData analyzeAfter
  rw [← analyzeLoop_leaks]
  simp only [List.append_nil]

theorem buildAnalyzeData_fresh (stream : List MemoryOperation) (mm : Nat)
    (hun : Unlinked stream) (hlen : stream.length < 4294967296) :
    ∃ a, buildAnalyzeData (sortAndLink stream mm).2 [] = some a ∧
      a.m_memoryLeaks = (sortAndLink stream mm).2.m_operations.filter
        (IsLeak (sortAndLink stream mm).2.pool) := by
  have hready := linkReady_sorted stream hun hlen
  have hall := analyzeReady_of_linked _ mm hready
  have hlen2 : (sortAndLink stream mm).2.m_operations.length < 4294967296 := by
    have hres := setLinksAndRemoveInvalid_result
      { parsedCapture stream with
        m_operations := stableSortByTime (parsedCapture stream).pool
          (parsedCapture stream).m_operations } mm
    have hops1 : (sortAndLink stream mm).2.m_operations
        = (stableSortByTime stream (List.range stream.length)).filter
            (isRetained (sortAndLink stream mm).2.pool) := hres.2.1
    rw [hops1]
    exact lt_of_le_of_lt (List.length_filter_le _ _) hready.2.2.2
  obtain ⟨s1, hs1, -, hlk, -⟩ := analyzeLoop_spec (sortAndLink stream mm).2.m_operations
    { pool := (sortAndLink stream mm).2.pool, liveBlocks := 0, liveSize := 0,
      m_memoryLeaks := [], groupArgs := [] } (tagFrame_refl _) hall
  refine ⟨s1, ?_, ?_⟩
  · unfold buildAnalyzeData analyzeAfter
    rw [u32_of_lt hlen2, List.take_length, List.take_length]
    exact hs1
  · rw [hlk, isLeakEnd_eq_isLeak]
    rfl

/-- Claim C25: after a load and the analysis of a capture, `clearData` leaves
the leak list as it is, and the same load and analysis again give the same
operations but a leak list holding every leak twice (the first copy pointing
into the pool that was reset).  For the capture with the single operation
`Alloc(ptr=4096, size=64)` the leak list is `[0]` after one load and analysis,
still `[0]` after `clearData`, and `[0, 0]` after the second load and
analysis. -/
theorem reload_appends_to_leaks (stream : List MemoryOperation) (mm : Nat)
    (hun : Unlinked stream) (hlen : stream.length < 4294967296) :
    (∃ s1, analyzeCapture (loadCapture stream mm newCapture) = some s1 ∧
      s1.m_memoryLeaks = (sortAndLink stream mm).2.m_operations.filter
        (IsLeak (sortAndLink stream mm).2.pool) ∧
      (clearData s1).m_memoryLeaks = s1.m_memoryLeaks ∧
      analyzeCapture (loadCapture stream mm (clearData s1)) =
        some { s1 with m_memoryLeaks := s1.m_memoryLeaks ++ s1.m_memoryLeaks }) ∧
    (analyzeCapture (loadCapture [mkOp OpType.OpAlloc 4096 0 10 64 0] 18446744073709551615
        newCapture)).map (fun s => (s.m_memoryLeaks, (clearData s).m_memoryLeaks,
          (analyzeCapture (loadCapture [mkOp OpType.OpAlloc 4096 0 10 64 0]
            18446744073709551615 (clearData s))).map (fun s2 => s2.m_memoryLeaks))) =
      some ([0], [0], some [0, 0]) := by
  refine ⟨?_, by decide⟩
  obtain ⟨a, ha, hlk⟩ := buildAnalyzeData_fresh stream mm hun hlen
  have h1 : analyzeCapture (loadCapture stream mm newCapture) =
      some { c := { (sortAndLink stream mm).2 with pool := a.pool },
             m_memoryLeaks := a.m_memoryLeaks } := by
    unfold analyzeCapture loadCapture clearData newCapture
    simp only []
    rw [ha]
  refine ⟨_, h1, hlk, rfl, ?_⟩
  unfold analyzeCapture loadCapture clearData
  simp only []
  rw [buildAnalyzeData_leaks, ha]
  rfl

/-- Claim C25 at the stream `Alloc(ptr=10)`, `Alloc(ptr=20)`, `Free(ptr=10)`:
the leak list `[1]` becomes `[1, 1]`. -/
theorem reload_appends_to_leaks_witness :
    Unlinked [mkOp OpType.OpAlloc 10 0 10 32 0, mkOp OpType.OpAlloc 20 0 20 64 0,
      mkOp OpType.OpFree 10 0 30 0 0] ∧
    ∃ s1, analyzeCapture (loadCapture [mkOp OpType.OpAlloc 10 0 10 32 0,
        mkOp OpType.OpAlloc 20 0 20 64 0, mkOp OpType.OpFree 10 0 30 0 0] 100 newCapture) =
          some s1 ∧
      analyzeCapture (loadCapture [mkOp OpType.OpAlloc 10 0 10 32 0,
        mkOp OpType.OpAlloc 20 0 20 64 0, mkOp OpType.OpFree 10 0 30 0 0] 100 (clearData s1)) =
          some { s1 with m_memoryLeaks := s1.m_memoryLeaks ++ s1.m_memoryLeaks } :=
  ⟨by decide,
    (reload_appends_to_leaks [mkOp OpType.OpAlloc 10 0 10 32 0,
      mkOp OpType.OpAlloc 20 0 20 64 0, mkOp OpType.OpFree 10 0 30 0 0] 100
      (by decide) (by decide)).1.imp (fun _ h => ⟨h.1, h.2.2.2⟩)⟩

theorem stackTraceCompare_iff (e1 e2 : List Nat) (h1 : e1.length ≤ 512) :
    stackTraceCompare e1 e1.length e2 e2.length = true ↔ e1 = e2 := by
  unfold stackTraceCompare
  by_cases hl : e1.length = e2.length
  · rw [if_neg (not_not.mpr hl)]
    have hu : u32 e1.length = e1.length := u32_of_lt (by omega)
    simp only [hu]
    rw [if_pos (by omega)]
    simp only [List.all_eq_true, List.mem_range, decide_eq_true_eq]
    constructor
    · intro h
      apply List.ext_getElem? 
      intro i
      by_cases hi : i < e1.length
      · exact h i hi
      · rw [List.getElem?_eq_none (by omega), List.getElem?_eq_none (by omega)]
    · intro h i _
      rw [h]
  · rw [if_pos hl]
    constructor
    · intro h; cases h
    · intro h; exact absurd (by rw [h]) hl

theorem internStackTrace_add_isSome (t : TraceTable) (f : List Nat) (hf : f.length ≤ 512) :
    ∃ r, internStackTrace t (StackTraceEntry.Add f) = some r := by
  unfold internStackTrace
  simp only []
  rw [if_neg (by omega)]
  cases (match t.m_stackTracesHash (u32 (stackTraceGetHash f f.length)) with
      | some s =>
        (match t.m_stackTraces[s]? with
         | some st =>
           if stackTraceCompare st.m_entries st.m_numEntries f f.length then some s
           else none
         | none => none)
      | none => none) with
  | none => exact ⟨_, rfl⟩
  | some s => exact ⟨_, rfl⟩

theorem internLoop_isSome :
    ∀ (entries : List StackTraceEntry) (t : TraceTable),
      (∀ e ∈ entries, isShortAdd e = true) →
      ∃ r, internLoop t entries = some r := by
  intro entries
  induction entries with
  | nil => intro t _; exact ⟨_, rfl⟩
  | cons e rest ih =>
    intro t h
    have he := h e (List.mem_cons_self _ _)
    cases e with
    | Exists x => simp [isShortAdd] at he
    | Add f =>
      have hf : f.length ≤ 512 := by simpa [isShortAdd] using he
      obtain ⟨⟨t1, s⟩, h1⟩ := internStackTrace_add_isSome t f hf
      obtain ⟨⟨t2, sts⟩, h2⟩ := ih t1 (fun e he => h e (List.mem_cons_of_mem _ he))
      unfold internLoop
      rw [h1]
      simp only []
      rw [h2]
      exact ⟨_, rfl⟩

theorem noHashCollision_eq {entries : List StackTraceEntry} (hnc : NoHashCollision entries)
    {f g : List Nat} (hf : StackTraceEntry.Add f ∈ entries)
    (hg : StackTraceEntry.Add g ∈ entries) (hh : hashOfFrames f = hashOfFrames g) : f = g := by
  have h := hnc _ hf _ hg
  unfold sameHashSameFrames at h
  simp only [Bool.or_eq_true, decide_eq_true_eq] at h
  exact h.elim (fun hne => absurd hh hne) id

theorem internInv_empty (entries : List StackTraceEntry) : InternInv entries emptyTraceTable :=
  ⟨fun i st h => by simp [emptyTraceTable] at h, fun h i hh => by simp [emptyTraceTable] at hh⟩

theorem internStackTrace_spec {entries : List StackTraceEntry} {t t1 : TraceTable} {s : Nat}
    (e : StackTraceEntry) (hinv : InternInv entries t) (hnc : NoHashCollision entries)
    (he : e ∈ entries) (h : internStackTrace t e = some (t1, s)) :
    InternInv entries t1 ∧ (∃ extra, t1.m_stackTraces = t.m_stackTraces ++ extra) ∧
      (∀ f, e = StackTraceEntry.Add f → t1.m_stackTraces[s]? = some ⟨f.length, f⟩) := by
  cases e with
  | Exists hash =>
    unfold internStackTrace at h
    simp only [] at h
    cases hm : t.m_stackTracesHash hash with
    | none => rw [hm] at h; cases h
    | some s0 =>
      rw [hm] at h
      cases h
      exact ⟨hinv, ⟨[], by simp⟩, fun f hf => by cases hf⟩
  | Add f =>
    unfold internStackTrace at h
    simp only [] at h
    by_cases hlen : f.length > 512
    · rw [if_pos hlen] at h
      cases h
    · rw [if_neg hlen] at h
      have hfold : u32 (stackTraceGetHash f f.length) = hashOfFrames f := rfl
      rw [hfold] at h
      cases hm : t.m_stackTracesHash (hashOfFrames f) with
      | some s0 =>
        obtain ⟨st, hst, hh⟩ := hinv.map _ _ hm
        obtain ⟨hn, hle, hmem, -⟩ := hinv.wf _ _ hst
        have heq : st.m_entries = f := noHashCollision_eq hnc hmem he hh
        have hcmp : stackTraceCompare st.m_entries st.m_numEntries f f.length = true := by
          rw [hn]
          exact (stackTraceCompare_iff _ _ hle).mpr heq
        rw [hm] at h
        simp only [hst, hcmp, if_true] at h
        cases h
        refine ⟨hinv, ⟨[], by simp⟩, fun g hg => ?_⟩
        cases hg
        rw [hst]
        congr 1
        cases st
        simp only [] at hn heq
        subst heq
        rw [hn]
      | none =>
        rw [hm] at h
        simp only [] at h
        cases h
        refine ⟨⟨?_, ?_⟩, ⟨_, rfl⟩, fun g hg => ?_⟩
        · intro i st hi
          by_cases hil : i < t.m_stackTraces.length
          · rw [List.getElem?_append_left hil] at hi
            obtain ⟨hn, hle, hmem, hreg⟩ := hinv.wf _ _ hi
            refine ⟨hn, hle, hmem, ?_⟩
            have hne : hashOfFrames st.m_entries ≠ hashOfFrames f := by
              intro hc
              rw [hc, hm] at hreg
              cases hreg
            simp only []
            rw [Function.update_noteq hne]
            exact hreg
          · have hi2 : i = t.m_stackTraces.length := by
              have := (List.getElem?_eq_some.mp hi).1
              simp at this
              omega
            subst hi2
            simp at hi
            subst hi
            simp only []
            exact ⟨trivial, by omega, he, Function.update_same _ _ _⟩
        · intro hh i hi
          simp only [] at hi
          by_cases hq : hh = hashOfFrames f
          · subst hq
            rw [Function.update_same] at hi
            cases hi
            exact ⟨⟨f.length, f⟩, by simp, rfl⟩
          · rw [Function.update_noteq hq] at hi
            obtain ⟨st, hst, hh2⟩ := hinv.map _ _ hi
            refine ⟨st, ?_, hh2⟩
            simp only []
            rw [List.getElem?_append_left (List.getElem?_eq_some.mp hst).1]
            exact hst
        · cases hg
          simp

theorem internLoop_spec {entries : List StackTraceEntry} (hnc : NoHashCollision entries) :
    ∀ (rest : List StackTraceEntry) (t t1 : TraceTable) (sts : List Nat),
      InternInv entries t → (∀ e ∈ rest, e ∈ entries) → internLoop t rest = some (t1, sts) →
      InternInv entries t1 ∧ (∃ extra, t1.m_stackTraces = t.m_stackTraces ++ extra) ∧
        ∀ (k : Nat) (f : List Nat), rest[k]? = some (StackTraceEntry.Add f) →
          ∃ s, sts[k]? = some s ∧ t1.m_stackTraces[s]? = some ⟨f.length, f⟩ := by
  intro rest
  induction rest with
  | nil =>
    intro t t1 sts hinv _ h
    unfold internLoop at h
    cases h
    exact ⟨hinv, ⟨[], by simp⟩, fun k f hk => by simp at hk⟩
  | cons e rest ih =>
    intro t t1 sts hinv hsub h
    unfold internLoop at h
    cases h1 : internStackTrace t e with
    | none => rw [h1] at h; cases h
    | some r1 =>
      obtain ⟨ta, s⟩ := r1
      rw [h1] at h
      simp only [] at h
      cases h2 : internLoop ta rest with
      | none => rw [h2] at h; cases h
      | some r2 =>
        obtain ⟨tb, sts2⟩ := r2
        rw [h2] at h
        cases h
        obtain ⟨hinva, ⟨ex1, hex1⟩, hfa⟩ :=
          internStackTrace_spec e hinv hnc (hsub e (List.mem_cons_self _ _)) h1
        obtain ⟨hinvb, ⟨ex2, hex2⟩, hfb⟩ :=
          ih ta t1 sts2 hinva (fun x hx => hsub x (List.mem_cons_of_mem _ hx)) h2
        refine ⟨hinvb, ⟨ex1 ++ ex2, by rw [hex2, hex1, List.append_assoc]⟩, ?_⟩
        intro k f hk
        cases k with
        | zero =>
          simp only [List.getElem?_cons_zero, Option.some.injEq] at hk
          refine ⟨s, by simp, ?_⟩
          have := hfa f hk
          rw [hex2]
          rw [List.getElem?_append_left (List.getElem?_eq_some.mp this).1]
          exact this
        | succ k =>
          simp only [List.getElem?_cons_succ] at hk
          obtain ⟨s1, hs1, hs2⟩ := hfb k f hk
          exact ⟨s1, by simpa using hs1, hs2⟩

/-- Claim C21, counterexample: the three `Add` records with the frames 1, 2,
then 2, 1, then 1, 2 all have the hash 3.  The operations get the objects 0,
1 and 2, so the first and the third, whose frames are equal, reference
different objects, and the stack-trace list holds the frames 1, 2 twice. -/
theorem interning_after_collision_counterexample :
    (internLoop emptyTraceTable collidingTraces).map
        (fun r => (r.1.m_stackTraces.map (fun st => st.m_entries), r.2)) =
      some ([[1, 2], [2, 1], [1, 2]], [0, 1, 2]) := by
  decide

/-- Claim C21, amended: for a stream in which no two different frame
sequences carried by `Add` entries have the same 32-bit additive hash, every
operation whose record carries frames by an `Add` entry references an object
with these frames, two such operations with equal frames reference the same
object, and the stack-trace list holds no two entries with equal frame
sequences.  A stream of `Add` entries of at most 512 frames is interned to
its end. -/
theorem interning_without_collision (entries : List StackTraceEntry)
    (hnc : NoHashCollision entries) :
    (∀ (t : TraceTable) (sts : List Nat), internLoop emptyTraceTable entries = some (t, sts) →
      (∀ (k : Nat) (f : List Nat), entries[k]? = some (StackTraceEntry.Add f) →
        ∃ s, sts[k]? = some s ∧ t.m_stackTraces[s]? = some ⟨f.length, f⟩) ∧
      (∀ (k l : Nat) (f : List Nat), entries[k]? = some (StackTraceEntry.Add f) →
        entries[l]? = some (StackTraceEntry.Add f) → sts[k]? = sts[l]?) ∧
      (t.m_stackTraces.map (fun st => st.m_entries)).Nodup) ∧
    ((∀ e ∈ entries, isShortAdd e = true) →
      ∃ r, internLoop emptyTraceTable entries = some r) := by
  refine ⟨fun t sts h => ?_, internLoop_isSome entries emptyTraceTable⟩
  obtain ⟨hinv, -, hf⟩ := internLoop_spec hnc entries emptyTraceTable t sts
    (internInv_empty entries) (fun _ he => he) h
  refine ⟨hf, ?_, ?_⟩
  · intro k l f hk hl
    obtain ⟨s1, hs1, ht1⟩ := hf k f hk
    obtain ⟨s2, hs2, ht2⟩ := hf l f hl
    have h1 := (hinv.wf _ _ ht1).2.2.2
    have h2 := (hinv.wf _ _ ht2).2.2.2
    rw [h1] at h2
    rw [hs1, hs2, Option.some.inj h2]
  · rw [List.nodup_iff_getElem?_ne_getElem?]
    intro i j hij hj heq
    rw [List.length_map] at hj
    rw [List.getElem?_map, List.getElem?_map] at heq
    have hi : i < t.m_stackTraces.length := by omega
    rw [List.getElem?_eq_getElem hi, List.getElem?_eq_getElem hj] at heq
    simp only [Option.map_some', Option.some.injEq] at heq
    have h1 := (hinv.wf i _ (List.getElem?_eq_getElem hi)).2.2.2
    have h2 := (hinv.wf j _ (List.getElem?_eq_getElem hj)).2.2.2
    rw [heq, h2] at h1
    have := Option.some.inj h1
    omega

/-- Witness of `interning_without_collision`: the frames 1, 2, then 4, then
1, 2 again are interned. -/
theorem interning_without_collision_witness :
    NoHashCollision [StackTraceEntry.Add [1, 2], StackTraceEntry.Add [4],
      StackTraceEntry.Add [1, 2]] ∧
    ∃ r, internLoop emptyTraceTable [StackTraceEntry.Add [1, 2], StackTraceEntry.Add [4],
      StackTraceEntry.Add [1, 2]] = some r :=
  ⟨by unfold NoHashCollision; decide,
    (interning_without_collision [StackTraceEntry.Add [1, 2], StackTraceEntry.Add [4],
      StackTraceEntry.Add [1, 2]] (by unfold NoHashCollision; decide)).2
      (by decide)⟩

theorem take_set_of_le (l : List Nat) (k idx a : Nat) (h : k ≤ idx) :
    (l.set idx a).take k = l.take k := by
  apply List.ext_getElem?
  intro j
  by_cases hj : j < k
  · rw [List.getElem?_take_of_lt hj, List.getElem?_take_of_lt hj, List.getElem?_set_ne (by omega)]
  · rw [List.getElem?_take_eq_none (by omega), List.getElem?_take_eq_none (by omega)]

theorem idLoop_spec (resolve : Nat → Nat × Bool) (n : Nat) :
    ∀ (k i : Nat) (entries : List Nat) (cs : Bool) (skip : Nat), i + k = n →
      2 * n ≤ entries.length →
      ∃ e1 cs1, idLoop resolve n k i entries cs skip =
          some (e1, cs1, skip + (if cs = true then
            (((entries.take n).drop i).takeWhile (fun a => (resolve a).2)).length else 0)) ∧
        e1.length = entries.length ∧
        (∀ j, (j < n + i ∨ n + i + k ≤ j) → e1[j]? = entries[j]?) ∧
        (∀ j a, i ≤ j → j < n → entries[j]? = some a → e1[n + j]? = some (resolve a).1) := by
  intro k
  induction k with
  | zero =>
    intro i entries cs skip hik hlen
    refine ⟨entries, cs, ?_, rfl, fun _ _ => rfl, fun j a h1 h2 => by omega⟩
    have hd : (entries.take n).drop i = [] := by
      apply List.drop_eq_nil_of_le
      rw [List.length_take]
      omega
    rw [hd]
    simp [idLoop]
  | succ k ih =>
    intro i entries cs skip hik hlen
    have hi : i < entries.length := by omega
    have hin : i + n < entries.length := by omega
    have hget : entries[i]? = some entries[i] := List.getElem?_eq_getElem hi
    obtain ⟨e1, cs1, hrun, hl1, hframe, hids⟩ :=
      ih (i + 1) (entries.set (i + n) (resolve entries[i]).1)
        (if (!(resolve entries[i]).2) = true then false else cs)
        (if (if (!(resolve entries[i]).2) = true then false else cs) = true then skip + 1 else skip)
        (by omega) (by rw [List.length_set]; exact hlen)
    rw [List.length_set] at hl1
    rw [take_set_of_le _ _ _ _ (by omega)] at hrun
    have hdrop : (entries.take n).drop i = entries[i] :: (entries.take n).drop (i + 1) := by
      have hit : i < (entries.take n).length := by
        rw [List.length_take]
        omega
      rw [List.drop_eq_getElem_cons hit, List.getElem_take]
    refine ⟨e1, cs1, ?_, hl1, ?_, ?_⟩
    · unfold idLoop
      rw [hget]
      simp only []
      rw [if_pos hin, hrun, hdrop, List.takeWhile_cons]
      congr 3
      cases cs <;> cases (resolve entries[i]).2 <;> simp_arith
    · intro j hj
      rw [hframe j (by omega), List.getElem?_set_ne (by omega)]
    · intro j a h1 h2 hja
      by_cases hji : j = i
      · subst hji
        rw [hframe (n + j) (by omega)]
        rw [hget] at hja
        cases hja
        have : n + j = j + n := by omega
        rw [this, List.getElem?_set_eq_of_lt _ hin]
      · apply hids j a (by omega) h2
        rw [List.getElem?_set_ne (by omega)]
        exact hja

theorem copyLoop_spec (dst src : Nat) (hds : dst ≤ src) :
    ∀ (k i : Nat) (entries : List Nat) (accesses : List (Nat × Nat)),
      src + i + k ≤ entries.length →
      ∃ e1, copyLoop dst src k i entries accesses =
          some (e1, accesses ++ (List.range' i k).map (fun j => (j + src, j + dst))) ∧
        e1.length = entries.length ∧
        (∀ j, i ≤ j → j < i + k → e1[j + dst]? = entries[j + src]?) ∧
        (∀ j, (j < i + dst ∨ i + k + dst ≤ j) → e1[j]? = entries[j]?) := by
  intro k
  induction k with
  | zero =>
    intro i entries accesses _
    exact ⟨entries, by simp [copyLoop], rfl, fun j h1 h2 => by omega, fun _ _ => rfl⟩
  | succ k ih =>
    intro i entries accesses hlen
    have hi : i + src < entries.length := by omega
    have hid : i + dst < entries.length := by omega
    have hget : entries[i + src]? = some entries[i + src] := List.getElem?_eq_getElem hi
    obtain ⟨e1, hrun, hl1, hcopy, hframe⟩ :=
      ih (i + 1) (entries.set (i + dst) entries[i + src]) (accesses ++ [(i + src, i + dst)])
        (by rw [List.length_set]; omega)
    rw [List.length_set] at hl1
    refine ⟨e1, ?_, hl1, ?_, ?_⟩
    · unfold copyLoop
      rw [hget]
      simp only []
      rw [if_pos hid, hrun, List.range'_succ, List.map_cons, List.append_assoc]
      rfl
    · intro j h1 h2
      by_cases hji : j = i
      · subst hji
        rw [hframe (j + dst) (by omega), List.getElem?_set_eq_of_lt _ hid, hget]
      · rw [hcopy j (by omega) (by omega), List.getElem?_set_ne (by omega)]
    · intro j hj
      rw [hframe j (by omega), List.getElem?_set_ne (by omega)]

theorem stripTop_spec (n skip : Nat) (entries : List Nat) (hs : skip < n)
    (hlen : 2 * n ≤ entries.length) :
    ∃ e1 accesses, stripTop n skip entries = some (e1, n - skip, accesses) ∧
      e1.length = entries.length ∧
      (∀ i, i < n - skip → e1[i]? = entries[i + skip]?) ∧
      (∀ i, i < n - skip → e1[n - skip + i]? = entries[n + (i + skip)]?) ∧
      accesses.Pairwise (fun earlier later => later.1 ≠ earlier.2) := by
  unfold stripTop
  by_cases h0 : skip = 0
  · subst h0
    rw [if_neg (by simp)]
    exact ⟨entries, [], rfl, rfl, fun i _ => rfl, fun i _ => rfl, List.Pairwise.nil⟩
  · rw [if_pos h0]
    simp only []
    rw [if_pos hs]
    obtain ⟨e1, h1, hl1, hc1, hf1⟩ := copyLoop_spec 0 skip (Nat.zero_le _) (n - skip) 0 entries []
      (by omega)
    obtain ⟨e2, h2, hl2, hc2, hf2⟩ := copyLoop_spec (n - skip) (n + skip) (by omega) (n - skip) 0
      e1 ([] ++ (List.range' 0 (n - skip)).map (fun j => (j + skip, j + 0))) (by omega)
    rw [h1]
    simp only []
    rw [h2]
    refine ⟨e2, _, rfl, by rw [hl2, hl1], ?_, ?_, ?_⟩
    · intro i hi
      rw [hf2 i (by omega)]
      exact hc1 i (Nat.zero_le _) (by omega)
    · intro i hi
      have e : n - skip + i = i + (n - skip) := by omega
      rw [e, hc2 i (Nat.zero_le _) (by omega), hf1 _ (by omega)]
      congr 1
      omega
    · rw [List.nil_append, List.pairwise_append]
      refine ⟨?_, ?_, ?_⟩
      · rw [List.pairwise_map]
        exact (List.pairwise_lt_range' 0 (n - skip)).imp (fun {a b} hab => by
          simp only [ne_eq]
          omega)
      · rw [List.pairwise_map]
        exact (List.pairwise_lt_range' 0 (n - skip)).imp (fun {a b} hab => by
          simp only [ne_eq]
          omega)
      · intro x hx y hy
        rw [List.mem_map] at hx hy
        obtain ⟨a, ha, rfl⟩ := hx
        obtain ⟨b, hb, rfl⟩ := hy
        rw [List.mem_range'_1] at ha hb
        simp only [ne_eq]
        omega

theorem resetScratch_spec (m : Nat) (entries : List Nat) (hlen : m * 4 ≤ entries.length) :
    ∃ e1, resetScratch m entries = some e1 ∧ e1.length = entries.length ∧
      (∀ j, j < 2 * m → e1[j]? = entries[j]?) ∧
      (∀ j, 2 * m ≤ j → j < 4 * m → e1[j]? = some 18446744073709551615) := by
  unfold resetScratch
  rw [if_pos hlen]
  refine ⟨_, rfl, ?_, ?_, ?_⟩
  · simp only [List.length_append, List.length_take, List.length_replicate, List.length_drop]
    omega
  · intro j hj
    rw [List.append_assoc, List.getElem?_append_left (by rw [List.length_take]; omega),
      List.getElem?_take_of_lt (by omega)]
  · intro j h1 h2
    have hlt : (entries.take (m * 2)).length = m * 2 := by
      rw [List.length_take]
      omega
    rw [List.getElem?_append_left (by
        rw [List.length_append, hlt, List.length_replicate]
        omega),
      List.getElem?_append_right (by rw [hlt]; omega), hlt,
      List.getElem?_replicate, if_pos (by omega)]

/-- The symbol pass on a stack trace of `n` frames of which the first `skip`,
and no more, are instrumentation frames, `skip < n`. -/
theorem symbolPass_spec (resolve : Nat → Nat × Bool) (st : StackTrace)
    (hlen : st.m_entries.length = 4 * st.m_numEntries)
    (hskip : leadingSkip resolve st < st.m_numEntries) :
    ∃ st1 accesses, symbolPass resolve st = some (st1, accesses) ∧
      st1.m_numEntries = st.m_numEntries - leadingSkip resolve st ∧
      (∀ i, i < st1.m_numEntries →
        st1.m_entries[i]? = st.m_entries[i + leadingSkip resolve st]?) ∧
      (∀ i a, i < st1.m_numEntries → st.m_entries[i + leadingSkip resolve st]? = some a →
        st1.m_entries[st1.m_numEntries + i]? = some (resolve a).1) ∧
      (∀ j, 2 * st1.m_numEntries ≤ j → j < 4 * st1.m_numEntries →
        st1.m_entries[j]? = some 18446744073709551615) ∧
      accesses.Pairwise (fun earlier later => later.1 ≠ earlier.2) := by
  obtain ⟨e1, cs1, hid, hl1, hf1, hids⟩ := idLoop_spec resolve st.m_numEntries st.m_numEntries 0
    st.m_entries true 0 (by omega) (by omega)
  have hS : (0 + if true = true then
      (((st.m_entries.take st.m_numEntries).drop 0).takeWhile (fun a => (resolve a).2)).length
      else 0) = leadingSkip resolve st := by
    rw [if_pos rfl, List.drop_zero, Nat.zero_add]
    rfl
  rw [hS] at hid
  obtain ⟨e2, accesses, hst, hl2, ha2, hi2, hpw⟩ :=
    stripTop_spec st.m_numEntries (leadingSkip resolve st) e1 hskip (by omega)
  obtain ⟨e3, hrs, hl3, hk3, hff⟩ :=
    resetScratch_spec (st.m_numEntries - leadingSkip resolve st) e2 (by omega)
  refine ⟨⟨st.m_numEntries - leadingSkip resolve st, e3⟩, accesses, ?_, rfl, ?_, ?_, hff, hpw⟩
  · unfold symbolPass
    simp only []
    rw [hid]
    simp only []
    rw [hst]
    simp only []
    rw [hrs]
  · intro i hi
    simp only [] at hi ⊢
    rw [hk3 i (by omega), ha2 i hi, hf1 _ (by omega)]
  · intro i a hi ha
    simp only [] at hi ⊢
    rw [hk3 _ (by omega), hi2 i hi]
    exact hids _ a (Nat.zero_le _) (by omega) ha

/-- Claim C22, counterexample: a stack trace recorded with zero frames keeps
`m_numEntries = 0` in the symbol pass.  For the stack trace with the single
frame 5, an instrumentation frame, and the values 7, 8, 9 in the slots not yet
written, the pass leaves one frame whose address slot holds 1005, the symbol
ID of the frame 5, and whose symbol-ID slot holds the 8 that the first scratch
slot held, not the resolver's ID 2005 of the address 1005. -/
theorem symbol_pass_zero_frames_counterexample :
    symbolPass exampleResolve ⟨0, []⟩ = some (⟨0, []⟩, []) ∧
      symbolPass exampleResolve ⟨1, [5, 7, 8, 9]⟩ =
        some (⟨1, [1005, 8, 18446744073709551615, 18446744073709551615]⟩, [(1, 0), (2, 1)]) ∧
      (exampleResolve 1005).1 = 2005 := by
  decide

/-- Claim C22, amended: for a stack trace recorded with `n >= 1` frames of
which fewer than `n` form the leading run of instrumentation frames, the
symbol pass returns, leaves `m_numEntries >= 1`, and for every retained frame
index `i < m_numEntries` the stored symbol ID equals the resolver's ID for
the stored address of frame `i`. -/
theorem symbol_pass_ids_match_resolver (resolve : Nat → Nat × Bool) (st : StackTrace)
    (hlen : st.m_entries.length = 4 * st.m_numEntries)
    (hskip : leadingSkip resolve st < st.m_numEntries) :
    ∃ st1 accesses, symbolPass resolve st = some (st1, accesses) ∧
      1 ≤ st1.m_numEntries ∧
      ∀ i, i < st1.m_numEntries →
        ∃ a, st1.m_entries[i]? = some a ∧
          st1.m_entries[st1.m_numEntries + i]? = some (resolve a).1 := by
  obtain ⟨st1, accesses, hrun, hnum, haddr, hid, -, -⟩ := symbolPass_spec resolve st hlen hskip
  refine ⟨st1, accesses, hrun, by omega, fun i hi => ?_⟩
  have hlt : i + leadingSkip resolve st < st.m_entries.length := by omega
  refine ⟨st.m_entries[i + leadingSkip resolve st], ?_, ?_⟩
  · rw [haddr i hi]
    exact List.getElem?_eq_getElem hlt
  · exact hid i _ hi (List.getElem?_eq_getElem hlt)

/-- Witness of `symbol_pass_ids_match_resolver`: three frames, the first two
of them instrumentation frames. -/
theorem symbol_pass_ids_match_resolver_witness :
    twoInstrumentationFrames.m_entries.length = 4 * twoInstrumentationFrames.m_numEntries ∧
      leadingSkip exampleResolve twoInstrumentationFrames
        < twoInstrumentationFrames.m_numEntries ∧
      ∃ st1 accesses, symbolPass exampleResolve twoInstrumentationFrames = some (st1, accesses) ∧
        1 ≤ st1.m_numEntries :=
  ⟨by decide, by decide,
    (symbol_pass_ids_match_resolver exampleResolve twoInstrumentationFrames (by decide)
      (by decide)).imp (fun _ h => h.imp (fun _ h2 => ⟨h2.1, h2.2.1⟩))⟩

/-- Claim C28: for a stack trace with `n` frames whose longest leading run of
instrumentation frames has length `skip`, `0 <= skip < n`, the symbol pass
returns and leaves `m_numEntries = n - skip`, address slot `i` equal to the
original address `i + skip` and symbol-ID slot `i` equal to the resolver's ID
of the original address `i + skip` for every `i < n - skip`, and all
`2 * (n - skip)` scratch slots equal to the sentinel with all bits set; no
assignment of the two shifts reads a slot that an earlier assignment of the
shifts wrote. -/
theorem symbol_pass_strips_leading_run (resolve : Nat → Nat × Bool) (st : StackTrace)
    (hlen : st.m_entries.length = 4 * st.m_numEntries)
    (hskip : leadingSkip resolve st < st.m_numEntries) :
    ∃ st1 accesses, symbolPass resolve st = some (st1, accesses) ∧
      st1.m_numEntries = st.m_numEntries - leadingSkip resolve st ∧
      (∀ i, i < st1.m_numEntries →
        st1.m_entries[i]? = st.m_entries[i + leadingSkip resolve st]?) ∧
      (∀ i a, i < st1.m_numEntries → st.m_entries[i + leadingSkip resolve st]? = some a →
        st1.m_entries[st1.m_numEntries + i]? = some (resolve a).1) ∧
      (∀ j, 2 * st1.m_numEntries ≤ j → j < 4 * st1.m_numEntries →
        st1.m_entries[j]? = some 18446744073709551615) ∧
      accesses.Pairwise (fun earlier later => later.1 ≠ earlier.2) :=
  symbolPass_spec resolve st hlen hskip

/-- Witness of `symbol_pass_strips_leading_run`: three frames, the first two
of them instrumentation frames; one frame is left. -/
theorem symbol_pass_strips_leading_run_witness :
    twoInstrumentationFrames.m_entries.length = 4 * twoInstrumentationFrames.m_numEntries ∧
      leadingSkip exampleResolve twoInstrumentationFrames
        < twoInstrumentationFrames.m_numEntries ∧
      ∃ st1 accesses, symbolPass exampleResolve twoInstrumentationFrames = some (st1, accesses) ∧
        st1.m_numEntries = twoInstrumentationFrames.m_numEntries -
          leadingSkip exampleResolve twoInstrumentationFrames :=
  ⟨by decide, by decide,
    (symbol_pass_strips_leading_run exampleResolve twoInstrumentationFrames (by decide)
      (by decide)).imp (fun _ h => h.imp (fun _ h2 => ⟨h2.1, h2.2.1⟩))⟩

theorem tagAt_writeOp (Q : List MemoryOperation) (next t k : Nat) (n : MemoryOperation)
    (hn : Q[next]? = some n) :
    tagAt (writeOp Q next (fun x => { x with m_tag := t })) k =
      if k = next then t else tagAt Q k := by
  unfold tagAt
  rw [getElem?_writeOp]
  by_cases hk : k = next
  · subst hk
    rw [if_pos rfl, if_pos rfl, hn]
    rfl
  · rw [if_neg hk, if_neg hk]

theorem analyzeStep_tags {P : List MemoryOperation} (s s1 : AnalyzeState) (p : Nat)
    (o : MemoryOperation) (hfr : TagFrame P s.pool) (ho : P[p]? = some o)
    (hs : analyzeStep s p = some s1) :
    ∀ k, tagAt s1.pool k =
      if o.m_chainNext = some k ∧ tagAt s.pool k = 0 then tagAt s.pool p else tagAt s.pool k := by
  obtain ⟨o1, hp1, hcn1⟩ : ∃ o1, s.pool[p]? = some o1 ∧ o1.m_chainNext = o.m_chainNext := by
    obtain ⟨t, ht⟩ := hfr.2 p o ho
    exact ⟨_, ht, rfl⟩
  have htp : tagAt s.pool p = o1.m_tag := by
    unfold tagAt
    rw [hp1]
  unfold analyzeStep at hs
  rw [hp1] at hs
  simp only [] at hs
  rw [hcn1] at hs
  intro k
  cases hcn : o.m_chainNext with
  | none =>
    rw [hcn] at hs
    simp only [] at hs
    have hpool : s1.pool = s.pool := by
      cases hl : updateLiveSize s.pool o1 s.liveSize with
      | none => rw [hl] at hs; cases hs
      | some l =>
        rw [hl] at hs
        cases hs
        rfl
    have hno : ¬ ((none : Option Nat) = some k ∧ tagAt s.pool k = 0) := fun h => by cases h.1
    rw [hpool, if_neg hno]
  | some next =>
    rw [hcn] at hs
    simp only [] at hs
    cases hnx : s.pool[next]? with
    | none => rw [hnx] at hs; cases hs
    | some n =>
      rw [hnx] at hs
      simp only [] at hs
      have hpool : s1.pool = if n.m_tag = 0 then
          writeOp s.pool next (fun x => { x with m_tag := o1.m_tag }) else s.pool := by
        cases hl : updateLiveSize (if n.m_tag = 0 then
            writeOp s.pool next (fun x => { x with m_tag := o1.m_tag }) else s.pool)
            o1 s.liveSize with
        | none => rw [hl] at hs; cases hs
        | some l =>
          rw [hl] at hs
          cases hs
          rfl
      have htn : tagAt s.pool next = n.m_tag := by
        unfold tagAt
        rw [hnx]
      rw [hpool, htp]
      by_cases hz : n.m_tag = 0
      · rw [if_pos hz, tagAt_writeOp _ _ _ _ n hnx]
        by_cases hk : k = next
        · subst hk
          rw [if_pos rfl, if_pos ⟨rfl, by rw [htn]; exact hz⟩]
        · rw [if_neg hk, if_neg (fun h => hk (Option.some.inj h.1).symm)]
      · rw [if_neg hz]
        by_cases hk : k = next
        · subst hk
          rw [if_neg (fun h => hz (by rw [← htn]; exact h.2))]
        · rw [if_neg (fun h => hk (Option.some.inj h.1).symm)]

theorem chainNextOf_eq {P : List MemoryOperation} {p : Nat} {o : MemoryOperation}
    (ho : P[p]? = some o) : chainNextOf P p = o.m_chainNext := by
  unfold chainNextOf
  rw [ho]

theorem tagInv_step {P : List MemoryOperation} {ops : List Nat} (hord : TagOrder P ops)
    (done rest : List Nat) (p : Nat) (hsplit : ops = done ++ p :: rest)
    (s s1 : AnalyzeState) (hfr : TagFrame P s.pool) (hinv : TagInv P done s.pool)
    (hs : analyzeStep s p = some s1) : TagInv P (done ++ [p]) s1.pool := by
  have hpmem : p ∈ ops := by rw [hsplit]; simp
  obtain ⟨o, ho, -, -⟩ := hord.ready p hpmem
  have htags := analyzeStep_tags s s1 p o hfr ho hs
  have hnext := chainNextOf_eq ho
  have hpdone : p ∉ done := by
    have hnd := hord.nodup
    rw [hsplit] at hnd
    intro hp
    exact (List.nodup_append.mp hnd).2.2 hp (List.mem_cons_self _ _)
  have hlater : ∀ k, chainNextOf P p = some k → k ∉ done ∧ k ≠ p :=
    fun k hk => hord.later done rest p k hsplit hk
  constructor
  · intro k hk
    have hpk : chainNextOf P p ≠ some k := hk p (by simp)
    rw [htags k, if_neg (fun h => hpk (by rw [hnext]; exact h.1))]
    exact hinv.untouched k (fun j hj => hk j (by simp [hj]))
  · intro j hj k hjk
    rw [List.mem_append, List.mem_singleton] at hj
    rcases hj with hj | hj
    · have hk : o.m_chainNext ≠ some k := by
        intro h
        rw [← hnext] at h
        exact hpdone (hord.unique p j k h hjk ▸ hj)
      have hjn : o.m_chainNext ≠ some j := by
        intro h
        rw [← hnext] at h
        exact (hlater j h).1 hj
      have e1 : tagAt s1.pool k = tagAt s.pool k := by
        rw [htags k]
        exact if_neg (fun h => hk h.1)
      have e2 : tagAt s1.pool j = tagAt s.pool j := by
        rw [htags j]
        exact if_neg (fun h => hjn h.1)
      rw [e1, e2]
      exact hinv.passed j hj k hjk
    · subst hj
      have hk : o.m_chainNext = some k := by rw [← hnext]; exact hjk
      have hjn : o.m_chainNext ≠ some j := by
        intro h
        rw [← hnext] at h
        exact (hlater j h).2 rfl
      have hun : tagAt s.pool k = tagAt P k := by
        apply hinv.untouched
        intro i hi hik
        exact hpdone (hord.unique i j k hik hjk ▸ hi)
      have e2 : tagAt s1.pool j = tagAt s.pool j := by
        rw [htags j]
        exact if_neg (fun h => hjn h.1)
      have e1 : tagAt s1.pool k = if tagAt P k = 0 then tagAt s.pool j else tagAt P k := by
        rw [htags k, hun]
        by_cases hz : tagAt P k = 0
        · rw [if_pos ⟨hk, hz⟩, if_pos hz]
        · rw [if_neg (fun h => hz h.2), if_neg hz]
      rw [e1, e2]

theorem analyzeLoop_tags {P : List MemoryOperation} {ops : List Nat} (hord : TagOrder P ops) :
    ∀ (rest done : List Nat) (s : AnalyzeState), ops = done ++ rest → TagFrame P s.pool →
      TagInv P done s.pool →
      ∃ s1, analyzeLoop s rest = some s1 ∧ TagInv P ops s1.pool := by
  intro rest
  induction rest with
  | nil =>
    intro done s hsplit _ hinv
    rw [List.append_nil] at hsplit
    subst hsplit
    exact ⟨s, rfl, hinv⟩
  | cons p rest ih =>
    intro done s hsplit hfr hinv
    have hpmem : p ∈ ops := by rw [hsplit]; simp
    obtain ⟨o, ho, hnext, hprev⟩ := hord.ready p hpmem
    obtain ⟨sa, hsa, hfra, -⟩ := analyzeStep_spec s p o hfr ho hnext hprev
    have hinva := tagInv_step hord done rest p hsplit s sa hfr hinv hsa
    obtain ⟨s1, hs1, hinv1⟩ := ih (done ++ [p]) sa (by rw [hsplit]; simp) hfra hinva
    refine ⟨s1, ?_, hinv1⟩
    unfold analyzeLoop
    rw [hsa]
    exact hs1

theorem tagInv_init (P : List MemoryOperation) : TagInv P [] P :=
  ⟨fun _ _ => rfl, fun j hj => by simp at hj⟩

theorem filter_split_order (full : List Nat) (f : Nat → Bool) (hnd : full.Nodup)
    (pre1 post1 pre post : List Nat) (s p : Nat) (h1 : full = pre1 ++ s :: post1)
    (hp : p ∈ pre1) (h2 : full.filter f = pre ++ p :: post) : s ∉ pre := by
  have hfp : f p = true := by
    have : p ∈ full.filter f := by rw [h2]; simp
    exact (List.mem_filter.mp this).2
  have hpf : p ∈ pre1.filter f := List.mem_filter.mpr ⟨hp, hfp⟩
  obtain ⟨a, b, hab⟩ := List.append_of_mem hpf
  have h3 : full.filter f = a ++ p :: (b ++ (s :: post1).filter f) := by
    rw [h1, List.filter_append, hab]
    simp
  have hndf : (full.filter f).Nodup := hnd.filter _
  have hn : (full.filter f)[a.length]? = some p := by
    rw [h3, List.getElem?_append_right (le_refl _)]
    simp
  have e1 := take_of_nodup_split _ pre post p a.length hndf h2 hn
  have e2 := take_of_nodup_split _ a _ p a.length hndf h3 hn
  have hpa : pre = a := e1.symm.trans e2
  intro hs
  rw [hpa] at hs
  have hs1 : s ∈ pre1 := by
    have : s ∈ pre1.filter f := by rw [hab]; simp [hs]
    exact (List.mem_filter.mp this).1
  rw [h1] at hnd
  exact (List.nodup_append.mp hnd).2.2 hs1 (List.mem_cons_self _ _)

theorem buildAnalyzeData_eq_loop (c : Capture) (leaks : List Nat)
    (h : c.m_operations.length < 4294967296) :
    buildAnalyzeData c leaks =
      analyzeLoop { pool := c.pool, liveBlocks := 0, liveSize := 0, m_memoryLeaks := leaks,
                    groupArgs := [] } c.m_operations := by
  unfold buildAnalyzeData analyzeAfter
  rw [u32_of_lt h, List.take_length, List.take_length]

theorem sortAndLink_length (stream : List MemoryOperation) (mm : Nat)
    (hlen : stream.length < 4294967296) :
    (sortAndLink stream mm).2.m_operations.length < 4294967296 := by
  have hres := setLinksAndRemoveInvalid_result
    { parsedCapture stream with
      m_operations := stableSortByTime (parsedCapture stream).pool
        (parsedCapture stream).m_operations } mm
  have hops1 : (sortAndLink stream mm).2.m_operations
      = (stableSortByTime stream (List.range stream.length)).filter
          (isRetained (sortAndLink stream mm).2.pool) := hres.2.1
  rw [hops1]
  refine lt_of_le_of_lt (List.length_filter_le _ _) ?_
  rw [(stableSortByTime_perm stream (List.range stream.length)).length_eq, List.length_range]
  exact hlen

theorem sortAndLink_tags (stream : List MemoryOperation) (mm : Nat) (k : Nat) :
    tagAt (sortAndLink stream mm).2.pool k = tagAt stream k := by
  have hres := setLinksAndRemoveInvalid_result
    { parsedCapture stream with
      m_operations := stableSortByTime (parsedCapture stream).pool
        (parsedCapture stream).m_operations } mm
  have hstat : PoolStatic stream (sortAndLink stream mm).2.pool := by
    unfold sortAndLink
    simp only []
    rw [hres.1]
    exact linkSweep_poolStatic _ _
  unfold tagAt
  cases h : (sortAndLink stream mm).2.pool[k]? with
  | none =>
    have : stream[k]? = none := by
      rw [List.getElem?_eq_none_iff] at h ⊢
      rw [← hstat.1]
      exact h
    rw [this]
  | some o1 =>
    obtain ⟨o, ho, hsame⟩ := hstat.2 k o1 h
    rw [ho]
    exact hsame.2.2.2.2.2.2.2.2.symm

theorem sortAndLink_links (stream : List MemoryOperation) (mm : Nat)
    (hun : Unlinked stream) (hlen : stream.length < 4294967296) (k j : Nat) :
    chainPrevOf (sortAndLink stream mm).2.pool k = some j ↔
      chainNextOf (sortAndLink stream mm).2.pool j = some k := by
  have hready := linkReady_sorted stream hun hlen
  have hinv := linkInv_final _ hready
  have hpool := setLinksAndRemoveInvalid_pool _ mm hready.2.2.2
  have := hinv.links k j
  rw [← hpool] at this
  exact this

theorem tagOrder_of_linked (stream : List MemoryOperation) (mm : Nat)
    (hun : Unlinked stream) (hlen : stream.length < 4294967296) :
    TagOrder (sortAndLink stream mm).2.pool (sortAndLink stream mm).2.m_operations := by
  have hready := linkReady_sorted stream hun hlen
  have hordL := linkOrder_final _ hready
  have hpool := setLinksAndRemoveInvalid_pool _ mm hready.2.2.2
  have hops := (setLinksAndRemoveInvalid_result
    { parsedCapture stream with
      m_operations := stableSortByTime (parsedCapture stream).pool
        (parsedCapture stream).m_operations } mm).2.1
  have hlinks := sortAndLink_links stream mm hun hlen
  refine ⟨(sortAndLink_timeOrder stream mm).2, ?_, ?_, analyzeReady_of_linked _ mm hready⟩
  · intro pre post p s hsplit hps
    have hprev := (hlinks s p).mpr hps
    obtain ⟨os, hos, hcp⟩ : ∃ os, (sortAndLink stream mm).2.pool[s]? = some os ∧
        os.m_chainPrev = some p := by
      unfold chainPrevOf at hprev
      cases h : (sortAndLink stream mm).2.pool[s]? with
      | none => rw [h] at hprev; cases hprev
      | some os =>
        rw [h] at hprev
        exact ⟨os, rfl, hprev⟩
    have hos2 := hos
    rw [show (sortAndLink stream mm).2.pool = _ from hpool] at hos2
    obtain ⟨-, -, pre1, post1, hfull, hpin⟩ := hordL.prev s p os hos2 hcp
    have hsplit2 := hsplit
    rw [show (sortAndLink stream mm).2.m_operations = _ from hops] at hsplit2
    refine ⟨filter_split_order _ _ hready.1 pre1 post1 pre post s p hfull hpin hsplit2, ?_⟩
    intro hsp
    have hnd := hready.1
    rw [hfull] at hnd
    rw [hsp] at hnd
    exact (List.nodup_append.mp hnd).2.2 hpin (List.mem_cons_self _ _)
  · intro j j1 k h1 h2
    have e1 := (hlinks k j).mpr h1
    have e2 := (hlinks k j1).mpr h2
    rw [e1] at e2
    exact Option.some.inj e2

/-- Claim C29: on a freshly loaded capture the aggregation loop returns, and
afterwards, for every retained operation `p` with successor
`s = p.chain_next`, the tag of `s` equals the tag of `p` if `s` was parsed with
tag 0 and is the parsed tag of `s` otherwise.  Hence no successor has tag 0
while its predecessor has a non-zero tag, an operation without predecessor
keeps its parsed tag, and along a chain of retained operations whose
successors were all parsed with tag 0 every operation has the tag of the
first.  For the chain `Alloc` (tag 7), `Realloc`, `Free` followed by an
`Alloc` with tag 9 the tags become 7, 7, 7, 9. -/
theorem tag_propagates_along_chains (stream : List MemoryOperation) (mm : Nat)
    (hun : Unlinked stream) (hlen : stream.length < 4294967296) :
    (∃ a, buildAnalyzeData (sortAndLink stream mm).2 [] = some a ∧
      (∀ p s, p ∈ (sortAndLink stream mm).2.m_operations →
        chainNextOf (sortAndLink stream mm).2.pool p = some s →
        tagAt a.pool s = if tagAt stream s = 0 then tagAt a.pool p else tagAt stream s) ∧
      (∀ p s, p ∈ (sortAndLink stream mm).2.m_operations →
        chainNextOf (sortAndLink stream mm).2.pool p = some s →
        tagAt a.pool s = 0 → tagAt a.pool p = 0) ∧
      (∀ k, chainPrevOf (sortAndLink stream mm).2.pool k = none →
        tagAt a.pool k = tagAt stream k) ∧
      (∀ (chain : List Nat) (h : Nat), chain.head? = some h →
        chain.Chain' (fun x y => x ∈ (sortAndLink stream mm).2.m_operations ∧
          chainNextOf (sortAndLink stream mm).2.pool x = some y ∧ tagAt stream y = 0) →
        ∀ x ∈ chain, tagAt a.pool x = tagAt a.pool h)) ∧
    (buildAnalyzeData (sortAndLink taggedChain 18446744073709551615).2 []).map
      (fun a => a.pool.map (fun o => o.m_tag)) = some [7, 7, 7, 9] := by
  refine ⟨?_, by decide⟩
  have hord := tagOrder_of_linked stream mm hun hlen
  obtain ⟨a, ha, hinv⟩ := analyzeLoop_tags hord (sortAndLink stream mm).2.m_operations []
    { pool := (sortAndLink stream mm).2.pool, liveBlocks := 0, liveSize := 0,
      m_memoryLeaks := [], groupArgs := [] } rfl (tagFrame_refl _)
    (tagInv_init _)
  have hpass : ∀ p s, p ∈ (sortAndLink stream mm).2.m_operations →
      chainNextOf (sortAndLink stream mm).2.pool p = some s →
      tagAt a.pool s = if tagAt stream s = 0 then tagAt a.pool p else tagAt stream s := by
    intro p s hp hps
    have := hinv.passed p hp s hps
    rw [sortAndLink_tags] at this
    exact this
  refine ⟨a, ?_, hpass, ?_, ?_, ?_⟩
  · rw [buildAnalyzeData_eq_loop _ _ (sortAndLink_length stream mm hlen)]
    exact ha
  · intro p s hp hps hz
    have h := hpass p s hp hps
    by_cases h0 : tagAt stream s = 0
    · rw [if_pos h0] at h
      rw [← h]
      exact hz
    · rw [if_neg h0] at h
      rw [h] at hz
      exact absurd hz h0
  · intro k hk
    rw [← sortAndLink_tags stream mm k]
    apply hinv.untouched
    intro j _ hjk
    have hlinks := (sortAndLink_links stream mm hun hlen k j).mpr hjk
    rw [hk] at hlinks
    cases hlinks
  · intro chain
    induction chain with
    | nil => intro h _ _ x hx; simp at hx
    | cons c rest ih =>
      intro h hh hchain x hx
      simp only [List.head?_cons, Option.some.injEq] at hh
      subst hh
      cases rest with
      | nil =>
        simp only [List.mem_singleton] at hx
        rw [hx]
      | cons y rest1 =>
        rw [List.chain'_cons] at hchain
        obtain ⟨⟨hc, hcy, hy0⟩, hrest⟩ := hchain
        have hyc : tagAt a.pool y = tagAt a.pool c := by
          rw [hpass c y hc hcy, if_pos hy0]
        rcases List.mem_cons.mp hx with hxc | hxr
        · rw [hxc]
        · rw [ih y rfl hrest x hxr, hyc]

/-- Claim C29 at the chain `Alloc` (tag 7), `Realloc`, `Free`: the `Realloc`,
parsed with tag 0, ends with the tag of the `Alloc`. -/
theorem tag_propagates_along_chains_witness :
    Unlinked taggedChain ∧ taggedChain.length < 4294967296 ∧
    ∃ a, buildAnalyzeData (sortAndLink taggedChain 100).2 [] = some a ∧
      tagAt a.pool 1 = if tagAt taggedChain 1 = 0 then tagAt a.pool 0 else tagAt taggedChain 1 :=
  ⟨by decide, by decide,
    (tag_propagates_along_chains taggedChain 100 (by decide) (by decide)).1.imp
      (fun _ h => ⟨h.1, h.2.1 0 1 (by decide) (by decide)⟩)⟩

theorem usageOf_addUsage (dSize dOverhead : Int) (kind : TreeOpType) (nd : StackTraceTree) :
    usageOf (addUsage dSize dOverhead kind nd) = usageAdded dSize dOverhead kind (usageOf nd) := by
  unfold usageOf addUsage usageAdded
  simp only [Prod.mk.injEq, true_and]
  refine ⟨max_comm _ _, max_comm _ _, ?_⟩
  cases kind <;> simp

theorem peakOK_usageAdded (dSize dOverhead : Int) (kind : TreeOpType)
    (u : Int × Int × Int × Int × OpCount) : PeakOK (usageAdded dSize dOverhead kind u) :=
  ⟨le_max_right _ _, le_max_right _ _⟩

theorem treeWF_get {nodes : List StackTraceTree} (h : TreeWF nodes) {k c : Nat}
    {nd : StackTraceTree} (hk : nodes[k]? = some nd) (hc : c ∈ nd.m_children) :
    k < c ∧ ∃ cn, nodes[c]? = some cn ∧ cn.m_depth = nd.m_depth + 1 := by
  have hlt := (List.getElem?_eq_some.mp hk).1
  have := h k hlt c (by unfold childrenAt; rw [hk]; exact hc)
  refine ⟨this.1, ?_⟩
  have h2 := this.2
  unfold depthAt at h2
  rw [hk] at h2
  cases hcn : nodes[c]? with
  | none => rw [hcn] at h2; cases h2
  | some cn =>
    rw [hcn] at h2
    exact ⟨cn, rfl, by simpa using h2⟩

theorem treeWF_of_get {nodes : List StackTraceTree}
    (h : ∀ (k c : Nat) (nd : StackTraceTree), nodes[k]? = some nd → c ∈ nd.m_children →
      k < c ∧ ∃ cn, nodes[c]? = some cn ∧ cn.m_depth = nd.m_depth + 1) : TreeWF nodes := by
  intro k hk c hc
  have hnd : nodes[k]? = some nodes[k] := List.getElem?_eq_getElem hk
  unfold childrenAt at hc
  rw [hnd] at hc
  obtain ⟨h1, cn, hcn, hd⟩ := h k c _ hnd hc
  refine ⟨h1, ?_⟩
  unfold depthAt
  rw [hnd, hcn]
  simp [hd]

theorem findChild_some (nodes : List StackTraceTree) (id : Nat) :
    ∀ (cs : List Nat) (i j c : Nat), findChild nodes id cs i = some (j, c) →
      c ∈ cs ∧ ∃ nd, nodes[c]? = some nd ∧ nd.m_addressID = id := by
  intro cs
  induction cs with
  | nil => intro i j c h; simp [findChild] at h
  | cons a rest ih =>
    intro i j c h
    unfold findChild at h
    cases ha : nodes[a]? with
    | none =>
      rw [ha] at h
      obtain ⟨h1, h2⟩ := ih _ _ _ h
      exact ⟨List.mem_cons_of_mem _ h1, h2⟩
    | some child =>
      rw [ha] at h
      simp only [] at h
      by_cases hid : child.m_addressID = id
      · rw [if_pos hid] at h
        cases h
        exact ⟨List.mem_cons_self _ _, child, ha, hid⟩
      · rw [if_neg hid] at h
        obtain ⟨h1, h2⟩ := ih _ _ _ h
        exact ⟨List.mem_cons_of_mem _ h1, h2⟩

theorem sameShape_refl (nodes : List StackTraceTree) : SameShape nodes nodes :=
  ⟨rfl, fun _ nd h => ⟨nd, h, rfl, rfl, rfl⟩⟩

theorem sameShape_get {nodes nodes1 : List StackTraceTree} (h : SameShape nodes nodes1)
    (k : Nat) :
    (nodes1[k]?).map (fun nd => nd.m_addressID) = (nodes[k]?).map (fun nd => nd.m_addressID) ∧
      childrenAt nodes1 k = childrenAt nodes k ∧ depthAt nodes1 k = depthAt nodes k := by
  unfold childrenAt depthAt
  cases hk : nodes[k]? with
  | none =>
    have : nodes1[k]? = none := by
      rw [List.getElem?_eq_none_iff] at hk ⊢
      rw [h.1]
      exact hk
    rw [this]
    exact ⟨rfl, rfl, rfl⟩
  | some nd =>
    obtain ⟨nd1, h1, hid, hd, hc⟩ := h.2 k nd hk
    rw [h1]
    simp [hid, hd, hc]

theorem sameShape_set {nodes : List StackTraceTree} {k : Nat} {nd nd1 : StackTraceTree}
    (hk : nodes[k]? = some nd) (hid : nd1.m_addressID = nd.m_addressID)
    (hd : nd1.m_depth = nd.m_depth) (hc : nd1.m_children = nd.m_children) :
    SameShape nodes (nodes.set k nd1) := by
  refine ⟨List.length_set _ _ _, ?_⟩
  intro j x hj
  by_cases hjk : j = k
  · subst hjk
    rw [hk] at hj
    cases hj
    exact ⟨nd1, List.getElem?_set_eq_of_lt _ (List.getElem?_eq_some.mp hk).1, hid, hd, hc⟩
  · exact ⟨x, by rw [List.getElem?_set_ne (Ne.symm hjk)]; exact hj, rfl, rfl, rfl⟩

theorem treeWF_sameShape {nodes nodes1 : List StackTraceTree} (hwf : TreeWF nodes)
    (h : SameShape nodes nodes1) : TreeWF nodes1 := by
  intro k hk c hc
  rw [(sameShape_get h k).2.1] at hc
  rw [(sameShape_get h c).2.2, (sameShape_get h k).2.2]
  exact hwf k (by rw [← h.1]; exact hk) c hc

theorem findChild_sameShape {nodes nodes1 : List StackTraceTree} (h : SameShape nodes nodes1)
    (id : Nat) : ∀ (cs : List Nat) (i : Nat), findChild nodes1 id cs i = findChild nodes id cs i := by
  intro cs
  induction cs with
  | nil => intro i; rfl
  | cons a rest ih =>
    intro i
    unfold findChild
    have ha := (sameShape_get h a).1
    cases h0 : nodes[a]? with
    | none =>
      rw [h0] at ha
      cases h1 : nodes1[a]? with
      | none => exact ih _
      | some x => rw [h1] at ha; cases ha
    | some nd =>
      rw [h0] at ha
      cases h1 : nodes1[a]? with
      | none => rw [h1] at ha; cases ha
      | some x =>
        rw [h1] at ha
        simp only [Option.map_some', Option.some.injEq] at ha
        simp only []
        rw [ha, ih]

theorem cacheOK_congr {nodes nodes1 : List StackTraceTree} (h : SameShape nodes nodes1)
    (entries entries1 : List Nat) (n off : Nat) :
    ∀ (f c : Nat),
      (∀ g, g < f → entries1[g + n]? = entries[g + n]? ∧
        entries1[g + n * (off + 2)]? = entries[g + n * (off + 2)]?) →
      cacheOK nodes1 entries1 n off f c = cacheOK nodes entries n off f c := by
  intro f
  induction f with
  | zero => intro c _; rfl
  | succ f ih =>
    intro c hent
    unfold cacheOK
    rw [(hent f (by omega)).1, (hent f (by omega)).2, (sameShape_get h c).2.1]
    have hrange : (List.range f).all (fun g =>
          decide (entries1[g + n * (off + 2)]? = some 18446744073709551615)) =
        (List.range f).all (fun g =>
          decide (entries[g + n * (off + 2)]? = some 18446744073709551615)) := by
      rw [Bool.eq_iff_iff, List.all_eq_true, List.all_eq_true]
      constructor
      · intro hh g hg
        have h1 := hh g hg
        rw [(hent g (by have := List.mem_range.mp hg; omega)).2] at h1
        exact h1
      · intro hh g hg
        rw [(hent g (by have := List.mem_range.mp hg; omega)).2]
        exact hh g hg
    have hih : ∀ c1, cacheOK nodes1 entries1 n off f c1 = cacheOK nodes entries n off f c1 :=
      fun c1 => ih c1 (fun g hg => hent g (by omega))
    cases entries[f + n]? with
    | none => rfl
    | some id =>
      simp only []
      cases entries[f + n * (off + 2)]? with
      | none => rfl
      | some idx =>
        simp only []
        rw [findChild_sameShape h, hrange]
        by_cases hs : idx = 18446744073709551615
        · rw [if_pos hs, if_pos hs]
          cases findChild nodes id (childrenAt nodes c) 0 with
          | none => rfl
          | some r => exact hih r.2
        · rw [if_neg hs, if_neg hs]
          cases (childrenAt nodes c)[u32 idx]? with
          | none => rfl
          | some c1 =>
            simp only []
            rw [hih c1, (sameShape_get h c1).1]

theorem cacheOK_fresh (nodes : List StackTraceTree) (entries : List Nat) (n off : Nat) :
    ∀ (f c : Nat), childrenAt nodes c = [] →
      (∀ g, g < f → (∃ id, entries[g + n]? = some id) ∧
        entries[g + n * (off + 2)]? = some 18446744073709551615) →
      cacheOK nodes entries n off f c = true := by
  intro f
  induction f with
  | zero => intro c _ _; rfl
  | succ f _ =>
    intro c hc hent
    obtain ⟨⟨id, hid⟩, hs⟩ := hent f (by omega)
    unfold cacheOK
    rw [hid, hs, hc]
    simp only [if_true, findChild, List.all_eq_true, List.mem_range, decide_eq_true_eq]
    intro g hg
    exact (hent g (by omega)).2

theorem treeLoop_step (ctor : StackTraceTree) (_trace n : Nat) (dSize dOverhead : Int)
    (off : Nat) (kind : TreeOpType) (f cur : Nat) (nodes nodesA : List StackTraceTree)
    (traces : List LinkedStackTrace) (tr : LinkedStackTrace) (id idx ch idx1 : Nat)
    (c chn : StackTraceTree)
    (htr : traces[_trace]? = some tr) (hid : tr.m_entries[f + n]? = some id)
    (hidx : tr.m_entries[f + n * (off + 2)]? = some idx) (hc : nodes[cur]? = some c)
    (hsel : selectChild ctor nodes cur c (n - f) id idx = some (nodesA, ch, idx1))
    (hch : nodesA[ch]? = some chn) (hadd : off < tr.m_addedToTree.length)
    (hnext : n < tr.m_next.length) :
    ∃ X tr2 traces2,
      treeLoop ctor _trace n dSize dOverhead off kind (f + 1) cur nodes traces =
        treeLoop ctor _trace n dSize dOverhead off kind f ch (nodesA.set ch X) traces2 ∧
      X.m_addressID = chn.m_addressID ∧ X.m_depth = chn.m_depth ∧
      X.m_children = chn.m_children ∧
      usageOf X = usageAdded dSize dOverhead kind (usageOf chn) ∧
      traces2[_trace]? = some tr2 ∧
      tr2.m_entries = tr.m_entries.set (f + n * (off + 2)) idx1 ∧
      tr2.m_next.length = tr.m_next.length ∧
      tr2.m_addedToTree.length = tr.m_addedToTree.length := by
  have hlt : _trace < traces.length := (List.getElem?_eq_some.mp htr).1
  have hchlt : ch < nodesA.length := (List.getElem?_eq_some.mp hch).1
  have hadded : tr.m_addedToTree[off]? = some tr.m_addedToTree[off] :=
    List.getElem?_eq_getElem hadd
  rw [treeLoop]
  simp only [htr, hid, hidx, hc, hsel]
  unfold threadTrace
  rw [List.getElem?_set_eq_of_lt _ hlt]
  simp only [hch, hadded]
  by_cases hlow : tr.m_addedToTree[off] < n - f
  · rw [if_pos hlow, if_pos (by omega)]
    simp only []
    rw [List.getElem?_set_eq_of_lt _ hchlt]
    simp only [List.set_set]
    refine ⟨_, { tr with
        m_entries := tr.m_entries.set (f + n * (off + 2)) idx1,
        m_next := tr.m_next.set (n - f) chn.m_stackTraceList,
        m_addedToTree := tr.m_addedToTree.set off (n - f) }, _, rfl, rfl, rfl, rfl, ?_, ?_, rfl,
      ?_, ?_⟩
    · rw [usageOf_addUsage]
      rfl
    · exact List.getElem?_set_eq_of_lt _ hlt
    · simp only [List.length_set]
    · simp only [List.length_set]
  · rw [if_neg hlow]
    simp only [hch]
    refine ⟨_, { tr with m_entries := tr.m_entries.set (f + n * (off + 2)) idx1 }, _, rfl, rfl,
      rfl, rfl, ?_, ?_, rfl, rfl, rfl⟩
    · rw [usageOf_addUsage]
    · exact List.getElem?_set_eq_of_lt _ hlt

theorem treeExtends_refl (nodes : List StackTraceTree) : TreeExtends nodes nodes :=
  ⟨le_refl _, fun _ nd h => ⟨nd, h, rfl, rfl, List.prefix_refl _⟩⟩

theorem treeExtends_trans {a b c : List StackTraceTree} (h1 : TreeExtends a b)
    (h2 : TreeExtends b c) : TreeExtends a c := by
  refine ⟨le_trans h1.1 h2.1, ?_⟩
  intro k nd hk
  obtain ⟨nd1, hk1, hid1, hd1, hc1⟩ := h1.2 k nd hk
  obtain ⟨nd2, hk2, hid2, hd2, hc2⟩ := h2.2 k nd1 hk1
  exact ⟨nd2, hk2, hid2.trans hid1, hd2.trans hd1, hc1.trans hc2⟩

theorem treeExtends_of_sameShape {a b : List StackTraceTree} (h : SameShape a b) :
    TreeExtends a b := by
  refine ⟨le_of_eq h.1.symm, ?_⟩
  intro k nd hk
  obtain ⟨nd1, hk1, hid1, hd1, hc1⟩ := h.2 k nd hk
  exact ⟨nd1, hk1, hid1, hd1, by rw [hc1]⟩

theorem set_slot_frame (entries : List Nat) (n off f v : Nat) :
    ∀ g, g < f → (entries.set (f + n * (off + 2)) v)[g + n]? = entries[g + n]? ∧
      (entries.set (f + n * (off + 2)) v)[g + n * (off + 2)]? = entries[g + n * (off + 2)]? := by
  intro g hg
  have hb : n ≤ n * (off + 2) := Nat.le_mul_of_pos_right n (by omega)
  constructor
  · rw [List.getElem?_set_ne (by omega)]
  · rw [List.getElem?_set_ne (by omega)]

theorem selectChild_spec (ctor : StackTraceTree) (nodes : List StackTraceTree)
    (entries : List Nat) (n off f cur id idx depth : Nat) (c : StackTraceTree)
    (hwf : TreeWF nodes) (hctor : ctor.m_children = []) (hc : nodes[cur]? = some c)
    (hlen : (off + 3) * n ≤ entries.length) (hf : f < n)
    (hid : entries[f + n]? = some id) (hidx : entries[f + n * (off + 2)]? = some idx)
    (hcache : cacheOK nodes entries n off (f + 1) cur = true)
    (hdepth : depth = c.m_depth + 1) :
    ∃ nodesA ch idx1 chn,
      selectChild ctor nodes cur c depth id idx = some (nodesA, ch, idx1) ∧
      nodesA[ch]? = some chn ∧ chn.m_addressID = id ∧ chn.m_depth = depth ∧ cur < ch ∧
      (∃ c1, nodesA[cur]? = some c1 ∧ ch ∈ c1.m_children) ∧ TreeWF nodesA ∧
      TreeExtends nodes nodesA ∧
      (∀ k, k ≠ ch → usageBefore ctor nodesA k = usageBefore ctor nodes k) ∧
      usageOf chn = usageBefore ctor nodes ch ∧
      (∀ k, nodes.length ≤ k → k < nodesA.length → k = ch) ∧
      cacheOK nodesA (entries.set (f + n * (off + 2)) idx1) n off f ch = true := by
  have hcur : cur < nodes.length := (List.getElem?_eq_some.mp hc).1
  have hchildren : childrenAt nodes cur = c.m_children := by
    unfold childrenAt
    rw [hc]
  unfold cacheOK at hcache
  rw [hid, hidx, hchildren] at hcache
  simp only [] at hcache
  have hfound : ∀ ch idx1, ch ∈ c.m_children →
      (∃ nd, nodes[ch]? = some nd ∧ nd.m_addressID = id) →
      cacheOK nodes entries n off f ch = true →
      selectChild ctor nodes cur c depth id idx = some (nodes, ch, idx1) →
      ∃ nodesA ch idx1 chn,
        selectChild ctor nodes cur c depth id idx = some (nodesA, ch, idx1) ∧
        nodesA[ch]? = some chn ∧ chn.m_addressID = id ∧ chn.m_depth = depth ∧ cur < ch ∧
        (∃ c1, nodesA[cur]? = some c1 ∧ ch ∈ c1.m_children) ∧ TreeWF nodesA ∧
        TreeExtends nodes nodesA ∧
        (∀ k, k ≠ ch → usageBefore ctor nodesA k = usageBefore ctor nodes k) ∧
        usageOf chn = usageBefore ctor nodes ch ∧
        (∀ k, nodes.length ≤ k → k < nodesA.length → k = ch) ∧
        cacheOK nodesA (entries.set (f + n * (off + 2)) idx1) n off f ch = true := by
    intro ch idx1 hmem hnode hok hsel
    obtain ⟨nd, hnd, hndid⟩ := hnode
    obtain ⟨hlt, cn, hcn, hcd⟩ := treeWF_get hwf hc hmem
    rw [hnd] at hcn
    cases hcn
    refine ⟨nodes, ch, idx1, nd, hsel, hnd, hndid, by rw [hcd, hdepth], hlt, ⟨c, hc, hmem⟩, hwf,
      treeExtends_refl _, fun _ _ => rfl, ?_, fun k h1 h2 => by omega, ?_⟩
    · unfold usageBefore
      rw [hnd]
      rfl
    · rw [cacheOK_congr (sameShape_refl nodes) entries _ n off f ch
        (set_slot_frame entries n off f idx1)]
      exact hok
  by_cases hs : idx = 18446744073709551615
  · rw [if_pos hs] at hcache
    cases hfind : findChild nodes id c.m_children 0 with
    | some r =>
      obtain ⟨i, ch⟩ := r
      rw [hfind] at hcache
      simp only [] at hcache
      obtain ⟨hmem, hnode⟩ := findChild_some nodes id _ _ _ _ hfind
      apply hfound ch i hmem hnode hcache
      unfold selectChild
      rw [if_pos hs, hfind]
    | none =>
      rw [hfind] at hcache
      simp only [List.all_eq_true, List.mem_range, decide_eq_true_eq] at hcache
      have hsel : selectChild ctor nodes cur c depth id idx =
          some (nodes.set cur { c with m_children := c.m_children ++ [nodes.length] } ++
            [{ ctor with m_parent := some cur, m_addressID := id, m_depth := depth }],
            nodes.length, c.m_children.length) := by
        unfold selectChild
        rw [if_pos hs, hfind]
      have hnew : (nodes.set cur { c with m_children := c.m_children ++ [nodes.length] } ++
          [{ ctor with m_parent := some cur, m_addressID := id, m_depth := depth }])[nodes.length]?
          = some { ctor with m_parent := some cur, m_addressID := id, m_depth := depth } := by
        rw [List.getElem?_append_right (by rw [List.length_set])]
        simp
      have hold : ∀ k, k < nodes.length →
          (nodes.set cur { c with m_children := c.m_children ++ [nodes.length] } ++
            [{ ctor with m_parent := some cur, m_addressID := id, m_depth := depth }])[k]?
          = if k = cur then some { c with m_children := c.m_children ++ [nodes.length] }
            else nodes[k]? := by
        intro k hk
        rw [List.getElem?_append_left (by rw [List.length_set]; exact hk)]
        by_cases hkc : k = cur
        · rw [if_pos hkc, hkc]
          exact List.getElem?_set_eq_of_lt _ hcur
        · rw [if_neg hkc, List.getElem?_set_ne (Ne.symm hkc)]
      refine ⟨_, _, _, _, hsel, hnew, rfl, rfl, hcur,
        ⟨{ c with m_children := c.m_children ++ [nodes.length] }, ?_, by simp⟩, ?_, ?_, ?_, ?_, ?_,
        ?_⟩
      · rw [hold cur hcur, if_pos rfl]
      · apply treeWF_of_get
        intro k x nd hk hx
        by_cases hkn : k < nodes.length
        · rw [hold k hkn] at hk
          have hxcase : ∀ nd0, nodes[k]? = some nd0 → x ∈ nd0.m_children →
              nd.m_depth = nd0.m_depth →
              k < x ∧ ∃ cn, (nodes.set cur { c with m_children := c.m_children ++ [nodes.length] }
                ++ [{ ctor with m_parent := some cur, m_addressID := id, m_depth := depth }])[x]?
                  = some cn ∧ cn.m_depth = nd.m_depth + 1 := by
            intro nd0 h0 hx0 hd0
            obtain ⟨h1, cn, hcn, hcd⟩ := treeWF_get hwf h0 hx0
            have hxlt : x < nodes.length := (List.getElem?_eq_some.mp hcn).1
            refine ⟨h1, ?_⟩
            rw [hold x hxlt]
            by_cases hxc : x = cur
            · rw [if_pos hxc]
              rw [hxc, hc] at hcn
              cases hcn
              exact ⟨_, rfl, by rw [hd0]; exact hcd⟩
            · rw [if_neg hxc]
              exact ⟨cn, hcn, by rw [hd0]; exact hcd⟩
          by_cases hkc : k = cur
          · rw [if_pos hkc] at hk
            cases hk
            simp only [List.mem_append, List.mem_singleton] at hx
            rcases hx with hx | hx
            · exact hxcase c (by rw [hkc]; exact hc) hx rfl
            · subst hx
              refine ⟨by omega, _, hnew, ?_⟩
              simp only []
              exact hdepth
          · rw [if_neg hkc] at hk
            exact hxcase nd hk hx rfl
        · have hlen1 : (nodes.set cur { c with m_children := c.m_children ++ [nodes.length] } ++
              [{ ctor with m_parent := some cur, m_addressID := id, m_depth := depth }]).length
              = nodes.length + 1 := by simp
          have hklt := (List.getElem?_eq_some.mp hk).1
          have hke : k = nodes.length := by omega
          rw [hke, hnew] at hk
          cases hk
          simp only [hctor, List.not_mem_nil] at hx
      · refine ⟨by simp, ?_⟩
        intro k nd hk
        have hklt := (List.getElem?_eq_some.mp hk).1
        rw [hold k hklt]
        by_cases hkc : k = cur
        · rw [if_pos hkc]
          rw [hkc, hc] at hk
          cases hk
          exact ⟨_, rfl, rfl, rfl, List.prefix_append _ _⟩
        · rw [if_neg hkc]
          exact ⟨nd, hk, rfl, rfl, List.prefix_refl _⟩
      · intro k hk
        unfold usageBefore
        by_cases hkn : k < nodes.length
        · rw [hold k hkn]
          by_cases hkc : k = cur
          · rw [if_pos hkc, hkc, hc]
            rfl
          · rw [if_neg hkc]
        · rw [List.getElem?_eq_none (by simp; omega), List.getElem?_eq_none (by omega)]
      · unfold usageBefore
        rw [List.getElem?_eq_none (le_refl _)]
        rfl
      · intro k h1 h2
        simp at h2
        omega
      · apply cacheOK_fresh
        · unfold childrenAt
          rw [hnew]
          exact hctor
        · intro g hg
          have hb : n ≤ n * (off + 2) := Nat.le_mul_of_pos_right n (by omega)
          have h3 : (off + 3) * n = n * (off + 2) + n := by ring
          rw [(set_slot_frame entries n off f _ g hg).1, (set_slot_frame entries n off f _ g hg).2]
          exact ⟨⟨_, List.getElem?_eq_getElem (by omega)⟩, hcache g hg⟩
  · rw [if_neg hs] at hcache
    cases hget : c.m_children[u32 idx]? with
    | none => rw [hget] at hcache; simp at hcache
    | some ch =>
      rw [hget] at hcache
      simp only [Bool.and_eq_true, decide_eq_true_eq] at hcache
      have hmem : ch ∈ c.m_children := List.mem_iff_getElem?.mpr ⟨_, hget⟩
      have hnode : ∃ nd, nodes[ch]? = some nd ∧ nd.m_addressID = id := by
        cases hn : nodes[ch]? with
        | none => rw [hn] at hcache; simp at hcache
        | some nd =>
          rw [hn] at hcache
          exact ⟨nd, rfl, by simpa using hcache.1⟩
      apply hfound ch idx hmem hnode hcache.2
      unfold selectChild
      rw [if_neg hs, hget]

theorem treeLoop_spec (ctor : StackTraceTree) (_trace n : Nat) (dSize dOverhead : Int)
    (off : Nat) (kind : TreeOpType) (hctor : ctor.m_children = []) :
    ∀ (f cur : Nat) (nodes : List StackTraceTree) (traces : List LinkedStackTrace)
      (tr : LinkedStackTrace), f ≤ n → traces[_trace]? = some tr →
      (off + 3) * n ≤ tr.m_entries.length → n < tr.m_next.length →
      off < tr.m_addedToTree.length → TreeWF nodes → depthAt nodes cur = some (n - f) →
      cacheOK nodes tr.m_entries n off f cur = true →
      ∃ nodes1 traces1 path,
        treeLoop ctor _trace n dSize dOverhead off kind f cur nodes traces =
          some (nodes1, traces1) ∧
        PathResult ctor dSize dOverhead kind tr.m_entries n f nodes nodes1 cur path := by
  intro f
  induction f with
  | zero =>
    intro cur nodes traces tr _ _ _ _ _ hwf _ _
    refine ⟨nodes, traces, [], rfl, ⟨rfl, hwf, treeExtends_refl _, fun p hp => by simp at hp,
      List.Pairwise.nil, List.Chain.nil, fun i p hp => by simp at hp, ?_, fun k h1 h2 => by omega⟩⟩
    intro k nd1 hk
    rw [if_neg (by simp)]
    unfold usageBefore
    rw [hk]
    rfl
  | succ f ih =>
    intro cur nodes traces tr hfn htr hlen hnext hadd hwf hdepth hcache
    have hb : n ≤ n * (off + 2) := Nat.le_mul_of_pos_right n (by omega)
    have h3 : (off + 3) * n = n * (off + 2) + n := by ring
    obtain ⟨c, hc, hcd⟩ : ∃ c, nodes[cur]? = some c ∧ c.m_depth = n - (f + 1) := by
      unfold depthAt at hdepth
      cases h : nodes[cur]? with
      | none => rw [h] at hdepth; cases hdepth
      | some c =>
        rw [h] at hdepth
        exact ⟨c, rfl, by simpa using hdepth⟩
    have hid : tr.m_entries[f + n]? = some tr.m_entries[f + n] :=
      List.getElem?_eq_getElem (by omega)
    have hidx : tr.m_entries[f + n * (off + 2)]? = some tr.m_entries[f + n * (off + 2)] :=
      List.getElem?_eq_getElem (by omega)
    obtain ⟨nodesA, ch, idx1, chn, hsel, hch, hchid, hchd, hlt, ⟨c1, hc1, hmem⟩, hwfA, hextA,
        husA, husch, hfreshA, hcacheA⟩ :=
      selectChild_spec ctor nodes tr.m_entries n off f cur _ _ (n - f) c hwf hctor hc hlen
        (by omega) hid hidx hcache (by omega)
    obtain ⟨X, tr2, traces2, hstep, hXid, hXd, hXc, hXu, htr2, hent2, hnext2, hadd2⟩ :=
      treeLoop_step ctor _trace n dSize dOverhead off kind f cur nodes nodesA traces tr _ _ ch
        idx1 c chn htr hid hidx hc hsel hch hadd hnext
    have hshape : SameShape nodesA (nodesA.set ch X) := sameShape_set hch hXid hXd hXc
    have hchlt : ch < nodesA.length := (List.getElem?_eq_some.mp hch).1
    have hXget : (nodesA.set ch X)[ch]? = some X := List.getElem?_set_eq_of_lt _ hchlt
    obtain ⟨nodes1, traces1, path, hrun, hres⟩ :=
      ih ch (nodesA.set ch X) traces2 tr2 (by omega) htr2
        (by rw [hent2, List.length_set]; exact hlen) (by rw [hnext2]; exact hnext)
        (by rw [hadd2]; exact hadd) (treeWF_sameShape hwfA hshape)
        (by unfold depthAt; rw [hXget]; simp [hXd, hchd])
        (by
          rw [hent2, cacheOK_congr hshape _ _ n off f ch (fun g _ => ⟨rfl, rfl⟩)]
          exact hcacheA)
    have hextC : TreeExtends nodesA nodes1 :=
      treeExtends_trans (treeExtends_of_sameShape hshape) hres.ext
    have hnotin : ch ∉ path := fun h => Nat.lt_irrefl _ (hres.above ch h)
    refine ⟨nodes1, traces1, ch :: path, by rw [hstep]; exact hrun, ⟨?_, hres.wf,
      treeExtends_trans hextA hextC, ?_, ?_, ?_, ?_, ?_, ?_⟩⟩
    · simp [hres.len]
    · intro p hp
      rcases List.mem_cons.mp hp with h | h
      · rw [h]; exact hlt
      · exact lt_trans hlt (hres.above p h)
    · exact List.Pairwise.cons (fun p hp => hres.above p hp) hres.sorted
    · refine List.Chain.cons ?_ hres.chain
      obtain ⟨nd1, hnd1, -, -, hpre⟩ := hextC.2 cur c1 hc1
      unfold childrenAt
      rw [hnd1]
      exact hpre.subset hmem
    · intro i p hp
      cases i with
      | zero =>
        simp only [List.getElem?_cons_zero, Option.some.injEq] at hp
        subst hp
        obtain ⟨nd1, hnd1, hid1, hd1, -⟩ := hres.ext.2 _ X hXget
        refine ⟨nd1, hnd1, ?_, ?_⟩
        · have e : f + 1 - 1 - 0 + n = f + n := by omega
          rw [e, hid, hid1, hXid, hchid]
        · rw [hd1, hXd, hchd]
          omega
      | succ i =>
        simp only [List.getElem?_cons_succ] at hp
        have hif : i < f := by
          have := (List.getElem?_eq_some.mp hp).1
          rw [hres.len] at this
          exact this
        obtain ⟨nd, hnd, hidd, hdd⟩ := hres.ids i p hp
        refine ⟨nd, hnd, ?_, by rw [hdd]; omega⟩
        rw [hent2, List.getElem?_set_ne (by omega)] at hidd
        have e : f + 1 - 1 - (i + 1) + n = f - 1 - i + n := by omega
        rw [e]
        exact hidd
    · intro k nd1 hk
      have h0 := hres.usage k nd1 hk
      by_cases hkc : k = ch
      · subst hkc
        rw [if_neg hnotin] at h0
        rw [if_pos (List.mem_cons_self _ _), h0]
        unfold usageBefore at husch ⊢
        rw [hXget]
        simp only [Option.getD_some]
        rw [hXu, husch]
      · have hb1 : usageBefore ctor (nodesA.set ch X) k = usageBefore ctor nodes k := by
          rw [← husA k hkc]
          unfold usageBefore
          rw [List.getElem?_set_ne (Ne.symm hkc)]
        rw [hb1] at h0
        rw [h0]
        by_cases hkp : k ∈ path
        · rw [if_pos hkp, if_pos (List.mem_cons_of_mem _ hkp)]
        · rw [if_neg hkp, if_neg (fun h => (List.mem_cons.mp h).elim hkc hkp)]
    · intro k h1 h2
      by_cases hkA : k < nodesA.length
      · rw [hfreshA k h1 hkA]
        exact List.mem_cons_self _ _
      · exact List.mem_cons_of_mem _ (hres.fresh k (by rw [List.length_set]; omega) h2)

/-- Claim C30: when the tree is well formed with a root of depth 0 and the
scratch slots of the stack trace are consistent with it, `addToTree` with a
stack trace of `n` frames returns and visits the root and a path of `n`
nodes: the node at depth `d` is a child of the node at depth `d - 1`, has
depth `d` and the symbol ID of frame `n - d`.  The root and the nodes of the
path, and no other node, have `dSize` added to `m_memUsage` and `dOverhead` to
`m_overhead`, the peaks set to the larger of the previous peak and the new
value, and the counter of the kind incremented unless the kind is `Count`;
every node the call makes is on the path, one level below its parent; the
peaks of the visited nodes are not below the values, and those of the other
nodes stay so.  After `+100` for the frames 12, 11, `+50` for the frames 12,
13 and `-100` for the frames 12, 11 the nodes hold the usage and peak
50, 150 (root), 50, 150 (12), 0, 100 (11) and 50, 50 (13). -/
theorem addToTree_adds_usage_on_path (ctor : StackTraceTree) (nodes : List StackTraceTree)
    (traces : List LinkedStackTrace) (_root _trace : Nat) (dSize dOverhead : Int)
    (_offset : Nat) (kind : TreeOpType) (tr : LinkedStackTrace)
    (htr : traces[_trace]? = some tr) (hready : AddReady ctor nodes tr _root _offset) :
    (∃ nodes1 traces1 path,
      addToTree ctor nodes traces _root _trace dSize dOverhead _offset kind =
        some (nodes1, traces1) ∧
      path.length = tr.m_numEntries ∧ _root ∉ path ∧ path.Nodup ∧
      List.Chain (fun a b => b ∈ childrenAt nodes1 a) _root path ∧
      (∀ (d p : Nat), path[d]? = some p →
        ∃ nd, nodes1[p]? = some nd ∧
          tr.m_entries[tr.m_numEntries + (tr.m_numEntries - (d + 1))]? = some nd.m_addressID ∧
          nd.m_depth = d + 1) ∧
      (∀ (k : Nat) (nd1 : StackTraceTree), nodes1[k]? = some nd1 →
        usageOf nd1 = if k = _root ∨ k ∈ path then
            usageAdded dSize dOverhead kind (usageBefore ctor nodes k)
          else usageBefore ctor nodes k) ∧
      (∀ (k : Nat), nodes.length ≤ k → k < nodes1.length → k ∈ path) ∧
      TreeWF nodes1 ∧ TreeExtends nodes nodes1 ∧
      (∀ (k : Nat) (nd1 : StackTraceTree), nodes1[k]? = some nd1 →
        (k = _root ∨ k ∈ path ∨ PeakOK (usageBefore ctor nodes k)) → PeakOK (usageOf nd1))) ∧
    (((addToTree emptyNode [emptyNode] exampleTraces 0 0 100 8 0 TreeOpType.Alloc).bind
        (fun r => addToTree emptyNode r.1 r.2 0 1 50 4 0 TreeOpType.Alloc)).bind
        (fun r => addToTree emptyNode r.1 r.2 0 0 (-100) (-8) 0 TreeOpType.Free)).map
      (fun r => r.1.map (fun nd => (nd.m_addressID, nd.m_depth, nd.m_memUsage, nd.m_memUsagePeak)))
      = some [(0, 0, 50, 150), (12, 1, 50, 150), (11, 2, 0, 100), (13, 2, 50, 50)] := by
  refine ⟨?_, by decide⟩
  obtain ⟨hwf, hctor, hdepth0, hlen, hnext, hadd, hcache⟩ := hready
  obtain ⟨root, hroot, hrd⟩ : ∃ root, nodes[_root]? = some root ∧ root.m_depth = 0 := by
    unfold depthAt at hdepth0
    cases h : nodes[_root]? with
    | none => rw [h] at hdepth0; cases hdepth0
    | some c =>
      rw [h] at hdepth0
      exact ⟨c, rfl, by simpa using hdepth0⟩
  have hrlt : _root < nodes.length := (List.getElem?_eq_some.mp hroot).1
  have htlt : _trace < traces.length := (List.getElem?_eq_some.mp htr).1
  have hshape : SameShape nodes (nodes.set _root
      { addUsage dSize dOverhead kind root with m_stackTraceList := some _trace }) :=
    sameShape_set hroot rfl rfl rfl
  have hget0 : (nodes.set _root
      { addUsage dSize dOverhead kind root with m_stackTraceList := some _trace })[_root]? =
      some { addUsage dSize dOverhead kind root with m_stackTraceList := some _trace } :=
    List.getElem?_set_eq_of_lt _ hrlt
  obtain ⟨nodes1, traces1, path, hrun, hres⟩ :=
    treeLoop_spec ctor _trace tr.m_numEntries dSize dOverhead _offset kind hctor tr.m_numEntries
      _root (nodes.set _root
        { addUsage dSize dOverhead kind root with m_stackTraceList := some _trace })
      (traces.set _trace
        { tr with m_next := tr.m_next.set 0 (addUsage dSize dOverhead kind root).m_stackTraceList })
      { tr with m_next := tr.m_next.set 0 (addUsage dSize dOverhead kind root).m_stackTraceList }
      (le_refl _) (List.getElem?_set_eq_of_lt _ htlt) hlen
      (by simp only [List.length_set]; exact hnext) hadd (treeWF_sameShape hwf hshape)
      (by unfold depthAt; rw [hget0]; simp [addUsage, hrd])
      (by
        rw [cacheOK_congr hshape _ _ _ _ _ _ (fun g _ => ⟨rfl, rfl⟩)]
        exact hcache)
  have hnotin : _root ∉ path := fun h => Nat.lt_irrefl _ (hres.above _ h)
  have husage : ∀ (k : Nat) (nd1 : StackTraceTree), nodes1[k]? = some nd1 →
      usageOf nd1 = if k = _root ∨ k ∈ path then
          usageAdded dSize dOverhead kind (usageBefore ctor nodes k)
        else usageBefore ctor nodes k := by
    intro k nd1 hk
    have h0 := hres.usage k nd1 hk
    by_cases hkr : k = _root
    · subst hkr
      rw [if_neg hnotin] at h0
      rw [if_pos (Or.inl rfl), h0]
      unfold usageBefore
      rw [hget0, hroot]
      simp only [Option.getD_some]
      rw [← usageOf_addUsage]
      rfl
    · have hb1 : usageBefore ctor (nodes.set _root
          { addUsage dSize dOverhead kind root with m_stackTraceList := some _trace }) k =
          usageBefore ctor nodes k := by
        unfold usageBefore
        rw [List.getElem?_set_ne (Ne.symm hkr)]
      rw [hb1] at h0
      rw [h0]
      by_cases hkp : k ∈ path
      · rw [if_pos hkp, if_pos (Or.inr hkp)]
      · rw [if_neg hkp, if_neg (fun h => h.elim hkr hkp)]
  refine ⟨nodes1, traces1, path, ?_, hres.len, hnotin, hres.sorted.imp (fun h => ne_of_lt h),
    hres.chain, ?_, husage, ?_, hres.wf,
    treeExtends_trans (treeExtends_of_sameShape hshape) hres.ext, ?_⟩
  · unfold addToTree
    rw [htr, hroot]
    simp only []
    rw [if_pos (by omega)]
    exact hrun
  · intro d p hp
    have hd : d < tr.m_numEntries := by
      have := (List.getElem?_eq_some.mp hp).1
      rw [hres.len] at this
      exact this
    obtain ⟨nd, hnd, hid, hdd⟩ := hres.ids d p hp
    refine ⟨nd, hnd, ?_, by rw [hdd]; omega⟩
    have e : tr.m_numEntries + (tr.m_numEntries - (d + 1)) =
        tr.m_numEntries - 1 - d + tr.m_numEntries := by omega
    rw [e]
    exact hid
  · intro k h1 h2
    exact hres.fresh k (by rw [List.length_set]; exact h1) h2
  · intro k nd1 hk hor
    rw [husage k nd1 hk]
    by_cases hc : k = _root ∨ k ∈ path
    · rw [if_pos hc]
      exact peakOK_usageAdded _ _ _ _
    · rw [if_neg hc]
      rcases hor with h | h | h
      · exact absurd (Or.inl h) hc
      · exact absurd (Or.inr h) hc
      · exact h

/-- Claim C30 at the empty tree and the stack trace with the frames 12, 11:
the call returns and visits two nodes below the root. -/
theorem addToTree_adds_usage_on_path_witness :
    exampleTraces[0]? = some exampleTrace ∧ AddReady emptyNode [emptyNode] exampleTrace 0 0 ∧
    ∃ (nodes1 : List StackTraceTree) (traces1 : List LinkedStackTrace) (path : List Nat),
      addToTree emptyNode [emptyNode] exampleTraces 0 0 100 8 0 TreeOpType.Alloc =
        some (nodes1, traces1) ∧ path.length = exampleTrace.m_numEntries :=
  ⟨by decide, by decide,
    (addToTree_adds_usage_on_path emptyNode [emptyNode] exampleTraces 0 0 100 8 0
      TreeOpType.Alloc exampleTrace (by decide) (by decide)).1.imp
      (fun _ h => h.imp (fun _ h2 => h2.imp (fun _ h3 => ⟨h3.1, h3.2.1⟩)))⟩

/-! ## The claims C31 to C40 -/

theorem unitsOf_one (xs : List Nat) : unitsOf 1 xs = xs := by
  induction xs with
  | nil => rfl
  | cons x xs ih =>
    unfold unitsOf
    rw [if_neg (by decide), ih]

theorem map_xor_twice (mask : Nat) (xs : List Nat) :
    (xs.map (fun x => Nat.xor x mask)).map (fun x => Nat.xor x mask) = xs := by
  induction xs with
  | nil => rfl
  | cons x xs ih =>
    rw [List.map_cons, List.map_cons, ih]
    congr 1
    exact Nat.xor_cancel_right mask x

/-- Claim C32: `ReadString` with capacity `Len` on characters of `cs` bytes.
When the four length bytes decode (after the swap, if enabled) to `len < Len`
and the stream holds the `cs * len` bytes of the body, the output is the `len`
characters made of these bytes, each byte XOR-ed with the mask, the reader is
past the body, and the return value is `(uint32_t)(len * cs + 4)`, which is
`4 + len * cs` when that is below `2^32`; for one-byte characters the output
is the list of the XOR-ed bytes.  When `len >= Len` the output is the empty
string, the reader is just past the four length bytes and the return value is
4.  When the length cannot be read the return value is 0.  Applying the mask
twice gives the original bytes back. -/
theorem readString_cases (Len cs : Nat) (swap : Bool) (mask : Nat)
    (pre lenBytes body rest : List Nat) (hlen : lenBytes.length = 4) :
    (decodeVar swap lenBytes < Len → body.length = cs * decodeVar swap lenBytes →
      ReadString Len cs ⟨pre ++ (lenBytes ++ (body ++ rest)), pre.length⟩ swap mask =
        (u32 (decodeVar swap lenBytes * cs + 4),
          some ((unitsOf cs (body.map (fun x => Nat.xor x mask))).take (decodeVar swap lenBytes)),
          ⟨pre ++ (lenBytes ++ (body ++ rest)), pre.length + 4 + cs * decodeVar swap lenBytes⟩) ∧
      (4 + decodeVar swap lenBytes * cs < 4294967296 →
        u32 (decodeVar swap lenBytes * cs + 4) = 4 + decodeVar swap lenBytes * cs) ∧
      (cs = 1 →
        (unitsOf cs (body.map (fun x => Nat.xor x mask))).take (decodeVar swap lenBytes) =
          body.map (fun x => Nat.xor x mask))) ∧
    (Len ≤ decodeVar swap lenBytes →
      ReadString Len cs ⟨pre ++ (lenBytes ++ rest), pre.length⟩ swap mask =
        (4, some [], ⟨pre ++ (lenBytes ++ rest), pre.length + 4⟩)) ∧
    (∀ l : BinLoader, (l.readVar 4).1 ≠ 1 → (ReadString Len cs l swap mask).1 = 0) ∧
    (body.map (fun x => Nat.xor x mask)).map (fun x => Nat.xor x mask) = body := by
  refine ⟨fun hlt hbody => ⟨?_, ?_, ?_⟩, fun hge => ?_, fun l hl => ?_, map_xor_twice mask body⟩
  · unfold ReadString
    rw [readVar_split _ pre lenBytes (body ++ rest) rfl pre.length 4 rfl hlen.symm]
    simp only [ne_eq, not_true_eq_false, if_false, if_pos hlt]
    rw [read_split _ (pre ++ lenBytes) body rest (by simp) (pre.length + 4)
      (cs * decodeVar swap lenBytes) (by rw [List.length_append, hlen]) hbody.symm]
    simp only [hbody, if_true]
  · intro h
    rw [u32_of_lt (by omega)]
    omega
  · intro h1
    subst h1
    rw [unitsOf_one]
    apply List.take_of_length_le
    rw [List.length_map, hbody]
    omega
  · unfold ReadString
    rw [readVar_split _ pre lenBytes rest rfl pre.length 4 rfl hlen.symm]
    simp only [ne_eq, not_true_eq_false, if_false, if_neg (not_lt.mpr hge)]
  · unfold ReadString
    simp only []
    rw [if_pos hl]

/-- Claim C32 at capacity 1024 with the mask `0x23`: the bytes `2, 0, 0, 0`,
`0x42, 0x4A` give the two characters `a`, `i`, the return value 6 and the
reader at offset 6; the length 1024 gives the empty string, the return value 4
and the reader at offset 4; two bytes in the stream give the return value 0. -/
theorem readString_cases_witness :
    ReadString 1024 1 ⟨[2, 0, 0, 0, 66, 74, 9], 0⟩ false 35 =
        (6, some [97, 105], ⟨[2, 0, 0, 0, 66, 74, 9], 6⟩) ∧
      ReadString 1024 1 ⟨[0, 4, 0, 0, 66, 74, 9], 0⟩ false 35 =
        (4, some [], ⟨[0, 4, 0, 0, 66, 74, 9], 4⟩) ∧
      (ReadString 1024 1 ⟨[2, 0], 0⟩ false 35).1 = 0 := by
  have h := readString_cases 1024 1 false 35 [] [2, 0, 0, 0] [66, 74] [9] rfl
  have h2 := readString_cases 1024 1 false 35 [] [0, 4, 0, 0] [] [66, 74, 9] rfl
  refine ⟨?_, h2.2.1 (by decide), h.2.2.1 ⟨[2, 0], 0⟩ (by decide)⟩
  have := (h.1 (by decide) (by decide)).1
  exact this.trans (by decide)

theorem traceListWalk_self (traces : List LinkedStackTrace) (depth t : Nat)
    (tr : LinkedStackTrace) (htr : traces[t]? = some tr)
    (hnext : tr.m_next[depth]? = some (some t)) :
    ∀ fuel, traceListWalk traces depth fuel (some t) = List.replicate fuel t := by
  intro fuel
  induction fuel with
  | zero => rfl
  | succ fuel ih =>
    unfold traceListWalk
    rw [htr]
    simp only []
    rw [hnext]
    simp only []
    rw [ih, List.replicate_succ]

theorem traceListWalk_last (traces : List LinkedStackTrace) (depth t : Nat)
    (tr : LinkedStackTrace) (htr : traces[t]? = some tr)
    (hnext : tr.m_next[depth]? = some none) :
    ∀ fuel, traceListWalk traces depth (fuel + 1) (some t) = [t] := by
  intro fuel
  unfold traceListWalk
  rw [htr]
  simp only []
  rw [hnext]
  cases fuel <;> rfl

theorem tracesThrough_of_map (nodes : List StackTraceTree) (traces : List LinkedStackTrace)
    (shape : List (Nat × Option Nat)) (nexts : List (List (Option Nat)))
    (hn : nodes.map (fun n => (n.m_depth, n.m_stackTraceList)) = shape)
    (ht : traces.map (fun t => t.m_next) = nexts) (node d fuel : Nat) (head : Option Nat)
    (hs : shape[node]? = some (d, head)) :
    tracesThrough nodes traces node fuel = traceListWalk traces d fuel head ∧
      ∀ (t : Nat) (nx : List (Option Nat)), nexts[t]? = some nx →
        ∃ tr : LinkedStackTrace, traces[t]? = some tr ∧ tr.m_next = nx := by
  constructor
  · rw [← hn, List.getElem?_map] at hs
    unfold tracesThrough
    cases h : nodes[node]? with
    | none => rw [h] at hs; cases hs
    | some nd =>
      rw [h] at hs
      simp only [Option.map_some', Option.some.injEq, Prod.mk.injEq] at hs
      simp only []
      rw [hs.1, hs.2]
  · intro t nx h
    rw [← ht, List.getElem?_map] at h
    cases h2 : traces[t]? with
    | none => rw [h2] at h; cases h
    | some tr =>
      rw [h2] at h
      exact ⟨tr, rfl, by simpa using h⟩

/-- Claim C31: the first `addToTree` with a stack trace of two frames on an
empty tree threads the stack trace once into the list of the root and of the
two nodes of its path.  The second call with the same stack trace returns and
leaves the lists of the two path nodes as they are, but it threads the stack
trace into the list of the root again: `m_next[0]` of the stack trace now
points at the stack trace itself, so the walk along the list of the root
never ends and gives the same stack trace at every step. -/
theorem root_list_cycles_on_second_add :
    ∃ nodes1 traces1 nodes2 traces2,
      addToTree emptyNode [emptyNode] [exampleTrace] 0 0 100 8 0 TreeOpType.Alloc =
        some (nodes1, traces1) ∧
      (∀ node, node < 3 → ∀ fuel, tracesThrough nodes1 traces1 node (fuel + 1) = [0]) ∧
      addToTree emptyNode nodes1 traces1 0 0 100 8 0 TreeOpType.Alloc = some (nodes2, traces2) ∧
      (∀ fuel, tracesThrough nodes2 traces2 1 (fuel + 1) = [0]) ∧
      (∀ fuel, tracesThrough nodes2 traces2 2 (fuel + 1) = [0]) ∧
      (∀ fuel, tracesThrough nodes2 traces2 0 fuel = List.replicate fuel 0) := by
  have h1 : (addToTree emptyNode [emptyNode] [exampleTrace] 0 0 100 8 0 TreeOpType.Alloc).map
      (fun r => (r.1.map (fun n => (n.m_depth, n.m_stackTraceList)),
        r.2.map (fun t => t.m_next))) =
      some ([(0, some 0), (1, some 0), (2, some 0)], [[none, none, none]]) := by decide
  have h2 : ((addToTree emptyNode [emptyNode] [exampleTrace] 0 0 100 8 0 TreeOpType.Alloc).bind
      (fun r => addToTree emptyNode r.1 r.2 0 0 100 8 0 TreeOpType.Alloc)).map
      (fun r => (r.1.map (fun n => (n.m_depth, n.m_stackTraceList)),
        r.2.map (fun t => t.m_next))) =
      some ([(0, some 0), (1, some 0), (2, some 0)], [[some 0, none, none]]) := by decide
  cases ha : addToTree emptyNode [emptyNode] [exampleTrace] 0 0 100 8 0 TreeOpType.Alloc with
  | none => rw [ha] at h1; cases h1
  | some r1 =>
    rw [ha] at h1 h2
    simp only [Option.some_bind] at h2
    cases hb : addToTree emptyNode r1.1 r1.2 0 0 100 8 0 TreeOpType.Alloc with
    | none => rw [hb] at h2; cases h2
    | some r2 =>
      rw [hb] at h2
      simp only [Option.map_some', Option.some.injEq, Prod.mk.injEq] at h1 h2
      obtain ⟨tr1, htr1, hnx1⟩ := (tracesThrough_of_map r1.1 r1.2 _ _ h1.1 h1.2 0 0 0 (some 0)
        rfl).2 0 _ rfl
      obtain ⟨tr2, htr2, hnx2⟩ := (tracesThrough_of_map r2.1 r2.2 _ _ h2.1 h2.2 0 0 0 (some 0)
        rfl).2 0 _ rfl
      refine ⟨r1.1, r1.2, r2.1, r2.2, rfl, ?_, hb, ?_, ?_, ?_⟩
      · intro node hnode fuel
        have h0 : node = 0 ∨ node = 1 ∨ node = 2 := by omega
        rcases h0 with h0 | h0 | h0
        · rw [h0, (tracesThrough_of_map r1.1 r1.2 _ _ h1.1 h1.2 0 0 _ (some 0) rfl).1]
          exact traceListWalk_last _ _ _ tr1 htr1 (by rw [hnx1]; rfl) fuel
        · rw [h0, (tracesThrough_of_map r1.1 r1.2 _ _ h1.1 h1.2 1 1 _ (some 0) rfl).1]
          exact traceListWalk_last _ _ _ tr1 htr1 (by rw [hnx1]; rfl) fuel
        · rw [h0, (tracesThrough_of_map r1.1 r1.2 _ _ h1.1 h1.2 2 2 _ (some 0) rfl).1]
          exact traceListWalk_last _ _ _ tr1 htr1 (by rw [hnx1]; rfl) fuel
      · intro fuel
        rw [(tracesThrough_of_map r2.1 r2.2 _ _ h2.1 h2.2 1 1 _ (some 0) rfl).1]
        exact traceListWalk_last _ _ _ tr2 htr2 (by rw [hnx2]; rfl) fuel
      · intro fuel
        rw [(tracesThrough_of_map r2.1 r2.2 _ _ h2.1 h2.2 2 2 _ (some 0) rfl).1]
        exact traceListWalk_last _ _ _ tr2 htr2 (by rw [hnx2]; rfl) fuel
      · intro fuel
        rw [(tracesThrough_of_map r2.1 r2.2 _ _ h2.1 h2.2 0 0 _ (some 0) rfl).1]
        exact traceListWalk_self _ _ _ tr2 htr2 (by rw [hnx2]; rfl) fuel

/-- The mask of a capture of at most 2048 operations is 2047. -/
theorem getGranularityMask_small {n : Nat} (h : n ≤ 2048) : getGranularityMask n = 2047 := by
  unfold getGranularityMask
  simp only []
  rw [if_neg (by omega), if_neg (by omega)]

/-- Below index 2048 the loop of `calculateGlobalStats` takes no snapshot
after the one at index 0. -/
theorem timedLoop_small :
    ∀ (l : List MemoryOperation) (i : Nat), 0 < i → i + l.length ≤ 2048 →
      timedLoop 2047 i l = [] := by
  intro l
  induction l with
  | nil => intro i _ _; rfl
  | cons op rest ih =>
    intro i h0 hlen
    simp only [List.length_cons] at hlen
    have hmask : i &&& 2047 ≠ 0 := by
      have := Nat.and_pow_two_sub_one_eq_mod i 11
      norm_num at this
      rw [this]
      omega
    rw [timedLoop, if_neg hmask, ih (i + 1) (by omega) (by omega)]
    rfl

/-- A capture of at most 2048 operations has exactly two timed snapshots:
the first operation and the last one. -/
theorem calculateGlobalStatsTimed_small (first : MemoryOperation) (rest : List MemoryOperation)
    (hlen : (first :: rest).length ≤ 2048) :
    ∃ last, (first :: rest)[(first :: rest).length - 1]? = some last ∧
      calculateGlobalStatsTimed (first :: rest)
        = some [⟨first.m_operationTime, 0⟩, ⟨last.m_operationTime, u32 ((first :: rest).length - 1)⟩] := by
  have hl : (first :: rest).length - 1 < (first :: rest).length := by
    simp only [List.length_cons]; omega
  refine ⟨(first :: rest)[(first :: rest).length - 1], List.getElem?_eq_getElem hl, ?_⟩
  rw [calculateGlobalStatsTimed]
  simp only [List.getElem?_eq_getElem hl, getGranularityMask_small hlen]
  rw [timedLoop]
  simp only [List.length_cons] at hlen
  rw [timedLoop_small rest 1 (by omega) (by omega)]
  rfl

/-- With two snapshots and `t` at or before the first one, the snapshot
bisection of `getIndexAfter` leaves `tsIdx = 0` and `m_timedStats[tsIdx-1]`
is read at index `0xffffffff`. -/
theorem getIndexAfter_two_snapshots (ops : List MemoryOperation) (s0 s1 : MemoryStatsTimed)
    (t : Nat) (ht : t ≤ s0.m_time) : getIndexAfter ops [s0, s1] t = none := by
  have hnot : ¬ s0.m_time < t := by omega
  simp [getIndexAfter, timedBisect, hnot, timedBracket, u32]

/-- Claim C33, refuted: for every capture of at most 2048 operations, which
has two timed snapshots, and every `t` at or before the first operation's time
(`t = min_time` is one), `getIndexAfter(t)` reads `m_timedStats[tsIdx-1]` with
`tsIdx = 0`, that is at index `0xffffffff`, outside the table: the lookup has
no defined result.  The sibling `getIndexBefore` guards this table with
`if (tsIdxMax == 1) tsIdx = 1`. -/
theorem getIndexAfter_reads_outside_small_table (first : MemoryOperation)
    (rest : List MemoryOperation) (t : Nat) (hlen : (first :: rest).length ≤ 2048)
    (ht : t ≤ first.m_operationTime) :
    ∃ timed, calculateGlobalStatsTimed (first :: rest) = some timed ∧ timed.length = 2 ∧
      timedBisect timed t 2 0 1 = some 0 ∧ timedBracket timed 0 = none ∧
      getIndexAfter (first :: rest) timed t = none := by
  obtain ⟨last, -, hcalc⟩ := calculateGlobalStatsTimed_small first rest hlen
  refine ⟨_, hcalc, rfl, ?_, ?_, getIndexAfter_two_snapshots _ _ _ t ht⟩
  · have hnot : ¬ first.m_operationTime < t := by omega
    simp [timedBisect, hnot]
  · simp [timedBracket, u32]

/-- Claim C33 at the capture of one allocation at time 10 and `t = 10`, the
first operation's time, equal to `min_time` and `max_time`. -/
theorem getIndexAfter_reads_outside_small_table_witness :
    ([allocAt 10].length ≤ 2048 ∧ 10 ≤ (allocAt 10).m_operationTime) ∧
    ∃ timed, calculateGlobalStatsTimed [allocAt 10] = some timed ∧ timed.length = 2 ∧
      timedBisect timed 10 2 0 1 = some 0 ∧ timedBracket timed 0 = none ∧
      getIndexAfter [allocAt 10] timed 10 = none :=
  ⟨by decide, getIndexAfter_reads_outside_small_table (allocAt 10) [] 10 (by decide) (by decide)⟩

/-- Time-sorted operations split at every time: some prefix is strictly
before `t` and the rest is not. -/
theorem splitsAt_exists {ops : List MemoryOperation} (hs : TimeSorted ops) (t : Nat) :
    ∃ L, SplitsAt ops t L := by
  induction ops with
  | nil => exact ⟨0, le_refl _, fun i a h => by simp at h⟩
  | cons a rest ih =>
    have hs1 : TimeSorted rest := (List.pairwise_cons.mp hs).2
    have hle := (List.pairwise_cons.mp hs).1
    obtain ⟨L, hLn, hL⟩ := ih hs1
    by_cases hat : a.m_operationTime < t
    · refine ⟨L + 1, by simp only [List.length_cons]; omega, fun i b hb => ?_⟩
      cases i with
      | zero =>
        simp only [List.getElem?_cons_zero, Option.some.injEq] at hb
        subst hb
        exact ⟨fun _ => Nat.succ_pos _, fun _ => hat⟩
      | succ i =>
        simp only [List.getElem?_cons_succ] at hb
        rw [hL i b hb]
        omega
    · refine ⟨0, Nat.zero_le _, fun i b hb => ⟨fun hbt => ?_, fun h => absurd h (Nat.not_lt_zero _)⟩⟩
      cases i with
      | zero =>
        simp only [List.getElem?_cons_zero, Option.some.injEq] at hb
        subst hb
        exact absurd hbt hat
      | succ i =>
        simp only [List.getElem?_cons_succ] at hb
        have := hle b (List.mem_iff_getElem?.mpr ⟨i, hb⟩)
        omega

/-- The bracket of `timedBracket` starts at the operation index of the
snapshot it returns as `_outTimedIndex`. -/
theorem timedBracket_index {timed : List MemoryStatsTimed} {x s e k : Nat}
    (h : timedBracket timed x = some (s, e, k)) :
    ∃ lo, timed[k]? = some lo ∧ lo.m_operationIndex = s := by
  unfold timedBracket at h
  simp only [] at h
  split at h
  · rename_i lo hi hlo hhi
    simp only [Option.some.injEq, Prod.mk.injEq] at h
    obtain ⟨h1, -, h3⟩ := h
    exact ⟨lo, by rw [← h3]; exact hlo, h1⟩
  · simp at h

/-- Claim C34: for time-sorted operations (at least one, fewer than `2^31`),
the snapshot table that `calculateGlobalStats` builds and every `t` at or
before the last operation's time (`max_time`), `getIndexBefore(t)` reads only
inside `m_timedStats` and `m_operations` (the lookup has a result), returns an
index smaller than the number of operations, and returns through
`_outTimedIndex` a snapshot whose `m_operationIndex` is at most the returned
index. -/
theorem getIndexBefore_in_bounds (ops : List MemoryOperation) (t : Nat) (last : MemoryOperation)
    (hs : TimeSorted ops) (hn : ops.length < 2147483648)
    (hlast : ops[ops.length - 1]? = some last) (hmax : t ≤ last.m_operationTime) :
    ∃ (timed : List MemoryStatsTimed) (idx k : Nat) (st : MemoryStatsTimed),
      calculateGlobalStatsTimed ops = some timed ∧
      getIndexBefore ops timed t = some (idx, k) ∧ idx < ops.length ∧
      timed[k]? = some st ∧ st.m_operationIndex ≤ idx := by
  have h0 : 0 < ops.length := by
    obtain ⟨h, -⟩ := List.getElem?_eq_some.mp hlast
    omega
  obtain ⟨timed, hcalc, hwf⟩ := calculateGlobalStatsTimed_wellFormed h0 hn
  obtain ⟨L, hL⟩ := splitsAt_exists hs t
  have hLlt : L < ops.length := by
    have := (hL.2 _ _ hlast)
    by_contra hcon
    have h1 : last.m_operationTime < t := this.mpr (by omega)
    omega
  have hbr : ∃ x, (if timed.length - 1 = 1 then some 1
      else timedBisect timed t (timed.length - 1 + 1) 0 (timed.length - 1)) = some x ∧
      Bracket timed t x := by
    by_cases h2 : timed.length - 1 = 1
    · rw [if_pos h2]
      exact ⟨1, rfl, le_refl _, by omega, Or.inl rfl, Or.inl (by omega)⟩
    · rw [if_neg h2]
      have := hwf.1
      exact timedBisect_bracket _ _ _ (by omega) (by omega) (by omega) (Or.inl rfl)
        (Or.inl (by omega))
  obtain ⟨x, hx, hbx⟩ := hbr
  obtain ⟨s, e, hse, hlt, hen, hlo, hhi⟩ := timedBracket_of_bracket hwf hL hn hbx
  obtain ⟨lo, hlo1, hlo2⟩ := timedBracket_index hse
  have hloop := getIndexBeforeLoop_eq hL hn (e - s + 1) s e (by omega) hlt hen hlo hhi
  refine ⟨timed, L, x - 1, lo, hcalc, ?_, hLlt, hlo1, by omega⟩
  rw [getIndexBefore]
  simp only [hx, hse, hloop]

/-- Claim C34 at the operations with times 10, 20, 30 and `t = 20`. -/
theorem getIndexBefore_in_bounds_witness :
    (TimeSorted [allocAt 10, allocAt 20, allocAt 30] ∧
      [allocAt 10, allocAt 20, allocAt 30].length < 2147483648 ∧
      [allocAt 10, allocAt 20, allocAt 30][[allocAt 10, allocAt 20, allocAt 30].length - 1]?
        = some (allocAt 30) ∧ 20 ≤ (allocAt 30).m_operationTime) ∧
    ∃ (timed : List MemoryStatsTimed) (idx k : Nat) (st : MemoryStatsTimed),
      calculateGlobalStatsTimed [allocAt 10, allocAt 20, allocAt 30] = some timed ∧
      getIndexBefore [allocAt 10, allocAt 20, allocAt 30] timed 20 = some (idx, k) ∧
      idx < [allocAt 10, allocAt 20, allocAt 30].length ∧
      timed[k]? = some st ∧ st.m_operationIndex ≤ idx :=
  ⟨by decide, getIndexBefore_in_bounds [allocAt 10, allocAt 20, allocAt 30] 20 (allocAt 30)
    (by decide) (by decide) (by decide) (by decide)⟩

/-- The loop with its exit returns the index of `getIndexBeforeLoop`. -/
theorem getIndexBeforeLoopExit_index (ops : List MemoryOperation) (t : Nat) :
    ∀ (fuel s e : Nat), (getIndexBeforeLoopExit ops t fuel s e).map Prod.snd
      = getIndexBeforeLoop ops t fuel s e := by
  intro fuel
  induction fuel with
  | zero => intro s e; rfl
  | succ fuel ih =>
    intro s e
    rw [getIndexBeforeLoopExit, getIndexBeforeLoop]
    by_cases hse : e > s
    · rw [if_pos hse, if_pos hse]
      simp only []
      cases hmid : ops[u32 (s + e) / 2]? with
      | none => rfl
      | some opMid =>
        simp only []
        by_cases hd : (if opMid.m_operationTime < t then e else u32 (s + e) / 2)
            - (if opMid.m_operationTime < t then u32 (s + e) / 2 else s) = 1
        · rw [if_pos hd, if_pos hd]
          cases ops[if opMid.m_operationTime < t then u32 (s + e) / 2 else s]? with
          | none => rfl
          | some opStart =>
            simp only []
            by_cases hge : opStart.m_operationTime ≥ t
            · rw [if_pos hge, if_pos hge]
              rfl
            · rw [if_neg hge, if_neg hge]
              rfl
        · rw [if_neg hd, if_neg hd]
          exact ih _ _
    · rw [if_neg hse, if_neg hse]
      rfl

/-- The method with its exit returns what `getIndexBefore` returns. -/
theorem getIndexBeforeExit_index (ops : List MemoryOperation) (timed : List MemoryStatsTimed)
    (t : Nat) : (getIndexBeforeExit ops timed t).map Prod.snd = getIndexBefore ops timed t := by
  rw [getIndexBeforeExit, getIndexBefore]
  cases (if timed.length - 1 = 1 then some 1
      else timedBisect timed t (timed.length - 1 + 1) 0 (timed.length - 1)) with
  | none => rfl
  | some x =>
    simp only []
    cases timedBracket timed x with
    | none => rfl
    | some b =>
      obtain ⟨s, e, k⟩ := b
      simp only []
      rw [← getIndexBeforeLoopExit_index]
      cases getIndexBeforeLoopExit ops t (e - s + 1) s e with
      | none => rfl
      | some r => rfl

/-- Claim C35, refuted: for every capture of exactly one operation and every
`t` at or before that operation's time (`t = min_time = max_time` is one), the
second loop of `getIndexBefore` starts on the bracket `[0, 1)`, sets `endIdx`
to `0`, and is left through its condition `endIdx > startIdx`:
`RTM_ASSERT(false, "Should not reach here!")` is executed before `return 0`. -/
theorem getIndexBefore_single_operation_reaches_assert (op : MemoryOperation) (t : Nat)
    (ht : t ≤ op.m_operationTime) :
    calculateGlobalStatsTimed [op] = some [⟨op.m_operationTime, 0⟩, ⟨op.m_operationTime, 0⟩] ∧
    timedBracket [⟨op.m_operationTime, 0⟩, ⟨op.m_operationTime, 0⟩] 1 = some (0, 1, 0) ∧
    getIndexBeforeLoopExit [op] t 2 0 1 = some (LoopExit.assertAfter, 0) ∧
    getIndexBeforeExit [op] [⟨op.m_operationTime, 0⟩, ⟨op.m_operationTime, 0⟩] t
      = some (LoopExit.assertAfter, 0, 0) := by
  have hnot : ¬ op.m_operationTime < t := by omega
  have hloop : getIndexBeforeLoopExit [op] t 2 0 1 = some (LoopExit.assertAfter, 0) := by
    simp [getIndexBeforeLoopExit, u32, hnot]
  have hbr : timedBracket [⟨op.m_operationTime, 0⟩, ⟨op.m_operationTime, 0⟩] 1
      = some (0, 1, 0) := by
    simp [timedBracket, u32]
  refine ⟨?_, hbr, hloop, ?_⟩
  · simp [calculateGlobalStatsTimed, getGranularityMask, timedLoop, u32]
  · rw [getIndexBeforeExit]
    simp only [List.length_cons, List.length_nil, Nat.zero_add, Nat.reduceAdd, Nat.add_one_sub_one,
      if_true, hbr]
    simp only [Nat.sub_zero, Nat.reduceAdd, hloop]

/-- Claim C35 at the capture of one allocation at time 10 and `t = 10`. -/
theorem getIndexBefore_single_operation_reaches_assert_witness :
    10 ≤ (allocAt 10).m_operationTime ∧
    calculateGlobalStatsTimed [allocAt 10] = some [⟨10, 0⟩, ⟨10, 0⟩] ∧
    timedBracket [⟨10, 0⟩, ⟨10, 0⟩] 1 = some (0, 1, 0) ∧
    getIndexBeforeLoopExit [allocAt 10] 10 2 0 1 = some (LoopExit.assertAfter, 0) ∧
    getIndexBeforeExit [allocAt 10] [⟨10, 0⟩, ⟨10, 0⟩] 10 = some (LoopExit.assertAfter, 0, 0) :=
  ⟨by decide, getIndexBefore_single_operation_reaches_assert (allocAt 10) 10 (by decide)⟩

/-- Claim C37, refuted: the capture of an allocation of 32 bytes at time 10
and its free at time 20 loads with `min_time = 10` and `max_time = 20`; with
the window `[15, 20]` the free passes the filter and its predecessor does not,
the loop of `calculateFilteredData` runs over the free alone, and
`updateLiveBlocks` and `updateLiveSize`, which do not ask whether the
predecessor is in the filter, leave `liveBlocks = 2^64 - 1` and
`liveSize = 2^64 - 32`. -/
theorem filtered_counters_wrap_below_zero :
    (sortAndLink allocThenFree 18446744073709551615).1 = true ∧
    (sortAndLink allocThenFree 18446744073709551615).2.m_operations = [0, 1] ∧
    (sortAndLink allocThenFree 18446744073709551615).2.m_minTime = 10 ∧
    (sortAndLink allocThenFree 18446744073709551615).2.m_maxTime = 20 ∧
    (sortAndLink allocThenFree 18446744073709551615).2.pool.map
      (isInFilter (fun _ => 0) [] lateWindow) = [false, true] ∧
    (sortAndLink allocThenFree 18446744073709551615).2.pool.map (fun o => o.m_chainPrev)
      = [none, some 0] ∧
    calculateGlobalStatsTimed (sortAndLink allocThenFree 18446744073709551615).2.pool
      = some [⟨10, 0⟩, ⟨20, 1⟩] ∧
    getIndexBefore (sortAndLink allocThenFree 18446744073709551615).2.pool [⟨10, 0⟩, ⟨20, 1⟩] 15
      = some (1, 0) ∧
    getIndexBefore (sortAndLink allocThenFree 18446744073709551615).2.pool [⟨10, 0⟩, ⟨20, 1⟩] 20
      = some (1, 0) ∧
    calculateFilteredCounters (fun _ => 0) [] lateWindow
      (sortAndLink allocThenFree 18446744073709551615).2 [⟨10, 0⟩, ⟨20, 1⟩]
      = some (18446744073709551615, 18446744073709551584) := by
  decide

/-- With fewer bytes left than the variable has, `readVar` returns 0 and
leaves fewer bytes still. -/
theorem readVar_short (l : BinLoader) (size : Nat) (hs : 0 < size)
    (h : l.data.length < l.pos + size) :
    (l.readVar size).1 = 0 ∧ (l.readVar size).2.2.data = l.data ∧
      l.pos ≤ (l.readVar size).2.2.pos := by
  have hlen : ((l.data.drop l.pos).take size).length ≠ size := by
    rw [List.length_take, List.length_drop]
    omega
  refine ⟨?_, rfl, ?_⟩
  · simp only [BinLoader.readVar, BinLoader.read]
    rw [if_neg hlen]
  · simp only [BinLoader.readVar, BinLoader.read]
    omega

/-- With fewer than four bytes left, `ReadString` returns 0. -/
theorem readString_short (Len cs : Nat) (l : BinLoader) (swap : Bool) (mask : Nat)
    (h : l.data.length < l.pos + 4) :
    (ReadString Len cs l swap mask).1 = 0 ∧ (ReadString Len cs l swap mask).2.2.data = l.data ∧
      l.pos ≤ (ReadString Len cs l swap mask).2.2.pos := by
  obtain ⟨h1, h2, h3⟩ := readVar_short l 4 (by decide) h
  have hne : (l.readVar 4).1 ≠ 1 := by rw [h1]; decide
  unfold ReadString
  simp only []
  rw [if_pos hne]
  exact ⟨rfl, h2, h3⟩

/-- With fewer than four bytes left and `symSize > 0`, every iteration of the
record loop reads nothing and leaves `symSize` as it is. -/
theorem moduleInfoLoop_running (swap : Bool) (charSize : Nat) :
    ∀ (fuel : Nat) (symSize : Int) (l : BinLoader) (calls : List (Option (List Nat) × Nat × Nat)),
      0 < symSize → l.data.length < l.pos + 4 →
      moduleInfoLoop swap charSize fuel symSize l calls = ModuleInfoResult.running := by
  intro fuel
  induction fuel with
  | zero =>
    intro symSize l calls hpos _
    rw [moduleInfoLoop, if_pos hpos]
  | succ fuel ih =>
    intro symSize l calls hpos hl
    rw [moduleInfoLoop, if_pos hpos]
    have hrs : ∀ cs, (ReadString 1024 cs l swap 35).1 = 0 ∧
        (ReadString 1024 cs l swap 35).2.2.data.length
          < (ReadString 1024 cs l swap 35).2.2.pos + 4 := by
      intro cs
      obtain ⟨h1, h2, h3⟩ := readString_short 1024 cs l swap 35 hl
      exact ⟨h1, by rw [h2]; omega⟩
    have hrs1 : (if charSize = 2 then ReadString 1024 2 l swap 35
        else ReadString 1024 1 l swap 35).1 = 0 ∧
        (if charSize = 2 then ReadString 1024 2 l swap 35
          else ReadString 1024 1 l swap 35).2.2.data.length
          < (if charSize = 2 then ReadString 1024 2 l swap 35
            else ReadString 1024 1 l swap 35).2.2.pos + 4 := by
      split
      · exact hrs 2
      · exact hrs 1
    generalize (if charSize = 2 then ReadString 1024 2 l swap 35
        else ReadString 1024 1 l swap 35) = rs at hrs1
    obtain ⟨hrs0, hrsl⟩ := hrs1
    simp only []
    rw [hrs0, if_neg (by decide)]
    obtain ⟨ha1, ha2, ha3⟩ := readVar_short rs.2.2 8 (by decide) (by omega)
    obtain ⟨hb1, hb2, hb3⟩ := readVar_short (rs.2.2.readVar 8).2.2 8 (by decide) (by rw [ha2]; omega)
    rw [ha1, hb1]
    exact ih _ _ _ (by simpa using hpos) (by rw [hb2, ha2]; omega)

/-- A complete module section of one record (the path `ab`, base `0x1000`,
size `0x20`) is read in one iteration and `loadModuleInfo` returns `true`. -/
theorem loadModuleInfo_complete_section :
    loadModuleInfo false 2
      ⟨[23, 0, 0, 0, 1, 2, 0, 0, 0, 66, 65, 0, 16, 0, 0, 0, 0, 0, 0, 32, 0, 0, 0, 0, 0, 0, 0], 0⟩
      = ModuleInfoResult.returned true [(some [97, 98], 4096, 32)]
          ⟨[23, 0, 0, 0, 1, 2, 0, 0, 0, 66, 65, 0, 16, 0, 0, 0, 0, 0, 0, 32, 0, 0, 0, 0, 0, 0, 0],
            27⟩ := by
  decide

/-- Claim C36, refuted: on a stream that holds the size of the module
section, at least 2, and the character size, and then ends or has fewer than
four bytes left, the record loop of `loadModuleInfo` never ends: `ReadString`
returns 0, which is not `sizeof(uint32_t)`, both `readVar` calls return 0,
`bytesRead` is 0 and `symSize -= bytesRead` leaves `symSize > 0`.  However
many iterations are granted, the loop is still running after them. -/
theorem loadModuleInfo_runs_forever_at_end_of_stream (swap : Bool) (sizeBytes rest : List Nat)
    (charSize : Nat) (hlen : sizeBytes.length = 4) (hsize : 2 ≤ decodeVar swap sizeBytes)
    (hrest : rest.length < 4) :
    ∀ fuel, loadModuleInfo swap fuel ⟨sizeBytes ++ ([charSize] ++ rest), 0⟩
      = ModuleInfoResult.running := by
  intro fuel
  have h1 := readVar_split (sizeBytes ++ ([charSize] ++ rest)) [] sizeBytes ([charSize] ++ rest)
    rfl 0 4 rfl hlen.symm
  have h2 := readVar_split (sizeBytes ++ ([charSize] ++ rest)) sizeBytes [charSize] rest
    rfl (0 + 4) 1 (by rw [hlen]) rfl
  have hne : ¬ ((decodeVar swap sizeBytes : Nat) : Int) = 0 := by omega
  unfold loadModuleInfo
  simp only [h1, h2, ne_eq, not_true_eq_false, if_false, hne]
  exact moduleInfoLoop_running swap _ fuel _ _ _ (by omega)
    (by simp only [List.length_append, List.length_singleton]; omega)

/-- Claim C36 at the little-endian stream `100, 0, 0, 0, 1`: a module section
announced as 100 bytes of one-byte characters, and the end of the stream. -/
theorem loadModuleInfo_runs_forever_at_end_of_stream_witness :
    ([100, 0, 0, 0].length = 4 ∧ 2 ≤ decodeVar false [100, 0, 0, 0] ∧ ([] : List Nat).length < 4) ∧
    ∀ fuel, loadModuleInfo false fuel ⟨[100, 0, 0, 0] ++ ([1] ++ []), 0⟩
      = ModuleInfoResult.running :=
  ⟨by decide, loadModuleInfo_runs_forever_at_end_of_stream false [100, 0, 0, 0] [] 1
    (by decide) (by decide) (by decide)⟩

theorem groupAt_counted {ctor : MemoryOperationGroup} {groups : List (Nat × MemoryOperationGroup)}
    (hc : GroupCounted ctor) (hg : ∀ e ∈ groups, GroupCounted e.2) (k : Nat) :
    GroupCounted (groupAt ctor groups k) := by
  unfold groupAt
  cases h : groups.lookup k with
  | none => exact hc
  | some g =>
    simp only []
    have hmem : (k, g) ∈ groups := by
      clear hg
      induction groups with
      | nil => simp at h
      | cons e rest ih =>
        obtain ⟨k1, g1⟩ := e
        rw [List.lookup_cons] at h
        by_cases hk : k = k1
        · subst hk
          simp only [beq_self_eq_true] at h
          cases h
          exact List.mem_cons_self _ _
        · have hb : (k == k1) = false := by simpa using hk
          simp only [hb] at h
          exact List.mem_cons_of_mem _ (ih h)
    exact hg _ hmem

theorem setGroup_counted {groups : List (Nat × MemoryOperationGroup)}
    (hg : ∀ e ∈ groups, GroupCounted e.2) (k : Nat) {g : MemoryOperationGroup}
    (h : GroupCounted g) : ∀ e ∈ setGroup groups k g, GroupCounted e.2 := by
  unfold setGroup
  cases groups.lookup k with
  | none =>
    simp only []
    intro e he
    rcases List.mem_append.mp he with he | he
    · exact hg e he
    · rw [List.mem_singleton] at he
      subst he
      exact h
  | some g0 =>
    simp only []
    intro e he
    obtain ⟨e0, he0, rfl⟩ := List.mem_map.mp he
    split
    · exact h
    · exact hg e0 he0

theorem u32_succ (c n : Nat) (h : c = u32 n) : u32 (c + 1) = u32 (n + 1) := by
  subst h
  unfold u32
  omega

theorem releaseFromGroup_counted {ctor : MemoryOperationGroup}
    {groups : List (Nat × MemoryOperationGroup)} (hc : GroupCounted ctor)
    (hg : ∀ e ∈ groups, GroupCounted e.2) (prevOp : MemoryOperation) :
    ∀ e ∈ releaseFromGroup ctor groups prevOp, GroupCounted e.2 := by
  exact setGroup_counted hg _ (groupAt_counted hc hg prevOp.m_stackTrace)

theorem allocIntoGroup_counted {ctor : MemoryOperationGroup}
    {groups : List (Nat × MemoryOperationGroup)} (hc : GroupCounted ctor)
    (hg : ∀ e ∈ groups, GroupCounted e.2) (p : Nat) (op : MemoryOperation) (lb ls : Nat) :
    ∀ e ∈ allocIntoGroup ctor groups p op lb ls, GroupCounted e.2 := by
  have h := groupAt_counted hc hg op.m_stackTrace
  refine setGroup_counted hg _ ?_
  unfold GroupCounted at h ⊢
  simp only [List.length_append, List.length_singleton]
  exact u32_succ _ _ h

theorem freeIntoGroup_counted {ctor : MemoryOperationGroup}
    {groups : List (Nat × MemoryOperationGroup)} (hc : GroupCounted ctor)
    (hg : ∀ e ∈ groups, GroupCounted e.2) (p : Nat) (op : MemoryOperation) :
    ∀ e ∈ freeIntoGroup ctor groups p op, GroupCounted e.2 := by
  have h := groupAt_counted hc hg op.m_stackTrace
  refine setGroup_counted hg _ ?_
  unfold GroupCounted at h ⊢
  simp only [List.length_append, List.length_singleton]
  exact u32_succ _ _ h

/-- Every call of `addToMemoryGroups` keeps `m_count` equal to the number of
stored operations, in every group. -/
theorem addToMemoryGroups_counted {ctor : MemoryOperationGroup} (isIn : MemoryOperation → Bool)
    (pool : List MemoryOperation) {groups groups1 : List (Nat × MemoryOperationGroup)}
    (hc : GroupCounted ctor) (hg : ∀ e ∈ groups, GroupCounted e.2) (p lb ls : Nat)
    (h : addToMemoryGroups ctor isIn pool groups p lb ls = some groups1) :
    ∀ e ∈ groups1, GroupCounted e.2 := by
  unfold addToMemoryGroups at h
  cases hp : pool[p]? with
  | none => simp [hp] at h
  | some op =>
    have hrel : ∀ prevOp : MemoryOperation,
        ∀ e ∈ (if isIn prevOp then releaseFromGroup ctor groups prevOp else groups),
          GroupCounted e.2 := by
      intro prevOp
      split
      · exact releaseFromGroup_counted hc hg prevOp
      · exact hg
    simp only [hp] at h
    split at h
    · cases h; exact allocIntoGroup_counted hc hg _ _ _ _
    · cases h; exact allocIntoGroup_counted hc hg _ _ _ _
    · cases h; exact allocIntoGroup_counted hc hg _ _ _ _
    · cases hprev : op.m_chainPrev with
      | none => simp [hprev] at h
      | some j =>
        cases hj : pool[j]? with
        | none => simp [hprev, hj] at h
        | some prevOp =>
          simp only [hprev, hj, Option.some.injEq] at h
          subst h
          exact freeIntoGroup_counted hc (hrel prevOp) _ _
    all_goals
      cases hprev : op.m_chainPrev with
      | none =>
        simp only [hprev, Option.some.injEq] at h
        subst h
        exact allocIntoGroup_counted hc hg _ _ _ _
      | some j =>
        cases hj : pool[j]? with
        | none => simp [hprev, hj] at h
        | some prevOp =>
          simp only [hprev, hj, Option.some.injEq] at h
          subst h
          exact allocIntoGroup_counted hc (hrel prevOp) _ _ _ _

/-- The part of the group invariant that holds after every aggregation
pass: in every group `m_count` is the number of stored operations. -/
theorem operationGroups_counted {ctor : MemoryOperationGroup} (isIn : MemoryOperation → Bool)
    (c : Capture) (leaks : List Nat) {groups : List (Nat × MemoryOperationGroup)}
    {leaks1 : List Nat} (hc : GroupCounted ctor)
    (h : operationGroups ctor isIn c leaks = some (groups, leaks1)) :
    ∀ e ∈ groups, GroupCounted e.2 := by
  unfold operationGroups at h
  cases hs : buildAnalyzeData c leaks with
  | none => simp [hs] at h
  | some s =>
    simp only [hs] at h
    have hall : ∀ (args : List (Nat × Nat × Nat)) (g0 g1 : List (Nat × MemoryOperationGroup)),
        (∀ e ∈ g0, GroupCounted e.2) → addAllToMemoryGroups ctor isIn s.pool g0 args = some g1 →
        ∀ e ∈ g1, GroupCounted e.2 := by
      intro args
      induction args with
      | nil =>
        intro g0 g1 h0 h1
        rw [addAllToMemoryGroups] at h1
        cases h1
        exact h0
      | cons a rest ih =>
        intro g0 g1 h0 h1
        obtain ⟨p, lb, ls⟩ := a
        rw [addAllToMemoryGroups] at h1
        cases hstep : addToMemoryGroups ctor isIn s.pool g0 p lb ls with
        | none => simp [hstep] at h1
        | some g2 =>
          simp only [hstep] at h1
          exact ih g2 g1 (addToMemoryGroups_counted isIn s.pool hc h0 p lb ls hstep) h1
    cases hg : addAllToMemoryGroups ctor isIn s.pool [] s.groupArgs with
    | none => simp [hg] at h
    | some g1 =>
      simp only [hg, Option.some.injEq, Prod.mk.injEq] at h
      obtain ⟨rfl, -⟩ := h
      exact hall _ _ _ (fun e he => by simp at he) hg

/-- Claim C38, refuted: for the stream `Alloc(0xA, size 32)`,
`Realloc(0xA to 0xB, size 64)`, `Realloc(0xB to 0xC, size 0)`, all with the
same stack trace, the global aggregation pass (filtering disabled) leaves one
group holding the three operations with `m_count = 3`, `m_liveSize = 0` and
`m_peakSize = 64`, and with `m_liveCount = 1`, while the leak list is empty:
the realloc case of `addToMemoryGroups` executes `m_liveCount++` for the
realloc to size 0, which `isLeaked` counts as a release. -/
theorem group_live_count_counts_zero_size_realloc :
    (sortAndLink reallocToZero 18446744073709551615).1 = true ∧
    (sortAndLink reallocToZero 18446744073709551615).2.pool.map isLeaked
      = [true, true, false] ∧
    operationGroups emptyGroup (isInFilter (fun _ => 0) [] clearedFilter)
      (sortAndLink reallocToZero 18446744073709551615).2 []
      = some ([(0, { m_operations := [0, 1, 2], m_minSize := 0, m_maxSize := 64, m_liveSize := 0,
                     m_peakSize := 64, m_peakSizeGlobal := 64, m_count := 3, m_liveCount := 1,
                     m_liveCountPeak := 1, m_liveCountPeakGlobal := 1 })], []) := by
  decide

theorem traceListWalk_step (traces : List LinkedStackTrace) (depth t : Nat)
    (tr : LinkedStackTrace) (nx : Option Nat) (htr : traces[t]? = some tr)
    (hnext : tr.m_next[depth]? = some nx) :
    ∀ fuel, traceListWalk traces depth (fuel + 1) (some t)
      = t :: traceListWalk traces depth fuel nx := by
  intro fuel
  rw [traceListWalk, htr]
  simp only []
  rw [hnext]

/-- Claim C40, refuted: two allocations from the stack traces 0 and 1 at the
times 10 and 20 load with the Global tree threading both stack traces through
the list of its root, in the order 1, 0.  With the window `[20, 20]` the
rebuild of the Filtered tree adds the stack trace 1 alone, and `addToTree`
writes `m_next[0]` of that stack trace, the one link array both trees use, to
the empty list of the Filtered root: the nodes of the Global tree are not
written, but the list of the Global root now holds the stack trace 1 only. -/
theorem filtered_rebuild_changes_global_lists :
    ∃ (globalNodes : List StackTraceTree) (traces : List LinkedStackTrace)
      (filteredNodes : List StackTraceTree) (traces1 : List LinkedStackTrace),
      globalTreeLoop emptyNode (isInFilter (fun _ => 0) [] clearedFilter)
        (sortAndLink twoCallSites 18446744073709551615).2.pool
        (sortAndLink twoCallSites 18446744073709551615).2.m_operations [emptyNode] oneFrameTraces
        = some (globalNodes, traces) ∧
      ((sortAndLink twoCallSites 18446744073709551615).2.m_minTime = 10 ∧
        (sortAndLink twoCallSites 18446744073709551615).2.m_maxTime = 20 ∧
        calculateGlobalStatsTimed (sortAndLink twoCallSites 18446744073709551615).2.pool
          = some [⟨10, 0⟩, ⟨20, 1⟩]) ∧
      calculateFilteredTree emptyNode (fun _ => 0) lastInstant
        (sortAndLink twoCallSites 18446744073709551615).2 [⟨10, 0⟩, ⟨20, 1⟩] [emptyNode] traces
        = some (filteredNodes, traces1) ∧
      (∀ fuel, tracesThrough globalNodes traces 0 (fuel + 2) = [1, 0]) ∧
      (∀ fuel, tracesThrough globalNodes traces1 0 (fuel + 2) = [1]) := by
  have h1 : (globalTreeLoop emptyNode (isInFilter (fun _ => 0) [] clearedFilter)
      (sortAndLink twoCallSites 18446744073709551615).2.pool
      (sortAndLink twoCallSites 18446744073709551615).2.m_operations [emptyNode]
      oneFrameTraces).map
      (fun r => (r.1.map (fun n => (n.m_depth, n.m_stackTraceList)),
        r.2.map (fun t => t.m_next))) =
      some ([(0, some 1), (1, some 0), (1, some 1)], [[none, none], [some 0, none]]) := by
    decide
  have h2 : ((globalTreeLoop emptyNode (isInFilter (fun _ => 0) [] clearedFilter)
      (sortAndLink twoCallSites 18446744073709551615).2.pool
      (sortAndLink twoCallSites 18446744073709551615).2.m_operations [emptyNode]
      oneFrameTraces).bind
      (fun r => calculateFilteredTree emptyNode (fun _ => 0) lastInstant
        (sortAndLink twoCallSites 18446744073709551615).2 [⟨10, 0⟩, ⟨20, 1⟩] [emptyNode] r.2)).map
      (fun r => r.2.map (fun t => t.m_next)) = some [[none, none], [none, none]] := by
    decide
  cases ha : globalTreeLoop emptyNode (isInFilter (fun _ => 0) [] clearedFilter)
      (sortAndLink twoCallSites 18446744073709551615).2.pool
      (sortAndLink twoCallSites 18446744073709551615).2.m_operations [emptyNode]
      oneFrameTraces with
  | none => rw [ha] at h1; cases h1
  | some r1 =>
    rw [ha] at h1 h2
    simp only [Option.some_bind] at h2
    cases hb : calculateFilteredTree emptyNode (fun _ => 0) lastInstant
        (sortAndLink twoCallSites 18446744073709551615).2 [⟨10, 0⟩, ⟨20, 1⟩] [emptyNode] r1.2 with
    | none => rw [hb] at h2; cases h2
    | some r2 =>
      rw [hb] at h2
      simp only [Option.map_some', Option.some.injEq, Prod.mk.injEq] at h1 h2
      have hg := tracesThrough_of_map r1.1 r1.2 _ _ h1.1 h1.2 0 0
      have hf := tracesThrough_of_map r1.1 r2.2 _ _ h1.1 h2 0 0
      obtain ⟨ta, hta, hna⟩ := (hg 0 (some 1) rfl).2 0 _ rfl
      obtain ⟨tb, htb, hnb⟩ := (hg 0 (some 1) rfl).2 1 _ rfl
      obtain ⟨tc, htc, hnc⟩ := (hf 0 (some 1) rfl).2 1 _ rfl
      refine ⟨r1.1, r1.2, r2.1, r2.2, rfl, by decide, hb, ?_, ?_⟩
      · intro fuel
        rw [(hg (fuel + 2) (some 1) rfl).1,
          traceListWalk_step _ _ _ tb (some 0) htb (by rw [hnb]; rfl),
          traceListWalk_last _ _ _ ta hta (by rw [hna]; rfl)]
      · intro fuel
        rw [(hf (fuel + 2) (some 1) rfl).1]
        exact traceListWalk_last _ _ _ tc htc (by rw [hnc]; rfl) (fuel + 1)

theorem findChild_none (nodes : List StackTraceTree) (id : Nat) :
    ∀ (cs : List Nat) (i : Nat), findChild nodes id cs i = none →
      ∀ c ∈ cs, (nodes[c]?).map (fun nd => nd.m_addressID) ≠ some id := by
  intro cs
  induction cs with
  | nil => intro i _ c hc; simp at hc
  | cons a rest ih =>
    intro i h c hc
    unfold findChild at h
    cases ha : nodes[a]? with
    | none =>
      rw [ha] at h
      rcases List.mem_cons.mp hc with hca | hca
      · rw [hca, ha]; simp
      · exact ih _ h c hca
    | some child =>
      rw [ha] at h
      simp only [] at h
      by_cases hid : child.m_addressID = id
      · rw [if_pos hid] at h; cases h
      · rw [if_neg hid] at h
        rcases List.mem_cons.mp hc with hca | hca
        · rw [hca, ha]
          simpa using hid
        · exact ih _ h c hca

theorem findChild_index (nodes : List StackTraceTree) (id : Nat) :
    ∀ (cs : List Nat) (i j c : Nat), findChild nodes id cs i = some (j, c) →
      i ≤ j ∧ cs[j - i]? = some c := by
  intro cs
  induction cs with
  | nil => intro i j c h; simp [findChild] at h
  | cons a rest ih =>
    intro i j c h
    unfold findChild at h
    have hrec : findChild nodes id rest (i + 1) = some (j, c) →
        i ≤ j ∧ (a :: rest)[j - i]? = some c := by
      intro h1
      obtain ⟨h2, h3⟩ := ih _ _ _ h1
      refine ⟨by omega, ?_⟩
      have e : j - i = (j - (i + 1)) + 1 := by omega
      rw [e, List.getElem?_cons_succ]
      exact h3
    cases ha : nodes[a]? with
    | none =>
      rw [ha] at h
      exact hrec h
    | some child =>
      rw [ha] at h
      simp only [] at h
      by_cases hid : child.m_addressID = id
      · rw [if_pos hid] at h
        simp only [Option.some.injEq, Prod.mk.injEq] at h
        obtain ⟨rfl, rfl⟩ := h
        exact ⟨le_refl _, by simp⟩
      · rw [if_neg hid] at h
        exact hrec h

theorem findChild_extends {nodes nodes1 : List StackTraceTree} (hext : TreeExtends nodes nodes1)
    (id : Nat) :
    ∀ (cs extra : List Nat) (i : Nat) (r : Nat × Nat),
      (∀ c ∈ cs, ∃ nd, nodes[c]? = some nd) → findChild nodes id cs i = some r →
      findChild nodes1 id (cs ++ extra) i = some r := by
  intro cs
  induction cs with
  | nil => intro extra i r _ h; simp [findChild] at h
  | cons a rest ih =>
    intro extra i r hin h
    obtain ⟨nd, hnd⟩ := hin a (List.mem_cons_self _ _)
    obtain ⟨nd1, hnd1, hid1, -, -⟩ := hext.2 a nd hnd
    unfold findChild at h
    rw [hnd] at h
    simp only [] at h
    rw [List.cons_append, findChild, hnd1]
    simp only []
    rw [hid1]
    by_cases hid : nd.m_addressID = id
    · rw [if_pos hid] at h ⊢
      exact h
    · rw [if_neg hid] at h ⊢
      exact ih extra _ r (fun c hc => hin c (List.mem_cons_of_mem _ hc)) h

/-- Scratch slots that all hold the sentinel are consistent with every tree,
at every node. -/
theorem cacheOK_sentinel (nodes : List StackTraceTree) (entries : List Nat) (n off : Nat) :
    ∀ (f c : Nat),
      (∀ g, g < f → (∃ id, entries[g + n]? = some id) ∧
        entries[g + n * (off + 2)]? = some 18446744073709551615) →
      cacheOK nodes entries n off f c = true := by
  intro f
  induction f with
  | zero => intro c _; rfl
  | succ f ih =>
    intro c hent
    obtain ⟨⟨id, hid⟩, hs⟩ := hent f (by omega)
    unfold cacheOK
    rw [hid, hs]
    simp only [if_true]
    cases findChild nodes id (childrenAt nodes c) 0 with
    | none =>
      simp only [List.all_eq_true, List.mem_range, decide_eq_true_eq]
      intro g hg
      exact (hent g (by omega)).2
    | some r =>
      exact ih r.2 (fun g hg => hent g (by omega))

theorem childrenAt_extends {nodes nodes1 : List StackTraceTree} (hext : TreeExtends nodes nodes1)
    (k : Nat) : childrenAt nodes k <+: childrenAt nodes1 k := by
  unfold childrenAt
  cases hk : nodes[k]? with
  | none => exact List.nil_prefix
  | some nd =>
    obtain ⟨nd1, hnd1, -, -, hpre⟩ := hext.2 k nd hk
    rw [hnd1]
    exact hpre

theorem childrenAt_inRange {nodes : List StackTraceTree} (hwf : TreeWF nodes) (k : Nat) :
    ∀ c ∈ childrenAt nodes k, ∃ nd, nodes[c]? = some nd := by
  intro c hc
  unfold childrenAt at hc
  cases hk : nodes[k]? with
  | none => rw [hk] at hc; simp at hc
  | some nd =>
    rw [hk] at hc
    obtain ⟨-, cn, hcn, -⟩ := treeWF_get hwf hk hc
    exact ⟨cn, hcn⟩

/-- Scratch slots consistent with a tree stay consistent when the tree grows. -/
theorem cacheOK_extends {nodes nodes1 : List StackTraceTree} (hwf : TreeWF nodes)
    (hext : TreeExtends nodes nodes1) (entries : List Nat) (n off : Nat) :
    ∀ (f c : Nat), (∀ g, g < f → ∃ id, entries[g + n]? = some id) →
      cacheOK nodes entries n off f c = true → cacheOK nodes1 entries n off f c = true := by
  intro f
  induction f with
  | zero => intro c _ _; rfl
  | succ f ih =>
    intro c hids h
    obtain ⟨extra, hextra⟩ := childrenAt_extends hext c
    unfold cacheOK at h ⊢
    cases hid : entries[f + n]? with
    | none => rw [hid] at h; simp at h
    | some id =>
      rw [hid] at h
      simp only [] at h ⊢
      cases hidx : entries[f + n * (off + 2)]? with
      | none => rw [hidx] at h; simp at h
      | some idx =>
        rw [hidx] at h
        simp only [] at h ⊢
        by_cases hs : idx = 18446744073709551615
        · rw [if_pos hs] at h ⊢
          cases hfind : findChild nodes id (childrenAt nodes c) 0 with
          | some r =>
            rw [hfind] at h
            simp only [] at h
            rw [← hextra, findChild_extends hext id _ extra 0 r (childrenAt_inRange hwf c) hfind]
            exact ih r.2 (fun g hg => hids g (by omega)) h
          | none =>
            rw [hfind] at h
            simp only [List.all_eq_true, List.mem_range, decide_eq_true_eq] at h
            cases findChild nodes1 id (childrenAt nodes1 c) 0 with
            | none =>
              simp only [List.all_eq_true, List.mem_range, decide_eq_true_eq]
              exact h
            | some r =>
              exact cacheOK_sentinel nodes1 entries n off f r.2
                (fun g hg => ⟨hids g (by omega), h g hg⟩)
        · rw [if_neg hs] at h ⊢
          cases hget : (childrenAt nodes c)[u32 idx]? with
          | none => rw [hget] at h; simp at h
          | some ch =>
            rw [hget] at h
            simp only [Bool.and_eq_true, decide_eq_true_eq] at h
            have hget1 : (childrenAt nodes1 c)[u32 idx]? = some ch := by
              rw [← hextra, List.getElem?_append_left (List.getElem?_eq_some.mp hget).1]
              exact hget
            rw [hget1]
            simp only [Bool.and_eq_true, decide_eq_true_eq]
            refine ⟨?_, ih ch (fun g hg => hids g (by omega)) h.2⟩
            cases hn : nodes[ch]? with
            | none => rw [hn] at h; simp at h
            | some nd =>
              rw [hn] at h
              obtain ⟨nd1, hnd1, hid1, -, -⟩ := hext.2 ch nd hn
              rw [hnd1]
              simp only [Option.map_some', Option.some.injEq] at h ⊢
              rw [hid1]
              exact h.1

theorem uniqueChildIDs_sameShape {nodes nodes1 : List StackTraceTree} (h : SameShape nodes nodes1)
    (hu : UniqueChildIDs nodes) : UniqueChildIDs nodes1 := by
  intro k hk
  have h0 := hu k (by rw [← h.1]; exact hk)
  rw [(sameShape_get h k).2.1]
  have e : (childrenAt nodes k).map (fun c => (nodes1[c]?).map (fun nd => nd.m_addressID))
      = (childrenAt nodes k).map (fun c => (nodes[c]?).map (fun nd => nd.m_addressID)) :=
    List.map_congr_left (fun c _ => (sameShape_get h c).1)
  rw [e]
  exact h0

/-- A node of a well-formed tree without two children of the same symbol ID
has at most as many children as the tree has nodes. -/
theorem children_length_le {nodes : List StackTraceTree} (hwf : TreeWF nodes)
    (hu : UniqueChildIDs nodes) {k : Nat} {nd : StackTraceTree} (hk : nodes[k]? = some nd) :
    nd.m_children.length ≤ nodes.length := by
  have hklt := (List.getElem?_eq_some.mp hk).1
  have h0 := hu k hklt
  have hch : childrenAt nodes k = nd.m_children := by
    unfold childrenAt
    rw [hk]
  rw [hch] at h0
  have hnd : nd.m_children.Nodup := List.Nodup.of_map _ h0
  have hsub : nd.m_children ⊆ List.range nodes.length := by
    intro c hc
    obtain ⟨-, cn, hcn, -⟩ := treeWF_get hwf hk hc
    exact List.mem_range.mpr (List.getElem?_eq_some.mp hcn).1
  have := (hnd.subperm hsub).length_le
  rw [List.length_range] at this
  exact this

/-- Appending a new node as a child of `cur`, with a symbol ID no child of
`cur` has, keeps the symbol IDs of the children of every node distinct. -/
theorem uniqueChildIDs_append {nodes : List StackTraceTree} (hwf : TreeWF nodes)
    (hu : UniqueChildIDs nodes) {cur : Nat} {c newNode : StackTraceTree}
    (hc : nodes[cur]? = some c) (hnew : newNode.m_children = [])
    (hnone : ∀ c0 ∈ c.m_children,
      (nodes[c0]?).map (fun nd => nd.m_addressID) ≠ some newNode.m_addressID) :
    UniqueChildIDs
      (nodes.set cur { c with m_children := c.m_children ++ [nodes.length] } ++ [newNode]) := by
  have hcur : cur < nodes.length := (List.getElem?_eq_some.mp hc).1
  have hlast : (nodes.set cur { c with m_children := c.m_children ++ [nodes.length] }
      ++ [newNode])[nodes.length]? = some newNode := by
    rw [List.getElem?_append_right (by rw [List.length_set])]
    simp
  have hold : ∀ k, k < nodes.length →
      (nodes.set cur { c with m_children := c.m_children ++ [nodes.length] } ++ [newNode])[k]?
      = if k = cur then some { c with m_children := c.m_children ++ [nodes.length] }
        else nodes[k]? := by
    intro k hk
    rw [List.getElem?_append_left (by rw [List.length_set]; exact hk)]
    by_cases hkc : k = cur
    · rw [if_pos hkc, hkc]
      exact List.getElem?_set_eq_of_lt _ hcur
    · rw [if_neg hkc, List.getElem?_set_ne (Ne.symm hkc)]
  have hid : ∀ k, k < nodes.length →
      ((nodes.set cur { c with m_children := c.m_children ++ [nodes.length] }
        ++ [newNode])[k]?).map (fun nd => nd.m_addressID)
      = (nodes[k]?).map (fun nd => nd.m_addressID) := by
    intro k hk
    rw [hold k hk]
    by_cases hkc : k = cur
    · rw [if_pos hkc, hkc, hc]
      rfl
    · rw [if_neg hkc]
  have hmap : ∀ (k : Nat) (nd : StackTraceTree), nodes[k]? = some nd →
      nd.m_children.map (fun c0 =>
        ((nodes.set cur { c with m_children := c.m_children ++ [nodes.length] }
          ++ [newNode])[c0]?).map (fun nd => nd.m_addressID))
      = nd.m_children.map (fun c0 => (nodes[c0]?).map (fun nd => nd.m_addressID)) := by
    intro k nd hk
    apply List.map_congr_left
    intro c0 hc0
    obtain ⟨-, cn, hcn, -⟩ := treeWF_get hwf hk hc0
    exact hid c0 (List.getElem?_eq_some.mp hcn).1
  have hunique : ∀ (k : Nat) (nd : StackTraceTree), nodes[k]? = some nd →
      (nd.m_children.map (fun c0 => (nodes[c0]?).map (fun nd => nd.m_addressID))).Nodup := by
    intro k nd hk
    have := hu k (List.getElem?_eq_some.mp hk).1
    unfold childrenAt at this
    rw [hk] at this
    exact this
  intro k hk
  by_cases hkn : k < nodes.length
  · unfold childrenAt
    rw [hold k hkn]
    by_cases hkc : k = cur
    · rw [if_pos hkc]
      simp only [List.map_append, List.map_cons, List.map_nil]
      rw [hmap cur c hc, hlast]
      simp only [Option.map_some']
      rw [List.nodup_append]
      refine ⟨hunique cur c hc, List.nodup_singleton _, ?_⟩
      intro x hx hx1
      rw [List.mem_singleton] at hx1
      subst hx1
      obtain ⟨c0, hc0, he⟩ := List.mem_map.mp hx
      exact hnone c0 hc0 he
    · rw [if_neg hkc]
      have hnd : nodes[k]? = some nodes[k] := List.getElem?_eq_getElem hkn
      rw [hnd]
      simp only []
      rw [hmap k _ hnd]
      exact hunique k _ hnd
  · have hke : k = nodes.length := by
      simp only [List.length_append, List.length_set, List.length_singleton] at hk
      omega
    unfold childrenAt
    rw [hke, hlast]
    simp only [hnew, List.map_nil]
    exact List.nodup_nil

/-- What the choice of the child adds to `selectChild_spec`: the symbol IDs of
the children stay distinct, and the index stored in the scratch slot is not
the sentinel and is the position of the chosen child. -/
theorem selectChild_unique (ctor : StackTraceTree) (nodes nodesA : List StackTraceTree)
    (cur id idx depth ch idx1 : Nat) (c : StackTraceTree)
    (hwf : TreeWF nodes) (hu : UniqueChildIDs nodes) (hctor : ctor.m_children = [])
    (hc : nodes[cur]? = some c)
    (hsel : selectChild ctor nodes cur c depth id idx = some (nodesA, ch, idx1))
    (hbound : nodesA.length < 4294967296) :
    UniqueChildIDs nodesA ∧ idx1 ≠ 18446744073709551615 ∧
      (childrenAt nodesA cur)[u32 idx1]? = some ch := by
  have hchildren : childrenAt nodes cur = c.m_children := by
    unfold childrenAt
    rw [hc]
  unfold selectChild at hsel
  by_cases hs : idx = 18446744073709551615
  · rw [if_pos hs] at hsel
    cases hfind : findChild nodes id c.m_children 0 with
    | some r =>
      obtain ⟨i, c1⟩ := r
      rw [hfind] at hsel
      simp only [Option.some.injEq, Prod.mk.injEq] at hsel
      obtain ⟨rfl, rfl, rfl⟩ := hsel
      obtain ⟨-, hget⟩ := findChild_index nodes id _ _ _ _ hfind
      rw [Nat.sub_zero] at hget
      have hi : i < c.m_children.length := (List.getElem?_eq_some.mp hget).1
      have hle := children_length_le hwf hu hc
      refine ⟨hu, by omega, ?_⟩
      rw [hchildren, u32_of_lt (by omega)]
      exact hget
    | none =>
      rw [hfind] at hsel
      simp only [Option.some.injEq, Prod.mk.injEq] at hsel
      obtain ⟨rfl, rfl, rfl⟩ := hsel
      have hle := children_length_le hwf hu hc
      have hcur : cur < nodes.length := (List.getElem?_eq_some.mp hc).1
      simp only [List.length_append, List.length_set, List.length_singleton] at hbound
      refine ⟨?_, by omega, ?_⟩
      · exact uniqueChildIDs_append hwf hu hc hctor (findChild_none nodes id _ _ hfind)
      · unfold childrenAt
        rw [List.getElem?_append_left (by rw [List.length_set]; exact hcur),
          List.getElem?_set_eq_of_lt _ hcur]
        simp only []
        rw [u32_of_lt (by omega), List.getElem?_append_right (le_refl _)]
        simp
  · rw [if_neg hs] at hsel
    cases hget : c.m_children[u32 idx]? with
    | none => rw [hget] at hsel; cases hsel
    | some c1 =>
      rw [hget] at hsel
      simp only [Option.some.injEq, Prod.mk.injEq] at hsel
      obtain ⟨rfl, rfl, rfl⟩ := hsel
      refine ⟨hu, hs, ?_⟩
      rw [hchildren]
      exact hget

/-- One iteration of the loop of `addToTree`, with what it leaves of the
stack traces: only the stack trace of the call is written, and of it the
scratch slot of the frame, `m_next` and `m_addedToTree`. -/
theorem treeLoop_step_frame (ctor : StackTraceTree) (_trace n : Nat) (dSize dOverhead : Int)
    (off : Nat) (kind : TreeOpType) (f cur : Nat) (nodes nodesA : List StackTraceTree)
    (traces : List LinkedStackTrace) (tr : LinkedStackTrace) (id idx ch idx1 : Nat)
    (c chn : StackTraceTree)
    (htr : traces[_trace]? = some tr) (hid : tr.m_entries[f + n]? = some id)
    (hidx : tr.m_entries[f + n * (off + 2)]? = some idx) (hc : nodes[cur]? = some c)
    (hsel : selectChild ctor nodes cur c (n - f) id idx = some (nodesA, ch, idx1))
    (hch : nodesA[ch]? = some chn) (hadd : off < tr.m_addedToTree.length)
    (hnext : n < tr.m_next.length) :
    ∃ X tr2 traces2,
      treeLoop ctor _trace n dSize dOverhead off kind (f + 1) cur nodes traces =
        treeLoop ctor _trace n dSize dOverhead off kind f ch (nodesA.set ch X) traces2 ∧
      X.m_addressID = chn.m_addressID ∧ X.m_depth = chn.m_depth ∧
      X.m_children = chn.m_children ∧
      traces2[_trace]? = some tr2 ∧
      tr2.m_entries = tr.m_entries.set (f + n * (off + 2)) idx1 ∧
      tr2.m_next.length = tr.m_next.length ∧
      tr2.m_addedToTree.length = tr.m_addedToTree.length ∧
      tr2.m_numEntries = tr.m_numEntries ∧
      traces2.length = traces.length ∧
      (∀ t, t ≠ _trace → traces2[t]? = traces[t]?) := by
  have hlt : _trace < traces.length := (List.getElem?_eq_some.mp htr).1
  have hchlt : ch < nodesA.length := (List.getElem?_eq_some.mp hch).1
  have hadded : tr.m_addedToTree[off]? = some tr.m_addedToTree[off] :=
    List.getElem?_eq_getElem hadd
  rw [treeLoop]
  simp only [htr, hid, hidx, hc, hsel]
  unfold threadTrace
  rw [List.getElem?_set_eq_of_lt _ hlt]
  simp only [hch, hadded]
  by_cases hlow : tr.m_addedToTree[off] < n - f
  · rw [if_pos hlow, if_pos (by omega)]
    simp only []
    rw [List.getElem?_set_eq_of_lt _ hchlt]
    simp only [List.set_set]
    refine ⟨_, { tr with
        m_entries := tr.m_entries.set (f + n * (off + 2)) idx1,
        m_next := tr.m_next.set (n - f) chn.m_stackTraceList,
        m_addedToTree := tr.m_addedToTree.set off (n - f) }, _, rfl, rfl, rfl, rfl, ?_, rfl,
      ?_, ?_, rfl, ?_, ?_⟩
    · exact List.getElem?_set_eq_of_lt _ hlt
    · simp only [List.length_set]
    · simp only [List.length_set]
    · simp only [List.length_set]
    · intro t ht
      rw [List.getElem?_set_ne (Ne.symm ht)]
  · rw [if_neg hlow]
    simp only [hch]
    refine ⟨_, { tr with m_entries := tr.m_entries.set (f + n * (off + 2)) idx1 }, _, rfl, rfl,
      rfl, rfl, ?_, rfl, rfl, rfl, rfl, ?_, ?_⟩
    · exact List.getElem?_set_eq_of_lt _ hlt
    · simp only [List.length_set]
    · intro t ht
      rw [List.getElem?_set_ne (Ne.symm ht)]

/-- The loop of `addToTree` keeps the tree well formed and the symbol IDs of
the children of every node distinct, writes no other stack trace and, of the
stack trace of the call, only the scratch slots of the frames it walks, and
leaves these consistent with the tree. -/
theorem treeLoop_inv (ctor : StackTraceTree) (_trace n : Nat) (dSize dOverhead : Int)
    (off : Nat) (kind : TreeOpType) (hctor : ctor.m_children = []) :
    ∀ (f cur : Nat) (nodes : List StackTraceTree) (traces : List LinkedStackTrace)
      (tr : LinkedStackTrace) (nodes1 : List StackTraceTree) (traces1 : List LinkedStackTrace),
      f ≤ n → traces[_trace]? = some tr →
      (off + 3) * n ≤ tr.m_entries.length → n < tr.m_next.length →
      off < tr.m_addedToTree.length → TreeWF nodes → UniqueChildIDs nodes →
      depthAt nodes cur = some (n - f) →
      cacheOK nodes tr.m_entries n off f cur = true →
      treeLoop ctor _trace n dSize dOverhead off kind f cur nodes traces =
        some (nodes1, traces1) →
      nodes1.length < 4294967296 →
      TreeWF nodes1 ∧ TreeExtends nodes nodes1 ∧ UniqueChildIDs nodes1 ∧
      traces1.length = traces.length ∧ (∀ t, t ≠ _trace → traces1[t]? = traces[t]?) ∧
      ∃ tr1, traces1[_trace]? = some tr1 ∧ tr1.m_numEntries = tr.m_numEntries ∧
        tr1.m_entries.length = tr.m_entries.length ∧ tr1.m_next.length = tr.m_next.length ∧
        tr1.m_addedToTree.length = tr.m_addedToTree.length ∧
        (∀ j, (∀ g, g < f → j ≠ g + n * (off + 2)) → tr1.m_entries[j]? = tr.m_entries[j]?) ∧
        cacheOK nodes1 tr1.m_entries n off f cur = true := by
  intro f
  induction f with
  | zero =>
    intro cur nodes traces tr nodes1 traces1 _ htr _ _ _ hwf hu _ _ hrun _
    rw [treeLoop] at hrun
    simp only [Option.some.injEq, Prod.mk.injEq] at hrun
    obtain ⟨rfl, rfl⟩ := hrun
    exact ⟨hwf, treeExtends_refl _, hu, rfl, fun _ _ => rfl, tr, htr, rfl, rfl, rfl, rfl,
      fun _ _ => rfl, rfl⟩
  | succ f ih =>
    intro cur nodes traces tr nodes1 traces1 hfn htr hlen hnext hadd hwf hu hdepth hcache hrun
      hbound
    have hb : n ≤ n * (off + 2) := Nat.le_mul_of_pos_right n (by omega)
    have hb2 : n * 2 ≤ n * (off + 2) := Nat.mul_le_mul_left n (by omega)
    have h3 : (off + 3) * n = n * (off + 2) + n := by ring
    obtain ⟨c, hc, hcd⟩ : ∃ c, nodes[cur]? = some c ∧ c.m_depth = n - (f + 1) := by
      unfold depthAt at hdepth
      cases h : nodes[cur]? with
      | none => rw [h] at hdepth; cases hdepth
      | some c =>
        rw [h] at hdepth
        exact ⟨c, rfl, by simpa using hdepth⟩
    obtain ⟨idv, hid⟩ : ∃ idv, tr.m_entries[f + n]? = some idv :=
      ⟨_, List.getElem?_eq_getElem (by omega)⟩
    obtain ⟨idxv, hidx⟩ : ∃ idxv, tr.m_entries[f + n * (off + 2)]? = some idxv :=
      ⟨_, List.getElem?_eq_getElem (by omega)⟩
    obtain ⟨nodesA, ch, idx1, chn, hsel, hch, hchid, hchd, hlt, ⟨c1, hc1, hmem⟩, hwfA, hextA,
        -, -, -, hcacheA⟩ :=
      selectChild_spec ctor nodes tr.m_entries n off f cur _ _ (n - f) c hwf hctor hc hlen
        (by omega) hid hidx hcache (by omega)
    obtain ⟨X, tr2, traces2, hstep, hXid, hXd, hXc, htr2, hent2, hnext2, hadd2, hnum2, hlen2,
        hother2⟩ :=
      treeLoop_step_frame ctor _trace n dSize dOverhead off kind f cur nodes nodesA traces tr _ _
        ch idx1 c chn htr hid hidx hc hsel hch hadd hnext
    have hshape : SameShape nodesA (nodesA.set ch X) := sameShape_set hch hXid hXd hXc
    have hchlt : ch < nodesA.length := (List.getElem?_eq_some.mp hch).1
    have hXget : (nodesA.set ch X)[ch]? = some X := List.getElem?_set_eq_of_lt _ hchlt
    rw [hstep] at hrun
    -- the tree does not shrink, so the bound holds for the tree after the choice
    have hpre : TreeWF (nodesA.set ch X) ∧
        depthAt (nodesA.set ch X) ch = some (n - f) ∧
        cacheOK (nodesA.set ch X) tr2.m_entries n off f ch = true := by
      refine ⟨treeWF_sameShape hwfA hshape, ?_, ?_⟩
      · unfold depthAt
        rw [hXget]
        simp [hXd, hchd]
      · rw [hent2, cacheOK_congr hshape _ _ n off f ch (fun g _ => ⟨rfl, rfl⟩)]
        exact hcacheA
    obtain ⟨nodesB, tracesB, pathB, hrunB, hresB⟩ :=
      treeLoop_spec ctor _trace n dSize dOverhead off kind hctor f ch (nodesA.set ch X) traces2 tr2
        (by omega) htr2 (by rw [hent2, List.length_set]; exact hlen) (by rw [hnext2]; exact hnext)
        (by rw [hadd2]; exact hadd) hpre.1 hpre.2.1 hpre.2.2
    rw [hrun] at hrunB
    simp only [Option.some.injEq, Prod.mk.injEq] at hrunB
    obtain ⟨rfl, rfl⟩ := hrunB
    have hboundA : nodesA.length < 4294967296 := by
      have := hresB.ext.1
      rw [List.length_set] at this
      omega
    obtain ⟨huA, hsent, hgetA⟩ :=
      selectChild_unique ctor nodes nodesA cur _ _ (n - f) ch idx1 c hwf hu hctor hc hsel hboundA
    obtain ⟨hwf1, hext1, hu1, hlen1, hother1, tr1, htr1, hnum1, hentlen1, hnext1, hadd1,
        hframe1, hcache1⟩ :=
      ih ch (nodesA.set ch X) traces2 tr2 nodes1 traces1 (by omega) htr2
        (by rw [hent2, List.length_set]; exact hlen) (by rw [hnext2]; exact hnext)
        (by rw [hadd2]; exact hadd) hpre.1 (uniqueChildIDs_sameShape hshape huA) hpre.2.1
        hpre.2.2 hrun hbound
    have hextC : TreeExtends nodesA nodes1 :=
      treeExtends_trans (treeExtends_of_sameShape hshape) hext1
    refine ⟨hwf1, treeExtends_trans hextA hextC, hu1, by rw [hlen1, hlen2],
      fun t ht => by rw [hother1 t ht, hother2 t ht], tr1, htr1, by rw [hnum1, hnum2],
      by rw [hentlen1, hent2, List.length_set], by rw [hnext1, hnext2], by rw [hadd1, hadd2],
      ?_, ?_⟩
    · intro j hj
      rw [hframe1 j (fun g hg => hj g (by omega)), hent2,
        List.getElem?_set_ne (Ne.symm (hj f (by omega)))]
    · have hslotid : tr1.m_entries[f + n]? = some idv := by
        rw [hframe1 (f + n) (fun g hg => by omega), hent2, List.getElem?_set_ne (by omega)]
        exact hid
      have hslot : tr1.m_entries[f + n * (off + 2)]? = some idx1 := by
        rw [hframe1 (f + n * (off + 2)) (fun g hg => by omega), hent2]
        exact List.getElem?_set_eq_of_lt _ (by omega)
      obtain ⟨extra, hextra⟩ := childrenAt_extends hextC cur
      have hget1 : (childrenAt nodes1 cur)[u32 idx1]? = some ch := by
        rw [← hextra, List.getElem?_append_left (List.getElem?_eq_some.mp hgetA).1]
        exact hgetA
      obtain ⟨nd1, hnd1, hid1, -, -⟩ := hext1.2 ch X hXget
      have hidok : (nodes1[ch]?).map (fun nd => nd.m_addressID) = some idv := by
        rw [hnd1]
        simp only [Option.map_some', Option.some.injEq]
        rw [hid1, hXid, hchid]
      rw [cacheOK]
      simp only [hslotid, hslot, if_neg hsent, hget1, hidok, hcache1, decide_True, Bool.and_self]

theorem selectChild_length (ctor : StackTraceTree) (nodes nodesA : List StackTraceTree)
    (cur depth id idx ch idx1 : Nat) (c : StackTraceTree)
    (h : selectChild ctor nodes cur c depth id idx = some (nodesA, ch, idx1)) :
    nodes.length ≤ nodesA.length := by
  unfold selectChild at h
  split at h
  · split at h
    · simp only [Option.some.injEq, Prod.mk.injEq] at h
      rw [← h.1]
    · simp only [Option.some.injEq, Prod.mk.injEq] at h
      rw [← h.1]
      simp
  · split at h
    · simp only [Option.some.injEq, Prod.mk.injEq] at h
      rw [← h.1]
    · cases h

theorem threadTrace_length (nodes nodes2 : List StackTraceTree)
    (traces traces2 : List LinkedStackTrace) (t cur depth off : Nat)
    (h : threadTrace nodes traces t cur depth off = some (nodes2, traces2)) :
    nodes2.length = nodes.length := by
  unfold threadTrace at h
  split at h
  · cases h
  · split at h
    · cases h
    · split at h
      · cases h
      · split at h
        · split at h
          · simp only [Option.some.injEq, Prod.mk.injEq] at h
            rw [← h.1, List.length_set]
          · cases h
        · simp only [Option.some.injEq, Prod.mk.injEq] at h
          rw [← h.1]

/-- The loop of `addToTree` never removes a node. -/
theorem treeLoop_length_le (ctor : StackTraceTree) (_trace n : Nat) (dSize dOverhead : Int)
    (off : Nat) (kind : TreeOpType) :
    ∀ (f cur : Nat) (nodes : List StackTraceTree) (traces : List LinkedStackTrace)
      (nodes1 : List StackTraceTree) (traces1 : List LinkedStackTrace),
      treeLoop ctor _trace n dSize dOverhead off kind f cur nodes traces =
        some (nodes1, traces1) → nodes.length ≤ nodes1.length := by
  intro f
  induction f with
  | zero =>
    intro cur nodes traces nodes1 traces1 h
    rw [treeLoop] at h
    simp only [Option.some.injEq, Prod.mk.injEq] at h
    rw [h.1]
  | succ f ih =>
    intro cur nodes traces nodes1 traces1 h
    rw [treeLoop] at h
    cases h1 : traces[_trace]? with
    | none => simp [h1] at h
    | some tr =>
      simp only [h1] at h
      cases h2 : tr.m_entries[f + n]? with
      | none => simp [h2] at h
      | some id =>
        simp only [h2] at h
        cases h3 : tr.m_entries[f + n * (off + 2)]? with
        | none => simp [h3] at h
        | some idx =>
          simp only [h3] at h
          cases h4 : nodes[cur]? with
          | none => simp [h4] at h
          | some c =>
            simp only [h4] at h
            cases h5 : selectChild ctor nodes cur c (n - f) id idx with
            | none => simp [h5] at h
            | some r =>
              obtain ⟨nodesA, ch, idx1⟩ := r
              simp only [h5] at h
              cases h6 : threadTrace nodesA
                  (traces.set _trace
                    { tr with m_entries := tr.m_entries.set (f + n * (off + 2)) idx1 })
                  _trace ch (n - f) off with
              | none => simp [h6] at h
              | some r2 =>
                obtain ⟨nodes2, traces2⟩ := r2
                simp only [h6] at h
                cases h7 : nodes2[ch]? with
                | none => simp [h7] at h
                | some nd =>
                  simp only [h7] at h
                  have e1 := selectChild_length _ _ _ _ _ _ _ _ _ _ h5
                  have e2 := threadTrace_length _ _ _ _ _ _ _ _ h6
                  have e3 := ih _ _ _ _ _ h
                  rw [List.length_set] at e3
                  omega

theorem addToTree_length_le (ctor : StackTraceTree) (nodes nodes1 : List StackTraceTree)
    (traces traces1 : List LinkedStackTrace) (_root t : Nat) (dSize dOverhead : Int) (off : Nat)
    (kind : TreeOpType)
    (h : addToTree ctor nodes traces _root t dSize dOverhead off kind = some (nodes1, traces1)) :
    nodes.length ≤ nodes1.length := by
  unfold addToTree at h
  cases h1 : traces[t]? with
  | none => simp [h1] at h
  | some tr =>
    simp only [h1] at h
    cases h2 : nodes[_root]? with
    | none => simp [h2] at h
    | some root =>
      simp only [h2] at h
      split at h
      · have := treeLoop_length_le _ _ _ _ _ _ _ _ _ _ _ _ _ h
        rw [List.length_set] at this
        exact this
      · cases h

theorem addAllToTree_length_le (ctor : StackTraceTree) (off : Nat) :
    ∀ (calls : List (Nat × Int × Int × TreeOpType)) (nodes nodes1 : List StackTraceTree)
      (traces traces1 : List LinkedStackTrace),
      addAllToTree ctor off calls nodes traces = some (nodes1, traces1) →
      nodes.length ≤ nodes1.length := by
  intro calls
  induction calls with
  | nil =>
    intro nodes nodes1 traces traces1 h
    rw [addAllToTree] at h
    simp only [Option.some.injEq, Prod.mk.injEq] at h
    rw [h.1]
  | cons a rest ih =>
    intro nodes nodes1 traces traces1 h
    obtain ⟨t, s, o, k⟩ := a
    rw [addAllToTree] at h
    cases hstep : addToTree ctor nodes traces 0 t s o off k with
    | none => simp [hstep] at h
    | some r =>
      obtain ⟨nodesM, tracesM⟩ := r
      simp only [hstep] at h
      exact le_trans (addToTree_length_le _ _ _ _ _ _ _ _ _ _ _ hstep) (ih _ _ _ _ h)

/-- A call of `addToTree` on the tree with root 0 keeps the state `TreeInv`,
as long as the tree has fewer than `2^32` nodes. -/
theorem addToTree_inv (ctor : StackTraceTree) (off : Nat) (hctor : ctor.m_children = [])
    (nodes nodes1 : List StackTraceTree) (traces traces1 : List LinkedStackTrace) (t : Nat)
    (dSize dOverhead : Int) (kind : TreeOpType) (hinv : TreeInv off nodes traces)
    (h : addToTree ctor nodes traces 0 t dSize dOverhead off kind = some (nodes1, traces1))
    (hbound : nodes1.length < 4294967296) : TreeInv off nodes1 traces1 := by
  unfold addToTree at h
  cases htr : traces[t]? with
  | none => simp [htr] at h
  | some tr =>
    simp only [htr] at h
    cases hroot : nodes[0]? with
    | none => simp [hroot] at h
    | some root =>
      simp only [hroot] at h
      by_cases hnx : 0 < tr.m_next.length
      · rw [if_pos hnx] at h
        obtain ⟨hlen, hnext, hadd, hcache⟩ := hinv.ready t tr htr
        have htlt : t < traces.length := (List.getElem?_eq_some.mp htr).1
        have hshape : SameShape nodes (nodes.set 0
            { addUsage dSize dOverhead kind root with m_stackTraceList := some t }) :=
          sameShape_set hroot rfl rfl rfl
        have hwfR := treeWF_sameShape hinv.wf hshape
        have hdepthR : depthAt (nodes.set 0
            { addUsage dSize dOverhead kind root with m_stackTraceList := some t }) 0
            = some (tr.m_numEntries - tr.m_numEntries) := by
          rw [(sameShape_get hshape 0).2.2, hinv.root, Nat.sub_self]
        obtain ⟨hwf1, hext1, hu1, -, hother1, tr1, htr1, hnum1, hentlen1, hnext1, hadd1, -,
            hcache1⟩ :=
          treeLoop_inv ctor t tr.m_numEntries dSize dOverhead off kind hctor tr.m_numEntries 0 _ _
            { tr with m_next := tr.m_next.set 0 (addUsage dSize dOverhead kind root).m_stackTraceList }
            nodes1 traces1 (le_refl _) (List.getElem?_set_eq_of_lt _ htlt) hlen
            (by simp only [List.length_set]; exact hnext) hadd hwfR
            (uniqueChildIDs_sameShape hshape hinv.unique) hdepthR
            (by
              rw [cacheOK_congr hshape _ _ _ off _ 0 (fun g _ => ⟨rfl, rfl⟩)]
              exact hcache)
            h hbound
        simp only [List.length_set] at hnext1
        refine ⟨hwf1, ?_, hu1, ?_⟩
        · have hR0 : (nodes.set 0
              { addUsage dSize dOverhead kind root with m_stackTraceList := some t })[0]?
              = some { addUsage dSize dOverhead kind root with m_stackTraceList := some t } :=
            List.getElem?_set_eq_of_lt _ (List.getElem?_eq_some.mp hroot).1
          obtain ⟨nd1, hnd1, -, hd1, -⟩ := hext1.2 0 _ hR0
          have hd0 : root.m_depth = 0 := by
            have := hinv.root
            unfold depthAt at this
            rw [hroot] at this
            simpa using this
          unfold depthAt
          rw [hnd1]
          simp only [Option.map_some', Option.some.injEq]
          rw [hd1]
          exact hd0
        · intro t2 tr2 ht2
          by_cases ht : t2 = t
          · subst ht
            rw [htr1] at ht2
            cases ht2
            rw [hnum1]
            exact ⟨by rw [hentlen1]; exact hlen, by rw [hnext1]; exact hnext,
              by rw [hadd1]; exact hadd, hcache1⟩
          · rw [hother1 t2 ht, List.getElem?_set_ne (Ne.symm ht)] at ht2
            obtain ⟨hlen2, hnext2, hadd2, hcache2⟩ := hinv.ready t2 tr2 ht2
            refine ⟨hlen2, hnext2, hadd2, ?_⟩
            apply cacheOK_extends hwfR hext1
            · intro g hg
              have h3 : (off + 3) * tr2.m_numEntries
                  = tr2.m_numEntries * (off + 2) + tr2.m_numEntries := by ring
              have hb : tr2.m_numEntries ≤ tr2.m_numEntries * (off + 2) :=
                Nat.le_mul_of_pos_right _ (by omega)
              exact ⟨_, List.getElem?_eq_getElem (by omega)⟩
            · rw [cacheOK_congr hshape _ _ _ off _ 0 (fun g _ => ⟨rfl, rfl⟩)]
              exact hcache2
      · rw [if_neg hnx] at h
        cases h

theorem addAllToTree_inv (ctor : StackTraceTree) (off : Nat) (hctor : ctor.m_children = []) :
    ∀ (calls : List (Nat × Int × Int × TreeOpType)) (nodes nodes1 : List StackTraceTree)
      (traces traces1 : List LinkedStackTrace), TreeInv off nodes traces →
      addAllToTree ctor off calls nodes traces = some (nodes1, traces1) →
      nodes1.length < 4294967296 → TreeInv off nodes1 traces1 := by
  intro calls
  induction calls with
  | nil =>
    intro nodes nodes1 traces traces1 hinv h _
    rw [addAllToTree] at h
    simp only [Option.some.injEq, Prod.mk.injEq] at h
    rw [← h.1, ← h.2]
    exact hinv
  | cons a rest ih =>
    intro nodes nodes1 traces traces1 hinv h hbound
    obtain ⟨t, s, o, k⟩ := a
    rw [addAllToTree] at h
    cases hstep : addToTree ctor nodes traces 0 t s o off k with
    | none => simp [hstep] at h
    | some r =>
      obtain ⟨nodesM, tracesM⟩ := r
      simp only [hstep] at h
      have hle := addAllToTree_length_le ctor off rest _ _ _ _ h
      exact ih _ _ _ _ (addToTree_inv ctor off hctor _ _ _ _ t s o k hinv hstep (by omega)) h
        hbound

/-- An empty root and stack traces with sentinel scratch slots are a state
that the calls of `addToTree` keep. -/
theorem treeInv_initial (root : StackTraceTree) (traces : List LinkedStackTrace) (off : Nat)
    (hroot : root.m_children = [] ∧ root.m_depth = 0)
    (hfresh : ∀ tr ∈ traces, FreshScratch tr off) : TreeInv off [root] traces := by
  have hch : ∀ k, childrenAt [root] k = [] := by
    intro k
    unfold childrenAt
    cases k with
    | zero => exact hroot.1
    | succ k => rfl
  refine ⟨?_, ?_, ?_, ?_⟩
  · intro k _ c hc
    rw [hch k] at hc
    simp at hc
  · unfold depthAt
    simp [hroot.2]
  · intro k _
    rw [hch k]
    exact List.nodup_nil
  · intro t tr htr
    obtain ⟨hlen, hnext, hadd, hs⟩ := hfresh tr (List.mem_iff_getElem?.mpr ⟨t, htr⟩)
    refine ⟨hlen, hnext, hadd, ?_⟩
    apply cacheOK_fresh _ _ _ _ _ _ (hch 0)
    intro g hg
    have h3 : (off + 3) * tr.m_numEntries = tr.m_numEntries * (off + 2) + tr.m_numEntries := by
      ring
    have hb : tr.m_numEntries ≤ tr.m_numEntries * (off + 2) :=
      Nat.le_mul_of_pos_right _ (by omega)
    exact ⟨⟨_, List.getElem?_eq_getElem (by omega)⟩, hs g hg⟩

/-- Claim C39: start from a root without children (the node 0, of depth 0)
and stack traces whose scratch slots of the scope hold the sentinel, and make
any calls of `addToTree` for that scope that return.  If the tree they leave
has fewer than `2^32` nodes (the cached index is read through a cast to
`unsigned int`), then no node of it has two children with the same symbol ID,
and every stack trace is ready for the next call: walking its frames from the
root, each scratch slot met is the sentinel or the position of a child whose
symbol ID is that of the frame. -/
theorem tree_children_unique_and_cache_exact (ctor root : StackTraceTree)
    (traces0 : List LinkedStackTrace) (_offset : Nat)
    (calls : List (Nat × Int × Int × TreeOpType)) (nodes : List StackTraceTree)
    (traces : List LinkedStackTrace) (hctor : ctor.m_children = [])
    (hroot : root.m_children = [] ∧ root.m_depth = 0)
    (hfresh : ∀ tr ∈ traces0, FreshScratch tr _offset)
    (hrun : addAllToTree ctor _offset calls [root] traces0 = some (nodes, traces))
    (hsize : nodes.length < 4294967296) :
    UniqueChildIDs nodes ∧ ∀ tr ∈ traces, AddReady ctor nodes tr 0 _offset := by
  have hinv := addAllToTree_inv ctor _offset hctor calls _ _ _ _
    (treeInv_initial root traces0 _offset hroot hfresh) hrun hsize
  refine ⟨hinv.unique, ?_⟩
  intro tr htr
  obtain ⟨t, ht⟩ := List.mem_iff_getElem?.mp htr
  obtain ⟨hlen, hnext, hadd, hcache⟩ := hinv.ready t tr ht
  exact ⟨hinv.wf, hctor, hinv.root, hlen, hnext, hadd, hcache⟩

/-- Claim C39 at the empty tree and the two stack traces of `exampleTraces`,
after `+100` for the frames 12, 11, `+50` for the frames 12, 13 and `-100`
for the frames 12, 11: the tree has four nodes. -/
theorem tree_children_unique_and_cache_exact_witness :
    (emptyNode.m_children = [] ∧ (emptyNode.m_children = [] ∧ emptyNode.m_depth = 0) ∧
      ∀ tr ∈ exampleTraces, FreshScratch tr 0) ∧
    ∃ (nodes : List StackTraceTree) (traces : List LinkedStackTrace),
      addAllToTree emptyNode 0
        [(0, 100, 8, TreeOpType.Alloc), (1, 50, 0, TreeOpType.Alloc), (0, -100, -8, TreeOpType.Free)]
        [emptyNode] exampleTraces = some (nodes, traces) ∧
      nodes.length = 4 ∧
      UniqueChildIDs nodes ∧ ∀ tr ∈ traces, AddReady emptyNode nodes tr 0 0 := by
  have hlen : (addAllToTree emptyNode 0
      [(0, 100, 8, TreeOpType.Alloc), (1, 50, 0, TreeOpType.Alloc), (0, -100, -8, TreeOpType.Free)]
      [emptyNode] exampleTraces).map (fun r => r.1.length) = some 4 := by decide
  cases h : addAllToTree emptyNode 0
      [(0, 100, 8, TreeOpType.Alloc), (1, 50, 0, TreeOpType.Alloc), (0, -100, -8, TreeOpType.Free)]
      [emptyNode] exampleTraces with
  | none => rw [h] at hlen; cases hlen
  | some r =>
    rw [h] at hlen
    simp only [Option.map_some', Option.some.injEq] at hlen
    exact ⟨by decide, r.1, r.2, rfl, hlen,
      tree_children_unique_and_cache_exact emptyNode emptyNode exampleTraces 0 _ r.1 r.2 rfl
        (by decide) (by decide) h (by omega)⟩

end MTuner
